import Mathlib

/-!
# Chromatic-number search: a shallow embedding

The C sources (`graph.c`, `heuristics.c`, `bounds.c`, `coloring.c`,
`dynamic_programming.c`, `bruteforce.c`) are embedded as pure functions over an
explicit program state.

Modelling conventions
* A `struct Vertex*` is an address: the position of the record in `State.heap`.
  Records are never freed in the embedded functions.
* The array `vertices` handed to every function is `State.vertices`, a list of
  addresses; the global `VERTICES` is the length of that list.
* `int` values are `Int`; `uint64_t` values are `Nat` kept below `2 ^ 64`.
* A `struct ListElem*` list is the `List` of the addresses it holds, head first.
* The `double` counters `nbRecolorings`, `nbConflicts` and `DECAY_FACTOR` are
  idealised as rationals.
* `qsort` is a stable insertion sort driven by the C comparator.
* NULL-terminated work arrays (`coloredVertices`, `changedVertices`,
  `secondarySet`, `setU`, `setV`) are the list of their non-NULL entries.
* Recursion depth is bounded by an explicit `fuel`; `none` means the bound was hit.
-/

namespace GraphColoring

/-! ## graph.c : data model -/

/-- The record `struct Vertex`. -/
structure Vertex where
  number : Int
  degree : Int
  color : Int
  availableColors : Nat
  adjacentVertices : List Nat
  neighbors : List Nat
  nbRecolorings : ℚ
  nbConflicts : ℚ
deriving DecidableEq

/-- The enum `search` of heuristics.c. -/
inductive search where
  | KCOLORING | BINARY | GREEDY | GREBIN | EXHAUSTIVE
deriving DecidableEq

/-- The enum `selection` of heuristics.c. -/
inductive selection where
  | VERTEX | DEGREE | IDO | DSATUR | RECOLOR | CONFLICT
deriving DecidableEq

/-- The enum `bounds` of bounds.c. -/
inductive bounds where
  | NO | BROOKS | RLF | WP
deriving DecidableEq

/-- The process state: the vertex records, the array `vertices`, and the global scalars. -/
structure State where
  heap : List Vertex
  vertices : List Nat
  MAX_DEGREE : Int
  MAX_COLOR : Int
  VERTEX_COUNTER : Int
  MAX_USED : Int
  CHROMATIC : Int
  SORTING_COUNTER : Int
  SEARCH : search
  CS : Bool
  SORTING : selection
  SORTING_RATE : Int
  DECAY_FACTOR : ℚ
  BOUNDS : bounds
deriving DecidableEq

/-- The record read through an invalid address (never happens in a well-formed state). -/
def nullVertex : Vertex :=
  { number := 0, degree := 0, color := -1, availableColors := 0,
    adjacentVertices := [], neighbors := [], nbRecolorings := 0, nbConflicts := 0 }

/-- Read `*p`. -/
def deref (heap : List Vertex) (p : Nat) : Vertex := heap.getD p nullVertex

/-- Write through `p` after applying `f` to the record. -/
def modify (s : State) (p : Nat) (f : Vertex → Vertex) : State :=
  { s with heap := s.heap.set p (f (deref s.heap p)) }

/-- The global `VERTICES`. -/
def VERTICES (s : State) : Int := s.vertices.length

/-- The value `(uint64_t)1 << c`. C leaves the shift undefined for `c` outside `[0, 63]`;
the embedding takes the mathematical shift reduced modulo `2 ^ 64` there. -/
def bit64 (c : Int) : Nat := (1 <<< c.toNat) % 2 ^ 64

/-- The function `setVertexColor`. -/
def setVertexColor (s : State) (p : Nat) (color : Int) : State :=
  modify s p (fun v => { v with color := color, nbRecolorings := v.nbRecolorings + 1 })

/-- The function `setAvailableColors`: also sets `MAX_COLOR` through `setMaxColor`. -/
def setAvailableColors (s : State) (maxColor : Int) : State :=
  let MAX_COLOR := maxColor - 1
  let availability : Nat :=
    if MAX_COLOR = 63 then 2 ^ 64 - 1 else (bit64 (MAX_COLOR + 1) + 2 ^ 64 - 1) % 2 ^ 64
  s.vertices.foldl (fun t p => modify t p (fun v => { v with availableColors := availability }))
    { s with MAX_COLOR := MAX_COLOR }

/-- The mask `~update` used by `updateAvailability`: the bits below `maxColor`. -/
def keepMask (maxColor : Int) : Nat := (bit64 maxColor + 2 ^ 64 - 1) % 2 ^ 64

/-- The function `updateVertexAvailability`. -/
def updateVertexAvailability (s : State) (p : Nat) (maxColor : Int) : State :=
  modify s p (fun v => { v with availableColors := v.availableColors &&& keepMask maxColor })

/-- The function `updateAvailability`. -/
def updateAvailability (s : State) (maxColor : Int) : State :=
  s.vertices.foldl (fun t p => updateVertexAvailability t p maxColor) s

/-- The function `hasColoredNeighbor`. -/
def hasColoredNeighbor (heap : List Vertex) (p : Nat) : Bool :=
  (deref heap p).adjacentVertices.any (fun q => decide ((deref heap q).color ≠ -1))

/-- The function `neighbors`: scans the adjacency list of `p1` for the address `p2`. -/
def neighbors (heap : List Vertex) (p1 p2 : Nat) : Bool :=
  (deref heap p1).adjacentVertices.any (fun q => decide (q = p2))

/-- The function `createVertex`, for `BIT_ARRAY_SIZE = (nbVertices + 63) / 64`. -/
def createVertex (nbVertices : Nat) (v : Int) : Vertex :=
  { number := v, degree := 0, color := -1, availableColors := 0, adjacentVertices := [],
    neighbors := List.replicate ((nbVertices + 63) / 64) 0, nbRecolorings := 0, nbConflicts := 0 }

/-- The statement `v1->neighbors[n/64] |= (uint64_t)1 << (n%64)`. -/
def setNeighborBit (words : List Nat) (n : Int) : List Nat :=
  words.set (n.toNat / 64) (words.getD (n.toNat / 64) 0 ||| bit64 ((n.toNat % 64 : Nat) : Int))

/-- The function `addEdgeSingle`: `v2` becomes a neighbor of `v1`. -/
def addEdgeSingle (heap : List Vertex) (v1 v2 : Nat) : List Vertex :=
  heap.set v1 { deref heap v1 with
    adjacentVertices := v2 :: (deref heap v1).adjacentVertices
    degree := (deref heap v1).degree + 1
    neighbors := setNeighborBit (deref heap v1).neighbors (deref heap v2).number }

/-- The function `addEdgeDouble`. -/
def addEdgeDouble (heap : List Vertex) (v1 v2 : Nat) : List Vertex :=
  let h1 := heap.set v2 { deref heap v2 with
    adjacentVertices := v1 :: (deref heap v2).adjacentVertices
    neighbors := setNeighborBit (deref heap v2).neighbors (deref heap v1).number
    degree := (deref heap v2).degree + 1 }
  h1.set v1 { deref h1 v1 with
    adjacentVertices := v2 :: (deref h1 v1).adjacentVertices
    neighbors := setNeighborBit (deref h1 v1).neighbors (deref h1 v2).number
    degree := (deref h1 v1).degree + 1 }

/-- The state the two `main` functions build before anything is configured: `nbVertices` fresh
records (`createVertex(v)` at address `v`), then the edge loop of `readFileCol` over the pairs
`(v1, v2)` (already decremented) with its update of `MAX_DEGREE`. The configuration globals
are passed in. -/
def loadGraph (nbVertices : Nat) (edges : List (Nat × Nat)) (SEARCH : search) (BOUNDS : bounds)
    (SORTING : selection) (SORTING_RATE : Int) (CS : Bool) (DECAY_FACTOR : ℚ) : State :=
  let init : State :=
    { heap := (List.range nbVertices).map (fun v => createVertex nbVertices (v : Int)),
      vertices := List.range nbVertices,
      MAX_DEGREE := 0, MAX_COLOR := 0, VERTEX_COUNTER := 0, MAX_USED := 0, CHROMATIC := 0,
      SORTING_COUNTER := 0, SEARCH := SEARCH, CS := CS, SORTING := SORTING,
      SORTING_RATE := SORTING_RATE, DECAY_FACTOR := DECAY_FACTOR, BOUNDS := BOUNDS }
  edges.foldl (fun t e =>
    let heap := addEdgeDouble t.heap e.1 e.2
    let v2degree := (deref heap e.2).degree
    let v1degree := (deref heap e.1).degree
    let m := if v2degree > t.MAX_DEGREE then v2degree else t.MAX_DEGREE
    { t with heap := heap, MAX_DEGREE := if v1degree > m then v1degree else m }) init

/-- The function `resetGraph`. -/
def resetGraph (s : State) : State :=
  s.vertices.foldl (fun t p => modify t p (fun v => { v with color := -1 })) s

/-! ## heuristics.c -/

/-- C library `qsort`, as a stable insertion sort: `insertSorted` puts `x` in front of the first
entry that does not have to precede it. -/
def insertSorted (cmp : Nat → Nat → Int) (x : Nat) : List Nat → List Nat
  | [] => [x]
  | y :: ys => if cmp x y ≤ 0 then x :: y :: ys else y :: insertSorted cmp x ys

/-- C library `qsort` over an array of vertex addresses. -/
def qsort (cmp : Nat → Nat → Int) : List Nat → List Nat
  | [] => []
  | x :: xs => insertSorted cmp x (qsort cmp xs)

/-- The builtin `__builtin_popcount`, which reads the low 32 bits of its argument. -/
def popcount32 (n : Nat) : Nat := ((List.range 32).filter (fun i => n.testBit i)).length

/-- The comparator `compareByVertexNumber`. -/
def compareByVertexNumber (heap : List Vertex) (a b : Nat) : Int :=
  (deref heap a).number - (deref heap b).number

/-- The comparator `compareByDegree`. -/
def compareByDegree (heap : List Vertex) (a b : Nat) : Int :=
  (deref heap b).degree - (deref heap a).degree

/-- The number of colored entries of an adjacency list (the counting loops of `compareByIDO`). -/
def nbColored (heap : List Vertex) (adj : List Nat) : Int :=
  ((adj.filter (fun q => decide ((deref heap q).color ≠ -1))).length : Int)

/-- The comparator `compareByIDO`. -/
def compareByIDO (heap : List Vertex) (a b : Nat) : Int :=
  nbColored heap (deref heap b).adjacentVertices - nbColored heap (deref heap a).adjacentVertices

/-- The comparator `compareBySaturationDegree`. -/
def compareBySaturationDegree (heap : List Vertex) (a b : Nat) : Int :=
  let nbAvailableColorsA := popcount32 (deref heap a).availableColors
  let nbAvailableColorsB := popcount32 (deref heap b).availableColors
  if nbAvailableColorsA < nbAvailableColorsB then -1
  else if nbAvailableColorsA = nbAvailableColorsB then
    if (deref heap a).degree > (deref heap b).degree then -1
    else if (deref heap a).degree = (deref heap b).degree then 0
    else 1
  else 1

/-- The comparator `compareByRecolorings`. -/
def compareByRecolorings (heap : List Vertex) (a b : Nat) : Int :=
  if (deref heap a).nbRecolorings > (deref heap b).nbRecolorings then -1
  else if (deref heap a).nbRecolorings = (deref heap b).nbRecolorings then 0
  else 1

/-- The comparator `compareByConflicts`. -/
def compareByConflicts (heap : List Vertex) (a b : Nat) : Int :=
  if (deref heap a).nbConflicts > (deref heap b).nbConflicts then -1
  else if (deref heap a).nbConflicts = (deref heap b).nbConflicts then 0
  else 1

/-- The scan `for (vi = i; vi < VERTICES; vi++) if (test(vertices[vi])) return vi; return -1`,
run over the entries from position `i` on. -/
def scanFrom (test : Nat → Bool) : List Nat → Nat → Int
  | [], _ => -1
  | p :: rest, i => if test p then (i : Int) else scanFrom test rest (i + 1)

/-- The function `selectNextVertexFF`. -/
def selectNextVertexFF (s : State) : Int :=
  let start := (s.VERTEX_COUNTER + 1).toNat
  scanFrom (fun p => decide ((deref s.heap p).color = -1)) (s.vertices.drop start) start

/-- The function `selectNextVertexCS`; the leading `while` moves `VERTEX_COUNTER` over the
colored entries that follow it. -/
def selectNextVertexCS (s : State) : Int × State :=
  let start := (s.VERTEX_COUNTER + 1).toNat
  let skipped := ((s.vertices.drop start).takeWhile
    (fun p => decide ((deref s.heap p).color ≠ -1))).length
  let s1 := { s with VERTEX_COUNTER := s.VERTEX_COUNTER + (skipped : Int) }
  let start1 := (s1.VERTEX_COUNTER + 1).toNat
  let vi := scanFrom (fun p => hasColoredNeighbor s1.heap p && decide ((deref s1.heap p).color = -1))
    (s1.vertices.drop start1) start1
  if vi ≠ -1 then (vi, s1) else (selectNextVertexFF s1, s1)

/-- The call `qsort(vertices + start, VERTICES - start, ...)`. -/
def sortFrom (s : State) (start : Nat) (cmp : List Vertex → Nat → Nat → Int) : State :=
  { s with vertices := s.vertices.take start ++ qsort (cmp s.heap) (s.vertices.drop start) }

/-- The function `selectNextVertex`. -/
def selectNextVertex (s : State) : Int × State :=
  let s1 :=
    if s.SORTING_RATE ≠ 0 ∧ Int.tmod s.SORTING_COUNTER s.SORTING_RATE = 0 then
      let start := (s.VERTEX_COUNTER + 1).toNat
      match s.SORTING with
      | selection.IDO => sortFrom s start compareByIDO
      | selection.DSATUR => sortFrom s start compareBySaturationDegree
      | selection.RECOLOR => sortFrom s start compareByRecolorings
      | selection.CONFLICT => sortFrom s start compareByConflicts
      | _ => s
    else s
  if s1.CS then selectNextVertexCS s1 else (selectNextVertexFF s1, s1)

/-- The integer part of `log2(x)` for `0 < x < 2 ^ fuel` (the C code only takes it of powers of
two, where the floating-point `log2` is exact). -/
def ilog2 : Nat → Nat → Nat
  | 0, _ => 0
  | fuel + 1, x => if x ≤ 1 then 0 else ilog2 fuel (x / 2) + 1

/-- The function `getFirstSetBitPos`: `(int)log2(n & -n) + 1`. For `n = 0` the C expression
converts minus infinity to `int`; the embedding takes `INT_MIN`, the value an x86 conversion
yields, so that the result is negative. -/
def getFirstSetBitPos (n : Nat) : Int :=
  if n = 0 then -2 ^ 31 + 1 else (ilog2 64 (n &&& (2 ^ 64 - n)) : Int) + 1

/-- The function `findColorFF`. -/
def findColorFF (s : State) (minColor : Int) (p : Nat) : Int :=
  let color := getFirstSetBitPos ((deref s.heap p).availableColors >>> minColor.toNat) + minColor - 1
  if s.SEARCH ≠ search.EXHAUSTIVE ∧ 0 ≤ color ∧ color ≤ s.MAX_USED + 1 ∧ color ≤ s.MAX_COLOR then color
  else if s.SEARCH = search.EXHAUSTIVE ∧ 0 ≤ color ∧ color ≤ s.MAX_USED + 1 ∧ color < s.CHROMATIC then color
  else -1

/-- The function `initialSorting`. -/
def initialSorting (s : State) : State :=
  match s.SORTING with
  | selection.VERTEX => sortFrom s 0 compareByVertexNumber
  | selection.DEGREE => sortFrom s 0 compareByDegree
  | selection.DSATUR => sortFrom s 0 compareByDegree
  | selection.IDO => sortFrom s 0 compareByDegree
  | selection.RECOLOR => sortFrom s 0 compareByRecolorings
  | selection.CONFLICT => sortFrom s 0 compareByConflicts

/-! ## coloring.c -/

/-- The three work arrays of one `colorGraph` frame. -/
structure ChangeLog where
  coloredVertices : List Nat
  changedVertices : List Nat
  vertexChanges : List Nat
deriving DecidableEq

/-- The change log after the initialising loop of `colorGraph` (and after `restore`). -/
def emptyLog : ChangeLog := { coloredVertices := [], changedVertices := [], vertexChanges := [] }

/-- The function `restore`. -/
def restore (s : State) (log : ChangeLog) : State × ChangeLog :=
  let s1 := log.coloredVertices.foldl (fun t p => modify t p (fun v => { v with color := -1 })) s
  let s2 := (log.changedVertices.zip log.vertexChanges).foldl
    (fun t pc =>
      let t1 := modify t pc.1 (fun v => { v with availableColors := (v.availableColors + pc.2) % 2 ^ 64 })
      if t1.SEARCH = search.EXHAUSTIVE then updateVertexAvailability t1 pc.1 t1.CHROMATIC else t1) s1
  (s2, emptyLog)

/-- The search of `removeNeighborColors` through `changedVertices`: adds `c` to the entry of
`p`, or appends a new entry. -/
def recordChange (p : Nat) (c : Nat) : List Nat → List Nat → List Nat × List Nat
  | q :: qs, d :: ds =>
    if q = p then (q :: qs, ((d + c) % 2 ^ 64) :: ds)
    else let r := recordChange p c qs ds
      (q :: r.1, d :: r.2)
  | _, _ => ([p], [c])

/-- The function `removeNeighborColors`. -/
def removeNeighborColors : List Nat → Int → State → ChangeLog → State × ChangeLog
  | [], _, s, log => (s, log)
  | nextVertex :: rest, color, s, log =>
    if (deref s.heap nextVertex).availableColors &&& bit64 color ≠ 0 then
      let s1 := modify s nextVertex
        (fun v => { v with availableColors := v.availableColors - bit64 color })
      let r := recordChange nextVertex (bit64 color) log.changedVertices log.vertexChanges
      removeNeighborColors rest color s1 { log with changedVertices := r.1, vertexChanges := r.2 }
    else removeNeighborColors rest color s log

/-- The builtin `__builtin_ctzll` on a non-zero argument. -/
def ctzll (n : Nat) : Int := ilog2 64 (n &&& (2 ^ 64 - n))

/-- The `while` loop of `persistColors`; `self` stands for the recursive call. -/
def persistLoop (self : List Nat → State → ChangeLog → Option (Int × State × ChangeLog)) :
    List Nat → State → ChangeLog → Option (Int × State × ChangeLog)
  | [], s, log => some (1, s, log)
  | nextNeighbor :: rest, s, log =>
    if (deref s.heap nextNeighbor).color = -1 then
      let neighborsAvailableColors := (deref s.heap nextNeighbor).availableColors
      if neighborsAvailableColors = 0 then
        some (-1, modify s nextNeighbor (fun v => { v with nbConflicts := v.nbConflicts + 1 }), log)
      else if neighborsAvailableColors &&& (neighborsAvailableColors - 1) = 0 then
        let color := ctzll neighborsAvailableColors
        let s1 := modify s nextNeighbor (fun v => { v with color := color })
        let s2 := if color > s1.MAX_USED then { s1 with MAX_USED := color } else s1
        let log1 := { log with coloredVertices := log.coloredVertices ++ [nextNeighbor] }
        let r := removeNeighborColors (deref s2.heap nextNeighbor).adjacentVertices color s2 log1
        match self (deref r.1.heap nextNeighbor).adjacentVertices r.1 r.2 with
        | none => none
        | some (res, s3, log3) =>
          if res = -1 then some (-1, s3, log3) else persistLoop self rest s3 log3
      else persistLoop self rest s log
    else persistLoop self rest s log

/-- The function `persistColors`; `fuel` bounds the depth of the recursion. -/
def persistColors : Nat → List Nat → State → ChangeLog → Option (Int × State × ChangeLog)
  | 0, _, _, _ => none
  | fuel + 1, neighbor, s, log => persistLoop (persistColors fuel) neighbor s log

/-- The decay loops at the head of `colorGraph`. -/
def decayCounters (s : State) : State :=
  match s.SORTING with
  | selection.RECOLOR =>
    s.vertices.foldl (fun t p => modify t p
      (fun v => { v with nbRecolorings := v.nbRecolorings * t.DECAY_FACTOR })) s
  | selection.CONFLICT =>
    s.vertices.foldl (fun t p => modify t p
      (fun v => { v with nbConflicts := v.nbConflicts * t.DECAY_FACTOR })) s
  | _ => s

/-- The `while (1)` loop of `colorGraph`; `self` stands for the recursive call, `fuel` is the
depth bound handed to `persistColors`, `n` bounds the number of iterations (each iteration takes
a larger color, so 65 are enough). -/
def colorLoop (self : State → Option (Int × State)) (fuel : Nat) (old_counter : Int)
    (nextVertex : Nat) (max_used_temp : Int) : Nat → Int → State → Option (Int × State)
  | 0, _, _ => none
  | n + 1, nextColor, s =>
    if s.SEARCH = search.EXHAUSTIVE ∧ s.MAX_USED ≥ s.CHROMATIC then some (1, s)
    else
      match s.vertices.get? nextVertex with
      | none => none
      | some p =>
        let nextColor1 := findColorFF s (nextColor + 1) p
        let s1 := setVertexColor s p nextColor1
        if nextColor1 = -1 then some (-1, { s1 with VERTEX_COUNTER := old_counter })
        else
          let s2 := if nextColor1 > s1.MAX_USED then { s1 with MAX_USED := nextColor1 } else s1
          let log0 := { emptyLog with coloredVertices := [p] }
          let r := removeNeighborColors (deref s2.heap p).adjacentVertices nextColor1 s2 log0
          match persistColors fuel (deref r.1.heap p).adjacentVertices r.1 r.2 with
          | none => none
          | some (res, s3, log3) =>
            let back := fun (t : State) =>
              colorLoop self fuel old_counter nextVertex max_used_temp n nextColor1
                (restore { t with MAX_USED := max_used_temp } log3).1
            if res = 1 then
              match self s3 with
              | none => none
              | some (res1, s4) =>
                if s3.SEARCH = search.EXHAUSTIVE then back s4
                else if res1 = 1 then some (1, s4)
                else back s4
            else back s3

/-- The function `colorGraph`; `fuel` bounds the depth of the recursion. -/
def colorGraph : Nat → State → Option (Int × State)
  | 0, _ => none
  | fuel + 1, s =>
    let old_counter := s.VERTEX_COUNTER
    let s1 := decayCounters s
    let s2 := { s1 with SORTING_COUNTER := s1.SORTING_COUNTER + 1 }
    let sel := selectNextVertex s2
    let nextVertex := sel.1
    let s3 := if ¬ sel.2.CS then { sel.2 with VERTEX_COUNTER := nextVertex } else sel.2
    if nextVertex = -1 then
      if s3.SEARCH = search.EXHAUSTIVE ∧ s3.MAX_USED < s3.CHROMATIC then
        some (1, updateAvailability { s3 with CHROMATIC := s3.MAX_USED } s3.MAX_USED)
      else some (1, s3)
    else colorLoop (colorGraph fuel) (fuel + 1) old_counter nextVertex.toNat s3.MAX_USED 65 (-1) s3

/-- The function `initializeCounters`. -/
def initializeCounters (s : State) : State :=
  { s with MAX_USED := -1, VERTEX_COUNTER := -1, SORTING_COUNTER := 0 }

/-! ## bounds.c -/

/-- The function `brooksUpperBound`. -/
def brooksUpperBound (s : State) : Int :=
  if Int.tmod (VERTICES s) 2 = 1 then
    let degree := (deref s.heap (s.vertices.getD 0 0)).degree
    if degree ≠ 2 ∧ degree ≠ VERTICES s - 1 then s.MAX_DEGREE
    else if (s.vertices.drop 1).all (fun p => decide ((deref s.heap p).degree = degree))
    then s.MAX_DEGREE + 1 else s.MAX_DEGREE
  else
    if s.vertices.all (fun p => decide ((deref s.heap p).degree = VERTICES s - 1))
    then s.MAX_DEGREE + 1 else s.MAX_DEGREE

/-- The function `createSetsUV`: returns `(setU, setV)`. -/
def createSetsUV (s : State) (primaryVertex : Nat) : List Nat × List Nat :=
  let others := s.vertices.filter (fun p => decide (p ≠ primaryVertex))
  (others.filter (fun p => decide ((deref s.heap p).color ≠ -1) || neighbors s.heap p primaryVertex),
   others.filter (fun p => !(decide ((deref s.heap p).color ≠ -1) || neighbors s.heap p primaryVertex)))

/-- The loop of `findSecondaryVertex` over `setV`, carrying `max` and `secondaryVertex`. -/
def findSecondaryLoop (heap : List Vertex) (setU : List Nat) : List Nat → Int → Nat → Nat
  | [], _, secondaryVertex => secondaryVertex
  | v :: rest, max, secondaryVertex =>
    let tempMax : Int := ((setU.filter (fun u => neighbors heap v u)).length : Int)
    if tempMax > max then findSecondaryLoop heap setU rest tempMax v
    else findSecondaryLoop heap setU rest max secondaryVertex

/-- The function `findSecondaryVertex` (the result is unspecified in C when `setV` is empty; the
embedding returns address 0 there). -/
def findSecondaryVertex (heap : List Vertex) (setU setV : List Nat) : Nat :=
  findSecondaryLoop heap setU setV (-1) 0

/-- The function `updateUV`: returns the new `(setU, setV)`. -/
def updateUV (heap : List Vertex) (setU setV : List Nat) (secondaryVertex : Nat) :
    List Nat × List Nat :=
  (setU ++ setV.filter (fun p => !(decide (p ≠ secondaryVertex) && !neighbors heap p secondaryVertex)),
   setV.filter (fun p => decide (p ≠ secondaryVertex) && !neighbors heap p secondaryVertex))

/-- The loop `while (SET_V_SIZE > 0)` of `upperBoundRLF`. -/
def rlfInner (activeColor : Int) : Nat → State → List Nat → List Nat → Option State
  | 0, _, _, _ => none
  | fuel + 1, s, setU, setV =>
    if setV.length > 0 then
      let secondaryVertex := findSecondaryVertex s.heap setU setV
      let s1 := setVertexColor s secondaryVertex activeColor
      let uv := updateUV s1.heap setU setV secondaryVertex
      rlfInner activeColor fuel s1 uv.1 uv.2
    else some s

/-- The loop `while (primaryVertexIndex != -1)` of `upperBoundRLF`. -/
def rlfOuter (inner : Nat) : Nat → State → Int → Int → Option (Int × State)
  | 0, _, _, _ => none
  | fuel + 1, s, primaryVertexIndex, activeColor =>
    if primaryVertexIndex ≠ -1 then
      let primaryVertex := s.vertices.getD primaryVertexIndex.toNat 0
      let s1 := setVertexColor s primaryVertex activeColor
      let uv := createSetsUV s1 primaryVertex
      match rlfInner activeColor inner s1 uv.1 uv.2 with
      | none => none
      | some s2 => rlfOuter inner fuel s2 (selectNextVertexFF s2) (activeColor + 1)
    else some (activeColor, s)

/-- The closing loop of `upperBoundRLF` and `upperBoundWP`. -/
def clearColoring (s : State) : State :=
  s.vertices.foldl (fun t p => modify t p
    (fun v => { v with color := -1, nbRecolorings := 0, nbConflicts := 0 })) s

/-- The function `upperBoundRLF`; `fuel` bounds the iterations of each of its loops. -/
def upperBoundRLF (fuel : Nat) (s : State) : Option (Int × State) :=
  let s1 := sortFrom s 0 compareByDegree
  match rlfOuter fuel fuel s1 (selectNextVertexFF s1) 0 with
  | none => none
  | some (activeColor, s2) => some (activeColor, clearColoring s2)

/-- The function `uncoloredVertices`: returns `secondarySet`. -/
def uncoloredVertices (s : State) : List Nat :=
  s.vertices.filter (fun p => decide ((deref s.heap p).color = -1))

/-- The function `removeNeighbors`: returns the new `secondarySet`. -/
def removeNeighbors (heap : List Vertex) (vertex : Nat) (secondarySet : List Nat) : List Nat :=
  secondarySet.filter (fun q => decide (vertex ≠ q) && !neighbors heap vertex q)

/-- The loop `while (secondaryVertex != NULL)` of `upperBoundWP`. -/
def wpInner (activeColor : Int) : Nat → State → List Nat → Option State
  | 0, _, _ => none
  | fuel + 1, s, secondarySet =>
    match secondarySet with
    | [] => some s
    | secondaryVertex :: _ =>
      let s1 := setVertexColor s secondaryVertex activeColor
      wpInner activeColor fuel s1 (removeNeighbors s1.heap secondaryVertex secondarySet)

/-- The loop `while (primaryVertexIndex != -1)` of `upperBoundWP`. -/
def wpOuter (inner : Nat) : Nat → State → Int → Int → Option (Int × State)
  | 0, _, _, _ => none
  | fuel + 1, s, primaryVertexIndex, activeColor =>
    if primaryVertexIndex ≠ -1 then
      let primaryVertex := s.vertices.getD primaryVertexIndex.toNat 0
      let s1 := setVertexColor s primaryVertex activeColor
      let secondarySet := removeNeighbors s1.heap primaryVertex (uncoloredVertices s1)
      match wpInner activeColor inner s1 secondarySet with
      | none => none
      | some s2 => wpOuter inner fuel s2 (selectNextVertexFF s2) (activeColor + 1)
    else some (activeColor, s)

/-- The function `upperBoundWP`; `fuel` bounds the iterations of each of its loops. -/
def upperBoundWP (fuel : Nat) (s : State) : Option (Int × State) :=
  let s1 := sortFrom s 0 compareByDegree
  match wpOuter fuel fuel s1 (selectNextVertexFF s1) 0 with
  | none => none
  | some (activeColor, s2) => some (activeColor, clearColoring s2)

/-- The function `getUpperBound`. -/
def getUpperBound (fuel : Nat) (s : State) : Option (Int × State) :=
  match s.BOUNDS with
  | bounds.BROOKS => some (brooksUpperBound s, s)
  | bounds.RLF => upperBoundRLF fuel s
  | bounds.WP => upperBoundWP fuel s
  | bounds.NO => some (64, s)

/-! ## coloring.c : the entry point -/

/-- The function `coloring`. -/
def coloring (fuel : Nat) (s : State) : Option (Int × State) :=
  let s0 := initializeCounters s
  if s0.SEARCH = search.EXHAUSTIVE then
    let s1 := initialSorting s0
    match getUpperBound fuel s1 with
    | none => none
    | some (bound, s2) =>
      let s3 := initializeCounters s2
      if s3.BOUNDS = bounds.BROOKS ∧ bound = s3.MAX_DEGREE + 1 then some (bound, s3)
      else
        let s4 :=
          if bound < 64 then setAvailableColors { s3 with CHROMATIC := bound - 1 } (bound - 1)
          else setAvailableColors { s3 with CHROMATIC := 127 } 64
        match colorGraph fuel s4 with
        | none => none
        | some (_, s5) => some (s5.CHROMATIC + 1, s5)
  else
    let s1 := initialSorting s0
    match colorGraph fuel s1 with
    | none => none
    | some (result, s2) => if result ≠ -1 then some (s2.MAX_USED + 1, s2) else some (result, s2)

/-! ## dynamic_programming.c

The `int` bit sets of the program are naturals below `2 ^ 31`; the two stack arrays
`chromaticTable` and `subsets` start with arbitrary contents, `junk` in every cell. -/

/-- The macro `difference(set1, set2)`: `set1 & ~set2` on 32-bit integers. -/
def difference (set1 set2 : Nat) : Nat := set1 &&& (2 ^ 32 - 1 - set2)

/-- The global `TABLE_SIZE` after `setTableSize`. -/
def TABLE_SIZE (s : State) : Nat := 1 <<< s.vertices.length

/-- The comparator `compareByPopCount`. -/
def compareByPopCount (int1 int2 : Nat) : Int := (popcount32 int1 : Int) - (popcount32 int2 : Int)

/-- The function `createTable`. -/
def createTable (s : State) : List Nat := qsort compareByPopCount (List.range (TABLE_SIZE s))

/-- The nested loops of `independentSet` over `subsetVertices`: no entry is a neighbor of a
later one. -/
def pairsIndependent (heap : List Vertex) : List Nat → Bool
  | [] => true
  | x :: rest => rest.all (fun y => !neighbors heap x y) && pairsIndependent heap rest

/-- The array `subsetVertices` of `independentSet`: the entries of `vertices` at the positions
of the set bits of `subset`, lowest first. -/
def subsetVertices (s : State) (subset : Nat) : List Nat :=
  ((List.range 32).filter (fun i => subset.testBit i)).map (fun i => s.vertices.getD i 0)

/-- The function `independentSet`. -/
def independentSet (s : State) (subset : Nat) : Bool :=
  if popcount32 subset < 2 then true else pairsIndependent s.heap (subsetVertices s subset)

/-- The function `isSubgraph`. -/
def isSubgraph (graph subgraph : Nat) : Bool := decide (difference subgraph graph = 0)

/-- The function `getSubsets`: returns the first `SUBSETS` cells of `subsets`. -/
def getSubsets (s : State) (subgraph : Nat) (subgraphTable : List Nat) : List Nat :=
  let subgraphSize := popcount32 subgraph
  let all := ((subgraphTable.drop 1).takeWhile (fun t => decide (popcount32 t ≤ subgraphSize))).filter
    (fun t => isSubgraph subgraph t)
  all.filter (fun t => independentSet s t)

/-- The inner `for` loop of `calculateChromaticTable` over the cells of `subsets`. -/
def minimumLoop (chromaticTable : List Int) (subgraph : Nat) (junk : Int) (subsets : List Nat)
    (minimum : Int) : Int :=
  subsets.foldl
    (fun minimum sub =>
      let tws := chromaticTable.getD (difference subgraph sub) junk
      if tws < minimum then tws else minimum) minimum

/-- One round of the outer `for` loop of `calculateChromaticTable`. -/
def tableStep (s : State) (subgraphTable : List Nat) (junk : Int) (chromaticTable : List Int)
    (subgraph : Nat) : List Int :=
  chromaticTable.set subgraph
    (1 + minimumLoop chromaticTable subgraph junk (getSubsets s subgraph subgraphTable) (VERTICES s))

/-- The function `calculateChromaticTable`: returns `chromaticTable`. -/
def calculateChromaticTable (s : State) (subgraphTable : List Nat) (junk : Int) : List Int :=
  (subgraphTable.drop 1).foldl (tableStep s subgraphTable junk)
    ((List.replicate (TABLE_SIZE s) junk).set 0 0)

/-- The function `dynamic`. -/
def dynamic (s : State) (junk : Int) : Int :=
  (calculateChromaticTable s (createTable s) junk).getD (TABLE_SIZE s - 1) junk


/-! ## graph.c : connected components -/

/-- The `while` loop of `checkConnectedVertices`; `self` stands for the recursive call. The array
`connectedVertices` is indexed by vertex number; an index outside the array (undefined in C)
reads 0 and writes nothing. -/
def checkConnectedLoop (heap : List Vertex)
    (self : List Nat → List Int → Option (List Int)) : List Nat → List Int → Option (List Int)
  | [], connectedVertices => some connectedVertices
  | connectedVertex :: rest, connectedVertices =>
    if connectedVertices.getD (deref heap connectedVertex).number.toNat 0 = 0 then
      let cv1 := connectedVertices.set (deref heap connectedVertex).number.toNat 1
      match self (deref heap connectedVertex).adjacentVertices cv1 with
      | none => none
      | some cv2 => checkConnectedLoop heap self rest cv2
    else checkConnectedLoop heap self rest connectedVertices

/-- The function `checkConnectedVertices`; `fuel` bounds the depth of the recursion. -/
def checkConnectedVertices (heap : List Vertex) : Nat → List Nat → List Int → Option (List Int)
  | 0, _, _ => none
  | fuel + 1, connectedNeighbor, connectedVertices =>
    checkConnectedLoop heap (checkConnectedVertices heap fuel) connectedNeighbor connectedVertices

/-- The closing loop of `subGraph`: the entries marked 1 go to `subGraph1`, the others to
`subGraph2`, and each is renumbered by its position in its array. The accumulator holds the heap
and the two arrays. -/
def splitComponents (connectedVertices : List Int) :
    List Nat → Nat → List Vertex × List Nat × List Nat → List Vertex × List Nat × List Nat
  | [], _, acc => acc
  | p :: rest, i, (heap, subGraph1, subGraph2) =>
    if connectedVertices.getD i 0 = 1 then
      splitComponents connectedVertices rest (i + 1)
        (heap.set p { deref heap p with number := (subGraph1.length : Int) },
          subGraph1 ++ [p], subGraph2)
    else
      splitComponents connectedVertices rest (i + 1)
        (heap.set p { deref heap p with number := (subGraph2.length : Int) },
          subGraph1, subGraph2 ++ [p])

/-- The function `subGraph`: returns the state (array sorted by number, vertices renumbered) and
the arrays `subGraph1` and `subGraph2`; `*subGraphSize` is the length of `subGraph1`. For an
empty array the C code writes `connectedVertices[0]` out of bounds; the embedding keeps that
entry. -/
def subGraph (fuel : Nat) (s : State) : Option (State × List Nat × List Nat) :=
  let s1 := sortFrom s 0 compareByVertexNumber
  let connectedVertices := (1 : Int) :: List.replicate (s1.vertices.length - 1) 0
  match checkConnectedVertices s1.heap fuel
      (deref s1.heap (s1.vertices.getD 0 0)).adjacentVertices connectedVertices with
  | none => none
  | some cv =>
    let r := splitComponents cv s1.vertices 0 (s1.heap, [], [])
    some ({ s1 with heap := r.1 }, r.2.1, r.2.2)

/-! ## search.c -/

/-- The constant `INIT_STARTING_INTERVAL`. -/
def INIT_STARTING_INTERVAL : Int := 64

/-- The loop of the GREEDY branch of `connectedSearch`: `none` in the first component is the
`return` taken when `upperBound` exceeds 64, `some upperBound` is the `break`. The first argument
bounds the number of iterations (`upperBound` runs from 1 to 65). -/
def greedyLoop (fuel : Nat) : Nat → Int → State → Option (Option Int × State)
  | 0, _, _ => none
  | n + 1, upperBound, s =>
    if upperBound > 64 then some (none, s)
    else
      let s1 := resetGraph s
      let s2 := setAvailableColors s1 upperBound
      let s3 := initialSorting s2
      match coloring fuel s3 with
      | none => none
      | some (r, s4) =>
        if r ≠ -1 then some (some upperBound, s4) else greedyLoop fuel n (upperBound + 1) s4

/-- The interval `(lowerBound, upperBound]` with which the BINARY branch of `connectedSearch`
starts, for the value `bound` of `getUpperBound`. -/
def binaryInterval (bound : Int) : Int × Int :=
  let STARTING_INTERVAL := if bound < INIT_STARTING_INTERVAL then bound else INIT_STARTING_INTERVAL
  let lowerBound := 0
  (lowerBound,
    if STARTING_INTERVAL < INIT_STARTING_INTERVAL then STARTING_INTERVAL else STARTING_INTERVAL * 2)

/-- The probing loop of the GREBIN branch of `connectedSearch`; returns `lowerBound` and
`upperBound` at the `break`. The first argument bounds the number of iterations. -/
def grebinLoop (fuel : Nat) (bound : Int) : Nat → Int → Int → State → Option (Int × Int × State)
  | 0, _, _, _ => none
  | n + 1, lowerBound, upperBound, s =>
    let s1 := resetGraph s
    let s2 := setAvailableColors s1 upperBound
    let s3 := initialSorting s2
    match coloring fuel s3 with
    | none => none
    | some (colorable, s4) =>
      if colorable ≠ -1 then
        some (lowerBound, if colorable < upperBound then colorable else upperBound, s4)
      else if upperBound * 2 < bound then grebinLoop fuel bound n upperBound (upperBound * 2) s4
      else some (upperBound, bound, s4)

/-- The bisection loop of `connectedSearch`; returns `lowerBound` and `upperBound` at the exit.
The first argument bounds the number of iterations. -/
def binaryLoop (fuel : Nat) : Nat → Int → Int → State → Option (Int × Int × State)
  | n, lowerBound, upperBound, s =>
    if upperBound > lowerBound + 1 then
      match n with
      | 0 => none
      | n + 1 =>
        let newK := Int.tdiv (lowerBound + upperBound) 2
        let s1 := resetGraph s
        let s2 := setAvailableColors s1 newK
        let s3 := initialSorting s2
        match coloring fuel s3 with
        | none => none
        | some (colorable, s4) =>
          if colorable ≠ -1 then
            binaryLoop fuel n lowerBound (if colorable < newK then colorable else newK) s4
          else binaryLoop fuel n newK upperBound s4
    else some (lowerBound, upperBound, s)

/-- The function `connectedSearch`, with the global `CHROMATIC_NUMBER` passed in and returned.
`freeVertices` is not modelled. In a mode other than GREEDY, BINARY and GREBIN the C code reads
`upperBound` uninitialised; the embedding gives no result there. -/
def connectedSearch (fuel : Nat) (s : State) (CHROMATIC_NUMBER : Int) : Option (Int × State) :=
  let s0 := initializeCounters s
  if s0.SEARCH = search.GREEDY then
    match greedyLoop fuel 66 1 s0 with
    | none => none
    | some (none, s1) => some (CHROMATIC_NUMBER, s1)
    | some (some upperBound, s1) =>
      some (if upperBound > CHROMATIC_NUMBER then upperBound else CHROMATIC_NUMBER, s1)
  else
    match getUpperBound fuel s0 with
    | none => none
    | some (bound, s1) =>
      let s2 := initializeCounters s1
      if s2.BOUNDS = bounds.BROOKS ∧ bound = s2.MAX_DEGREE + 1 then
        some (if bound > CHROMATIC_NUMBER then bound else CHROMATIC_NUMBER, s2)
      else
        let start : Option (Int × Int × State) :=
          if s2.SEARCH = search.BINARY then
            some ((binaryInterval bound).1, (binaryInterval bound).2, s2)
          else if s2.SEARCH = search.GREBIN then grebinLoop fuel bound 64 0 1 s2
          else none
        match start with
        | none => none
        | some (lowerBound, upperBound, s3) =>
          match binaryLoop fuel 130 lowerBound upperBound s3 with
          | none => none
          | some (_, upperBound1, s4) =>
            some (if upperBound1 > CHROMATIC_NUMBER then upperBound1 else CHROMATIC_NUMBER, s4)

/-- The function `disconnectedSearch`, with `CHROMATIC_NUMBER` passed in and returned; the first
argument bounds the depth of the recursion (one level per component). -/
def disconnectedSearch : Nat → Nat → State → Int → Option (Int × State)
  | 0, _, _, _ => none
  | d + 1, fuel, s, CHROMATIC_NUMBER =>
    match subGraph fuel s with
    | none => none
    | some (s1, subGraph1, subGraph2) =>
      if (subGraph1.length : Int) ≠ VERTICES s1 then
        let first : Option (Int × State) :=
          if (subGraph1.length : Int) ≤ CHROMATIC_NUMBER then some (CHROMATIC_NUMBER, s1)
          else connectedSearch fuel { s1 with vertices := subGraph1 } CHROMATIC_NUMBER
        match first with
        | none => none
        | some (cn, s2) => disconnectedSearch d fuel { s2 with vertices := subGraph2 } cn
      else connectedSearch fuel s1 CHROMATIC_NUMBER

/-- The function `search` (the name `search` is taken by the enum); `CONNECTED_GRAPH` is passed
in, the result is the final `CHROMATIC_NUMBER`. -/
def searchFunction (fuel : Nat) ( CONNECTED_GRAPH : Bool) (s : State) : Option (Int × State) :=
  if CONNECTED_GRAPH then connectedSearch fuel s (-1)
  else disconnectedSearch (s.vertices.length + 1) fuel s (-1)

/-! ## coloring.c : the start of the exhaustive run -/

/-- The assignments of `coloring` between the test of the Brooks bound and the call of
`colorGraph` in EXHAUSTIVE mode, for the value `bound` of `getUpperBound`. -/
def exhaustiveStart (s : State) (bound : Int) : State :=
  if bound < 64 then setAvailableColors { s with CHROMATIC := bound - 1 } (bound - 1)
  else setAvailableColors { s with CHROMATIC := 127 } 64

/-! ## graph.c : removal of isolated vertices -/

/-- The value `x << n` of a `uint64_t`. C leaves a shift by 64 or more undefined: there is no
result (`none`) then. -/
def shl64 (x n : Nat) : Option Nat := if n < 64 then some ((x <<< n) % 2 ^ 64) else none

/-- The value `x >> n` of a `uint64_t`, with no result where C leaves the shift undefined. -/
def shr64 (x n : Nat) : Option Nat := if n < 64 then some (x >>> n) else none

/-- The test `words[i/64] & ((uint64_t)1 << (i%64))`. -/
def wordBit (words : List Nat) (i : Nat) : Bool :=
  decide (words.getD (i / 64) 0 &&& bit64 ((i % 64 : Nat) : Int) ≠ 0)

/-- The expression `neighborsj << (64 - isolatedVertex%64) >> (64 - isolatedVertex%64)`,
guarded by `isolatedVertex%64 == 0 ? 0 : ...`. -/
def keepLowBits (neighborsj isolatedVertex : Nat) : Option Nat :=
  if isolatedVertex % 64 = 0 then some 0
  else
    match shl64 neighborsj (64 - isolatedVertex % 64) with
    | none => none
    | some x => shr64 x (64 - isolatedVertex % 64)

/-- The expression `neighborsj >> (isolatedVertex%64 + 1) << (isolatedVertex%64)`. -/
def dropBit (neighborsj isolatedVertex : Nat) : Option Nat :=
  match shr64 neighborsj (isolatedVertex % 64 + 1) with
  | none => none
  | some x => shl64 x (isolatedVertex % 64)

/-- The body of the inner loop of `removeIsolatedNeighbor` for the word `j`. -/
def removeIsolatedWord ( BIT_ARRAY_SIZE isolatedVertex : Nat) (neighbors : List Nat) (j : Nat) :
    Option (List Nat) :=
  let neighborsj := neighbors.getD j 0
  let w : Option Nat :=
    if j = isolatedVertex / 64 then
      match keepLowBits neighborsj isolatedVertex, dropBit neighborsj isolatedVertex with
      | some lo, some hi => some (lo ||| hi)
      | _, _ => none
    else shr64 neighborsj 1
  match w with
  | none => none
  | some w =>
    some (neighbors.set j
      (if j < BIT_ARRAY_SIZE - 1 ∧ neighbors.getD (j + 1) 0 % 2 = 1 then w ||| 2 ^ 63 else w))

/-- The inner loop of `removeIsolatedNeighbor` over the words `j` of one bitset. -/
def removeIsolatedWords ( BIT_ARRAY_SIZE isolatedVertex : Nat) :
    List Nat → List Nat → Option (List Nat)
  | [], neighbors => some neighbors
  | j :: js, neighbors =>
    match removeIsolatedWord BIT_ARRAY_SIZE isolatedVertex neighbors j with
    | none => none
    | some neighbors1 => removeIsolatedWords BIT_ARRAY_SIZE isolatedVertex js neighbors1

/-- The function `removeIsolatedNeighbor`; the array may hold NULL entries (`none`). -/
def removeIsolatedNeighbor ( BIT_ARRAY_SIZE : Nat) (isolatedVertex : Nat) :
    List (Option Nat) → List Vertex → Option (List Vertex)
  | [], heap => some heap
  | none :: rest, heap => removeIsolatedNeighbor BIT_ARRAY_SIZE isolatedVertex rest heap
  | some p :: rest, heap =>
    match removeIsolatedWords BIT_ARRAY_SIZE isolatedVertex
        (List.range' (isolatedVertex / 64) (BIT_ARRAY_SIZE - isolatedVertex / 64))
        (deref heap p).neighbors with
    | none => none
    | some words =>
      removeIsolatedNeighbor BIT_ARRAY_SIZE isolatedVertex rest
        (heap.set p { deref heap p with neighbors := words })

/-- The loop of `removeIsolatedVertices` from index `i` on, for `n` more entries; returns the
heap, the array and `counter`. An entry of the array that is still to be visited is never
NULL. -/
def removeIsolatedLoop ( BIT_ARRAY_SIZE : Nat) :
    Nat → Nat → Nat → List Vertex → List (Option Nat) →
      Option (List Vertex × List (Option Nat) × Nat)
  | 0, _, counter, heap, vertices => some (heap, vertices, counter)
  | n + 1, i, counter, heap, vertices =>
    match vertices.getD i none with
    | none => none
    | some p =>
      if (deref heap p).degree = 0 then
        match removeIsolatedNeighbor BIT_ARRAY_SIZE counter vertices heap with
        | none => none
        | some heap1 =>
          removeIsolatedLoop BIT_ARRAY_SIZE n (i + 1) counter heap1 (vertices.set i none)
      else
        let vertices1 :=
          if i > counter then (vertices.set counter (some p)).set i none else vertices
        let q := (vertices1.getD counter none).getD p
        let heap1 := heap.set q { deref heap q with number := (counter : Int) }
        removeIsolatedLoop BIT_ARRAY_SIZE n (i + 1) (counter + 1) heap1 vertices1

/-- The function `removeIsolatedVertices`: the array of the result holds the `counter` entries
that are left, `VERTICES` is its length (`setNbVertices(counter)`). `free` is not modelled.
There is no result when a shift of `removeIsolatedNeighbor` is undefined. -/
def removeIsolatedVertices (s : State) : Option State :=
  match removeIsolatedLoop ((s.vertices.length + 63) / 64) s.vertices.length 0 0 s.heap
      (s.vertices.map some) with
  | none => none
  | some r => some { s with heap := r.1, vertices := (r.2.1.take r.2.2).filterMap id }

/-- The part of `main` of bruteforce.c that follows `configurations()`, for vertex coloring
with SEARCH = EXHAUSTIVE: `removeIsolatedVertices(vertices)`, then `result = coloring(vertices)`.
The state `s` is the graph as read. -/
def mainExhaustive (fuel : Nat) (s : State) : Option (Int × State) :=
  match removeIsolatedVertices s with
  | none => none
  | some t => coloring fuel t

/-! ## low-k.c -/

/-- The function `createSubGraph`: `result[i]` is a fresh record at address `heap.length + i`;
the state returned holds the array `result` after `removeIsolatedVertices`. -/
def createSubGraph (s : State) (graph2 : List Nat) : Option State :=
  let n := s.vertices.length
  let base := s.heap.length
  let heap0 := s.heap ++ (List.range n).map (fun i => createVertex n (i : Int))
  let heap1 := (List.range (n - 1)).foldl (fun h i =>
    if wordBit graph2 i then h
    else (List.range' (i + 1) (n - (i + 1))).foldl (fun h1 j =>
      if wordBit graph2 j then h1
      else if wordBit (deref h1 (s.vertices.getD i 0)).neighbors j then
        addEdgeDouble h1 (base + i) (base + j)
      else h1) h) heap0
  removeIsolatedVertices { s with heap := heap1, vertices := (List.range n).map (fun i => base + i) }

/-- The function `findHighestDegree`. When no candidate has a positive degree the C code
returns an uninitialised value; the embedding returns 0 there. -/
def findHighestDegree (heap : List Vertex) (vertices : List (Option Nat)) (bitarray : List Nat)
    ( BIT_ARRAY_SIZE : Nat) : Nat :=
  ((List.range (BIT_ARRAY_SIZE * 64)).foldl (fun (acc : Int × Nat) vertexIndex =>
    if wordBit bitarray vertexIndex = true ∧
        (deref heap ((vertices.getD vertexIndex none).getD heap.length)).degree > acc.1 then
      ((deref heap ((vertices.getD vertexIndex none).getD heap.length)).degree, vertexIndex)
    else acc) (0, 0)).2

/-- The function `getKthSetBitPos` from the word with index `i` on. `__builtin_popcount` reads
the low 32 bits of each word. -/
def getKthSetBitPos : List Nat → Nat → Int → Int
  | [], _, _ => -1
  | w :: rest, i, k =>
    if (popcount32 w : Int) < k then getKthSetBitPos rest (i + 1) (k - (popcount32 w : Int))
    else
      let bitArray := (List.range (k - 1).toNat).foldl
        (fun b _ => b &&& (2 ^ 64 - 1 - (b &&& ((2 ^ 64 - b) % 2 ^ 64)))) w
      (if bitArray = 0 then -2 ^ 31 else (ilog2 64 (bitArray &&& (2 ^ 64 - bitArray)) : Int)) +
        64 * (i : Int)

/-- The sums `sizeP`, `sizeX` and `sizeR` of `bronKerbosch`. -/
def bitArraySize ( BIT_ARRAY_SIZE : Nat) (words : List Nat) : Nat :=
  ((words.take BIT_ARRAY_SIZE).map popcount32).sum

/-- The `while` loop of `bronKerbosch`; `self` stands for the recursive call, the first argument
bounds the number of iterations. -/
def bronKerboschLoop ( BIT_ARRAY_SIZE : Nat) (complement : List (Option Nat)) (pivot : Nat)
    (self : State → List Nat → List Nat → List Nat → Option (Int × State)) :
    Nat → State → List Nat → List Nat → List Nat → Int → Int → Option (Int × State)
  | 0, _, _, _, _, _, _ => none
  | n + 1, s, r, p, x, i, vertexIndex =>
    if vertexIndex ≠ -1 then
      let vi := vertexIndex.toNat
      let vertex := (complement.getD vi none).getD s.heap.length
      if ¬ (wordBit (deref s.heap pivot).neighbors vi = true) then
        let newR0 := (List.range BIT_ARRAY_SIZE).map (fun j => r.getD j 0)
        let newP := (List.range BIT_ARRAY_SIZE).map
          (fun j => p.getD j 0 &&& (deref s.heap vertex).neighbors.getD j 0)
        let newX := (List.range BIT_ARRAY_SIZE).map
          (fun j => x.getD j 0 &&& (deref s.heap vertex).neighbors.getD j 0)
        let newR := newR0.set (vi / 64) (newR0.getD (vi / 64) 0 ||| bit64 ((vi % 64 : Nat) : Int))
        match self s newR newP newX with
        | none => none
        | some (res, s1) =>
          if res ≠ -1 then some (1, s1)
          else
            let p1 := p.set (vi / 64)
              (p.getD (vi / 64) 0 &&& (2 ^ 64 - 1 - bit64 ((vi % 64 : Nat) : Int)))
            let x1 := x.set (vi / 64) (x.getD (vi / 64) 0 ||| bit64 ((vi % 64 : Nat) : Int))
            bronKerboschLoop BIT_ARRAY_SIZE complement pivot self n s1 r p1 x1 i
              (getKthSetBitPos (p1.take BIT_ARRAY_SIZE) 0 i)
      else
        bronKerboschLoop BIT_ARRAY_SIZE complement pivot self n s r p x (i + 1)
          (getKthSetBitPos (p.take BIT_ARRAY_SIZE) 0 (i + 1))
    else some (-1, s)

/-- The function `bronKerbosch`; `lower` stands for the call `kColoringDisconnected(subGraph,
k-1)`, `fuel` bounds the depth of the recursion. The array of the state is `vertices`; the
parameters `smallestClique` and `sizeClique` are never read. `exit(10)` gives no result. On the
path `VERTICES == 0` the C code returns without restoring `VERTICES`. -/
def bronKerbosch (lower : State → Option (Int × State)) (k : Int) :
    Nat → State → List (Option Nat) → List Nat → List Nat → List Nat → Option (Int × State)
  | 0, _, _, _, _, _ => none
  | fuel + 1, s, complement, r, p, x =>
    if k ≠ 3 ∧ k ≠ 4 then none
    else
      let BIT_ARRAY_SIZE := (s.vertices.length + 63) / 64
      if bitArraySize BIT_ARRAY_SIZE p = 0 then
        if bitArraySize BIT_ARRAY_SIZE x = 0 then
          match createSubGraph s r with
          | none => none
          | some sub =>
            if sub.vertices.length = 0 then some (1, sub)
            else
              match lower sub with
              | none => none
              | some (colorable, s1) => some (colorable, { s1 with vertices := s.vertices })
        else some (-1, s)
      else
        let pivotIndex := findHighestDegree s.heap complement p BIT_ARRAY_SIZE
        let pivot := (complement.getD pivotIndex none).getD s.heap.length
        bronKerboschLoop BIT_ARRAY_SIZE complement pivot
          (fun t r1 p1 x1 => bronKerbosch lower k fuel t complement r1 p1 x1)
          (128 * BIT_ARRAY_SIZE + 1) s r p x 1 (getKthSetBitPos (p.take BIT_ARRAY_SIZE) 0 1)

/-- The value `-(w) - 1` of a `uint64_t`. -/
def not64 (w : Nat) : Nat := 2 ^ 64 - 1 - w % 2 ^ 64

/-- The value `x << n` of a `uint64_t` with the count taken modulo 64, which is how the shift
instructions of x86-64 and AArch64 execute it. For `n < 64` this is the value that C defines; a
count of 64, which C leaves undefined, leaves `x` as it is. -/
def shlCount (x n : Nat) : Nat := (x <<< (n % 64)) % 2 ^ 64

/-- The value `x >> n` of a `uint64_t` with the count taken modulo 64. -/
def shrCount (x n : Nat) : Nat := x >>> (n % 64)

/-- The last word of a complement bitset:
`(-(w) - 1) << (64 - VERTICES%64) >> (64 - VERTICES%64)`. When `VERTICES` is a multiple of 64
the two counts are 64. -/
def complementLastWord (w n : Nat) : Nat :=
  shrCount (shlCount (not64 w) (64 - n % 64)) (64 - n % 64)

/-- The body of the loop of `createComplement` for the index `i`: the heap with the new record
(if it is kept) and the entry `complement[i]` (`none` is NULL). -/
def createComplementVertex (s : State) (heap : List Vertex) (i : Nat) :
    List Vertex × Option Nat :=
  let n := s.vertices.length
  let BIT_ARRAY_SIZE := (n + 63) / 64
  let vertex := deref heap (s.vertices.getD i 0)
  let last := complementLastWord (vertex.neighbors.getD (BIT_ARRAY_SIZE - 1) 0) n
  let words0 := (List.range BIT_ARRAY_SIZE).map (fun j =>
    if j < BIT_ARRAY_SIZE - 1 then not64 (vertex.neighbors.getD j 0) else last)
  let words1 := words0.set (i / 64)
    (words0.getD (i / 64) 0 &&& (2 ^ 64 - 1 - bit64 ((i % 64 : Nat) : Int)))
  let degree := (n : Int) - vertex.degree - 1
  if degree = 0 then (heap, none)
  else
    (heap ++ [{ createVertex n (i : Int) with neighbors := words1, degree := degree }],
      some heap.length)

/-- The loop of `createComplement` over the indices. -/
def createComplementLoop (s : State) :
    List Nat → List Vertex → List (Option Nat) → List Vertex × List (Option Nat)
  | [], heap, complement => (heap, complement)
  | i :: rest, heap, complement =>
    createComplementLoop s rest (createComplementVertex s heap i).1
      (complement ++ [(createComplementVertex s heap i).2])

/-- The function `createComplement`: returns the heap with the new records and the array
`complement`. -/
def createComplement (s : State) : List Vertex × List (Option Nat) :=
  createComplementLoop s (List.range s.vertices.length) s.heap []

/-- The `while` loop of `twoColorVertex`; `self` stands for the recursive call. -/
def twoColorLoop (self : State → Nat → Int → Option (Int × State)) (color : Int) :
    List Nat → State → Option (Int × State)
  | [], s => some (1, s)
  | neighbor :: rest, s =>
    if (deref s.heap neighbor).color = color then some (-1, s)
    else if (deref s.heap neighbor).color = -1 then
      match self s neighbor (1 - color) with
      | none => none
      | some (res, s1) => if res = -1 then some (-1, s1) else twoColorLoop self color rest s1
    else twoColorLoop self color rest s

/-- The function `twoColorVertex`; `fuel` bounds the depth of the recursion. -/
def twoColorVertex : Nat → State → Nat → Int → Option (Int × State)
  | 0, _, _, _ => none
  | fuel + 1, s, vertex, color =>
    let s1 := modify s vertex (fun v => { v with color := color })
    twoColorLoop (twoColorVertex fuel) color (deref s1.heap vertex).adjacentVertices s1

/-- The function `twoColoring`. -/
def twoColoring (fuel : Nat) (s : State) : Option (Int × State) :=
  match twoColorVertex fuel s (s.vertices.getD 0 0) 0 with
  | none => none
  | some (res, s1) => if res = 1 then some (2, s1) else some (-1, s1)

/-- The function `kColoringDisconnected`; `kcol` stands for the call of `kColoring`, the first
argument bounds the depth of the recursion (one level per component), `fuel` is handed to
`subGraph`. -/
def kColoringDisconnected (kcol : State → Int → Option (Int × State)) (fuel : Nat) :
    Nat → State → Int → Option (Int × State)
  | 0, _, _ => none
  | d + 1, s, k =>
    if k ≠ 2 ∧ k ≠ 3 then none
    else
      match subGraph fuel s with
      | none => none
      | some (s1, subGraph1, subGraph2) =>
        if (subGraph1.length : Int) ≠ VERTICES s1 then
          if (subGraph1.length : Int) > k then
            match kcol { s1 with vertices := subGraph1 } k with
            | none => none
            | some (res, s2) =>
              if res = -1 then some (-1, s2)
              else kColoringDisconnected kcol fuel d { s2 with vertices := subGraph2 } k
          else kColoringDisconnected kcol fuel d { s1 with vertices := subGraph2 } k
        else kcol { s1 with vertices := subGraph1 } k

/-- The function `kColoring`; `fuel` bounds the depth of every recursion below it. There is no
result on `exit(10)`. -/
def kColoring : Nat → State → Int → Option (Int × State)
  | 0, _, _ => none
  | fuel + 1, s, k =>
    if k = 2 then twoColoring (fuel + 1) s
    else if k ≠ 3 ∧ k ≠ 4 then none
    else
      let BIT_ARRAY_SIZE := (s.vertices.length + 63) / 64
      let c := createComplement s
      let r := List.replicate BIT_ARRAY_SIZE 0
      let x := List.replicate BIT_ARRAY_SIZE 0
      let p := (List.range s.vertices.length).foldl (fun (p : List Nat) i =>
        if (c.2.getD i none).isSome then
          p.set (i / 64) (p.getD (i / 64) 0 ||| bit64 ((i % 64 : Nat) : Int))
        else p) (List.replicate BIT_ARRAY_SIZE 0)
      match bronKerbosch
          (fun sub => kColoringDisconnected (kColoring fuel) (fuel + 1)
            (sub.vertices.length + 1) sub (k - 1))
          k (fuel + 1) { s with heap := c.1 } c.2 r p x with
      | none => none
      | some (res, s1) => some (if res ≠ -1 then k else -1, { s1 with vertices := s.vertices })

/-! ## coloring.c : one attempt of a frame -/

/-- One pass through the `while` loop of `colorGraph` for the vertex `p` and the color `c`
found for it, without the recursive call: `setVertexColor`, the update of `MAX_USED`,
`removeNeighborColors`, `persistColors`, then `MAX_USED = max_used_temp` and `restore`.
Returns the result of `persistColors`, the state and the change log. -/
def attemptAndRestore (fuel : Nat) (max_used_temp : Int) (s : State) (p : Nat) (c : Int) :
    Option (Int × State × ChangeLog) :=
  let s1 := setVertexColor s p c
  let s2 := if c > s1.MAX_USED then { s1 with MAX_USED := c } else s1
  let log0 := { emptyLog with coloredVertices := [p] }
  let r := removeNeighborColors (deref s2.heap p).adjacentVertices c s2 log0
  match persistColors fuel (deref r.1.heap p).adjacentVertices r.1 r.2 with
  | none => none
  | some (res, s3, log3) =>
    some (res, (restore { s3 with MAX_USED := max_used_temp } log3).1,
      (restore { s3 with MAX_USED := max_used_temp } log3).2)

/-- The first half of such a pass, up to the result of `persistColors`: `setVertexColor`, the
update of `MAX_USED`, `removeNeighborColors` and `persistColors`. -/
def attempt (fuel : Nat) (s : State) (p : Nat) (c : Int) : Option (Int × State × ChangeLog) :=
  let s1 := setVertexColor s p c
  let s2 := if c > s1.MAX_USED then { s1 with MAX_USED := c } else s1
  let log0 := { emptyLog with coloredVertices := [p] }
  let r := removeNeighborColors (deref s2.heap p).adjacentVertices c s2 log0
  persistColors fuel (deref r.1.heap p).adjacentVertices r.1 r.2

/-! ## coloring.c : the frames of `colorGraph` that find no next vertex -/

/-- The `while (1)` loop of `colorGraph` as in `colorLoop`, with a third result: the list, in
the order of the run, of the states in which a frame at or below this one got -1 from
`selectNextVertex`. -/
def colorLoopLeaves (self : State → Option (Int × State × List State)) (fuel : Nat)
    (old_counter : Int) (nextVertex : Nat) (max_used_temp : Int) :
    Nat → Int → State → Option (Int × State × List State)
  | 0, _, _ => none
  | n + 1, nextColor, s =>
    if s.SEARCH = search.EXHAUSTIVE ∧ s.MAX_USED ≥ s.CHROMATIC then some (1, s, [])
    else
      match s.vertices.get? nextVertex with
      | none => none
      | some p =>
        let nextColor1 := findColorFF s (nextColor + 1) p
        let s1 := setVertexColor s p nextColor1
        if nextColor1 = -1 then some (-1, { s1 with VERTEX_COUNTER := old_counter }, [])
        else
          let s2 := if nextColor1 > s1.MAX_USED then { s1 with MAX_USED := nextColor1 } else s1
          let log0 := { emptyLog with coloredVertices := [p] }
          let r := removeNeighborColors (deref s2.heap p).adjacentVertices nextColor1 s2 log0
          match persistColors fuel (deref r.1.heap p).adjacentVertices r.1 r.2 with
          | none => none
          | some (res, s3, log3) =>
            let back := fun (t : State) (seen : List State) =>
              (colorLoopLeaves self fuel old_counter nextVertex max_used_temp n nextColor1
                (restore { t with MAX_USED := max_used_temp } log3).1).map
                (fun r => (r.1, r.2.1, seen ++ r.2.2))
            if res = 1 then
              match self s3 with
              | none => none
              | some (res1, s4, seen) =>
                if s3.SEARCH = search.EXHAUSTIVE then back s4 seen
                else if res1 = 1 then some (1, s4, seen)
                else back s4 seen
            else back s3 []

/-- The function `colorGraph` as in `colorGraph`, with a third result: the list of the states,
taken right after the call of `selectNextVertex`, of the frames in which that call returned
-1. -/
def colorGraphLeaves : Nat → State → Option (Int × State × List State)
  | 0, _ => none
  | fuel + 1, s =>
    let old_counter := s.VERTEX_COUNTER
    let s1 := decayCounters s
    let s2 := { s1 with SORTING_COUNTER := s1.SORTING_COUNTER + 1 }
    let sel := selectNextVertex s2
    let nextVertex := sel.1
    let s3 := if ¬ sel.2.CS then { sel.2 with VERTEX_COUNTER := nextVertex } else sel.2
    if nextVertex = -1 then
      if s3.SEARCH = search.EXHAUSTIVE ∧ s3.MAX_USED < s3.CHROMATIC then
        some (1, updateAvailability { s3 with CHROMATIC := s3.MAX_USED } s3.MAX_USED, [sel.2])
      else some (1, s3, [sel.2])
    else
      colorLoopLeaves (colorGraphLeaves fuel) (fuel + 1) old_counter nextVertex.toNat s3.MAX_USED
        65 (-1) s3
/-! ## Specification vocabulary -/

/-- The map `f` is a proper coloring of the graph held in `s` with colors below `k`: every
vertex of the array gets a color below `k`, different from that of each entry of its adjacency
list. -/
def ProperColoring (s : State) (k : Nat) (f : Nat → Nat) : Prop :=
  ∀ p ∈ s.vertices, f p < k ∧ ∀ q ∈ (deref s.heap p).adjacentVertices, f p ≠ f q

/-- The graph held in `s` admits a proper coloring with `k` colors. -/
def Colorable (s : State) (k : Nat) : Prop := ∃ f, ProperColoring s k f

/-- The number `n` is the chromatic number of the graph held in `s`. -/
def IsChromaticNumber (s : State) (n : Nat) : Prop :=
  Colorable s n ∧ ∀ k, k < n → ¬ Colorable s k

/-- The condition under which the specification lets the Brooks estimator return
`MAX_DEGREE + 1`. -/
def brooksTight (s : State) : Prop :=
  (VERTICES s % 2 = 1 ∧ ∃ d : Int, (∀ p ∈ s.vertices, (deref s.heap p).degree = d) ∧
      (d = 2 ∨ d = VERTICES s - 1)) ∨
  (VERTICES s % 2 = 0 ∧ ∀ p ∈ s.vertices, (deref s.heap p).degree = VERTICES s - 1)

/-- Two disjoint triangles, configured for the exhaustive search seeded by the Brooks bound. -/
def twoTriangles : State :=
  loadGraph 6 [(0, 1), (1, 2), (2, 0), (3, 4), (4, 5), (5, 3)]
    search.EXHAUSTIVE bounds.BROOKS selection.VERTEX 0 false 1

/-- The array holds distinct valid addresses and the adjacency lists describe a simple undirected
graph on them: no loop, and each edge is listed at both ends. -/
def WellFormed (s : State) : Prop :=
  s.vertices.Nodup ∧ (∀ p ∈ s.vertices, p < s.heap.length) ∧
  ∀ p ∈ s.vertices, ∀ q ∈ (deref s.heap p).adjacentVertices,
    q ∈ s.vertices ∧ q ≠ p ∧ p ∈ (deref s.heap q).adjacentVertices

/-- Every vertex of the array is uncolored. -/
def Uncolored (s : State) : Prop := ∀ p ∈ s.vertices, (deref s.heap p).color = -1

/-- The colors stored in `s` are a proper coloring with colors in `[0, k)`. -/
def ProperlyColored (s : State) (k : Int) : Prop :=
  ∀ p ∈ s.vertices, 0 ≤ (deref s.heap p).color ∧ (deref s.heap p).color < k ∧
    ∀ q ∈ (deref s.heap p).adjacentVertices, (deref s.heap p).color ≠ (deref s.heap q).color

/-- State `t` is state `s` up to the colors and the two counters of the vertices. -/
def SameGraph (s t : State) : Prop :=
  t.vertices = s.vertices ∧ t.heap.length = s.heap.length ∧ t.VERTEX_COUNTER = s.VERTEX_COUNTER ∧
  ∀ p, (deref t.heap p).adjacentVertices = (deref s.heap p).adjacentVertices ∧
    (deref t.heap p).degree = (deref s.heap p).degree ∧
    (deref t.heap p).availableColors = (deref s.heap p).availableColors ∧
    (deref t.heap p).number = (deref s.heap p).number ∧
    (deref t.heap p).neighbors = (deref s.heap p).neighbors

/-- The colors stored in `t` are a partial proper coloring with colors in `[0, c)`. -/
def PartialProper (t : State) (c : Int) : Prop :=
  (∀ p ∈ t.vertices, (deref t.heap p).color = -1 ∨
    (0 ≤ (deref t.heap p).color ∧ (deref t.heap p).color < c)) ∧
  ∀ p ∈ t.vertices, ∀ q ∈ (deref t.heap p).adjacentVertices,
    (deref t.heap p).color ≠ -1 → (deref t.heap p).color ≠ (deref t.heap q).color

/-- Each color of `[0, c)` is the color of some vertex. -/
def ClassesUsed (t : State) (c : Int) : Prop :=
  ∀ d, 0 ≤ d → d < c → ∃ p ∈ t.vertices, (deref t.heap p).color = d

/-- The entries of `cand` are uncolored vertices without a neighbor of color `c`. -/
def Candidates (t : State) (c : Int) (cand : List Nat) : Prop :=
  ∀ q ∈ cand, q ∈ t.vertices ∧ (deref t.heap q).color = -1 ∧
    ∀ r ∈ (deref t.heap q).adjacentVertices, (deref t.heap r).color ≠ c

/-- The path on three vertices with nothing colored, as `coloring` sees it after
`initializeCounters`. -/
def pathThree : State :=
  initializeCounters
    (loadGraph 3 [(0, 1), (1, 2)] search.EXHAUSTIVE bounds.WP selection.VERTEX 0 false 1)

/-- The vertex at position `j` of the array is in the adjacency list of the vertex at
position `i`. -/
def adjacentAt (s : State) (i j : Nat) : Prop :=
  s.vertices.getD j 0 ∈ (deref s.heap (s.vertices.getD i 0)).adjacentVertices

/-- The vertices at the positions of the set bits of `W` admit a proper coloring (`f`, on
positions) with `k` colors. -/
def ColorableOn (s : State) (W k : Nat) : Prop :=
  ∃ f : Nat → Nat, ∀ i, W.testBit i = true → f i < k ∧
    ∀ j, W.testBit j = true → adjacentAt s i j → f i ≠ f j

/-- The bit set `S` is a non-empty subset of `W` whose vertices are pairwise non-adjacent. -/
def IndependentSubset (s : State) (W S : Nat) : Prop :=
  S ≠ 0 ∧ (∀ i, S.testBit i = true → W.testBit i = true) ∧
  ∀ i j, S.testBit i = true → S.testBit j = true → ¬ adjacentAt s i j

/-- The bit set below `n` whose bit `i` is `p i`. -/
def maskOf (p : Nat → Bool) : Nat → Nat
  | 0 => 0
  | n + 1 => maskOf p n ||| (if p n then 2 ^ n else 0)

/-- Cell `W` of the table `T` holds one more than the minimum the inner loop of
`calculateChromaticTable` computes from `T` itself. -/
def TableEntry (s : State) (junk : Int) (T : List Int) (W : Nat) : Prop :=
  T.getD W junk =
    1 + minimumLoop T W junk (getSubsets s W (createTable s)) (VERTICES s)


/-- A graph on seven vertices, to be searched for a 3-coloring with the incidence-degree
ordering re-applied at every second recursion level and conflict-directed selection. -/
def staleIndexGraph : State :=
  setAvailableColors
    (loadGraph 7 [(5, 6), (3, 6), (4, 3), (2, 6), (2, 5), (3, 2), (1, 5), (4, 1), (0, 4), (1, 0)]
      search.KCOLORING bounds.NO selection.IDO 2 true 1) 3

/-- A graph on six vertices without isolated vertex, configured for the exhaustive search without
an initial bound, with the same ordering configuration as `staleIndexGraph`. -/
def staleIndexExhaustive : State :=
  loadGraph 6 [(0, 2), (0, 4), (0, 5), (1, 2), (1, 3), (1, 5), (2, 3), (2, 4), (3, 4)]
    search.EXHAUSTIVE bounds.NO selection.IDO 2 true 1

/-! ## Invariants of the backtracking search -/

/-- The total of the bits that the change log holds for the vertex `p`. -/
def logSum (p : Nat) : List Nat → List Nat → Nat
  | q :: qs, d :: ds => (if q = p then d else 0) + logSum p qs ds
  | _, _ => 0

/-- The state invariant of the search outside EXHAUSTIVE mode, for the budget of `k` colors:
domains lie below `k`, no domain holds the color of a colored neighbor, the color of a colored
vertex is in its own domain, and no color exceeds `MAX_USED`. While `removeNeighborColors` walks
the adjacency list of the vertex `x` just colored, the neighbors in `exc` are still to be
visited. -/
structure SearchInvX (k x : Nat) (exc : List Nat) (s : State) : Prop where
  wf : WellFormed s
  nonex : s.SEARCH ≠ search.EXHAUSTIVE
  kle : k ≤ 64
  maxc : s.MAX_COLOR + 1 = (k : Int)
  used : -1 ≤ s.MAX_USED ∧ s.MAX_USED ≤ s.MAX_COLOR
  dom : ∀ p ∈ s.vertices, (deref s.heap p).availableColors < 2 ^ k
  col : ∀ p ∈ s.vertices, -1 ≤ (deref s.heap p).color ∧ (deref s.heap p).color ≤ s.MAX_USED
  excl : ∀ p ∈ s.vertices, ∀ u ∈ (deref s.heap p).adjacentVertices, (deref s.heap u).color ≠ -1 →
    (u = x ∧ p ∈ exc) ∨
    (deref s.heap p).availableColors.testBit (deref s.heap u).color.toNat = false
  own : ∀ p ∈ s.vertices, (deref s.heap p).color ≠ -1 →
    (deref s.heap p).availableColors.testBit (deref s.heap p).color.toNat = true

/-- The state invariant between two steps of the search. -/
def SearchInv (k : Nat) (s : State) : Prop := SearchInvX k 0 [] s

/-- The first `L` entries of the array are colored. -/
def Done (L : Nat) (s : State) : Prop := ∀ p ∈ s.vertices.take L, (deref s.heap p).color ≠ -1

/-- State `s` was reached from `s0` by steps whose changes are recorded in `log`: the array is
permuted behind its first `L` entries, each domain lacks exactly the bits logged for it, and a
vertex whose color changed is behind the first `L` entries and is either uncolored or listed in
the log. -/
structure RelLog (L : Nat) (s0 s : State) (log : ChangeLog) : Prop where
  perm : s.vertices.Perm s0.vertices
  pre : s.vertices.take L = s0.vertices.take L
  len : s.heap.length = s0.heap.length
  maxc : s.MAX_COLOR = s0.MAX_COLOR
  srch : s.SEARCH = s0.SEARCH
  adj : ∀ p, (deref s.heap p).adjacentVertices = (deref s0.heap p).adjacentVertices
  av : ∀ p ∈ s0.vertices, (deref s.heap p).availableColors +
    logSum p log.changedVertices log.vertexChanges = (deref s0.heap p).availableColors
  col : ∀ p ∈ s0.vertices, (deref s.heap p).color = (deref s0.heap p).color ∨
    ((p ∈ log.coloredVertices ∨ (deref s.heap p).color = -1) ∧ p ∉ s0.vertices.take L)
  out : ∀ p ∈ log.coloredVertices, p ∉ s0.vertices.take L

/-- State `s` is `s0` after a failed attempt: domains and `MAX_USED` are as in `s0`, and the
vertices behind the first `L` entries may have lost their color. -/
def Rel (L : Nat) (s0 s : State) : Prop := RelLog L s0 s emptyLog ∧ s.MAX_USED = s0.MAX_USED

/-- State `t` has the array and `VERTEX_COUNTER` of `s`, and every vertex colored in `s` is
colored in `t`. -/
def Grow (s t : State) : Prop :=
  t.vertices = s.vertices ∧ t.VERTEX_COUNTER = s.VERTEX_COUNTER ∧
  ∀ p, (deref s.heap p).color ≠ -1 → (deref t.heap p).color ≠ -1

/-- What `selectNextVertex` guarantees for its result `r` (the index and the state) when called
in state `s`: only the array behind `VERTEX_COUNTER` is permuted, `VERTEX_COUNTER` does not
decrease, no index means that every vertex is colored, and otherwise the entries before the
selected index (without CS) or up to the new `VERTEX_COUNTER` (with CS) are colored. -/
def SelPost (s : State) (r : Int × State) : Prop :=
  r.2.heap = s.heap ∧ r.2.vertices.Perm s.vertices ∧
  r.2.vertices.take (s.VERTEX_COUNTER + 1).toNat = s.vertices.take (s.VERTEX_COUNTER + 1).toNat ∧
  r.2.MAX_USED = s.MAX_USED ∧ r.2.MAX_COLOR = s.MAX_COLOR ∧ r.2.SEARCH = s.SEARCH ∧
  s.VERTEX_COUNTER ≤ r.2.VERTEX_COUNTER ∧
  (r.1 = -1 → ∀ p ∈ r.2.vertices, (deref r.2.heap p).color ≠ -1) ∧
  (r.1 ≠ -1 → 0 ≤ r.1 ∧
    ((r.2.CS = true ∧ Done (r.2.VERTEX_COUNTER + 1).toNat r.2 ∧
        (r.2.VERTEX_COUNTER + 1).toNat ≤ r.1.toNat) ∨
      (r.2.CS = false ∧ r.2.VERTEX_COUNTER = s.VERTEX_COUNTER ∧
        (s.VERTEX_COUNTER + 1).toNat ≤ r.1.toNat ∧ Done r.1.toNat r.2)))

/-- What a `colorGraph` frame entered in state `s` guarantees for its result `r`: on 1 every
vertex is colored and the invariant holds; otherwise the result is -1, `VERTEX_COUNTER` is `vc`
and the state is `s` up to the colors behind the first `L` entries. -/
def FramePost (k L : Nat) (vc : Int) (s : State) (r : Int × State) : Prop :=
  (r.1 = 1 ∧ SearchInv k r.2 ∧ (∀ p ∈ r.2.vertices, (deref r.2.heap p).color ≠ -1) ∧
    r.2.vertices.Perm s.vertices ∧
    ∀ p, (deref r.2.heap p).adjacentVertices = (deref s.heap p).adjacentVertices) ∨
  (r.1 = -1 ∧ Rel L s r.2 ∧ r.2.VERTEX_COUNTER = vc)

/-- A path on three vertices, to be searched for a 2-coloring with the saturation-degree
ordering re-applied at every recursion level and conflict-directed selection. -/
def pathSearch : State :=
  loadGraph 3 [(0, 1), (1, 2)] search.KCOLORING bounds.NO selection.DSATUR 1 true 1

/-- The starting interval of the bisection as the specification words it: `lo = 0` and
`hi = min(B, 64)`, doubled once if `B < 64`. -/
def binaryIntervalSpec (B : Int) : Int × Int :=
  (0, if B < 64 then 2 * min B 64 else min B 64)

/-- The domain the specification gives every vertex at the start of the exhaustive run: the
low `min(B, 64)` bits. -/
def exhaustiveDomainSpec (B : Int) : Nat := 2 ^ (min B 64).toNat - 1

/-- The graph held in `s` is complete: each of its vertices has degree `VERTICES - 1`, which is
also `MAX_DEGREE`. -/
def CompleteGraph (s : State) : Prop :=
  1 ≤ VERTICES s ∧ s.MAX_DEGREE = VERTICES s - 1 ∧
  ∀ p ∈ s.vertices, (deref s.heap p).degree = VERTICES s - 1

/-- The path on three vertices, configured for the exhaustive search seeded by the
Welsh-Powell bound. -/
def pathExhaustive : State :=
  loadGraph 3 [(0, 1), (1, 2)] search.EXHAUSTIVE bounds.WP selection.VERTEX 0 false 1

/-- The complete graph on three vertices, configured for the bisection seeded by the Brooks
bound. -/
def triangleBinary : State :=
  loadGraph 3 [(0, 1), (1, 2), (2, 0)] search.BINARY bounds.BROOKS selection.VERTEX 0 false 1

/-- The complete graph on three vertices, configured for the exhaustive search seeded by the
Brooks bound. -/
def triangleExhaustive : State :=
  loadGraph 3 [(0, 1), (1, 2), (2, 0)] search.EXHAUSTIVE bounds.BROOKS selection.VERTEX 0 false 1

/-- State `t` differs from `s` at most in the heap and in the array. -/
def SameScalars (s t : State) : Prop := ∃ h l, t = { s with heap := h, vertices := l }

/-- The graph of `staleIndexGraph`, configured for the GREEDY search with the same ordering
configuration. -/
def staleIndexGreedy : State :=
  loadGraph 7 [(5, 6), (3, 6), (4, 3), (2, 6), (2, 5), (3, 2), (1, 5), (4, 1), (0, 4), (1, 0)]
    search.GREEDY bounds.NO selection.IDO 2 true 1

/-- A connected graph on nine vertices, configured for the bisection seeded by the
Welsh-Powell bound, with the incidence-degree ordering re-applied at every second recursion level
and conflict-directed selection. -/
def staleIndexBinary : State :=
  loadGraph 9 [(5, 6), (4, 6), (4, 5), (7, 3), (3, 4), (2, 8), (6, 2), (1, 8), (1, 4), (3, 1),
      (2, 1), (0, 6), (5, 0), (2, 0)]
    search.BINARY bounds.WP selection.IDO 2 true 1

/-- A triangle and a star with three leaves, configured for the bisection seeded by the Brooks
bound. -/
def triangleAndStar : State :=
  loadGraph 7 [(0, 1), (1, 2), (2, 0), (3, 4), (3, 5), (3, 6)]
    search.BINARY bounds.BROOKS selection.VERTEX 0 false 1

/-! ## Vocabulary for the two-coloring -/

/-- The graph held in `s` is connected: it has a vertex, and every vertex of the array is reached
from the first one along adjacency lists. -/
def Connected (s : State) : Prop :=
  s.vertices ≠ [] ∧ ∀ p ∈ s.vertices,
    Relation.ReflTransGen (fun a b => b ∈ (deref s.heap a).adjacentVertices)
      (s.vertices.getD 0 0) p

/-- State `s` holds the graph of `g`, with every color in `{-1, 0, 1}`. -/
structure TwoInv (g s : State) : Prop where
  verts : s.vertices = g.vertices
  len : s.heap.length = g.heap.length
  adj : ∀ p, (deref s.heap p).adjacentVertices = (deref g.heap p).adjacentVertices
  range : ∀ p ∈ g.vertices, (deref s.heap p).color = -1 ∨ (deref s.heap p).color = 0 ∨
    (deref s.heap p).color = 1

/-- Every color of `s` is still there in `t`. -/
def TwoExt (s t : State) : Prop :=
  ∀ p, (deref s.heap p).color ≠ -1 → (deref t.heap p).color = (deref s.heap p).color

/-- Every neighbor of `p` has the other color. -/
def TwoClosed (g t : State) (p : Nat) : Prop :=
  ∀ q ∈ (deref g.heap p).adjacentVertices, (deref t.heap q).color = 1 - (deref t.heap p).color

/-- The map `f` is a proper coloring of `g` with the colors 0 and 1. -/
def TwoProper (g : State) (f : Nat → Int) : Prop :=
  ∀ p ∈ g.vertices, (f p = 0 ∨ f p = 1) ∧ ∀ q ∈ (deref g.heap p).adjacentVertices, f q ≠ f p

/-- The colors of `s` are those of `f`. -/
def TwoAgrees (g s : State) (f : Nat → Int) : Prop :=
  ∀ p ∈ g.vertices, (deref s.heap p).color ≠ -1 → (deref s.heap p).color = f p

/-- The number of uncolored vertices. -/
def uncoloredCount (g s : State) : Nat :=
  g.vertices.countP (fun p => decide ((deref s.heap p).color = -1))

/-- What a call `twoColorVertex(v, c)` from state `s` achieves. -/
def TwoPost (g s : State) (v : Nat) (c : Int) (r : Option (Int × State)) : Prop :=
  ∃ res t, r = some (res, t) ∧ (res = 1 ∨ res = -1) ∧ TwoInv g t ∧ TwoExt s t ∧
    (deref t.heap v).color = c ∧
    (res = 1 → ∀ p ∈ g.vertices, (deref s.heap p).color = -1 → (deref t.heap p).color ≠ -1 →
      TwoClosed g t p) ∧
    (∀ f, TwoProper g f → TwoAgrees g s f → f v = c → res = 1 ∧ TwoAgrees g t f)

/-! ## Vocabulary for the k-coloring by maximal independent sets -/

/-- The neighbor bitsets agree with the adjacency lists: bit `j` of the bitset of the vertex at
position `i` is set exactly when the vertex at position `j` is in its adjacency list. -/
def BitsetsConsistent (s : State) : Prop :=
  ∀ i ∈ List.range s.vertices.length, ∀ j ∈ List.range s.vertices.length,
    wordBit (deref s.heap (s.vertices.getD i 0)).neighbors j = true ↔ adjacentAt s i j

/-- The triangle, as read from the edge list 0-1, 1-2, 2-0. -/
def triangleLowK : State :=
  loadGraph 3 [(0, 1), (1, 2), (2, 0)] search.KCOLORING bounds.NO selection.VERTEX 0 false 1

/-! ## Vocabulary for the comparison of the two programs -/

/-- The graph held in `s` has no edge: every vertex has degree 0 and an empty adjacency list. -/
def Edgeless (s : State) : Prop :=
  ∀ p ∈ s.vertices, (deref s.heap p).degree = 0 ∧ (deref s.heap p).adjacentVertices = []

/-- The graph with one vertex and no edge, as read, configured for the exhaustive search without
an initial bound. -/
def singleVertex : State :=
  loadGraph 1 [] search.EXHAUSTIVE bounds.NO selection.VERTEX 0 false 1

/-! ## Vocabulary for the comparators -/

/-- The DEGREE comparator as the specification words it: descending degree, ties broken by
identity (the smaller number first). -/
def compareByDegreeSpec (heap : List Vertex) (a b : Nat) : Int :=
  if (deref heap b).degree - (deref heap a).degree ≠ 0 then
    (deref heap b).degree - (deref heap a).degree
  else (deref heap a).number - (deref heap b).number

/-- The number of set bits among all 64 bits of a domain. -/
def popcount64 (n : Nat) : Nat := ((List.range 64).filter (fun i => n.testBit i)).length

/-- Two vertex records of degree 1: the one at address 0 has the domain `{32, 33, 34}`, the one
at address 1 the domain `{0, 1}`. -/
def saturationPair : List Vertex :=
  [{ createVertex 2 0 with degree := 1, availableColors := 2 ^ 32 + 2 ^ 33 + 2 ^ 34 },
   { createVertex 2 1 with degree := 1, availableColors := 3 }]

/-! ## The named test graphs -/

/-- The Petersen graph: outer cycle 0..4, spokes `i - (i + 5)`, inner pentagram on 5..9. -/
def petersenEdges : List (Nat × Nat) :=
  [(0, 1), (1, 2), (2, 3), (3, 4), (4, 0), (0, 5), (1, 6), (2, 7), (3, 8), (4, 9),
   (5, 7), (7, 9), (9, 6), (6, 8), (8, 5)]

/-- The cycle on five vertices. -/
def cycleFiveEdges : List (Nat × Nat) := [(0, 1), (1, 2), (2, 3), (3, 4), (4, 0)]

/-- The triangle. -/
def triangleEdges : List (Nat × Nat) := [(0, 1), (1, 2), (2, 0)]

/-- The path on four vertices. -/
def pathFourEdges : List (Nat × Nat) := [(0, 1), (1, 2), (2, 3)]

/-- The complete bipartite graph with parts `{0, 1, 2}` and `{3, 4, 5}`. -/
def completeBipartiteEdges : List (Nat × Nat) :=
  [(0, 3), (0, 4), (0, 5), (1, 3), (1, 4), (1, 5), (2, 3), (2, 4), (2, 5)]

/-- The values `coloring` returns on the graph as read with SEARCH = EXHAUSTIVE and
BOUNDS = RLF, for each of the six orderings, with CS off and on, and for the sorting rates
0, 1 and 2 (36 configurations, in this order). -/
def exhaustiveRLFRuns (n : Nat) (edges : List (Nat × Nat)) : List (Option Int) :=
  [selection.VERTEX, selection.DEGREE, selection.IDO, selection.DSATUR, selection.RECOLOR,
    selection.CONFLICT].flatMap (fun so =>
      [false, true].flatMap (fun cs =>
        [(0 : Int), 1, 2].map (fun rate =>
          (coloring (n + 3) (loadGraph n edges search.EXHAUSTIVE bounds.RLF so rate cs 1)).map
            Prod.fst)))

/-! ## Vocabulary for the removal of isolated vertices -/

/-- One record whose bitset of one word has bit 0 set, in an array of 64 vertices. -/
def lastBitHeap : List Vertex := [{ createVertex 64 0 with neighbors := [1] }]

/-- The path on the vertices 0..62 followed by the isolated vertex 63, as read. -/
def pathAndIsolatedVertex : State :=
  loadGraph 64 ((List.range 62).map (fun i => (i, i + 1)))
    search.EXHAUSTIVE bounds.NO selection.VERTEX 0 false 1

/-- The vertex at position `i` of the array has the number `i`. -/
def NumberedByIndex (s : State) : Prop :=
  ∀ i ∈ List.range s.vertices.length, (deref s.heap (s.vertices.getD i 0)).number = (i : Int)

/-- Two fresh records of an array of two vertices. -/
def freshPair : List Vertex := [createVertex 2 0, createVertex 2 1]

/-! ## Vocabulary for the rollback -/

/-- State `s` was reached from `s0` by steps that `log` records in full: each domain lacks
exactly the bits logged for it, a vertex is in `changedVertices` only with a bit logged for it,
the logged vertices were uncolored in `s0`, and every other vertex has the color it had in
`s0`. -/
structure Logged (s0 s : State) (log : ChangeLog) : Prop where
  verts : s.vertices = s0.vertices
  len : s.heap.length = s0.heap.length
  srch : s.SEARCH = s0.SEARCH
  chrom : s.CHROMATIC = s0.CHROMATIC
  adj : ∀ q, (deref s.heap q).adjacentVertices = (deref s0.heap q).adjacentVertices
  av : ∀ q, (deref s.heap q).availableColors +
    logSum q log.changedVertices log.vertexChanges = (deref s0.heap q).availableColors
  colIn : ∀ q ∈ log.coloredVertices, q < s0.heap.length ∧ (deref s0.heap q).color = -1
  colOut : ∀ q, q ∉ log.coloredVertices → (deref s.heap q).color = (deref s0.heap q).color
  chg : ∀ q ∈ log.changedVertices, q < s0.heap.length
  lens : log.changedVertices.length = log.vertexChanges.length
  nodup : log.changedVertices.Nodup
  pos : ∀ q ∈ log.changedVertices, 0 < logSum q log.changedVertices log.vertexChanges

/-- Every color of `s` is still there in `t`, and the heap has the same size. -/
def Keeps (s t : State) : Prop :=
  t.heap.length = s.heap.length ∧
  ∀ q, (deref s.heap q).color ≠ -1 → (deref t.heap q).color = (deref s.heap q).color

/-- The number of uncolored records of the heap. -/
def uncoloredCells (s : State) : Nat :=
  (List.range s.heap.length).countP (fun q => decide ((deref s.heap q).color = -1))

/-! ## Vocabulary for the bit arrays of low-k.c -/

/-- One record whose bitset is the word of the example in the comment of
`removeIsolatedNeighbor`, binary 0110110010, in an array of ten vertices. -/
def docExampleHeap : List Vertex := [{ createVertex 10 0 with neighbors := [0b0110110010] }]

/-- Two disjoint edges, 0-2 and 1-3, as read. -/
def twoEdges : State :=
  loadGraph 4 [(0, 2), (1, 3)] search.KCOLORING bounds.NO selection.VERTEX 0 false 1

/-- The state in which `kColoringDisconnected` goes on with the first part after `subGraph`:
the array is `subGraph1` and `VERTICES` is its size (`setNbVertices(subGraphSize)`). -/
def firstPart (fuel : Nat) (s : State) : Option State :=
  (subGraph fuel s).map (fun r => { r.1 with vertices := r.2.1 })

/-- The state in which `kColoringDisconnected` goes on with the second part after `subGraph`:
the array is `subGraph2` (`setNbVertices(remainingVertices)`). -/
def secondPart (fuel : Nat) (s : State) : Option State :=
  (subGraph fuel s).map (fun r => { r.1 with vertices := r.2.2 })

/-! ## Vocabulary for the sets of the RLF estimator -/

/-- A triangle 0, 1, 2 and an edge 3-4, in the state in which `upperBoundRLF` calls
`createSetsUV` for the second color class: the first class, the vertices 0 and 3, has the
color 0 and the new primary vertex 1 has the color 1. -/
def rlfSecondClass : State :=
  setVertexColor (setVertexColor (setVertexColor
    (sortFrom (initializeCounters
      (loadGraph 5 [(0, 1), (0, 2), (1, 2), (3, 4)] search.EXHAUSTIVE bounds.RLF
        selection.VERTEX 0 false 1)) 0 compareByDegree) 0 0) 3 0) 1 1

/-- The number of entries of `setU` that `findSecondaryVertex` counts for the vertex `v`. -/
def neighborsInU (heap : List Vertex) (setU : List Nat) (v : Nat) : Nat :=
  (setU.filter (fun u => neighbors heap v u)).length

/-! ## Vocabulary for the size of the greedy colorings -/

/-- Every colored vertex has, for each smaller color, a neighbor of that color. -/
def Ladder (t : State) : Prop :=
  ∀ q ∈ t.vertices, (deref t.heap q).color ≠ -1 → ∀ d : Int, 0 ≤ d → d < (deref t.heap q).color →
    ∃ r ∈ (deref t.heap q).adjacentVertices, (deref t.heap r).color = d

/-- Every uncolored vertex has a neighbor of each color of `[0, c)`: the classes below `c`
are maximal. -/
def Saturated (t : State) (c : Int) : Prop :=
  ∀ q ∈ t.vertices, (deref t.heap q).color = -1 → ∀ d : Int, 0 ≤ d → d < c →
    ∃ r ∈ (deref t.heap q).adjacentVertices, (deref t.heap r).color = d

/-- Every uncolored vertex is a candidate of `cand` or has a neighbor of the color `c`. -/
def Complete (t : State) (c : Int) (cand : List Nat) : Prop :=
  ∀ q ∈ t.vertices, (deref t.heap q).color = -1 →
    q ∈ cand ∨ ∃ r ∈ (deref t.heap q).adjacentVertices, (deref t.heap r).color = c

/-! ## Vocabulary for the propagation -/

/-- Domain consistency of the partial coloring held in `s`, on a simple graph with 64-bit
domains: no uncolored vertex has the color of a colored neighbor in its domain, and no two
adjacent colored vertices share a color. -/
structure Consistent (s : State) : Prop where
  wf : WellFormed s
  dom : ∀ p ∈ s.vertices, (deref s.heap p).availableColors < 2 ^ 64
  excl : ∀ p ∈ s.vertices, (deref s.heap p).color = -1 →
    ∀ u ∈ (deref s.heap p).adjacentVertices, (deref s.heap u).color ≠ -1 →
      (deref s.heap p).availableColors.testBit (deref s.heap u).color.toNat = false
  proper : ∀ p ∈ s.vertices, (deref s.heap p).color ≠ -1 →
    ∀ u ∈ (deref s.heap p).adjacentVertices, (deref s.heap u).color ≠ (deref s.heap p).color

/-- The vertex `q` needs no propagation: it is colored, or its domain holds at least two
colors. -/
def Settled (s : State) (q : Nat) : Prop :=
  (deref s.heap q).color ≠ -1 ∨
    ((deref s.heap q).availableColors ≠ 0 ∧
      (deref s.heap q).availableColors &&& ((deref s.heap q).availableColors - 1) ≠ 0)

/-- What a call of `persistColors` on the list `nbrs` in state `s` with the log `log` achieves;
`new` lists the vertices it colored, in the order in which it appended them to
`coloredVertices`. -/
structure PersistPost (s : State) (log : ChangeLog) (nbrs : List Nat) (res : Int) (t : State)
    (log1 : ChangeLog) (new : List Nat) : Prop where
  result : res = 1 ∨ res = -1
  cons : Consistent t
  verts : t.vertices = s.vertices
  len : t.heap.length = s.heap.length
  adj : ∀ q, (deref t.heap q).adjacentVertices = (deref s.heap q).adjacentVertices
  logc : log1.coloredVertices = log.coloredVertices ++ new
  nodup : new.Nodup
  fresh : ∀ q ∈ new, q ∈ s.vertices ∧ (deref s.heap q).color = -1 ∧ 0 ≤ (deref t.heap q).color ∧
    (deref t.heap q).color ≤ 63 ∧
    (deref t.heap q).availableColors = 2 ^ (deref t.heap q).color.toNat
  keep : ∀ q, q ∉ new → (deref t.heap q).color = (deref s.heap q).color
  shrink : ∀ q i, (deref t.heap q).availableColors.testBit i = true →
    (deref s.heap q).availableColors.testBit i = true
  own : ∀ q ∈ s.vertices, (deref s.heap q).color ≠ -1 →
    (deref s.heap q).availableColors.testBit (deref s.heap q).color.toNat = true →
    (deref t.heap q).availableColors.testBit (deref s.heap q).color.toNat = true
  conflict : res = -1 → ∃ q ∈ s.vertices,
    (q ∈ nbrs ∨ ∃ q1 ∈ new, q ∈ (deref s.heap q1).adjacentVertices) ∧
    (deref t.heap q).color = -1 ∧ (deref t.heap q).availableColors = 0 ∧
    (deref t.heap q).nbConflicts = (deref s.heap q).nbConflicts + 1 ∧
    ∀ q1, q1 ≠ q → (deref t.heap q1).nbConflicts = (deref s.heap q1).nbConflicts
  quiet : res = 1 → ∀ q, (deref t.heap q).nbConflicts = (deref s.heap q).nbConflicts
  settledKeep : res = 1 → ∀ q, Settled s q → Settled t q
  settled : res = 1 → (∀ q ∈ nbrs, Settled t q) ∧
    ∀ q ∈ new, ∀ n ∈ (deref s.heap q).adjacentVertices, Settled t n

/-- A graph on twelve vertices, to be searched for a 6-coloring with the conflict ordering
re-applied at every third recursion level and conflict-directed selection. -/
def colorGapGraph : State :=
  setAvailableColors
    (loadGraph 12 [(0, 6), (1, 2), (1, 6), (1, 8), (1, 9), (1, 10), (1, 11), (2, 6), (2, 10),
        (3, 8), (4, 5), (4, 6), (4, 7), (5, 7), (5, 11), (6, 8), (6, 9), (6, 10), (7, 8), (7, 9),
        (7, 11), (8, 9), (8, 10), (8, 11), (9, 10), (9, 11), (10, 11)]
      search.KCOLORING bounds.NO selection.CONFLICT 3 true 1) 6

/-- The colors of the vertices of `s`, listed by vertex number. -/
def colorsByNumber (s : State) : List Int :=
  (List.range s.heap.length).map (fun p => (deref s.heap p).color)

/-! ## States for the selection, propagation and rollback claims -/

/-- Five vertices with the edges 0-3, 2-3 and 1-4 and three colors, in a state of the search in
which the vertices 0 and 2 are colored (0 and 1) and `VERTEX_COUNTER` is -1: the array starts
with the colored vertex 0, vertex 1 is uncolored without a colored neighbor, and vertex 3 is the
first uncolored vertex with a colored neighbor. -/
def csExample : State :=
  { setVertexColor (setVertexColor
      (setAvailableColors
        (loadGraph 5 [(0, 3), (2, 3), (1, 4)] search.KCOLORING bounds.NO selection.VERTEX 0 true 1)
        3) 0 0) 2 1 with VERTEX_COUNTER := -1 }

/-- Seven vertices in the state in which `upperBoundRLF` calls `createSetsUV` for the first
color class: the array is sorted by degree and the primary vertex 0 has the color 0. The
vertices 4, 5 and 6 are not adjacent to vertex 0; they have 1, 2 and 2 neighbors among the
neighbors 1, 2, 3 of vertex 0. -/
def rlfTieClass : State :=
  setVertexColor
    (sortFrom (initializeCounters
      (loadGraph 7 [(0, 1), (0, 2), (0, 3), (1, 4), (1, 5), (2, 5), (2, 6), (3, 6), (4, 5), (4, 6)]
        search.EXHAUSTIVE bounds.RLF selection.VERTEX 0 false 1)) 0 compareByDegree) 0 0

/-- The state and the change log with which a pass through the loop of `colorGraph` calls
`persistColors`, for the vertex `p` and the color `c`: after `setVertexColor`, the update of
`MAX_USED` and `removeNeighborColors`. -/
def beforePersist (s : State) (p : Nat) (c : Int) : State × ChangeLog :=
  let s1 := setVertexColor s p c
  let s2 := if c > s1.MAX_USED then { s1 with MAX_USED := c } else s1
  removeNeighborColors (deref s2.heap p).adjacentVertices c s2
    { emptyLog with coloredVertices := [p] }

/-- The triangle with two colors, at the start of the search. -/
def triangleTwoColors : State :=
  initializeCounters (setAvailableColors
    (loadGraph 3 [(0, 1), (1, 2), (0, 2)] search.KCOLORING bounds.NO selection.VERTEX 0 false 1) 2)

/-- The path 0-1-2 with two colors, at the start of the search. -/
def pathTwoColors : State :=
  initializeCounters (setAvailableColors
    (loadGraph 3 [(0, 1), (1, 2)] search.KCOLORING bounds.NO selection.VERTEX 0 false 1) 2)

/-- The bitset that `createComplement` stores in the record for the vertex at position `i`. -/
def complementWords (s : State) (i : Nat) : List Nat :=
  let n := s.vertices.length
  let vertex := deref s.heap (s.vertices.getD i 0)
  let words0 := (List.range ((n + 63) / 64)).map (fun j =>
    if j < (n + 63) / 64 - 1 then not64 (vertex.neighbors.getD j 0)
    else complementLastWord (vertex.neighbors.getD ((n + 63) / 64 - 1) 0) n)
  words0.set (i / 64) (words0.getD (i / 64) 0 &&& (2 ^ 64 - 1 - bit64 ((i % 64 : Nat) : Int)))

/-- The degree that `createComplement` computes for the vertex at position `i`. -/
def complementDegree (s : State) (i : Nat) : Int :=
  (s.vertices.length : Int) - (deref s.heap (s.vertices.getD i 0)).degree - 1

/-- The entries `complement[i]` for the positions `i` of the list `l`, when the first record that
is kept is stored at the address `a`: NULL (`none`) where the degree is 0. -/
def complementEntries (s : State) : List Nat → Nat → List (Option Nat)
  | [], _ => []
  | i :: rest, a =>
    if complementDegree s i = 0 then none :: complementEntries s rest a
    else some a :: complementEntries s rest (a + 1)

/-- The records that `createComplement` appends to the heap for the positions of the list `l`. -/
def complementRecords (s : State) : List Nat → List Vertex
  | [] => []
  | i :: rest =>
    if complementDegree s i = 0 then complementRecords s rest
    else { createVertex s.vertices.length (i : Int) with
        neighbors := complementWords s i, degree := complementDegree s i } ::
      complementRecords s rest

/-- A graph on fourteen vertices without isolated vertex, as read, in the configuration that the
decision tree of the main program chooses for it: exhaustive search with the RLF bound, the
recoloring order re-applied at every second recursion level, no conflict-directed selection,
decay factor 0.4. -/
def staleLeafGraph : State :=
  loadGraph 14 [(12, 13), (7, 3), (9, 1), (13, 7), (1, 11), (11, 2), (0, 8), (0, 9), (1, 10),
      (7, 9), (9, 13), (13, 8), (2, 4), (2, 9), (11, 9), (11, 12), (3, 10), (0, 12), (2, 1),
      (9, 5), (2, 10), (0, 3), (6, 1), (8, 3), (5, 13), (4, 8), (7, 4), (10, 9), (8, 12), (5, 6),
      (6, 7), (5, 11), (1, 8), (10, 7), (4, 12), (4, 3), (3, 12), (0, 2), (0, 1), (3, 5), (4, 1)]
    search.EXHAUSTIVE bounds.RLF selection.RECOLOR 2 false (2 / 5)

/-- The vertices of the array that are uncolored in `s`. -/
def leftUncolored (s : State) : List Nat :=
  s.vertices.filter (fun p => decide ((deref s.heap p).color = -1))

/-! ## Vocabulary for the exhaustive search in a fixed order -/

/-- The ordering of the array is not re-applied during the search: `selectNextVertex` does
not sort. -/
def StaticOrder (s : State) : Prop :=
  s.SORTING_RATE = 0 ∨ s.SORTING = selection.VERTEX ∨ s.SORTING = selection.DEGREE

/-- State `t` is `s` up to the heap and `MAX_USED`. -/
def SameSetup (s t : State) : Prop := ∃ h m, t = { s with heap := h, MAX_USED := m }

/-- The map `f` is a proper coloring with the colors below `m` in which every colored vertex
of `s` has the color stored for it. -/
def Extends (s : State) (m : Int) (f : Nat → Nat) : Prop :=
  ProperColoring s m.toNat f ∧
  ∀ q ∈ s.vertices, (deref s.heap q).color ≠ -1 → ((f q : Nat) : Int) = (deref s.heap q).color

/-- The part of the invariant of the exhaustive search that speaks about the best coloring
found so far: `CHROMATIC` is in `[0, 63]`, every color is at most `MAX_USED`, which is the color
of some vertex unless it is -1, every domain lies below `CHROMATIC`, and a color below
`CHROMATIC` is missing from the domain of an uncolored vertex only if a neighbor has it. -/
structure ExhCore (s : State) : Prop where
  chrom : 0 ≤ s.CHROMATIC ∧ s.CHROMATIC ≤ 63
  col : ∀ p ∈ s.vertices, -1 ≤ (deref s.heap p).color ∧ (deref s.heap p).color ≤ s.MAX_USED
  top : s.MAX_USED = -1 ∨ ∃ p ∈ s.vertices, (deref s.heap p).color = s.MAX_USED
  dom : ∀ p ∈ s.vertices, (deref s.heap p).availableColors < 2 ^ s.CHROMATIC.toNat
  full : ∀ p ∈ s.vertices, (deref s.heap p).color = -1 → ∀ i : Nat, (i : Int) < s.CHROMATIC →
    (deref s.heap p).availableColors.testBit i = false →
    ∃ u ∈ (deref s.heap p).adjacentVertices, (deref s.heap u).color = (i : Int)

/-- The invariant of the exhaustive search while one frame extends the partial coloring:
`ExhCore` on a simple graph with `MAX_USED` below `CHROMATIC`, and every coloring of the set `G`
(the colorings the frame is looking for) is a proper coloring with the colors below `CHROMATIC`
that agrees with the colors stored so far. -/
structure ExhFwd (G : (Nat → Nat) → Prop) (s : State) : Prop where
  wf : WellFormed s
  core : ExhCore s
  below : s.MAX_USED < s.CHROMATIC
  good : ∀ f, G f → ProperColoring s s.CHROMATIC.toNat f
  agree : ∀ f, G f → ∀ q ∈ s.vertices, (deref s.heap q).color ≠ -1 →
    ((f q : Nat) : Int) = (deref s.heap q).color

/-- The invariant of the exhaustive search between two attempts of a frame, with CS off and a
fixed order: domain consistency, `ExhCore`, 64-bit domains in every record, and a graph with
at least one vertex. -/
structure ExhInv (s : State) : Prop where
  cons : Consistent s
  core : ExhCore s
  words : ∀ q, (deref s.heap q).availableColors < 2 ^ 64
  ne : s.vertices ≠ []
  srch : s.SEARCH = search.EXHAUSTIVE
  cs : s.CS = false
  order : StaticOrder s

/-- State `t` is `s` with a value of `CHROMATIC` that is not larger and with every domain cut
down to the colors below it; the counters of the vertices, `VERTEX_COUNTER` and
`SORTING_COUNTER` may differ. -/
structure ExhSame (s t : State) : Prop where
  verts : t.vertices = s.vertices
  len : t.heap.length = s.heap.length
  used : t.MAX_USED = s.MAX_USED
  srch : t.SEARCH = s.SEARCH
  cs : t.CS = s.CS
  sorting : t.SORTING = s.SORTING
  rate : t.SORTING_RATE = s.SORTING_RATE
  chrom : 0 ≤ t.CHROMATIC ∧ t.CHROMATIC ≤ s.CHROMATIC
  adj : ∀ q, (deref t.heap q).adjacentVertices = (deref s.heap q).adjacentVertices
  col : ∀ q, (deref t.heap q).color = (deref s.heap q).color
  av : ∀ q ∈ s.vertices, (deref t.heap q).availableColors =
    (deref s.heap q).availableColors % 2 ^ t.CHROMATIC.toNat
  le : ∀ q, (deref t.heap q).availableColors ≤ (deref s.heap q).availableColors

/-- What a `colorGraph` frame of the exhaustive search entered in state `s` guarantees for its
result `r`: the state is `s` again up to the lowering of `CHROMATIC`; on the result 1
`VERTEX_COUNTER` is -1 and `CHROMATIC` is at most the entry value of `MAX_USED`, on the result -1
`VERTEX_COUNTER` is as at entry and `CHROMATIC` is above `MAX_USED`; no proper coloring with the
colors below the final `CHROMATIC` extends the partial coloring of `s`; and if `CHROMATIC` was
lowered, the graph has a proper coloring with `CHROMATIC + 1` colors. -/
def ExhPost (s : State) (r : Int × State) : Prop :=
  ExhSame s r.2 ∧
  ((r.1 = 1 ∧ r.2.VERTEX_COUNTER = -1 ∧ r.2.CHROMATIC ≤ s.MAX_USED) ∨
    (r.1 = -1 ∧ r.2.VERTEX_COUNTER = s.VERTEX_COUNTER ∧ s.MAX_USED < r.2.CHROMATIC)) ∧
  (∀ f, ¬ Extends s r.2.CHROMATIC f) ∧
  (r.2.CHROMATIC = s.CHROMATIC ∨ Colorable s (r.2.CHROMATIC + 1).toNat)

/-- The coloring `f` with the colors `c` and `d` exchanged. -/
def swapColors (c d : Nat) (f : Nat → Nat) : Nat → Nat :=
  fun q => if f q = c then d else if f q = d then c else f q

/-- The graph held in `s` has an edge. -/
def HasEdge (s : State) : Prop := ∃ p ∈ s.vertices, (deref s.heap p).adjacentVertices ≠ []

/-- The field `degree` of every vertex is the length of its adjacency list. -/
def DegreesMatch (s : State) : Prop :=
  ∀ p ∈ s.vertices, (deref s.heap p).degree = ((deref s.heap p).adjacentVertices.length : Int)

/-- A path on the vertices 0, 1, 2 and the isolated vertex 3, as read, configured for the
exhaustive search seeded by the RLF bound, with the static order DEGREE and without the
connected-sequential filter. -/
def pathWithIsolated : State :=
  loadGraph 4 [(0, 1), (1, 2)] search.EXHAUSTIVE bounds.RLF selection.DEGREE 0 false 1

/-- A graph on 11 vertices with 21 edges, every vertex of degree at least 2, as read, configured
for the exhaustive search without an initial bound, with the order RECOLOR re-sorted at every
call, the decay factor 0.4 and without the connected-sequential filter. The vertices 3, 5, 9
form a triangle, and the classes {0, 2, 4, 9}, {1, 5, 6, 8} and {3, 7, 10} are independent. -/
def elevenVertices : State :=
  loadGraph 11 [(9, 3), (3, 5), (10, 2), (9, 7), (2, 5), (0, 3), (6, 2), (4, 3), (4, 1), (8, 10),
    (2, 3), (7, 4), (10, 6), (1, 7), (1, 9), (10, 1), (6, 0), (6, 7), (0, 8), (9, 5), (10, 5)]
    search.EXHAUSTIVE bounds.NO selection.RECOLOR 1 false (2 / 5)

/-- A proper coloring of `elevenVertices` with three colors. -/
def elevenColors (p : Nat) : Nat := [0, 1, 0, 2, 0, 1, 1, 2, 1, 0, 2].getD p 0

/-- The graph with one vertex and no edge, as read, in the configuration that the decision tree
of the main program selects for it: exhaustive search seeded by the RLF bound, order RECOLOR
re-sorted at every call, decay factor 0.95, no connected-sequential filter. -/
def singleVertexAsMain : State :=
  loadGraph 1 [] search.EXHAUSTIVE bounds.RLF selection.RECOLOR 1 false (19 / 20)

/-- A graph on 12 vertices with 42 edges (maximal degree 10, average degree 7), as read from a
list of edges, in the configuration that the decision tree of the main program selects for it:
exhaustive search seeded by the RLF bound, order RECOLOR re-sorted at every third call, decay
factor 0.4, connected-sequential filter on. The vertices 0, 1, 2, 5, 9 are pairwise adjacent. -/
def twelveVertices : State :=
  loadGraph 12 [(2, 10), (4, 10), (1, 11), (11, 6), (3, 0), (6, 9), (2, 5), (10, 3), (6, 1),
    (9, 5), (5, 1), (3, 5), (7, 10), (8, 10), (11, 7), (1, 0), (5, 10), (9, 7), (8, 11), (9, 2),
    (2, 11), (3, 1), (1, 9), (3, 11), (6, 10), (4, 5), (11, 4), (9, 10), (1, 4), (0, 9), (9, 8),
    (0, 2), (6, 8), (2, 4), (0, 5), (4, 8), (0, 8), (11, 0), (2, 1), (1, 10), (7, 1), (7, 4)]
    search.EXHAUSTIVE bounds.RLF selection.RECOLOR 3 true (2 / 5)

/-- A proper coloring of `twelveVertices` with five colors. -/
def twelveColors (p : Nat) : Nat := [0, 1, 2, 2, 3, 4, 2, 2, 1, 3, 0, 4].getD p 0
/-! ## Reading and writing vertex records -/

theorem deref_set (h : List Vertex) (p q : Nat) (v : Vertex) :
    deref (h.set p v) q = if q = p ∧ p < h.length then v else deref h q := by
  unfold deref
  simp only [List.getD_eq_getElem?_getD]
  by_cases hq : q = p
  · subst hq
    by_cases hl : q < h.length
    · simp [hl]
    · have e1 : (h.set q v)[q]? = none := List.getElem?_eq_none (by simp; omega)
      have e2 : h[q]? = none := List.getElem?_eq_none (by omega)
      simp [hl, e1, e2]
  · have : ¬ (q = p ∧ p < h.length) := fun c => hq c.1
    rw [if_neg this, List.getElem?_set_ne (Ne.symm hq)]

theorem deref_modify (s : State) (p q : Nat) (f : Vertex → Vertex) :
    deref (modify s p f).heap q =
      if q = p ∧ p < s.heap.length then f (deref s.heap p) else deref s.heap q := by
  unfold modify
  exact deref_set _ _ _ _

theorem deref_modify_ne (s : State) (p q : Nat) (f : Vertex → Vertex) (h : q ≠ p) :
    deref (modify s p f).heap q = deref s.heap q := by
  rw [deref_modify, if_neg (fun c => h c.1)]

theorem deref_modify_self (s : State) (p : Nat) (f : Vertex → Vertex) (h : p < s.heap.length) :
    deref (modify s p f).heap p = f (deref s.heap p) := by
  rw [deref_modify, if_pos ⟨rfl, h⟩]

theorem modify_heap_length (s : State) (p : Nat) (f : Vertex → Vertex) :
    (modify s p f).heap.length = s.heap.length := by
  unfold modify
  simp

/-- A field that `f` leaves alone is left alone by `modify`. -/
theorem deref_modify_field {α : Type} (g : Vertex → α) (s : State) (p q : Nat)
    (f : Vertex → Vertex) (hf : ∀ v, g (f v) = g v) :
    g (deref (modify s p f).heap q) = g (deref s.heap q) := by
  rw [deref_modify]
  split
  · next h => rw [hf, h.1]
  · rfl

/-! ## The sort -/

theorem insertSorted_perm (cmp : Nat → Nat → Int) (x : Nat) (l : List Nat) :
    (insertSorted cmp x l).Perm (x :: l) := by
  induction l with
  | nil => exact List.Perm.refl _
  | cons y ys ih =>
    unfold insertSorted
    split
    · exact List.Perm.refl _
    · exact (List.Perm.cons y ih).trans (List.Perm.swap x y ys)

theorem qsort_perm (cmp : Nat → Nat → Int) (l : List Nat) : (qsort cmp l).Perm l := by
  induction l with
  | nil => exact List.Perm.refl _
  | cons x xs ih =>
    unfold qsort
    exact (insertSorted_perm cmp x _).trans (List.Perm.cons x ih)

theorem sortFrom_perm (s : State) (start : Nat) (cmp : List Vertex → Nat → Nat → Int) :
    (sortFrom s start cmp).vertices.Perm s.vertices := by
  unfold sortFrom
  have h := (qsort_perm (cmp s.heap) (s.vertices.drop start)).append_left (s.vertices.take start)
  rw [List.take_append_drop] at h
  exact h

theorem sortFrom_take (s : State) (start : Nat) (cmp : List Vertex → Nat → Nat → Int) :
    (sortFrom s start cmp).vertices.take start = s.vertices.take start := by
  unfold sortFrom
  by_cases h : start ≤ s.vertices.length
  · rw [List.take_append_eq_append_take, List.take_take, Nat.min_self,
      List.length_take, Nat.min_eq_left h, Nat.sub_self, List.take_zero, List.append_nil]
  · have h1 : s.vertices.length ≤ start := by omega
    rw [List.drop_eq_nil_of_le h1]
    simp [qsort]

/-! ## The first-fit scan -/

theorem scanFrom_eq_neg_one (test : Nat → Bool) (l : List Nat) (i : Nat) :
    scanFrom test l i = -1 ↔ ∀ p ∈ l, test p = false := by
  induction l generalizing i with
  | nil => simp [scanFrom]
  | cons p rest ih =>
    unfold scanFrom
    by_cases h : test p = true
    · rw [if_pos h]
      constructor
      · intro c; omega
      · intro c
        have := c p (List.mem_cons_self _ _)
        rw [h] at this
        cases this
    · rw [if_neg h, ih]
      simp only [List.mem_cons, forall_eq_or_imp]
      constructor
      · intro c
        exact ⟨by simpa using h, c⟩
      · intro c
        exact c.2

theorem scanFrom_found (test : Nat → Bool) (l : List Nat) (i : Nat)
    (h : scanFrom test l i ≠ -1) :
    ∃ j, scanFrom test l i = ((i + j : Nat) : Int) ∧ j < l.length ∧
      test (l.getD j 0) = true ∧ ∀ m, m < j → test (l.getD m 0) = false := by
  induction l generalizing i with
  | nil => simp [scanFrom] at h
  | cons p rest ih =>
    unfold scanFrom at h ⊢
    by_cases ht : test p = true
    · rw [if_pos ht]
      exact ⟨0, by simp, by simp, by simpa using ht, by intro m hm; omega⟩
    · rw [if_neg ht] at h ⊢
      obtain ⟨j, e, hj, htj, hm⟩ := ih (i + 1) h
      refine ⟨j + 1, ?_, by simp; omega, by simpa using htj, ?_⟩
      · rw [e]; congr 1; omega
      · intro m hm1
        cases m with
        | zero => simpa using ht
        | succ m => simpa using hm m (by omega)

theorem deref_out (h : List Vertex) (p : Nat) (hp : h.length ≤ p) : deref h p = nullVertex := by
  unfold deref
  simp [List.getD_eq_getElem?_getD, List.getElem?_eq_none hp]

/-! ## The Brooks estimator -/

theorem tmod_two_length (l : List Nat) : Int.tmod (l.length : Int) 2 = ((l.length : Int) % 2) := by
  rw [Int.tmod_eq_emod] <;> omega

theorem brooks_cases (s : State) :
    (brooksTight s ∧ brooksUpperBound s = s.MAX_DEGREE + 1) ∨
    (¬ brooksTight s ∧ brooksUpperBound s = s.MAX_DEGREE) := by
  unfold brooksUpperBound
  have hV : VERTICES s = (s.vertices.length : Int) := rfl
  rw [hV, tmod_two_length]
  by_cases hodd : ((s.vertices.length : Int) % 2) = 1
  · rw [if_pos hodd]
    rcases hv : s.vertices with _ | ⟨p0, rest⟩
    · rw [hv] at hodd; simp at hodd
    · simp only [List.getD_cons_zero, List.drop_succ_cons, List.drop_zero, List.all_eq_true,
        decide_eq_true_eq]
      have hlen : VERTICES s = ((p0 :: rest).length : Int) := by rw [hV, hv]
      have hoddV : VERTICES s % 2 = 1 := by rw [hV]; exact hodd
      by_cases h2 : (deref s.heap p0).degree ≠ 2 ∧
          (deref s.heap p0).degree ≠ ((p0 :: rest).length : Int) - 1
      · rw [if_pos h2]
        refine Or.inr ⟨?_, rfl⟩
        rintro (⟨_, d, hd, hd2⟩ | ⟨h0, _⟩)
        · have := hd p0 (by rw [hv]; exact List.mem_cons_self _ _)
          rw [hlen] at hd2
          omega
        · omega
      · rw [if_neg h2]
        by_cases hall : ∀ x ∈ rest, (deref s.heap x).degree = (deref s.heap p0).degree
        · rw [if_pos hall]
          refine Or.inl ⟨Or.inl ⟨hoddV, (deref s.heap p0).degree, ?_, ?_⟩, rfl⟩
          · intro p hp
            rw [hv] at hp
            rcases List.mem_cons.1 hp with h | h
            · rw [h]
            · exact hall p h
          · rw [hlen]; omega
        · rw [if_neg hall]
          refine Or.inr ⟨?_, rfl⟩
          rintro (⟨_, d, hd, _⟩ | ⟨h0, _⟩)
          · apply hall
            intro x hx
            rw [hd x (by rw [hv]; exact List.mem_cons_of_mem _ hx),
              hd p0 (by rw [hv]; exact List.mem_cons_self _ _)]
          · omega
  · rw [if_neg hodd]
    have he : VERTICES s % 2 = 0 := by rw [hV]; omega
    simp only [List.all_eq_true, decide_eq_true_eq]
    by_cases hall : ∀ x ∈ s.vertices, (deref s.heap x).degree = (s.vertices.length : Int) - 1
    · rw [if_pos hall]
      exact Or.inl ⟨Or.inr ⟨he, hall⟩, rfl⟩
    · rw [if_neg hall]
      refine Or.inr ⟨?_, rfl⟩
      rintro (⟨h1, _⟩ | ⟨_, h⟩)
      · omega
      · exact hall h

/-- C6: `brooksUpperBound` returns `MAX_DEGREE + 1` exactly when the vertex count is odd and all
degrees equal one value `d` with `d = 2` or `d = VERTICES - 1`, or the vertex count is even and all
degrees are `VERTICES - 1`; in every other case it returns `MAX_DEGREE`. -/
theorem brooksUpperBound_characterisation (s : State) :
    (brooksTight s → brooksUpperBound s = s.MAX_DEGREE + 1) ∧
    (¬ brooksTight s → brooksUpperBound s = s.MAX_DEGREE) := by
  rcases brooks_cases s with ⟨h, e⟩ | ⟨h, e⟩
  · exact ⟨fun _ => e, fun n => absurd h n⟩
  · exact ⟨fun t => absurd t h, fun _ => e⟩

set_option maxRecDepth 100000 in
theorem twoTriangles_shape :
    twoTriangles.vertices = [0, 1, 2, 3, 4, 5] ∧
    (deref twoTriangles.heap 0).adjacentVertices = [2, 1] ∧
    (deref twoTriangles.heap 1).adjacentVertices = [2, 0] := by decide

theorem twoTriangles_not_two_colorable : ¬ Colorable twoTriangles 2 := by
  rintro ⟨f, hf⟩
  have h0 := hf 0 (by rw [twoTriangles_shape.1]; decide)
  have h1 := hf 1 (by rw [twoTriangles_shape.1]; decide)
  have h2 := hf 2 (by rw [twoTriangles_shape.1]; decide)
  rw [twoTriangles_shape.2.1] at h0
  rw [twoTriangles_shape.2.2] at h1
  have a := h0.2 2 (by decide)
  have b := h0.2 1 (by decide)
  have c := h1.2 2 (by decide)
  omega

set_option maxRecDepth 100000 in
/-- C7: on two disjoint triangles (no isolated vertex, maximum degree 2, recorded in
`MAX_DEGREE`) `brooksUpperBound` returns 2, and the exhaustive search seeded with it reports 2,
although the graph has no proper coloring with 2 colors. -/
theorem brooksUpperBound_two_triangles :
    brooksUpperBound twoTriangles = 2 ∧ twoTriangles.MAX_DEGREE = 2 ∧
    (∀ p ∈ twoTriangles.vertices, (deref twoTriangles.heap p).degree = 2) ∧
    (coloring 8 twoTriangles).map Prod.fst = some 2 ∧
    ¬ Colorable twoTriangles 2 :=
  ⟨by decide, by decide, by decide, by decide, twoTriangles_not_two_colorable⟩

/-! ## The greedy estimators: shared steps -/

theorem sameGraph_refl (s : State) : SameGraph s s :=
  ⟨rfl, rfl, rfl, fun _ => ⟨rfl, rfl, rfl, rfl, rfl⟩⟩

theorem sameGraph_trans {s t u : State} (h1 : SameGraph s t) (h2 : SameGraph t u) :
    SameGraph s u := by
  obtain ⟨a1, b1, c1, d1⟩ := h1
  obtain ⟨a2, b2, c2, d2⟩ := h2
  refine ⟨a2.trans a1, b2.trans b1, c2.trans c1, fun p => ?_⟩
  obtain ⟨e1, e2, e3, e4, e5⟩ := d1 p
  obtain ⟨f1, f2, f3, f4, f5⟩ := d2 p
  exact ⟨f1.trans e1, f2.trans e2, f3.trans e3, f4.trans e4, f5.trans e5⟩

theorem sameGraph_setVertexColor (s : State) (x : Nat) (c : Int) :
    SameGraph s (setVertexColor s x c) := by
  refine ⟨rfl, modify_heap_length _ _ _, rfl, fun p => ⟨?_, ?_, ?_, ?_, ?_⟩⟩
  · exact deref_modify_field (fun v => v.adjacentVertices) s x p _ (fun _ => rfl)
  · exact deref_modify_field (fun v => v.degree) s x p _ (fun _ => rfl)
  · exact deref_modify_field (fun v => v.availableColors) s x p _ (fun _ => rfl)
  · exact deref_modify_field (fun v => v.number) s x p _ (fun _ => rfl)
  · exact deref_modify_field (fun v => v.neighbors) s x p _ (fun _ => rfl)

theorem setVertexColor_color (s : State) (x q : Nat) (c : Int) (hx : x < s.heap.length) :
    (deref (setVertexColor s x c).heap q).color = if q = x then c else (deref s.heap q).color := by
  unfold setVertexColor
  rw [deref_modify]
  by_cases h : q = x
  · rw [if_pos ⟨h, hx⟩, if_pos h]
  · rw [if_neg (fun c => h c.1), if_neg h]

theorem wellFormed_of_sameGraph {s t : State} (h : SameGraph s t) (hw : WellFormed s) :
    WellFormed t := by
  obtain ⟨hv, hl, _, hd⟩ := h
  obtain ⟨n, v, a⟩ := hw
  refine ⟨by rw [hv]; exact n, ?_, ?_⟩
  · intro p hp
    rw [hl]
    exact v p (by rw [← hv]; exact hp)
  · intro p hp q hq
    rw [hv] at hp ⊢
    rw [(hd p).1] at hq
    rw [(hd q).1]
    exact a p hp q hq

/-- Coloring an uncolored vertex that has no neighbor of color `c` with `c` keeps the partial
coloring proper. -/
theorem partialProper_step {t : State} {c : Int} {x : Nat} (hw : WellFormed t)
    (hp : PartialProper t (c + 1)) (hc : 0 ≤ c) (hx : x ∈ t.vertices)
    (hn : ∀ r ∈ (deref t.heap x).adjacentVertices, (deref t.heap r).color ≠ c) :
    PartialProper (setVertexColor t x c) (c + 1) := by
  obtain ⟨_, hv, ha⟩ := hw
  have hxl := hv x hx
  have hadj : ∀ p, (deref (setVertexColor t x c).heap p).adjacentVertices =
      (deref t.heap p).adjacentVertices := fun p => ((sameGraph_setVertexColor t x c).2.2.2 p).1
  constructor
  · intro p hpv
    rw [setVertexColor_color _ _ _ _ hxl]
    by_cases h : p = x
    · rw [if_pos h]; right; omega
    · rw [if_neg h]; exact hp.1 p hpv
  · intro p hpv q hq
    rw [hadj] at hq
    rw [setVertexColor_color _ _ _ _ hxl, setVertexColor_color _ _ _ _ hxl]
    by_cases h : p = x
    · subst h
      have hqx : q ≠ p := (ha p hx q hq).2.1
      rw [if_pos rfl, if_neg hqx]
      intro _ e
      exact hn q hq e.symm
    · rw [if_neg h]
      by_cases h2 : q = x
      · subst h2
        rw [if_pos rfl]
        intro _
        exact hn p (ha p hpv q hq).2.2
      · rw [if_neg h2]
        exact hp.2 p hpv q hq

theorem classesUsed_step {t : State} {c d : Int} {x : Nat} (hxl : x < t.heap.length)
    (hu : ClassesUsed t d) (hx : (deref t.heap x).color = -1) :
    ClassesUsed (setVertexColor t x c) d := by
  intro e he0 he1
  obtain ⟨p, hp, hpc⟩ := hu e he0 he1
  refine ⟨p, hp, ?_⟩
  rw [setVertexColor_color _ _ _ _ hxl]
  by_cases h : p = x
  · subst h; omega
  · rw [if_neg h]; exact hpc

theorem classesUsed_new {t : State} {c : Int} {x : Nat} (hxl : x < t.heap.length)
    (hxv : x ∈ t.vertices) (hu : ClassesUsed t c) (hx : (deref t.heap x).color = -1) :
    ClassesUsed (setVertexColor t x c) (c + 1) := by
  intro e he0 he1
  by_cases h : e = c
  · subst h
    refine ⟨x, hxv, ?_⟩
    rw [setVertexColor_color _ _ _ _ hxl, if_pos rfl]
  · exact classesUsed_step hxl hu hx e he0 (by omega)

theorem candidates_step {t : State} {c : Int} {x : Nat} {cand cand1 : List Nat}
    (hxl : x < t.heap.length) (hcand : Candidates t c cand)
    (hsub : ∀ q ∈ cand1, q ∈ cand ∧ q ≠ x ∧ x ∉ (deref t.heap q).adjacentVertices) :
    Candidates (setVertexColor t x c) c cand1 := by
  intro q hq
  obtain ⟨hqc, hqx, hxq⟩ := hsub q hq
  obtain ⟨hqv, hqu, hqn⟩ := hcand q hqc
  have hadj : (deref (setVertexColor t x c).heap q).adjacentVertices =
      (deref t.heap q).adjacentVertices := ((sameGraph_setVertexColor t x c).2.2.2 q).1
  refine ⟨hqv, ?_, ?_⟩
  · rw [setVertexColor_color _ _ _ _ hxl, if_neg hqx]; exact hqu
  · intro r hr
    rw [hadj] at hr
    rw [setVertexColor_color _ _ _ _ hxl]
    by_cases h : r = x
    · subst h; exact absurd hr hxq
    · rw [if_neg h]; exact hqn r hr

/-- The number of classes never exceeds the number of vertices. -/
theorem classesUsed_le (t : State) (c : Int) (h : ClassesUsed t c) :
    c ≤ (t.vertices.length : Int) := by
  by_contra hlt
  have hsub : Finset.range c.toNat ⊆
      (t.vertices.map (fun p => (deref t.heap p).color.toNat)).toFinset := by
    intro d hd
    rw [Finset.mem_range] at hd
    obtain ⟨p, hp, hpc⟩ := h (d : Int) (by omega) (by omega)
    rw [List.mem_toFinset, List.mem_map]
    exact ⟨p, hp, by rw [hpc]; simp⟩
  have h1 := Finset.card_le_card hsub
  have h2 := List.toFinset_card_le (t.vertices.map (fun p => (deref t.heap p).color.toNat))
  rw [Finset.card_range] at h1
  rw [List.length_map] at h2
  omega

/-! ## Welsh-Powell -/

theorem neighbors_iff (heap : List Vertex) (p1 p2 : Nat) :
    neighbors heap p1 p2 = true ↔ p2 ∈ (deref heap p1).adjacentVertices := by
  unfold neighbors
  simp

theorem partialProper_mono {t : State} {c d : Int} (h : PartialProper t c) (hcd : c ≤ d) :
    PartialProper t d := by
  refine ⟨fun p hp => ?_, h.2⟩
  rcases h.1 p hp with h1 | h1
  · exact Or.inl h1
  · exact Or.inr ⟨h1.1, by omega⟩

theorem selectNextVertexFF_found (t : State) (hvc : t.VERTEX_COUNTER = -1)
    (h : selectNextVertexFF t ≠ -1) :
    t.vertices.getD (selectNextVertexFF t).toNat 0 ∈ t.vertices ∧
    (deref t.heap (t.vertices.getD (selectNextVertexFF t).toNat 0)).color = -1 := by
  unfold selectNextVertexFF at h ⊢
  rw [hvc] at h ⊢
  simp only [Int.reduceNeg, Int.reduceAdd, Int.toNat_zero, List.drop_zero, neg_add_cancel] at h ⊢
  obtain ⟨j, e, hj, ht, _⟩ := scanFrom_found _ _ _ h
  rw [e]
  simp only [zero_add, Int.toNat_ofNat]
  constructor
  · rw [List.getD_eq_getElem _ _ hj]
    exact List.getElem_mem _
  · simpa using ht

theorem selectNextVertexFF_none (t : State) (hvc : t.VERTEX_COUNTER = -1)
    (h : selectNextVertexFF t = -1) : ∀ p ∈ t.vertices, (deref t.heap p).color ≠ -1 := by
  unfold selectNextVertexFF at h
  rw [hvc] at h
  simp only [Int.reduceNeg, Int.reduceAdd, Int.toNat_zero, List.drop_zero, neg_add_cancel] at h
  rw [scanFrom_eq_neg_one] at h
  intro p hp
  simpa using h p hp

theorem wpInner_spec (s0 : State) (hw : WellFormed s0) (c : Int) (hc : 0 ≤ c) :
    ∀ (fuel : Nat) (t : State) (cand : List Nat), SameGraph s0 t → PartialProper t (c + 1) →
      ClassesUsed t (c + 1) → Candidates t c cand → cand.length < fuel →
      ∃ t1, wpInner c fuel t cand = some t1 ∧ SameGraph s0 t1 ∧ PartialProper t1 (c + 1) ∧
        ClassesUsed t1 (c + 1) := by
  intro fuel
  induction fuel with
  | zero => intro t cand _ _ _ _ hl; omega
  | succ fuel ih =>
    intro t cand hsg hpp hcu hcand hl
    cases cand with
    | nil => exact ⟨t, rfl, hsg, hpp, hcu⟩
    | cons x rest =>
      have hwt : WellFormed t := wellFormed_of_sameGraph hsg hw
      obtain ⟨hxv, hxu, hxn⟩ := hcand x (List.mem_cons_self _ _)
      have hxl : x < t.heap.length := hwt.2.1 x hxv
      have hsg1 := sameGraph_setVertexColor t x c
      have hadj : ∀ p, (deref (setVertexColor t x c).heap p).adjacentVertices =
          (deref t.heap p).adjacentVertices := fun p => (hsg1.2.2.2 p).1
      show ∃ t1, wpInner c fuel (setVertexColor t x c)
        (removeNeighbors (setVertexColor t x c).heap x (x :: rest)) = some t1 ∧ _
      apply ih
      · exact sameGraph_trans hsg hsg1
      · exact partialProper_step hwt hpp hc hxv hxn
      · exact classesUsed_step hxl hcu hxu
      · apply candidates_step hxl hcand
        intro q hq
        unfold removeNeighbors at hq
        rw [List.mem_filter] at hq
        obtain ⟨hq1, hq2⟩ := hq
        simp only [Bool.and_eq_true, decide_eq_true_eq, Bool.not_eq_true',
          ← Bool.not_eq_true, neighbors_iff] at hq2
        refine ⟨hq1, fun e => hq2.1 e.symm, fun hxq => ?_⟩
        apply hq2.2
        rw [hadj]
        exact (hwt.2.2 q (hcand q hq1).1 x hxq).2.2
      · unfold removeNeighbors
        have hle : (List.filter (fun q => decide (x ≠ q) &&
            !neighbors (setVertexColor t x c).heap x q) (x :: rest)).length ≤ rest.length := by
          rw [List.filter_cons_of_neg (by simp)]
          exact List.length_filter_le _ _
        simp only [List.length_cons] at hl
        omega

theorem wpOuter_spec (s0 : State) (hw : WellFormed s0) (inner : Nat)
    (hinner : s0.vertices.length < inner) (hvc : s0.VERTEX_COUNTER = -1) :
    ∀ (fuel : Nat) (t : State) (c : Int), 0 ≤ c → SameGraph s0 t → PartialProper t c →
      ClassesUsed t c → (s0.vertices.length : Int) + 1 ≤ fuel + c →
      ∃ r s2, wpOuter inner fuel t (selectNextVertexFF t) c = some (r, s2) ∧ SameGraph s0 s2 ∧
        ProperlyColored s2 r ∧ ClassesUsed s2 r ∧ 0 ≤ r := by
  intro fuel
  induction fuel with
  | zero =>
    intro t c _ hsg _ hcu hl
    have := classesUsed_le t c hcu
    rw [hsg.1] at this
    omega
  | succ fuel ih =>
    intro t c hc hsg hpp hcu hl
    have hwt : WellFormed t := wellFormed_of_sameGraph hsg hw
    have hvct : t.VERTEX_COUNTER = -1 := by rw [hsg.2.2.1, hvc]
    unfold wpOuter
    by_cases hsel : selectNextVertexFF t = -1
    · rw [if_neg (by simpa using hsel)]
      refine ⟨c, t, rfl, hsg, ?_, hcu, hc⟩
      intro p hp
      have hne := selectNextVertexFF_none t hvct hsel p hp
      rcases hpp.1 p hp with h1 | h1
      · exact absurd h1 hne
      · exact ⟨h1.1, h1.2, fun q hq => hpp.2 p hp q hq hne⟩
    · rw [if_pos hsel]
      obtain ⟨hxv, hxu⟩ := selectNextVertexFF_found t hvct hsel
      generalize t.vertices.getD (selectNextVertexFF t).toNat 0 = x at hxv hxu ⊢
      have hxl : x < t.heap.length := hwt.2.1 x hxv
      have hsg1 := sameGraph_setVertexColor t x c
      have hadj : ∀ p, (deref (setVertexColor t x c).heap p).adjacentVertices =
          (deref t.heap p).adjacentVertices := fun p => (hsg1.2.2.2 p).1
      have hcol : ∀ r ∈ t.vertices, (deref t.heap r).color ≠ c := by
        intro r hr
        rcases hpp.1 r hr with h1 | h1 <;> omega
      have hxn : ∀ r ∈ (deref t.heap x).adjacentVertices, (deref t.heap r).color ≠ c :=
        fun r hr => hcol r (hwt.2.2 x hxv r hr).1
      have hpp1 := partialProper_step hwt (partialProper_mono hpp (by omega)) hc hxv hxn
      have hcu1 := classesUsed_new hxl hxv hcu hxu
      have hcand : Candidates (setVertexColor t x c) c
          (removeNeighbors (setVertexColor t x c).heap x
            (uncoloredVertices (setVertexColor t x c))) := by
        intro q hq
        unfold removeNeighbors uncoloredVertices at hq
        rw [List.mem_filter, List.mem_filter] at hq
        obtain ⟨⟨hq1, hq3⟩, hq2⟩ := hq
        simp only [Bool.and_eq_true, decide_eq_true_eq, Bool.not_eq_true',
          ← Bool.not_eq_true, neighbors_iff] at hq2
        have hq1t : q ∈ t.vertices := hq1
        refine ⟨hq1, by simpa using hq3, ?_⟩
        intro r hr
        rw [hadj] at hr
        rw [setVertexColor_color _ _ _ _ hxl]
        by_cases h : r = x
        · subst h
          exfalso
          apply hq2.2
          rw [hadj]
          exact (hwt.2.2 q hq1t r hr).2.2
        · rw [if_neg h]
          exact hcol r (hwt.2.2 q hq1t r hr).1
      have hlen : (removeNeighbors (setVertexColor t x c).heap x
          (uncoloredVertices (setVertexColor t x c))).length < inner := by
        unfold removeNeighbors uncoloredVertices
        have h1 := List.length_filter_le (fun q => decide (x ≠ q) &&
          !neighbors (setVertexColor t x c).heap x q)
          (List.filter (fun p => decide ((deref (setVertexColor t x c).heap p).color = -1))
            (setVertexColor t x c).vertices)
        have h2 := List.length_filter_le
          (fun p => decide ((deref (setVertexColor t x c).heap p).color = -1))
          (setVertexColor t x c).vertices
        have h3 : (setVertexColor t x c).vertices = s0.vertices := hsg.1
        have h4 : (setVertexColor t x c).vertices.length = s0.vertices.length := by rw [h3]
        omega
      obtain ⟨t1, e1, hsgt1, hppt1, hcut1⟩ := wpInner_spec s0 hw c hc inner _ _
        (sameGraph_trans hsg hsg1) hpp1 hcu1 hcand hlen
      simp only [e1]
      exact ih t1 (c + 1) (by omega) hsgt1 hppt1 hcut1 (by push_cast at hl ⊢; omega)

/-! ## Recursive Largest First -/

theorem findSecondaryLoop_mem (heap : List Vertex) (setU : List Nat) :
    ∀ (l : List Nat) (max : Int) (cur : Nat),
      findSecondaryLoop heap setU l max cur = cur ∨ findSecondaryLoop heap setU l max cur ∈ l := by
  intro l
  induction l with
  | nil => intro max cur; exact Or.inl rfl
  | cons v rest ih =>
    intro max cur
    unfold findSecondaryLoop
    simp only
    split
    · rcases ih _ v with h | h
      · right; rw [h]; exact List.mem_cons_self _ _
      · right; exact List.mem_cons_of_mem _ h
    · rcases ih max cur with h | h
      · left; exact h
      · right; exact List.mem_cons_of_mem _ h

theorem findSecondaryVertex_mem (heap : List Vertex) (setU setV : List Nat)
    (h : 0 < setV.length) : findSecondaryVertex heap setU setV ∈ setV := by
  cases setV with
  | nil => simp at h
  | cons v rest =>
    unfold findSecondaryVertex findSecondaryLoop
    simp only
    have hpos : ((List.filter (fun u => neighbors heap v u) setU).length : Int) > -1 := by omega
    rw [if_pos hpos]
    rcases findSecondaryLoop_mem heap setU rest _ v with e | e
    · rw [e]; exact List.mem_cons_self _ _
    · exact List.mem_cons_of_mem _ e

theorem rlfInner_spec (s0 : State) (hw : WellFormed s0) (c : Int) (hc : 0 ≤ c) :
    ∀ (fuel : Nat) (t : State) (setU setV : List Nat), SameGraph s0 t →
      PartialProper t (c + 1) → ClassesUsed t (c + 1) → Candidates t c setV →
      setV.length < fuel →
      ∃ t1, rlfInner c fuel t setU setV = some t1 ∧ SameGraph s0 t1 ∧
        PartialProper t1 (c + 1) ∧ ClassesUsed t1 (c + 1) := by
  intro fuel
  induction fuel with
  | zero => intro t setU setV _ _ _ _ hl; omega
  | succ fuel ih =>
    intro t setU setV hsg hpp hcu hcand hl
    unfold rlfInner
    by_cases hpos : setV.length > 0
    · rw [if_pos hpos]
      simp only
      have hwt : WellFormed t := wellFormed_of_sameGraph hsg hw
      have hmem := findSecondaryVertex_mem t.heap setU setV hpos
      generalize findSecondaryVertex t.heap setU setV = x at hmem ⊢
      obtain ⟨hxv, hxu, hxn⟩ := hcand x hmem
      have hxl : x < t.heap.length := hwt.2.1 x hxv
      have hsg1 := sameGraph_setVertexColor t x c
      have hadj : ∀ p, (deref (setVertexColor t x c).heap p).adjacentVertices =
          (deref t.heap p).adjacentVertices := fun p => (hsg1.2.2.2 p).1
      apply ih
      · exact sameGraph_trans hsg hsg1
      · exact partialProper_step hwt hpp hc hxv hxn
      · exact classesUsed_step hxl hcu hxu
      · apply candidates_step hxl hcand
        intro q hq
        unfold updateUV at hq
        rw [List.mem_filter] at hq
        obtain ⟨hq1, hq2⟩ := hq
        simp only [Bool.and_eq_true, decide_eq_true_eq, Bool.not_eq_true',
          ← Bool.not_eq_true, neighbors_iff] at hq2
        refine ⟨hq1, hq2.1, fun hxq => ?_⟩
        apply hq2.2
        rw [hadj]
        exact hxq
      · unfold updateUV
        simp only
        have hlt : (List.filter (fun p => decide (p ≠ x) &&
            !neighbors (setVertexColor t x c).heap p x) setV).length < setV.length := by
          rw [List.length_filter_lt_length_iff_exists]
          exact ⟨x, hmem, by simp⟩
        omega
    · rw [if_neg hpos]
      exact ⟨t, rfl, hsg, hpp, hcu⟩

theorem rlfOuter_spec (s0 : State) (hw : WellFormed s0) (inner : Nat)
    (hinner : s0.vertices.length < inner) (hvc : s0.VERTEX_COUNTER = -1) :
    ∀ (fuel : Nat) (t : State) (c : Int), 0 ≤ c → SameGraph s0 t → PartialProper t c →
      ClassesUsed t c → (s0.vertices.length : Int) + 1 ≤ fuel + c →
      ∃ r s2, rlfOuter inner fuel t (selectNextVertexFF t) c = some (r, s2) ∧ SameGraph s0 s2 ∧
        ProperlyColored s2 r ∧ ClassesUsed s2 r ∧ 0 ≤ r := by
  intro fuel
  induction fuel with
  | zero =>
    intro t c _ hsg _ hcu hl
    have := classesUsed_le t c hcu
    rw [hsg.1] at this
    omega
  | succ fuel ih =>
    intro t c hc hsg hpp hcu hl
    have hwt : WellFormed t := wellFormed_of_sameGraph hsg hw
    have hvct : t.VERTEX_COUNTER = -1 := by rw [hsg.2.2.1, hvc]
    unfold rlfOuter
    by_cases hsel : selectNextVertexFF t = -1
    · rw [if_neg (by simpa using hsel)]
      refine ⟨c, t, rfl, hsg, ?_, hcu, hc⟩
      intro p hp
      have hne := selectNextVertexFF_none t hvct hsel p hp
      rcases hpp.1 p hp with h1 | h1
      · exact absurd h1 hne
      · exact ⟨h1.1, h1.2, fun q hq => hpp.2 p hp q hq hne⟩
    · rw [if_pos hsel]
      obtain ⟨hxv, hxu⟩ := selectNextVertexFF_found t hvct hsel
      generalize t.vertices.getD (selectNextVertexFF t).toNat 0 = x at hxv hxu ⊢
      have hxl : x < t.heap.length := hwt.2.1 x hxv
      have hsg1 := sameGraph_setVertexColor t x c
      have hadj : ∀ p, (deref (setVertexColor t x c).heap p).adjacentVertices =
          (deref t.heap p).adjacentVertices := fun p => (hsg1.2.2.2 p).1
      have hcol : ∀ r ∈ t.vertices, (deref t.heap r).color ≠ c := by
        intro r hr
        rcases hpp.1 r hr with h1 | h1 <;> omega
      have hxn : ∀ r ∈ (deref t.heap x).adjacentVertices, (deref t.heap r).color ≠ c :=
        fun r hr => hcol r (hwt.2.2 x hxv r hr).1
      have hpp1 := partialProper_step hwt (partialProper_mono hpp (by omega)) hc hxv hxn
      have hcu1 := classesUsed_new hxl hxv hcu hxu
      have hcand : Candidates (setVertexColor t x c) c
          (createSetsUV (setVertexColor t x c) x).2 := by
        intro q hq
        unfold createSetsUV at hq
        rw [List.mem_filter, List.mem_filter] at hq
        obtain ⟨⟨hq1, _⟩, hq4⟩ := hq
        rw [Bool.not_eq_true', Bool.or_eq_false_iff] at hq4
        have hq3 : (deref (setVertexColor t x c).heap q).color = -1 := by
          simpa using hq4.1
        have hq2 : ¬ x ∈ (deref (setVertexColor t x c).heap q).adjacentVertices := by
          rw [← neighbors_iff, hq4.2]; simp
        have hq1t : q ∈ t.vertices := hq1
        refine ⟨hq1, hq3, ?_⟩
        intro r hr
        rw [hadj] at hr
        rw [setVertexColor_color _ _ _ _ hxl]
        by_cases h : r = x
        · subst h
          exfalso
          apply hq2
          rw [hadj]
          exact hr
        · rw [if_neg h]
          exact hcol r (hwt.2.2 q hq1t r hr).1
      have hlen : (createSetsUV (setVertexColor t x c) x).2.length < inner := by
        unfold createSetsUV
        simp only
        have h1 := List.length_filter_le (fun p =>
          !(decide ((deref (setVertexColor t x c).heap p).color ≠ -1) ||
            neighbors (setVertexColor t x c).heap p x))
          (List.filter (fun p => decide (p ≠ x)) (setVertexColor t x c).vertices)
        have h2 := List.length_filter_le (fun p => decide (p ≠ x))
          (setVertexColor t x c).vertices
        have h3 : (setVertexColor t x c).vertices = s0.vertices := hsg.1
        have h4 : (setVertexColor t x c).vertices.length = s0.vertices.length := by rw [h3]
        omega
      obtain ⟨t1, e1, hsgt1, hppt1, hcut1⟩ := rlfInner_spec s0 hw c hc inner _
        (createSetsUV (setVertexColor t x c) x).1 _
        (sameGraph_trans hsg hsg1) hpp1 hcu1 hcand hlen
      simp only [e1]
      exact ih t1 (c + 1) (by omega) hsgt1 hppt1 hcut1 (by push_cast at hl ⊢; omega)

/-! ## Frame of the greedy estimators -/

theorem foldl_modify_vertices (f : Vertex → Vertex) (l : List Nat) (s : State) :
    (l.foldl (fun t p => modify t p f) s).vertices = s.vertices ∧
    (l.foldl (fun t p => modify t p f) s).heap.length = s.heap.length ∧
    (l.foldl (fun t p => modify t p f) s).VERTEX_COUNTER = s.VERTEX_COUNTER := by
  induction l generalizing s with
  | nil => exact ⟨rfl, rfl, rfl⟩
  | cons x xs ih =>
    rw [List.foldl_cons]
    obtain ⟨a, b, c⟩ := ih (modify s x f)
    exact ⟨a, by rw [b, modify_heap_length], c⟩

theorem foldl_modify_field {α : Type} (g : Vertex → α) (f : Vertex → Vertex)
    (hf : ∀ v, g (f v) = g v) (l : List Nat) (s : State) (q : Nat) :
    g (deref (l.foldl (fun t p => modify t p f) s).heap q) = g (deref s.heap q) := by
  induction l generalizing s with
  | nil => rfl
  | cons x xs ih =>
    rw [List.foldl_cons, ih, deref_modify_field g s x q f hf]

theorem foldl_modify_const {α : Type} (g : Vertex → α) (f : Vertex → Vertex) (k : α)
    (hf : ∀ v, g (f v) = k) (l : List Nat) (s : State) (q : Nat) (hq : q ∈ l)
    (hl : q < s.heap.length) :
    g (deref (l.foldl (fun t p => modify t p f) s).heap q) = k := by
  induction l generalizing s with
  | nil => cases hq
  | cons x xs ih =>
    rw [List.foldl_cons]
    by_cases hx : q ∈ xs
    · exact ih (modify s x f) hx (by rw [modify_heap_length]; exact hl)
    · have hqx : q = x := by
        rcases List.mem_cons.1 hq with h | h
        · exact h
        · exact absurd h hx
      subst hqx
      have key : ∀ (l2 : List Nat) (s2 : State), q ∉ l2 → g (deref s2.heap q) = k →
          g (deref (l2.foldl (fun t p => modify t p f) s2).heap q) = k := by
        intro l2
        induction l2 with
        | nil => intro s2 _ h; exact h
        | cons y ys ih2 =>
          intro s2 hn h
          rw [List.foldl_cons]
          apply ih2
          · exact fun c => hn (List.mem_cons_of_mem _ c)
          · rw [deref_modify_ne _ _ _ _ (fun c => hn (by rw [c]; exact List.mem_cons_self _ _))]
            exact h
      apply key xs _ hx
      rw [deref_modify_self _ _ _ hl, hf]

theorem sameGraph_symm_fields {s t : State} (h : SameGraph s t) :
    ∀ p, (deref t.heap p).adjacentVertices = (deref s.heap p).adjacentVertices := fun p => (h.2.2.2 p).1

theorem wpInner_frame (c : Int) : ∀ (fuel : Nat) (t : State) (cand : List Nat) (t1 : State),
    wpInner c fuel t cand = some t1 → SameGraph t t1 := by
  intro fuel
  induction fuel with
  | zero => intro t cand t1 h; simp [wpInner] at h
  | succ fuel ih =>
    intro t cand t1 h
    cases cand with
    | nil =>
      simp only [wpInner, Option.some.injEq] at h
      rw [← h]; exact sameGraph_refl t
    | cons x rest =>
      exact sameGraph_trans (sameGraph_setVertexColor t x c) (ih _ _ _ h)

theorem wpOuter_frame (inner : Nat) : ∀ (fuel : Nat) (t : State) (idx c r : Int) (s2 : State),
    wpOuter inner fuel t idx c = some (r, s2) → SameGraph t s2 := by
  intro fuel
  induction fuel with
  | zero => intro t idx c r s2 h; simp [wpOuter] at h
  | succ fuel ih =>
    intro t idx c r s2 h
    unfold wpOuter at h
    split at h
    · simp only at h
      split at h
      · cases h
      · next t1 e1 =>
        exact sameGraph_trans (sameGraph_trans (sameGraph_setVertexColor t _ c)
          (wpInner_frame c _ _ _ _ e1)) (ih _ _ _ _ _ h)
    · simp only [Option.some.injEq, Prod.mk.injEq] at h
      rw [← h.2]; exact sameGraph_refl t

theorem rlfInner_frame (c : Int) : ∀ (fuel : Nat) (t : State) (setU setV : List Nat)
    (t1 : State), rlfInner c fuel t setU setV = some t1 → SameGraph t t1 := by
  intro fuel
  induction fuel with
  | zero => intro t setU setV t1 h; simp [rlfInner] at h
  | succ fuel ih =>
    intro t setU setV t1 h
    unfold rlfInner at h
    split at h
    · exact sameGraph_trans (sameGraph_setVertexColor t _ c) (ih _ _ _ _ h)
    · simp only [Option.some.injEq] at h
      rw [← h]; exact sameGraph_refl t

theorem rlfOuter_frame (inner : Nat) : ∀ (fuel : Nat) (t : State) (idx c r : Int) (s2 : State),
    rlfOuter inner fuel t idx c = some (r, s2) → SameGraph t s2 := by
  intro fuel
  induction fuel with
  | zero => intro t idx c r s2 h; simp [rlfOuter] at h
  | succ fuel ih =>
    intro t idx c r s2 h
    unfold rlfOuter at h
    split at h
    · simp only at h
      split at h
      · cases h
      · next t1 e1 =>
        exact sameGraph_trans (sameGraph_trans (sameGraph_setVertexColor t _ c)
          (rlfInner_frame c _ _ _ _ _ e1)) (ih _ _ _ _ _ h)
    · simp only [Option.some.injEq, Prod.mk.injEq] at h
      rw [← h.2]; exact sameGraph_refl t

/-- What the closing loop of the two estimators leaves behind. -/
theorem clearColoring_spec (s : State) :
    (clearColoring s).vertices = s.vertices ∧
    (∀ p ∈ s.vertices, (deref (clearColoring s).heap p).color = -1 ∧
      (deref (clearColoring s).heap p).nbRecolorings = 0 ∧
      (deref (clearColoring s).heap p).nbConflicts = 0) ∧
    (∀ p, (deref (clearColoring s).heap p).degree = (deref s.heap p).degree ∧
      (deref (clearColoring s).heap p).availableColors = (deref s.heap p).availableColors ∧
      (deref (clearColoring s).heap p).adjacentVertices = (deref s.heap p).adjacentVertices) := by
  unfold clearColoring
  refine ⟨(foldl_modify_vertices _ _ _).1, ?_, ?_⟩
  · intro p hp
    by_cases hl : p < s.heap.length
    · exact ⟨foldl_modify_const (fun v => v.color) _ (-1) (fun _ => rfl) _ _ _ hp hl,
        foldl_modify_const (fun v => v.nbRecolorings) _ 0 (fun _ => rfl) _ _ _ hp hl,
        foldl_modify_const (fun v => v.nbConflicts) _ 0 (fun _ => rfl) _ _ _ hp hl⟩
    · have hout := deref_out (List.foldl (fun t p => modify t p fun v =>
          { v with color := -1, nbRecolorings := 0, nbConflicts := 0 }) s s.vertices).heap p
        (by rw [(foldl_modify_vertices _ _ _).2.1]; omega)
      rw [hout]
      exact ⟨rfl, rfl, rfl⟩
  · intro p
    exact ⟨foldl_modify_field (fun v => v.degree)
        (fun v => { v with color := -1, nbRecolorings := 0, nbConflicts := 0 }) (fun _ => rfl) _ _ _,
      foldl_modify_field (fun v => v.availableColors)
        (fun v => { v with color := -1, nbRecolorings := 0, nbConflicts := 0 }) (fun _ => rfl) _ _ _,
      foldl_modify_field (fun v => v.adjacentVertices)
        (fun v => { v with color := -1, nbRecolorings := 0, nbConflicts := 0 }) (fun _ => rfl) _ _ _⟩

/-! ## The greedy estimators: results -/

theorem wellFormed_sortFrom (s : State) (cmp : List Vertex → Nat → Nat → Int)
    (hw : WellFormed s) : WellFormed (sortFrom s 0 cmp) := by
  have hp := sortFrom_perm s 0 cmp
  have hh : (sortFrom s 0 cmp).heap = s.heap := rfl
  obtain ⟨n, v, a⟩ := hw
  refine ⟨hp.nodup_iff.2 n, ?_, ?_⟩
  · intro p hpm
    rw [hh]
    exact v p (hp.mem_iff.1 hpm)
  · intro p hpm q hq
    rw [hh] at hq ⊢
    obtain ⟨a1, a2, a3⟩ := a p (hp.mem_iff.1 hpm) q hq
    exact ⟨hp.mem_iff.2 a1, a2, a3⟩

theorem colorable_of_properlyColored {s t : State} {k : Int} (hw : WellFormed s)
    (hv : ∀ p, p ∈ s.vertices → p ∈ t.vertices)
    (hadj : ∀ p, (deref t.heap p).adjacentVertices = (deref s.heap p).adjacentVertices)
    (h : ProperlyColored t k) : Colorable s k.toNat := by
  refine ⟨fun p => (deref t.heap p).color.toNat, fun p hp => ⟨?_, ?_⟩⟩
  · obtain ⟨h0, h1, _⟩ := h p (hv p hp)
    show (deref t.heap p).color.toNat < k.toNat
    omega
  · intro q hq
    obtain ⟨h0, _, h2⟩ := h p (hv p hp)
    obtain ⟨g0, _, _⟩ := h q (hv q (hw.2.2 p hp q hq).1)
    have := h2 q (by rw [hadj]; exact hq)
    show (deref t.heap p).color.toNat ≠ (deref t.heap q).color.toNat
    omega

theorem chromatic_le_of_colorable {s : State} {n k : Nat} (hn : IsChromaticNumber s n)
    (hk : Colorable s k) : n ≤ k := by
  by_contra h
  exact hn.2 k (by omega) hk

/-- C8: on a simple graph with every vertex uncolored and `VERTEX_COUNTER = -1`, `upperBoundWP`
returns (any `fuel` above the vertex count is enough) the number `r` of color classes of the
coloring its outer loop leaves in `s2`: that coloring is proper with colors in `[0, r)`, every
class is used, the graph is the one of `s`, and so `r` is at least the chromatic number. -/
theorem upperBoundWP_proper_coloring (s : State) (fuel : Nat) (hw : WellFormed s)
    (hu : Uncolored s) (hvc : s.VERTEX_COUNTER = -1) (hf : s.vertices.length < fuel) :
    ∃ r s2, wpOuter fuel fuel (sortFrom s 0 compareByDegree)
        (selectNextVertexFF (sortFrom s 0 compareByDegree)) 0 = some (r, s2) ∧
      upperBoundWP fuel s = some (r, clearColoring s2) ∧
      ProperlyColored s2 r ∧ ClassesUsed s2 r ∧ s2.vertices.Perm s.vertices ∧
      (∀ p, (deref s2.heap p).adjacentVertices = (deref s.heap p).adjacentVertices) ∧
      Colorable s r.toNat ∧ ∀ n, IsChromaticNumber s n → (n : Int) ≤ r := by
  have hp := sortFrom_perm s 0 compareByDegree
  have hw1 := wellFormed_sortFrom s compareByDegree hw
  have hlen : (sortFrom s 0 compareByDegree).vertices.length = s.vertices.length := hp.length_eq
  obtain ⟨r, s2, e, hsg, hpc, hcu, hr⟩ := wpOuter_spec (sortFrom s 0 compareByDegree) hw1 fuel
    (by rw [hlen]; exact hf) hvc fuel (sortFrom s 0 compareByDegree) 0 (le_refl 0)
    (sameGraph_refl _)
    ⟨fun p hpm => Or.inl (hu p (hp.mem_iff.1 hpm)),
      fun p hpm q _ hc => absurd (hu p (hp.mem_iff.1 hpm)) hc⟩
    (fun d h0 h1 => by omega) (by rw [hlen]; omega)
  have hadj : ∀ p, (deref s2.heap p).adjacentVertices = (deref s.heap p).adjacentVertices :=
    fun p => (hsg.2.2.2 p).1
  have hcol : Colorable s r.toNat :=
    colorable_of_properlyColored hw (fun p hpm => by rw [hsg.1]; exact hp.mem_iff.2 hpm) hadj hpc
  refine ⟨r, s2, e, ?_, hpc, hcu, by rw [hsg.1]; exact hp, hadj, hcol, ?_⟩
  · unfold upperBoundWP
    simp only [e]
  · intro n hn
    have := chromatic_le_of_colorable hn hcol
    omega

set_option maxRecDepth 100000 in
theorem upperBoundWP_proper_coloring_witness :
    WellFormed pathThree ∧ Uncolored pathThree ∧ pathThree.VERTEX_COUNTER = -1 ∧
    ∃ r s2, wpOuter 4 4 (sortFrom pathThree 0 compareByDegree)
        (selectNextVertexFF (sortFrom pathThree 0 compareByDegree)) 0 = some (r, s2) ∧
      upperBoundWP 4 pathThree = some (r, clearColoring s2) ∧
      ProperlyColored s2 r ∧ ClassesUsed s2 r ∧ s2.vertices.Perm pathThree.vertices ∧
      (∀ p, (deref s2.heap p).adjacentVertices = (deref pathThree.heap p).adjacentVertices) ∧
      Colorable pathThree r.toNat ∧ ∀ n, IsChromaticNumber pathThree n → (n : Int) ≤ r :=
  ⟨by unfold WellFormed; decide, by unfold Uncolored; decide, by decide,
    upperBoundWP_proper_coloring pathThree 4 (by unfold WellFormed; decide)
      (by unfold Uncolored; decide) (by decide) (by decide)⟩

/-- C9: on a simple graph with every vertex uncolored and `VERTEX_COUNTER = -1`,
`upperBoundRLF` terminates (any `fuel` above the vertex count is enough) and returns the number
`r` of color classes of the coloring its outer loop leaves in `s2` before the reset: that
coloring is proper with colors in `[0, r)`, every class is used, and so `r` is at least the
chromatic number. -/
theorem upperBoundRLF_proper_coloring (s : State) (fuel : Nat) (hw : WellFormed s)
    (hu : Uncolored s) (hvc : s.VERTEX_COUNTER = -1) (hf : s.vertices.length < fuel) :
    ∃ r s2, rlfOuter fuel fuel (sortFrom s 0 compareByDegree)
        (selectNextVertexFF (sortFrom s 0 compareByDegree)) 0 = some (r, s2) ∧
      upperBoundRLF fuel s = some (r, clearColoring s2) ∧
      ProperlyColored s2 r ∧ ClassesUsed s2 r ∧ s2.vertices.Perm s.vertices ∧
      (∀ p, (deref s2.heap p).adjacentVertices = (deref s.heap p).adjacentVertices) ∧
      Colorable s r.toNat ∧ ∀ n, IsChromaticNumber s n → (n : Int) ≤ r := by
  have hp := sortFrom_perm s 0 compareByDegree
  have hw1 := wellFormed_sortFrom s compareByDegree hw
  have hlen : (sortFrom s 0 compareByDegree).vertices.length = s.vertices.length := hp.length_eq
  obtain ⟨r, s2, e, hsg, hpc, hcu, hr⟩ := rlfOuter_spec (sortFrom s 0 compareByDegree) hw1 fuel
    (by rw [hlen]; exact hf) hvc fuel (sortFrom s 0 compareByDegree) 0 (le_refl 0)
    (sameGraph_refl _)
    ⟨fun p hpm => Or.inl (hu p (hp.mem_iff.1 hpm)),
      fun p hpm q _ hc => absurd (hu p (hp.mem_iff.1 hpm)) hc⟩
    (fun d h0 h1 => by omega) (by rw [hlen]; omega)
  have hadj : ∀ p, (deref s2.heap p).adjacentVertices = (deref s.heap p).adjacentVertices :=
    fun p => (hsg.2.2.2 p).1
  have hcol : Colorable s r.toNat :=
    colorable_of_properlyColored hw (fun p hpm => by rw [hsg.1]; exact hp.mem_iff.2 hpm) hadj hpc
  refine ⟨r, s2, e, ?_, hpc, hcu, by rw [hsg.1]; exact hp, hadj, hcol, ?_⟩
  · unfold upperBoundRLF
    simp only [e]
  · intro n hn
    have := chromatic_le_of_colorable hn hcol
    omega

set_option maxRecDepth 100000 in
theorem upperBoundRLF_proper_coloring_witness :
    WellFormed pathThree ∧ Uncolored pathThree ∧ pathThree.VERTEX_COUNTER = -1 ∧
    ∃ r s2, rlfOuter 4 4 (sortFrom pathThree 0 compareByDegree)
        (selectNextVertexFF (sortFrom pathThree 0 compareByDegree)) 0 = some (r, s2) ∧
      upperBoundRLF 4 pathThree = some (r, clearColoring s2) ∧
      ProperlyColored s2 r ∧ ClassesUsed s2 r ∧ s2.vertices.Perm pathThree.vertices ∧
      (∀ p, (deref s2.heap p).adjacentVertices = (deref pathThree.heap p).adjacentVertices) ∧
      Colorable pathThree r.toNat ∧ ∀ n, IsChromaticNumber pathThree n → (n : Int) ≤ r :=
  ⟨by unfold WellFormed; decide, by unfold Uncolored; decide, by decide,
    upperBoundRLF_proper_coloring pathThree 4 (by unfold WellFormed; decide)
      (by unfold Uncolored; decide) (by decide) (by decide)⟩

theorem bounds_frame_aux (s s2 : State) (hp : s2.vertices.Perm s.vertices)
    (hd : ∀ p, (deref s2.heap p).adjacentVertices = (deref s.heap p).adjacentVertices ∧
      (deref s2.heap p).degree = (deref s.heap p).degree ∧
      (deref s2.heap p).availableColors = (deref s.heap p).availableColors ∧
      (deref s2.heap p).number = (deref s.heap p).number ∧
      (deref s2.heap p).neighbors = (deref s.heap p).neighbors) :
    (∀ p ∈ (clearColoring s2).vertices, (deref (clearColoring s2).heap p).color = -1 ∧
      (deref (clearColoring s2).heap p).nbRecolorings = 0 ∧
      (deref (clearColoring s2).heap p).nbConflicts = 0) ∧
    (∀ p, (deref (clearColoring s2).heap p).degree = (deref s.heap p).degree ∧
      (deref (clearColoring s2).heap p).availableColors = (deref s.heap p).availableColors ∧
      (deref (clearColoring s2).heap p).adjacentVertices = (deref s.heap p).adjacentVertices) ∧
    (clearColoring s2).vertices.Perm s.vertices := by
  obtain ⟨cv, cc, cf⟩ := clearColoring_spec s2
  refine ⟨fun p hpm => cc p (by rw [cv] at hpm; exact hpm), fun p => ?_, by rw [cv]; exact hp⟩
  obtain ⟨f1, f2, f3⟩ := cf p
  obtain ⟨d1, d2, d3, _, _⟩ := hd p
  exact ⟨f1.trans d2, f2.trans d3, f3.trans d1⟩

/-- C10: when `upperBoundWP` or `upperBoundRLF` returns, every vertex of the array has color -1
and both counters 0, the degree, the domain and the adjacency list of every record are those of
the start, and the array is a permutation of the array of the start. -/
theorem upperBound_restores_colors (s : State) (fuel : Nat) (r : Int) (s1 : State)
    (h : upperBoundWP fuel s = some (r, s1) ∨ upperBoundRLF fuel s = some (r, s1)) :
    (∀ p ∈ s1.vertices, (deref s1.heap p).color = -1 ∧ (deref s1.heap p).nbRecolorings = 0 ∧
      (deref s1.heap p).nbConflicts = 0) ∧
    (∀ p, (deref s1.heap p).degree = (deref s.heap p).degree ∧
      (deref s1.heap p).availableColors = (deref s.heap p).availableColors ∧
      (deref s1.heap p).adjacentVertices = (deref s.heap p).adjacentVertices) ∧
    s1.vertices.Perm s.vertices := by
  have hp := sortFrom_perm s 0 compareByDegree
  rcases h with h | h
  · unfold upperBoundWP at h
    simp only at h
    split at h
    · cases h
    · next c s2 e =>
      simp only [Option.some.injEq, Prod.mk.injEq] at h
      rw [← h.2]
      have hsg := wpOuter_frame _ _ _ _ _ _ _ e
      exact bounds_frame_aux s s2 (by rw [hsg.1]; exact hp) hsg.2.2.2
  · unfold upperBoundRLF at h
    simp only at h
    split at h
    · cases h
    · next c s2 e =>
      simp only [Option.some.injEq, Prod.mk.injEq] at h
      rw [← h.2]
      have hsg := rlfOuter_frame _ _ _ _ _ _ _ e
      exact bounds_frame_aux s s2 (by rw [hsg.1]; exact hp) hsg.2.2.2

set_option maxRecDepth 100000 in
theorem upperBound_restores_colors_witness :
    ∃ r s1, upperBoundWP 4 pathThree = some (r, s1) ∧
      (∀ p ∈ s1.vertices, (deref s1.heap p).color = -1 ∧ (deref s1.heap p).nbRecolorings = 0 ∧
        (deref s1.heap p).nbConflicts = 0) ∧
      (∀ p, (deref s1.heap p).degree = (deref pathThree.heap p).degree ∧
        (deref s1.heap p).availableColors = (deref pathThree.heap p).availableColors ∧
        (deref s1.heap p).adjacentVertices = (deref pathThree.heap p).adjacentVertices) ∧
      s1.vertices.Perm pathThree.vertices := by
  have hs : (upperBoundWP 4 pathThree).isSome = true := by decide
  obtain ⟨⟨r, s1⟩, e⟩ := Option.isSome_iff_exists.1 hs
  exact ⟨r, s1, e, upperBound_restores_colors pathThree 4 r s1 (Or.inl e)⟩

/-! ## The subset dynamic program -/

theorem testBit_index_lt {W n i : Nat} (h : W < 2 ^ n) (hi : W.testBit i = true) : i < n := by
  by_contra hn
  have h1 : W < 2 ^ i := lt_of_lt_of_le h (Nat.pow_le_pow_right (by decide) (by omega))
  rw [Nat.testBit_lt_two_pow h1] at hi
  cases hi

theorem testBit_difference (a b i : Nat) (hb : b < 2 ^ 32) :
    (difference a b).testBit i = (a.testBit i && (decide (i < 32) && !b.testBit i)) := by
  unfold difference
  rw [Nat.testBit_and]
  have e : 2 ^ 32 - 1 - b = 2 ^ 32 - (b + 1) := by omega
  rw [e, Nat.testBit_two_pow_sub_succ hb]

theorem testBit_difference_small (a b i n : Nat) (hn : n ≤ 32) (ha : a < 2 ^ n)
    (hb : b < 2 ^ 32) :
    (difference a b).testBit i = (a.testBit i && !b.testBit i) := by
  rw [testBit_difference a b i hb]
  by_cases h : a.testBit i = true
  · have := testBit_index_lt ha h
    have h32 : i < 32 := by omega
    simp [h, h32]
  · simp [h]

theorem difference_le (a b : Nat) : difference a b ≤ a := Nat.and_le_left

theorem popcount32_mono {a b : Nat} (h : ∀ i, a.testBit i = true → b.testBit i = true) :
    popcount32 a ≤ popcount32 b := by
  unfold popcount32
  rw [← List.countP_eq_length_filter, ← List.countP_eq_length_filter]
  exact List.countP_mono_left (fun i _ hi => h i hi)

theorem popcount32_lt {a b : Nat} (h : ∀ i, a.testBit i = true → b.testBit i = true)
    (k : Nat) (hk : k < 32) (hkb : b.testBit k = true) (hka : a.testBit k = false) :
    popcount32 a < popcount32 b := by
  unfold popcount32
  have e : List.filter (fun i => a.testBit i) (List.range 32) =
      List.filter (fun i => a.testBit i) (List.filter (fun i => b.testBit i) (List.range 32)) := by
    rw [List.filter_filter]
    apply List.filter_congr
    intro i _
    by_cases hi : a.testBit i = true
    · simp [hi, h i hi]
    · simp [hi]
  rw [e, List.length_filter_lt_length_iff_exists]
  exact ⟨k, by rw [List.mem_filter]; exact ⟨List.mem_range.2 hk, hkb⟩, by simp [hka]⟩

theorem popcount32_le_of_lt {W n : Nat} (hn : n ≤ 32) (h : W < 2 ^ n) : popcount32 W ≤ n := by
  have h1 : popcount32 W ≤ popcount32 (2 ^ n - 1) := by
    apply popcount32_mono
    intro i hi
    rw [Nat.testBit_two_pow_sub_one]
    exact decide_eq_true (testBit_index_lt h hi)
  have h2 : popcount32 (2 ^ n - 1) = n := by
    unfold popcount32
    have e : List.filter (fun i => (2 ^ n - 1).testBit i) (List.range 32) = List.range n := by
      have e1 : List.range 32 = List.range n ++ List.range' n (32 - n) := by
        rw [List.range_eq_range', List.range_eq_range']
        have := List.range'_append 0 n (32 - n) 1
        simp only [Nat.zero_add, Nat.one_mul] at this
        rw [this]
        congr 1; omega
      rw [e1, List.filter_append]
      have e2 : List.filter (fun i => (2 ^ n - 1).testBit i) (List.range n) = List.range n := by
        rw [List.filter_eq_self]
        intro i hi
        rw [Nat.testBit_two_pow_sub_one]
        exact decide_eq_true (List.mem_range.1 hi)
      have e3 : List.filter (fun i => (2 ^ n - 1).testBit i) (List.range' n (32 - n)) = [] := by
        rw [List.filter_eq_nil_iff]
        intro i hi
        rw [List.mem_range'_1] at hi
        rw [Nat.testBit_two_pow_sub_one]
        simp; omega
      rw [e2, e3, List.append_nil]
    rw [e, List.length_range]
  omega

theorem popcount32_difference_lt {W S n : Nat} (hn : n ≤ 32) (hW : W < 2 ^ n)
    (hS0 : S ≠ 0) (hSW : ∀ i, S.testBit i = true → W.testBit i = true) :
    popcount32 (difference W S) < popcount32 W := by
  have hS : S < 2 ^ n := Nat.lt_pow_two_of_testBit S (fun i hi => by
    by_contra hc
    have h1 := hSW i (by simpa using hc)
    have := testBit_index_lt hW h1
    omega)
  have hS32 : S < 2 ^ 32 := lt_of_lt_of_le hS (Nat.pow_le_pow_right (by decide) hn)
  obtain ⟨k, hk⟩ := Nat.ne_zero_implies_bit_true hS0
  have hkW := hSW k hk
  have hkn := testBit_index_lt hW hkW
  apply popcount32_lt _ k (by omega) hkW
  · rw [testBit_difference_small W S k n hn hW hS32, hk, hkW]; rfl
  · intro i hi
    rw [testBit_difference_small W S i n hn hW hS32] at hi
    simp only [Bool.and_eq_true] at hi
    exact hi.1

theorem testBit_maskOf (p : Nat → Bool) (n i : Nat) :
    (maskOf p n).testBit i = (decide (i < n) && p i) := by
  induction n with
  | zero => simp [maskOf]
  | succ n ih =>
    unfold maskOf
    rw [Nat.testBit_or, ih]
    by_cases hp : p n = true
    · rw [if_pos hp, Nat.testBit_two_pow]
      by_cases h1 : i < n
      · have h2 : i < n + 1 := by omega
        have h3 : n ≠ i := by omega
        simp [h1, h2, h3]
      · by_cases h3 : n = i
        · subst h3; simp [hp]
        · have h2 : ¬ i < n + 1 := by omega
          simp [h1, h2, h3]
    · rw [if_neg hp, Nat.zero_testBit]
      by_cases h1 : i < n
      · have h2 : i < n + 1 := by omega
        simp [h1, h2]
      · by_cases h3 : n = i
        · subst h3; simp [hp]
        · have h2 : ¬ i < n + 1 := by omega
          simp [h1, h2]

/-! ### The table of subsets -/

theorem insertSorted_sorted (x : Nat) (l : List Nat)
    (h : l.Pairwise (fun a b => popcount32 a ≤ popcount32 b)) :
    (insertSorted compareByPopCount x l).Pairwise (fun a b => popcount32 a ≤ popcount32 b) := by
  induction l with
  | nil => simp [insertSorted]
  | cons y ys ih =>
    unfold insertSorted
    rw [List.pairwise_cons] at h
    split
    · next hc =>
      unfold compareByPopCount at hc
      rw [List.pairwise_cons]
      refine ⟨?_, List.pairwise_cons.2 h⟩
      intro z hz
      rcases List.mem_cons.1 hz with e | e
      · rw [e]; omega
      · have := h.1 z e; omega
    · next hc =>
      unfold compareByPopCount at hc
      rw [List.pairwise_cons]
      refine ⟨?_, ih h.2⟩
      intro z hz
      rcases List.mem_cons.1 ((insertSorted_perm compareByPopCount x ys).mem_iff.1 hz) with e | e
      · rw [e]; omega
      · exact h.1 z e

theorem qsort_sorted (l : List Nat) :
    (qsort compareByPopCount l).Pairwise (fun a b => popcount32 a ≤ popcount32 b) := by
  induction l with
  | nil => simp [qsort]
  | cons x xs ih =>
    unfold qsort
    exact insertSorted_sorted x _ ih

theorem createTable_drop (s : State) :
    (createTable s).drop 1 =
      qsort compareByPopCount (List.range' 1 (2 ^ s.vertices.length - 1)) := by
  unfold createTable TABLE_SIZE
  rw [Nat.one_shiftLeft]
  have hpos : 0 < 2 ^ s.vertices.length := Nat.two_pow_pos _
  have e : 2 ^ s.vertices.length = (2 ^ s.vertices.length - 1) + 1 := by omega
  rw [List.range_eq_range']
  conv => lhs; rw [e, List.range'_succ]
  have hq : ∀ (x : Nat) (xs : List Nat), qsort compareByPopCount (x :: xs) =
      insertSorted compareByPopCount x (qsort compareByPopCount xs) := fun _ _ => rfl
  rw [hq]
  generalize qsort compareByPopCount (List.range' (0 + 1) (2 ^ s.vertices.length - 1)) = l
  cases l with
  | nil => simp [insertSorted]
  | cons y ys =>
    unfold insertSorted
    have hc : compareByPopCount 0 y ≤ 0 := by
      unfold compareByPopCount
      have : popcount32 0 = 0 := by decide
      rw [this]; omega
    rw [if_pos hc]
    rfl

theorem mem_createTable_drop (s : State) (W : Nat) :
    W ∈ (createTable s).drop 1 ↔ 0 < W ∧ W < 2 ^ s.vertices.length := by
  rw [createTable_drop, (qsort_perm _ _).mem_iff, List.mem_range'_1]
  have hpos : 0 < 2 ^ s.vertices.length := Nat.two_pow_pos _
  omega

theorem createTable_drop_nodup (s : State) : ((createTable s).drop 1).Nodup := by
  rw [createTable_drop, (qsort_perm _ _).nodup_iff]
  exact List.nodup_range' _ _

theorem takeWhile_eq_filter_of_sorted (b : Nat) (l : List Nat)
    (h : l.Pairwise (fun x y => popcount32 x ≤ popcount32 y)) :
    l.takeWhile (fun t => decide (popcount32 t ≤ b)) =
      l.filter (fun t => decide (popcount32 t ≤ b)) := by
  induction l with
  | nil => rfl
  | cons x xs ih =>
    rw [List.pairwise_cons] at h
    by_cases hx : popcount32 x ≤ b
    · rw [List.takeWhile_cons_of_pos (by simpa using hx),
        List.filter_cons_of_pos (by simpa using hx), ih h.2]
    · rw [List.takeWhile_cons_of_neg (by simpa using hx),
        List.filter_cons_of_neg (by simpa using hx)]
      symm
      rw [List.filter_eq_nil_iff]
      intro y hy
      have := h.1 y hy
      simp; omega

/-! ### The tests of `getSubsets` -/

theorem pairsIndependent_iff (heap : List Vertex) (l : List Nat) :
    pairsIndependent heap l = true ↔ l.Pairwise (fun x y => neighbors heap x y = false) := by
  induction l with
  | nil => simp [pairsIndependent]
  | cons x xs ih =>
    unfold pairsIndependent
    rw [Bool.and_eq_true, ih, List.pairwise_cons, List.all_eq_true]
    simp

theorem independentSet_eq (s : State) (S : Nat) :
    independentSet s S = pairsIndependent s.heap (subsetVertices s S) := by
  unfold independentSet
  split
  · next h =>
    have hl : (subsetVertices s S).length < 2 := by
      unfold subsetVertices
      rw [List.length_map]
      exact h
    generalize subsetVertices s S = l at hl
    match l, hl with
    | [], _ => rfl
    | [x], _ => simp [pairsIndependent]
    | _ :: _ :: _, hl => exact absurd hl (by simp)
  · rfl

theorem sorted_pairwise_mem (R : Nat → Nat → Prop) (l : List Nat) (h1 : l.Pairwise R)
    (h2 : l.Pairwise (fun a b => a < b)) : ∀ a ∈ l, ∀ b ∈ l, a < b → R a b := by
  induction l with
  | nil => intro a ha; cases ha
  | cons x xs ih =>
    rw [List.pairwise_cons] at h1 h2
    intro a ha b hb hab
    rcases List.mem_cons.1 ha with e1 | e1
    · rcases List.mem_cons.1 hb with e2 | e2
      · omega
      · rw [e1]; exact h1.1 b e2
    · rcases List.mem_cons.1 hb with e2 | e2
      · have := h2.1 a e1; omega
      · exact ih h1.2 h2.2 a e1 b e2 hab

theorem bits_sorted (S : Nat) :
    (List.filter (fun i => S.testBit i) (List.range 32)).Pairwise (fun a b => a < b) :=
  List.Pairwise.sublist (List.filter_sublist _) (List.pairwise_lt_range 32)

theorem position_mem (s : State) (i : Nat) (h : i < s.vertices.length) :
    s.vertices.getD i 0 ∈ s.vertices := by
  rw [List.getD_eq_getElem _ _ h]
  exact List.getElem_mem _

theorem independentSet_iff (s : State) (hw : WellFormed s) (hV : s.vertices.length ≤ 32)
    (S : Nat) (hS : S < 2 ^ s.vertices.length) :
    independentSet s S = true ↔
      ∀ i j, S.testBit i = true → S.testBit j = true → ¬ adjacentAt s i j := by
  rw [independentSet_eq, pairsIndependent_iff]
  unfold subsetVertices
  rw [List.pairwise_map]
  have hmem : ∀ i, S.testBit i = true →
      i ∈ List.filter (fun i => S.testBit i) (List.range 32) := by
    intro i hi
    rw [List.mem_filter, List.mem_range]
    exact ⟨by have := testBit_index_lt hS hi; omega, hi⟩
  constructor
  · intro hp i j hi hj hadj
    have key := sorted_pairwise_mem _ _ hp (bits_sorted S)
    have hiV := testBit_index_lt hS hi
    have hjV := testBit_index_lt hS hj
    rcases Nat.lt_trichotomy i j with h | h | h
    · have := key i (hmem i hi) j (hmem j hj) h
      rw [← Bool.not_eq_true, neighbors_iff] at this
      exact this hadj
    · subst h
      exact (hw.2.2 _ (position_mem s i hiV) _ hadj).2.1 rfl
    · have := key j (hmem j hj) i (hmem i hi) h
      rw [← Bool.not_eq_true, neighbors_iff] at this
      exact this (hw.2.2 _ (position_mem s i hiV) _ hadj).2.2
  · intro h
    apply (bits_sorted S).imp_of_mem
    intro a b ha hb _
    rw [List.mem_filter] at ha hb
    rw [← Bool.not_eq_true, neighbors_iff]
    exact h a b ha.2 hb.2

theorem isSubgraph_iff (W S n : Nat) (hn : n ≤ 32) (hW : W < 2 ^ n) (hS : S < 2 ^ n) :
    isSubgraph W S = true ↔ ∀ i, S.testBit i = true → W.testBit i = true := by
  have hW32 : W < 2 ^ 32 := lt_of_lt_of_le hW (Nat.pow_le_pow_right (by decide) hn)
  unfold isSubgraph
  rw [decide_eq_true_eq]
  constructor
  · intro h i hi
    have := testBit_difference_small S W i n hn hS hW32
    rw [h, Nat.zero_testBit, hi] at this
    simpa using this.symm
  · intro h
    apply Nat.eq_of_testBit_eq
    intro i
    rw [testBit_difference_small S W i n hn hS hW32, Nat.zero_testBit]
    by_cases hi : S.testBit i = true
    · simp [hi, h i hi]
    · simp [hi]

theorem subset_lt {W S n : Nat} (hW : W < 2 ^ n)
    (hSW : ∀ i, S.testBit i = true → W.testBit i = true) : S < 2 ^ n :=
  Nat.lt_pow_two_of_testBit S (fun i hi => by
    by_contra hc
    have h1 := hSW i (by simpa using hc)
    have := testBit_index_lt hW h1
    omega)

theorem mem_getSubsets (s : State) (hw : WellFormed s) (hV : s.vertices.length ≤ 32)
    (W : Nat) (hW : W < 2 ^ s.vertices.length) (S : Nat) :
    S ∈ getSubsets s W (createTable s) ↔ IndependentSubset s W S := by
  unfold getSubsets
  simp only
  rw [createTable_drop, takeWhile_eq_filter_of_sorted _ _ (qsort_sorted _), ← createTable_drop]
  simp only [List.mem_filter, mem_createTable_drop, decide_eq_true_eq]
  unfold IndependentSubset
  constructor
  · rintro ⟨⟨⟨⟨h0, hS⟩, _⟩, hsub⟩, hind⟩
    rw [isSubgraph_iff W S _ hV hW hS] at hsub
    rw [independentSet_iff s hw hV S hS] at hind
    exact ⟨by omega, hsub, hind⟩
  · rintro ⟨h0, hsub, hind⟩
    have hS := subset_lt hW hsub
    refine ⟨⟨⟨⟨by omega, hS⟩, popcount32_mono hsub⟩, ?_⟩, ?_⟩
    · rw [isSubgraph_iff W S _ hV hW hS]; exact hsub
    · rw [independentSet_iff s hw hV S hS]; exact hind

/-! ### The table of chromatic numbers -/

theorem getD_set_eq {α : Type} (l : List α) (i j : Nat) (a d : α) :
    (l.set i a).getD j d = if j = i ∧ i < l.length then a else l.getD j d := by
  simp only [List.getD_eq_getElem?_getD]
  by_cases hq : j = i
  · subst hq
    by_cases hl : j < l.length
    · simp [hl]
    · have e1 : (l.set j a)[j]? = none := List.getElem?_eq_none (by simp; omega)
      have e2 : l[j]? = none := List.getElem?_eq_none (by omega)
      simp [hl, e1, e2]
  · have : ¬ (j = i ∧ i < l.length) := fun c => hq c.1
    rw [if_neg this, List.getElem?_set_ne (Ne.symm hq)]

theorem minimumLoop_cons (T : List Int) (W : Nat) (junk : Int) (x : Nat) (xs : List Nat)
    (m : Int) :
    minimumLoop T W junk (x :: xs) m = minimumLoop T W junk xs
      (if T.getD (difference W x) junk < m then T.getD (difference W x) junk else m) := rfl

theorem minimumLoop_spec (T : List Int) (W : Nat) (junk : Int) (l : List Nat) (m : Int) :
    minimumLoop T W junk l m ≤ m ∧
    (∀ S ∈ l, minimumLoop T W junk l m ≤ T.getD (difference W S) junk) ∧
    (minimumLoop T W junk l m = m ∨
      ∃ S ∈ l, minimumLoop T W junk l m = T.getD (difference W S) junk) := by
  induction l generalizing m with
  | nil =>
    refine ⟨le_refl _, ?_, Or.inl rfl⟩
    intro S hS
    cases hS
  | cons x xs ih =>
    rw [minimumLoop_cons]
    by_cases hx : T.getD (difference W x) junk < m
    · rw [if_pos hx]
      obtain ⟨a, b, c⟩ := ih (T.getD (difference W x) junk)
      refine ⟨by omega, ?_, ?_⟩
      · intro S hS
        rcases List.mem_cons.1 hS with e | e
        · rw [e]; exact a
        · exact b S e
      · rcases c with c | ⟨S, hS, c⟩
        · exact Or.inr ⟨x, List.mem_cons_self _ _, c⟩
        · exact Or.inr ⟨S, List.mem_cons_of_mem _ hS, c⟩
    · rw [if_neg hx]
      obtain ⟨a, b, c⟩ := ih m
      refine ⟨a, ?_, ?_⟩
      · intro S hS
        rcases List.mem_cons.1 hS with e | e
        · rw [e]; omega
        · exact b S e
      · rcases c with c | ⟨S, hS, c⟩
        · exact Or.inl c
        · exact Or.inr ⟨S, List.mem_cons_of_mem _ hS, c⟩

theorem minimumLoop_congr (T T1 : List Int) (W : Nat) (junk : Int) (l : List Nat) (m : Int)
    (h : ∀ S ∈ l, T1.getD (difference W S) junk = T.getD (difference W S) junk) :
    minimumLoop T1 W junk l m = minimumLoop T W junk l m := by
  induction l generalizing m with
  | nil => rfl
  | cons x xs ih =>
    rw [minimumLoop_cons, minimumLoop_cons, h x (List.mem_cons_self _ _)]
    exact ih _ (fun S hS => h S (List.mem_cons_of_mem _ hS))

theorem difference_ne_of_earlier (s : State) (hw : WellFormed s) (hV : s.vertices.length ≤ 32)
    (W W1 S : Nat) (hW1 : W1 < 2 ^ s.vertices.length) (hpop : popcount32 W1 ≤ popcount32 W)
    (hS : S ∈ getSubsets s W1 (createTable s)) : difference W1 S ≠ W := by
  rw [mem_getSubsets s hw hV W1 hW1] at hS
  have := popcount32_difference_lt hV hW1 hS.1 hS.2.1
  intro e
  rw [e] at this
  omega

theorem table_invariant (s : State) (hw : WellFormed s) (hV : s.vertices.length ≤ 32)
    (junk : Int) :
    ∀ (L P : List Nat) (T : List Int), P ++ L = (createTable s).drop 1 →
      T.length = 2 ^ s.vertices.length → T.getD 0 junk = 0 →
      (∀ W ∈ P, TableEntry s junk T W) →
      (L.foldl (tableStep s (createTable s) junk) T).getD 0 junk = 0 ∧
      ∀ W ∈ P ++ L, TableEntry s junk (L.foldl (tableStep s (createTable s) junk) T) W := by
  intro L
  induction L with
  | nil =>
    intro P T _ _ h0 hP
    rw [List.append_nil]
    exact ⟨h0, hP⟩
  | cons W L1 ih =>
    intro P T hPL hlen h0 hP
    rw [List.foldl_cons]
    have hsorted : (P ++ W :: L1).Pairwise (fun a b => popcount32 a ≤ popcount32 b) := by
      rw [hPL, createTable_drop]; exact qsort_sorted _
    have hnodup : (P ++ W :: L1).Nodup := by rw [hPL]; exact createTable_drop_nodup s
    have hmemW : W ∈ (createTable s).drop 1 := by
      rw [← hPL]; exact List.mem_append_right _ (List.mem_cons_self _ _)
    have hWr := (mem_createTable_drop s W).1 hmemW
    have hstep : tableStep s (createTable s) junk T W = T.set W
        (1 + minimumLoop T W junk (getSubsets s W (createTable s)) (VERTICES s)) := rfl
    have hread : ∀ W1, W1 < 2 ^ s.vertices.length → popcount32 W1 ≤ popcount32 W →
        ∀ S ∈ getSubsets s W1 (createTable s),
          (tableStep s (createTable s) junk T W).getD (difference W1 S) junk =
            T.getD (difference W1 S) junk := by
      intro W1 hW1 hpop S hS
      rw [hstep, getD_set_eq,
        if_neg (fun c => difference_ne_of_earlier s hw hV W W1 S hW1 hpop hS c.1)]
    have hassoc : (P ++ [W]) ++ L1 = P ++ W :: L1 := by simp
    have key := ih (P ++ [W]) (tableStep s (createTable s) junk T W)
      (by rw [hassoc]; exact hPL) (by rw [hstep, List.length_set]; exact hlen)
      (by rw [hstep, getD_set_eq, if_neg (fun c => by omega)]; exact h0)
      (by
        intro W1 hW1
        rcases List.mem_append.1 hW1 with h1 | h1
        · have hW1mem : W1 ∈ (createTable s).drop 1 := by
            rw [← hPL]; exact List.mem_append_left _ h1
          have hW1r := (mem_createTable_drop s W1).1 hW1mem
          have hpop : popcount32 W1 ≤ popcount32 W :=
            (List.pairwise_append.1 hsorted).2.2 W1 h1 W (List.mem_cons_self _ _)
          have hne : W1 ≠ W := by
            intro e
            rw [List.nodup_append] at hnodup
            exact hnodup.2.2 h1 (by rw [e]; exact List.mem_cons_self _ _)
          unfold TableEntry
          rw [minimumLoop_congr T _ W1 junk _ _ (hread W1 hW1r.2 hpop), hstep, getD_set_eq,
            if_neg (fun c => hne c.1)]
          exact hP W1 h1
        · rw [List.mem_singleton] at h1
          subst h1
          unfold TableEntry
          rw [minimumLoop_congr T _ W1 junk _ _ (hread W1 hWr.2 (le_refl _)), hstep, getD_set_eq,
            if_pos ⟨rfl, by rw [hlen]; exact hWr.2⟩])
    rw [hassoc] at key
    exact key

theorem calculateChromaticTable_entries (s : State) (hw : WellFormed s)
    (hV : s.vertices.length ≤ 32) (junk : Int) :
    (calculateChromaticTable s (createTable s) junk).getD 0 junk = 0 ∧
    ∀ W, 0 < W → W < 2 ^ s.vertices.length →
      TableEntry s junk (calculateChromaticTable s (createTable s) junk) W := by
  have hpos : 0 < 2 ^ s.vertices.length := Nat.two_pow_pos _
  have hT : TABLE_SIZE s = 2 ^ s.vertices.length := by
    unfold TABLE_SIZE; rw [Nat.one_shiftLeft]
  obtain ⟨a, b⟩ := table_invariant s hw hV junk ((createTable s).drop 1) []
    ((List.replicate (TABLE_SIZE s) junk).set 0 0) (by simp)
    (by rw [List.length_set, List.length_replicate, hT])
    (by rw [getD_set_eq, if_pos ⟨rfl, by rw [List.length_replicate, hT]; exact hpos⟩])
    (fun W hW => by cases hW)
  refine ⟨a, fun W h0 h1 => ?_⟩
  exact b W (by rw [List.nil_append]; exact (mem_createTable_drop s W).2 ⟨h0, h1⟩)

/-! ### The table holds chromatic numbers -/

theorem tableEntry_bounds (s : State) (hw : WellFormed s) (hV : s.vertices.length ≤ 32)
    (junk : Int) (T : List Int) (W : Nat) (hW : W < 2 ^ s.vertices.length)
    (h : TableEntry s junk T W) :
    (∀ S, IndependentSubset s W S → T.getD W junk ≤ 1 + T.getD (difference W S) junk) ∧
    T.getD W junk ≤ 1 + (s.vertices.length : Int) ∧
    (T.getD W junk = 1 + (s.vertices.length : Int) ∨
      ∃ S, IndependentSubset s W S ∧ T.getD W junk = 1 + T.getD (difference W S) junk) := by
  unfold TableEntry at h
  obtain ⟨a, b, c⟩ := minimumLoop_spec T W junk (getSubsets s W (createTable s)) (VERTICES s)
  have hVe : VERTICES s = (s.vertices.length : Int) := rfl
  rw [hVe] at a c h
  refine ⟨fun S hS => ?_, by omega, ?_⟩
  · have := b S ((mem_getSubsets s hw hV W hW S).2 hS)
    rw [hVe] at this
    omega
  · rcases c with c | ⟨S, hS, c⟩
    · left; omega
    · right
      exact ⟨S, (mem_getSubsets s hw hV W hW S).1 hS, by omega⟩

theorem difference_lt_of_subset {s : State} {W S : Nat} (hV : s.vertices.length ≤ 32)
    (hW : W < 2 ^ s.vertices.length) (hS : IndependentSubset s W S) : difference W S < W := by
  have h1 := difference_le W S
  have h2 := popcount32_difference_lt hV hW hS.1 hS.2.1
  have h3 : difference W S ≠ W := by
    intro e; rw [e] at h2; omega
  omega

theorem singleton_independent (s : State) (hw : WellFormed s) (W i : Nat)
    (hW : W < 2 ^ s.vertices.length) (hi : W.testBit i = true) :
    IndependentSubset s W (2 ^ i) := by
  refine ⟨by positivity, ?_, ?_⟩
  · intro j hj
    rw [Nat.testBit_two_pow] at hj
    have : i = j := by simpa using hj
    rw [← this]; exact hi
  · intro a b ha hb hadj
    rw [Nat.testBit_two_pow] at ha hb
    have e1 : i = a := by simpa using ha
    have e2 : i = b := by simpa using hb
    subst e1
    subst e2
    exact (hw.2.2 _ (position_mem s i (testBit_index_lt hW hi)) _ hadj).2.1 rfl

theorem table_chromatic (s : State) (hw : WellFormed s) (hV : s.vertices.length ≤ 32)
    (junk : Int) (T : List Int) (h0 : T.getD 0 junk = 0)
    (hT : ∀ W, 0 < W → W < 2 ^ s.vertices.length → TableEntry s junk T W) :
    ∀ W, W < 2 ^ s.vertices.length →
      0 ≤ T.getD W junk ∧ T.getD W junk ≤ (popcount32 W : Int) ∧
      ColorableOn s W (T.getD W junk).toNat ∧
      ∀ k : Nat, ColorableOn s W k → T.getD W junk ≤ (k : Int) := by
  intro W
  induction W using Nat.strong_induction_on with
  | _ W ih =>
    intro hW
    by_cases hz : W = 0
    · subst hz
      rw [h0]
      refine ⟨le_refl _, by omega, ⟨fun _ => 0, fun i hi => ?_⟩, fun k _ => by omega⟩
      rw [Nat.zero_testBit] at hi
      cases hi
    · have hW32 : W < 2 ^ 32 := lt_of_lt_of_le hW (Nat.pow_le_pow_right (by decide) hV)
      obtain ⟨b1, b2, b3⟩ := tableEntry_bounds s hw hV junk T W hW (hT W (by omega) hW)
      obtain ⟨i0, hi0⟩ := Nat.ne_zero_implies_bit_true hz
      have hsing := singleton_independent s hw W i0 hW hi0
      have hup : T.getD W junk ≤ (popcount32 W : Int) := by
        have h1 := b1 _ hsing
        have hlt := difference_lt_of_subset hV hW hsing
        have h2 := (ih _ hlt (lt_trans hlt hW)).2.1
        have h3 := popcount32_difference_lt hV hW hsing.1 hsing.2.1
        omega
      have hpopV := popcount32_le_of_lt hV hW
      rcases b3 with b3 | ⟨S, hS, b3⟩
      · omega
      · have hlt := difference_lt_of_subset hV hW hS
        have hS32 : S < 2 ^ 32 :=
          lt_of_lt_of_le (subset_lt hW hS.2.1) (Nat.pow_le_pow_right (by decide) hV)
        obtain ⟨c1, _, ⟨g, hg⟩, _⟩ := ih _ hlt (lt_trans hlt hW)
        refine ⟨by omega, hup, ?_, ?_⟩
        · refine ⟨fun i => if S.testBit i = true then
            (T.getD (difference W S) junk).toNat else g i, fun i hi => ⟨?_, ?_⟩⟩
          · by_cases hiS : S.testBit i = true
            · simp only [if_pos hiS]; omega
            · simp only [if_neg hiS]
              have hd : (difference W S).testBit i = true := by
                rw [testBit_difference_small W S i _ hV hW hS32, hi]
                simpa using hiS
              have := (hg i hd).1
              omega
          · intro j hj hadj
            by_cases hiS : S.testBit i = true
            · by_cases hjS : S.testBit j = true
              · exact absurd hadj (hS.2.2 i j hiS hjS)
              · simp only [if_pos hiS, if_neg hjS]
                have hd : (difference W S).testBit j = true := by
                  rw [testBit_difference_small W S j _ hV hW hS32, hj]
                  simpa using hjS
                have := (hg j hd).1
                omega
            · have hdi : (difference W S).testBit i = true := by
                rw [testBit_difference_small W S i _ hV hW hS32, hi]
                simpa using hiS
              by_cases hjS : S.testBit j = true
              · simp only [if_neg hiS, if_pos hjS]
                have := (hg i hdi).1
                omega
              · simp only [if_neg hiS, if_neg hjS]
                have hdj : (difference W S).testBit j = true := by
                  rw [testBit_difference_small W S j _ hV hW hS32, hj]
                  simpa using hjS
                exact (hg i hdi).2 j hdj hadj
        · intro k ⟨f, hf⟩
          have hSc : IndependentSubset s W
              (maskOf (fun i => W.testBit i && decide (f i = f i0)) 32) := by
            refine ⟨?_, ?_, ?_⟩
            · intro e
              have := testBit_maskOf (fun i => W.testBit i && decide (f i = f i0)) 32 i0
              rw [e, Nat.zero_testBit] at this
              have hi32 := testBit_index_lt hW32 hi0
              simp [hi0, hi32] at this
            · intro i hi
              rw [testBit_maskOf] at hi
              simp only [Bool.and_eq_true, decide_eq_true_eq] at hi
              exact hi.2.1
            · intro i j hi hj hadj
              rw [testBit_maskOf] at hi hj
              simp only [Bool.and_eq_true, decide_eq_true_eq] at hi hj
              exact (hf i hi.2.1).2 j hj.2.1 hadj (by rw [hi.2.2, hj.2.2])
          have hlt2 := difference_lt_of_subset hV hW hSc
          have hSc32 : maskOf (fun i => W.testBit i && decide (f i = f i0)) 32 < 2 ^ 32 :=
            lt_of_lt_of_le (subset_lt hW hSc.2.1) (Nat.pow_le_pow_right (by decide) hV)
          have hk1 : 1 ≤ k := by have := (hf i0 hi0).1; omega
          have hcol : ColorableOn s (difference W
              (maskOf (fun i => W.testBit i && decide (f i = f i0)) 32)) (k - 1) := by
            refine ⟨fun i => if f i < f i0 then f i else f i - 1, fun i hi => ?_⟩
            rw [testBit_difference_small W _ i _ hV hW hSc32, testBit_maskOf] at hi
            simp only [Bool.and_eq_true, Bool.not_eq_true', Bool.and_eq_false_iff,
              decide_eq_false_iff_not, decide_eq_true_eq] at hi
            obtain ⟨hiW, hi2⟩ := hi
            have hi32 := testBit_index_lt hW32 hiW
            have hne : f i ≠ f i0 := by
              rcases hi2 with h | h | h
              · omega
              · rw [hiW] at h; cases h
              · exact h
            have hfi := (hf i hiW).1
            have hfi0 := (hf i0 hi0).1
            refine ⟨?_, ?_⟩
            · show (if f i < f i0 then f i else f i - 1) < k - 1
              split <;> omega
            · intro j hj hadj
              rw [testBit_difference_small W _ j _ hV hW hSc32, testBit_maskOf] at hj
              simp only [Bool.and_eq_true, Bool.not_eq_true', Bool.and_eq_false_iff,
                decide_eq_false_iff_not, decide_eq_true_eq] at hj
              obtain ⟨hjW, hj2⟩ := hj
              have hj32 := testBit_index_lt hW32 hjW
              have hnej : f j ≠ f i0 := by
                rcases hj2 with h | h | h
                · omega
                · rw [hjW] at h; cases h
                · exact h
              have hfij := (hf i hiW).2 j hjW hadj
              show (if f i < f i0 then f i else f i - 1) ≠ (if f j < f i0 then f j else f j - 1)
              split <;> split <;> omega
          have h1 := b1 _ hSc
          have h2 := (ih _ hlt2 (lt_trans hlt2 hW)).2.2.2 (k - 1) hcol
          omega

theorem getD_indexOf (l : List Nat) (p : Nat) (hp : p ∈ l) : l.getD (l.indexOf p) 0 = p := by
  have h := List.indexOf_lt_length.2 hp
  rw [List.getD_eq_getElem _ _ h]
  exact List.getElem_indexOf h

theorem colorableOn_full_iff (s : State) (hw : WellFormed s) (k : Nat) :
    ColorableOn s (2 ^ s.vertices.length - 1) k ↔ Colorable s k := by
  constructor
  · rintro ⟨f, hf⟩
    refine ⟨fun p => f (s.vertices.indexOf p), fun p hp => ?_⟩
    have hi : (2 ^ s.vertices.length - 1).testBit (s.vertices.indexOf p) = true := by
      rw [Nat.testBit_two_pow_sub_one]
      exact decide_eq_true (List.indexOf_lt_length.2 hp)
    refine ⟨(hf _ hi).1, fun q hq => ?_⟩
    have hqv := (hw.2.2 p hp q hq).1
    have hj : (2 ^ s.vertices.length - 1).testBit (s.vertices.indexOf q) = true := by
      rw [Nat.testBit_two_pow_sub_one]
      exact decide_eq_true (List.indexOf_lt_length.2 hqv)
    apply (hf _ hi).2 _ hj
    unfold adjacentAt
    rw [getD_indexOf _ _ hp, getD_indexOf _ _ hqv]
    exact hq
  · rintro ⟨f, hf⟩
    refine ⟨fun i => f (s.vertices.getD i 0), fun i hi => ?_⟩
    rw [Nat.testBit_two_pow_sub_one] at hi
    have hiV : i < s.vertices.length := by simpa using hi
    obtain ⟨a, b⟩ := hf _ (position_mem s i hiV)
    exact ⟨a, fun j _ hadj => b _ hadj⟩

/-- C4: for a simple graph on at most 20 vertices the table filled by
`calculateChromaticTable` (whatever the initial contents `junk` of the stack array) has
`T(0) = 0`, and for every non-empty `W` the entry `T(W)` is `1 + T(W \ S)` for some non-empty
independent `S` inside `W` and at most `1 + T(W \ S)` for all of them; the value returned by
`dynamic` is the table entry of the full set and is the least `k` admitting a proper
`k`-coloring. -/
theorem dynamic_chromatic_number (s : State) (junk : Int) (hw : WellFormed s)
    (hV : s.vertices.length ≤ 20) :
    (calculateChromaticTable s (createTable s) junk).getD 0 junk = 0 ∧
    (∀ W, 0 < W → W < 2 ^ s.vertices.length →
      (∃ S, IndependentSubset s W S ∧
        (calculateChromaticTable s (createTable s) junk).getD W junk =
          1 + (calculateChromaticTable s (createTable s) junk).getD (difference W S) junk) ∧
      ∀ S, IndependentSubset s W S →
        (calculateChromaticTable s (createTable s) junk).getD W junk ≤
          1 + (calculateChromaticTable s (createTable s) junk).getD (difference W S) junk) ∧
    dynamic s junk =
      (calculateChromaticTable s (createTable s) junk).getD (2 ^ s.vertices.length - 1) junk ∧
    0 ≤ dynamic s junk ∧ IsChromaticNumber s (dynamic s junk).toNat := by
  have hV32 : s.vertices.length ≤ 32 := by omega
  obtain ⟨h0, hT⟩ := calculateChromaticTable_entries s hw hV32 junk
  have hall := table_chromatic s hw hV32 junk _ h0 hT
  have hdyn : dynamic s junk =
      (calculateChromaticTable s (createTable s) junk).getD (2 ^ s.vertices.length - 1) junk := by
    unfold dynamic TABLE_SIZE
    rw [Nat.one_shiftLeft]
  have hpos : 0 < 2 ^ s.vertices.length := Nat.two_pow_pos _
  refine ⟨h0, fun W hW0 hW => ?_, hdyn, ?_, ?_⟩
  · obtain ⟨b1, _, b3⟩ := tableEntry_bounds s hw hV32 junk _ W hW (hT W hW0 hW)
    refine ⟨?_, b1⟩
    rcases b3 with b3 | b3
    · have h1 := (hall W hW).2.1
      have h2 := popcount32_le_of_lt hV32 hW
      omega
    · exact b3
  · rw [hdyn]
    exact (hall _ (by omega)).1
  · rw [hdyn]
    obtain ⟨c0, _, c2, c3⟩ := hall (2 ^ s.vertices.length - 1) (by omega)
    refine ⟨(colorableOn_full_iff s hw _).1 c2, fun k hk hcol => ?_⟩
    have := c3 k ((colorableOn_full_iff s hw k).2 hcol)
    omega

set_option maxRecDepth 100000 in
theorem dynamic_chromatic_number_witness :
    WellFormed pathThree ∧ pathThree.vertices.length ≤ 20 ∧
    dynamic pathThree 7 = 2 ∧ IsChromaticNumber pathThree (dynamic pathThree 7).toNat :=
  ⟨by unfold WellFormed; decide, by decide, by decide,
    (dynamic_chromatic_number pathThree 7 (by unfold WellFormed; decide) (by decide)).2.2.2.2⟩


/-! ## The backtracking search with re-sorting and conflict-directed selection -/

set_option maxRecDepth 1000000 in
set_option maxHeartbeats 4000000 in
/-- Claim C1, evaluated at a failing input. The graph `staleIndexGraph` is a simple graph on seven
uncolored vertices that has a proper 3-coloring, the mode is not EXHAUSTIVE, the domains were set
by `setAvailableColors` with `k = 3`, and yet `coloring` returns -1. -/
theorem coloring_misses_three_coloring :
    WellFormed staleIndexGraph ∧ Uncolored staleIndexGraph ∧
    staleIndexGraph.SEARCH ≠ search.EXHAUSTIVE ∧
    (coloring 9 staleIndexGraph).map Prod.fst = some (-1) ∧
    Colorable staleIndexGraph 3 := by
  refine ⟨?_, ?_, ?_, ?_, ⟨fun p => [0, 1, 1, 0, 2, 0, 2].getD p 0, ?_⟩⟩
  · unfold WellFormed; decide
  · unfold Uncolored; decide
  · decide
  · decide!
  · unfold ProperColoring; decide

set_option maxRecDepth 1000000 in
set_option maxHeartbeats 4000000 in
/-- Claim C3, evaluated at a failing input. The graph `staleIndexExhaustive` is a simple graph on
six uncolored vertices, none of them isolated, that has a proper 3-coloring; the mode is EXHAUSTIVE
with BOUNDS = NO, and `coloring` returns 4. -/
theorem exhaustive_exceeds_chromatic_number :
    WellFormed staleIndexExhaustive ∧ Uncolored staleIndexExhaustive ∧
    (∀ p ∈ staleIndexExhaustive.vertices, 0 < (deref staleIndexExhaustive.heap p).degree) ∧
    staleIndexExhaustive.SEARCH = search.EXHAUSTIVE ∧ staleIndexExhaustive.BOUNDS = bounds.NO ∧
    (coloring 8 staleIndexExhaustive).map Prod.fst = some 4 ∧
    Colorable staleIndexExhaustive 3 := by
  refine ⟨?_, ?_, ?_, ?_, ?_, ?_, ⟨fun p => [0, 1, 2, 0, 1, 2].getD p 0, ?_⟩⟩
  · unfold WellFormed; decide
  · unfold Uncolored; decide
  · decide
  · decide
  · decide
  · decide!
  · unfold ProperColoring; decide

set_option maxRecDepth 1000000 in
set_option maxHeartbeats 4000000 in
/-- Claim C11, evaluated at a failing input. The graph `staleIndexGreedy` is a simple graph on
seven vertices that `subGraph` finds connected and that has a proper 3-coloring; in GREEDY mode
`search` (with `CONNECTED_GRAPH` set or not) returns 4. -/
theorem greedy_search_exceeds_chromatic_number :
    WellFormed staleIndexGreedy ∧
    (subGraph 9 staleIndexGreedy).map (fun r => r.2.1.length) = some 7 ∧
    (searchFunction 9 true staleIndexGreedy).map Prod.fst = some 4 ∧
    (searchFunction 9 false staleIndexGreedy).map Prod.fst = some 4 ∧
    Colorable staleIndexGreedy 3 := by
  refine ⟨?_, ?_, ?_, ?_, ⟨fun p => [0, 1, 1, 0, 2, 0, 2].getD p 0, ?_⟩⟩
  · unfold WellFormed; decide
  · decide!
  · decide!
  · decide!
  · unfold ProperColoring; decide

set_option maxRecDepth 1000000 in
set_option maxHeartbeats 4000000 in
/-- Claim C12, evaluated at a failing input. The graph `staleIndexBinary` is a simple graph on
nine vertices that `subGraph` finds connected and that has a proper 3-coloring; the
Welsh-Powell bound is 4; in BINARY mode the bisection ends with the interval `(3, 4]`, so its
lower end is not below the chromatic number, and `search` returns 4. -/
theorem binary_search_exceeds_chromatic_number :
    WellFormed staleIndexBinary ∧
    (subGraph 11 staleIndexBinary).map (fun r => r.2.1.length) = some 9 ∧
    (getUpperBound 11 (initializeCounters staleIndexBinary)).map Prod.fst = some 4 ∧
    ((getUpperBound 11 (initializeCounters staleIndexBinary)).bind
      (fun r => binaryLoop 11 130 (binaryInterval 4).1 (binaryInterval 4).2
        (initializeCounters r.2))).map (fun r => (r.1, r.2.1)) = some (3, 4) ∧
    (searchFunction 11 true staleIndexBinary).map Prod.fst = some 4 ∧
    Colorable staleIndexBinary 3 := by
  refine ⟨?_, ?_, ?_, ?_, ?_, ⟨fun p => [0, 1, 2, 2, 0, 2, 1, 0, 0].getD p 0, ?_⟩⟩
  · unfold WellFormed; decide
  · decide!
  · decide!
  · decide!
  · decide!
  · unfold ProperColoring; decide

set_option maxRecDepth 1000000 in
set_option maxHeartbeats 4000000 in
/-- Claim C16, evaluated at a failing input. The graph `triangleAndStar` has no isolated vertex
and two components, a triangle and a star, and a proper 3-coloring, so no component needs more
than 3 colors; `MAX_DEGREE` is 3, the degree of the centre of the star; `subGraph` splits off the
triangle, for which `brooksUpperBound` returns `MAX_DEGREE + 1 = 4`, and `search` with
`CONNECTED_GRAPH = false` returns 4. -/
theorem disconnected_search_exceeds_chromatic_number :
    WellFormed triangleAndStar ∧
    (∀ p ∈ triangleAndStar.vertices, 0 < (deref triangleAndStar.heap p).degree) ∧
    triangleAndStar.MAX_DEGREE = 3 ∧
    (subGraph 9 triangleAndStar).map
      (fun r => (r.2.1, r.2.2, brooksUpperBound { r.1 with vertices := r.2.1 })) =
      some ([0, 1, 2], [3, 4, 5, 6], 4) ∧
    (searchFunction 9 false triangleAndStar).map Prod.fst = some 4 ∧
    Colorable triangleAndStar 3 := by
  refine ⟨?_, ?_, ?_, ?_, ?_, ⟨fun p => [0, 1, 2, 0, 1, 1, 1].getD p 0, ?_⟩⟩
  · unfold WellFormed; decide
  · decide!
  · decide!
  · decide!
  · decide!
  · unfold ProperColoring; decide

/-! ## Bit masks of available colors -/

theorem ilog2_two_pow (f j : Nat) (h : j < f) : ilog2 f (2 ^ j) = j := by
  induction f generalizing j with
  | zero => omega
  | succ f ih =>
    unfold ilog2
    cases j with
    | zero => simp
    | succ j =>
      have h1 : ¬ 2 ^ (j + 1) ≤ 1 := by
        have := Nat.two_pow_pos j
        rw [Nat.pow_succ]
        omega
      rw [if_neg h1]
      have h2 : 2 ^ (j + 1) / 2 = 2 ^ j := by
        rw [Nat.pow_succ]
        omega
      rw [h2, ih j (by omega)]

theorem testBit_sub_two_pow (c : Nat) (a i : Nat) (h : a.testBit c = true) :
    (a - 2 ^ c).testBit i = (a.testBit i && decide (i ≠ c)) := by
  induction c generalizing a i with
  | zero =>
    rw [Nat.testBit_zero] at h
    have h1 : a % 2 = 1 := by simpa using h
    rw [Nat.pow_zero]
    cases i with
    | zero =>
      rw [Nat.testBit_zero]
      have : (a - 1) % 2 = 0 := by omega
      simp [this]
    | succ i =>
      rw [Nat.testBit_succ, Nat.testBit_succ]
      have : (a - 1) / 2 = a / 2 := by omega
      simp [this]
  | succ c ih =>
    rw [Nat.testBit_succ] at h
    have hge : 2 ^ c ≤ a / 2 := Nat.testBit_implies_ge h
    have hp : 2 ^ (c + 1) = 2 * 2 ^ c := by
      rw [Nat.pow_succ]
      omega
    cases i with
    | zero =>
      rw [Nat.testBit_zero, Nat.testBit_zero]
      have : (a - 2 ^ (c + 1)) % 2 = a % 2 := by
        rw [hp]
        omega
      simp [this]
    | succ i =>
      rw [Nat.testBit_succ, Nat.testBit_succ]
      have : (a - 2 ^ (c + 1)) / 2 = a / 2 - 2 ^ c := by
        rw [hp]
        omega
      rw [this, ih (a / 2) i h]
      simp

theorem and_two_pow_ne_zero (a c : Nat) : a &&& 2 ^ c ≠ 0 ↔ a.testBit c = true := by
  constructor
  · intro h
    by_contra hc
    apply h
    apply Nat.eq_of_testBit_eq
    intro i
    rw [Nat.testBit_and, Nat.testBit_two_pow, Nat.zero_testBit]
    by_cases e : c = i
    · subst e
      simp [hc]
    · simp [e]
  · intro h e
    have := Nat.testBit_and a (2 ^ c) c
    rw [e, Nat.zero_testBit, h, Nat.testBit_two_pow_self] at this
    simp at this

/-- The lowest set bit: for `0 < y < 2 ^ n` the value `y & -y` is a power of two whose bit is
set in `y`. -/
theorem and_neg_two_pow (n : Nat) (y : Nat) (h0 : 0 < y) (h1 : y < 2 ^ n) :
    ∃ j, j < n ∧ y &&& (2 ^ n - y) = 2 ^ j ∧ y.testBit j = true := by
  induction n generalizing y with
  | zero =>
    rw [Nat.pow_zero] at h1
    omega
  | succ n ih =>
    by_cases hodd : y % 2 = 1
    · refine ⟨0, by omega, ?_, by rw [Nat.testBit_zero]; simp [hodd]⟩
      apply Nat.eq_of_testBit_eq
      intro i
      have e : 2 ^ (n + 1) - y = 2 ^ (n + 1) - ((y - 1) + 1) := by omega
      rw [Nat.testBit_and, e, Nat.testBit_two_pow_sub_succ (by omega), Nat.testBit_two_pow]
      cases i with
      | zero =>
        rw [Nat.testBit_zero, Nat.testBit_zero]
        have : (y - 1) % 2 = 0 := by omega
        simp [hodd, this]
      | succ i =>
        rw [Nat.testBit_succ, Nat.testBit_succ]
        have : (y - 1) / 2 = y / 2 := by omega
        rw [this]
        cases (y / 2).testBit i <;> simp
    · have hy : y = 2 * (y / 2) := by omega
      have hp : 2 ^ (n + 1) = 2 * 2 ^ n := by
        rw [Nat.pow_succ]
        omega
      obtain ⟨j, hj, e, t⟩ := ih (y / 2) (by omega) (by omega)
      refine ⟨j + 1, by omega, ?_, by rw [Nat.testBit_succ]; exact t⟩
      apply Nat.eq_of_testBit_eq
      intro i
      cases i with
      | zero =>
        rw [Nat.testBit_and, Nat.testBit_zero, Nat.testBit_zero, Nat.testBit_zero]
        have hy0 : y % 2 = 0 := by omega
        have a2 : 2 ^ (j + 1) % 2 = 0 := by
          rw [Nat.pow_succ]
          omega
        simp [hy0, a2]
      | succ i =>
        rw [Nat.testBit_succ, Nat.testBit_succ]
        have b1 : 2 ^ (j + 1) / 2 = 2 ^ j := by
          rw [Nat.pow_succ]
          omega
        rw [b1, ← e]
        rw [← Nat.testBit_succ, Nat.testBit_and, Nat.testBit_succ, Nat.testBit_succ,
          Nat.testBit_and]
        have b2 : (2 ^ (n + 1) - y) / 2 = 2 ^ n - y / 2 := by
          rw [hp]
          omega
        rw [b2]

theorem ctzll_spec (y : Nat) (h0 : y ≠ 0) (h1 : y < 2 ^ 64) :
    ∃ j : Nat, j < 64 ∧ ctzll y = (j : Int) ∧ y.testBit j = true := by
  obtain ⟨j, hj, e, t⟩ := and_neg_two_pow 64 y (by omega) h1
  refine ⟨j, hj, ?_, t⟩
  unfold ctzll
  rw [e, ilog2_two_pow 64 j hj]

theorem bit64_eq (c : Int) (h0 : 0 ≤ c) (h1 : c < 64) : bit64 c = 2 ^ c.toNat := by
  unfold bit64
  rw [Nat.shiftLeft_eq, Nat.one_mul]
  apply Nat.mod_eq_of_lt
  exact Nat.pow_lt_pow_right (by omega) (by omega)

theorem findColorFF_spec (s : State) (m : Int) (p : Nat) (hs : s.SEARCH ≠ search.EXHAUSTIVE)
    (hm0 : 0 ≤ m) (hm1 : m ≤ 64) (ha : (deref s.heap p).availableColors < 2 ^ 64)
    (hc : findColorFF s m p ≠ -1) :
    0 ≤ findColorFF s m p ∧ findColorFF s m p ≤ s.MAX_USED + 1 ∧
    findColorFF s m p ≤ s.MAX_COLOR ∧
    (deref s.heap p).availableColors.testBit (findColorFF s m p).toNat = true := by
  unfold findColorFF at hc ⊢
  simp only [] at hc ⊢
  by_cases h1 : s.SEARCH ≠ search.EXHAUSTIVE ∧
      0 ≤ getFirstSetBitPos ((deref s.heap p).availableColors >>> m.toNat) + m - 1 ∧
      getFirstSetBitPos ((deref s.heap p).availableColors >>> m.toNat) + m - 1 ≤ s.MAX_USED + 1 ∧
      getFirstSetBitPos ((deref s.heap p).availableColors >>> m.toNat) + m - 1 ≤ s.MAX_COLOR
  · rw [if_pos h1]
    obtain ⟨_, h2, h3, h4⟩ := h1
    refine ⟨h2, h3, h4, ?_⟩
    unfold getFirstSetBitPos at h2 ⊢
    by_cases hy : (deref s.heap p).availableColors >>> m.toNat = 0
    · rw [if_pos hy] at h2
      omega
    · rw [if_neg hy]
      have hlt : (deref s.heap p).availableColors >>> m.toNat < 2 ^ 64 := by
        rw [Nat.shiftRight_eq_div_pow]
        exact Nat.lt_of_le_of_lt (Nat.div_le_self _ _) ha
      obtain ⟨j, hj, e, t⟩ := and_neg_two_pow 64 _ (Nat.pos_of_ne_zero hy) hlt
      rw [e, ilog2_two_pow 64 j hj]
      rw [Nat.testBit_shiftRight] at t
      have e2 : ((j : Int) + 1 + m - 1).toNat = m.toNat + j := by omega
      rw [e2]
      exact t
  · rw [if_neg h1] at hc
    have h2 : ¬ (s.SEARCH = search.EXHAUSTIVE ∧
      0 ≤ getFirstSetBitPos ((deref s.heap p).availableColors >>> m.toNat) + m - 1 ∧
      getFirstSetBitPos ((deref s.heap p).availableColors >>> m.toNat) + m - 1 ≤ s.MAX_USED + 1 ∧
      getFirstSetBitPos ((deref s.heap p).availableColors >>> m.toNat) + m - 1 < s.CHROMATIC) :=
      fun c => hs c.1
    rw [if_neg h2] at hc
    exact absurd rfl hc

/-! ## The change log -/

theorem logSum_recordChange (p c x : Nat) (qs ds : List Nat)
    (hb : logSum p qs ds + c < 2 ^ 64) :
    logSum x (recordChange p c qs ds).1 (recordChange p c qs ds).2 =
      logSum x qs ds + (if p = x then c else 0) := by
  induction qs generalizing ds with
  | nil => simp [recordChange, logSum]
  | cons q qs ih =>
    cases ds with
    | nil => simp [recordChange, logSum]
    | cons d ds =>
      unfold recordChange
      by_cases hq : q = p
      · subst hq
        rw [if_pos rfl]
        have hb1 : d + c < 2 ^ 64 := by
          simp only [logSum, if_pos] at hb
          omega
        simp only [logSum, Nat.mod_eq_of_lt hb1]
        by_cases hx : q = x
        · simp only [hx, if_pos]
          omega
        · simp only [hx, if_neg, not_false_eq_true]
          omega
      · rw [if_neg hq]
        have hb1 : logSum p qs ds + c < 2 ^ 64 := by
          simp only [logSum, if_neg hq] at hb
          omega
        simp only [logSum]
        rw [ih ds hb1]
        omega

theorem foldl_uncolor (l : List Nat) (s : State) :
    ∃ h, l.foldl (fun t p => modify t p (fun v => { v with color := -1 })) s =
        { s with heap := h } ∧ h.length = s.heap.length ∧
      (∀ p, (deref h p).adjacentVertices = (deref s.heap p).adjacentVertices) ∧
      (∀ p, (deref h p).availableColors = (deref s.heap p).availableColors) ∧
      (∀ p, (p ∈ l → p < s.heap.length → (deref h p).color = -1) ∧
        (p ∉ l → (deref h p).color = (deref s.heap p).color)) := by
  induction l generalizing s with
  | nil => exact ⟨s.heap, rfl, rfl, fun _ => rfl, fun _ => rfl, fun p => ⟨fun h _ => (by cases h), fun _ => rfl⟩⟩
  | cons x xs ih =>
    obtain ⟨h, e, hl, ha, hv, hc⟩ := ih (modify s x (fun v => { v with color := -1 }))
    refine ⟨h, ?_, ?_, ?_, ?_, ?_⟩
    · rw [List.foldl_cons, e]
      rfl
    · rw [hl, modify_heap_length]
    · intro p
      rw [ha, deref_modify_field (fun v => v.adjacentVertices)]
      exact fun _ => rfl
    · intro p
      rw [hv, deref_modify_field (fun v => v.availableColors)]
      exact fun _ => rfl
    · intro p
      constructor
      · intro hp hlt
        by_cases hxs : p ∈ xs
        · exact (hc p).1 hxs (by rw [modify_heap_length]; exact hlt)
        · have hpx : p = x := by
            rcases List.mem_cons.1 hp with h1 | h1
            · exact h1
            · exact absurd h1 hxs
          rw [(hc p).2 hxs, hpx, deref_modify_self s x _ (by rw [← hpx]; exact hlt)]
      · intro hp
        have h1 : p ≠ x := fun c => hp (by rw [c]; exact List.mem_cons_self _ _)
        have h2 : p ∉ xs := fun c => hp (List.mem_cons_of_mem _ c)
        rw [(hc p).2 h2, deref_modify_ne s x p _ h1]

theorem foldl_readd (qs ds : List Nat) (s : State) (hs : s.SEARCH ≠ search.EXHAUSTIVE) :
    ∃ h, (qs.zip ds).foldl
        (fun t pc =>
          let t1 := modify t pc.1
            (fun v => { v with availableColors := (v.availableColors + pc.2) % 2 ^ 64 })
          if t1.SEARCH = search.EXHAUSTIVE then updateVertexAvailability t1 pc.1 t1.CHROMATIC
          else t1) s = { s with heap := h } ∧ h.length = s.heap.length ∧
      (∀ p, (deref h p).adjacentVertices = (deref s.heap p).adjacentVertices) ∧
      (∀ p, (deref h p).color = (deref s.heap p).color) ∧
      (∀ p, p < s.heap.length → (deref s.heap p).availableColors + logSum p qs ds < 2 ^ 64 →
        (deref h p).availableColors = (deref s.heap p).availableColors + logSum p qs ds) := by
  induction qs generalizing ds s with
  | nil => exact ⟨s.heap, rfl, rfl, fun _ => rfl, fun _ => rfl, fun p _ _ => by simp [logSum]⟩
  | cons q qs ih =>
    cases ds with
    | nil => exact ⟨s.heap, rfl, rfl, fun _ => rfl, fun _ => rfl, fun p _ _ => by simp [logSum]⟩
    | cons d ds =>
      have hs1 : (modify s q
          (fun v => { v with availableColors := (v.availableColors + d) % 2 ^ 64 })).SEARCH ≠
          search.EXHAUSTIVE := hs
      obtain ⟨h, e, hl, ha, hc, hv⟩ := ih ds (modify s q
          (fun v => { v with availableColors := (v.availableColors + d) % 2 ^ 64 })) hs1
      refine ⟨h, ?_, ?_, ?_, ?_, ?_⟩
      · rw [List.zip_cons_cons, List.foldl_cons]
        simp only []
        rw [if_neg hs1, e]
        rfl
      · rw [hl, modify_heap_length]
      · intro p
        rw [ha, deref_modify_field (fun v => v.adjacentVertices)]
        exact fun _ => rfl
      · intro p
        rw [hc, deref_modify_field (fun v => v.color)]
        exact fun _ => rfl
      · intro p hp hb
        simp only [logSum] at hb ⊢
        by_cases hq : q = p
        · subst hq
          rw [if_pos rfl] at hb ⊢
          have e1 := deref_modify_self s q
            (fun v => { v with availableColors := (v.availableColors + d) % 2 ^ 64 }) hp
          have e2 : (deref (modify s q (fun v =>
              { v with availableColors := (v.availableColors + d) % 2 ^ 64 })).heap
              q).availableColors = (deref s.heap q).availableColors + d := by
            rw [e1]
            exact Nat.mod_eq_of_lt (by omega)
          rw [hv q (by rw [modify_heap_length]; exact hp) (by rw [e2]; omega), e2]
          omega
        · rw [if_neg hq] at hb ⊢
          have e2 := deref_modify_ne s q p
            (fun v => { v with availableColors := (v.availableColors + d) % 2 ^ 64 })
            (fun c => hq c.symm)
          rw [hv p (by rw [modify_heap_length]; exact hp) (by rw [e2]; omega), e2]
          omega

theorem restore_spec (s : State) (log : ChangeLog) (hs : s.SEARCH ≠ search.EXHAUSTIVE) :
    ∃ h, (restore s log).1 = { s with heap := h } ∧ h.length = s.heap.length ∧
      (∀ p, (deref h p).adjacentVertices = (deref s.heap p).adjacentVertices) ∧
      (∀ p, (p ∈ log.coloredVertices → p < s.heap.length → (deref h p).color = -1) ∧
        (p ∉ log.coloredVertices → (deref h p).color = (deref s.heap p).color)) ∧
      (∀ p, p < s.heap.length →
        (deref s.heap p).availableColors + logSum p log.changedVertices log.vertexChanges
          < 2 ^ 64 →
        (deref h p).availableColors =
          (deref s.heap p).availableColors + logSum p log.changedVertices log.vertexChanges) := by
  obtain ⟨h1, e1, l1, a1, v1, c1⟩ := foldl_uncolor log.coloredVertices s
  have hs1 : ({ s with heap := h1 } : State).SEARCH ≠ search.EXHAUSTIVE := hs
  obtain ⟨h2, e2, l2, a2, c2, v2⟩ :=
    foldl_readd log.changedVertices log.vertexChanges { s with heap := h1 } hs1
  refine ⟨h2, ?_, ?_, ?_, ?_, ?_⟩
  · unfold restore
    simp only []
    rw [e1, e2]
  · rw [l2]
    exact l1
  · intro p
    rw [a2]
    exact a1 p
  · intro p
    rw [c2]
    exact c1 p
  · intro p hp hb
    have := v2 p (by show p < h1.length; rw [l1]; exact hp)
      (by show (deref h1 p).availableColors + _ < _; rw [v1]; exact hb)
    rw [this]
    show (deref h1 p).availableColors + _ = _
    rw [v1]

/-! ## The relation between the states of a frame -/

theorem take_eq_of_take_eq {l1 l2 : List Nat} {L L1 : Nat} (h : L ≤ L1)
    (e : l1.take L1 = l2.take L1) : l1.take L = l2.take L := by
  have a1 : l1.take L = (l1.take L1).take L := by rw [List.take_take, Nat.min_eq_left h]
  have a2 : l2.take L = (l2.take L1).take L := by rw [List.take_take, Nat.min_eq_left h]
  rw [a1, a2, e]

theorem mem_take_mono {l : List Nat} {L L1 : Nat} (h : L ≤ L1) {p : Nat}
    (hp : p ∈ l.take L) : p ∈ l.take L1 := by
  have a1 : l.take L = (l.take L1).take L := by rw [List.take_take, Nat.min_eq_left h]
  rw [a1] at hp
  exact List.mem_of_mem_take hp

theorem rel_refl (L : Nat) (s : State) : Rel L s s :=
  ⟨⟨List.Perm.refl _, rfl, rfl, rfl, rfl, fun _ => rfl, fun _ _ => rfl, fun _ _ => Or.inl rfl,
    fun _ h => absurd h (List.not_mem_nil _)⟩, rfl⟩

/-- A step that leaves the array, the scalars and the three fields `adjacentVertices`,
`availableColors` and `color` alone. -/
theorem rel_of_same (L : Nat) (s t : State) (hv : t.vertices = s.vertices)
    (hl : t.heap.length = s.heap.length) (hm : t.MAX_COLOR = s.MAX_COLOR)
    (hs : t.SEARCH = s.SEARCH) (hu : t.MAX_USED = s.MAX_USED)
    (ha : ∀ p, (deref t.heap p).adjacentVertices = (deref s.heap p).adjacentVertices)
    (hd : ∀ p, (deref t.heap p).availableColors = (deref s.heap p).availableColors)
    (hc : ∀ p, (deref t.heap p).color = (deref s.heap p).color) : Rel L s t :=
  ⟨⟨by rw [hv], by rw [hv], hl, hm, hs, ha, fun p _ => by rw [hd]; rfl,
    fun p _ => Or.inl (hc p), fun _ h => absurd h (List.not_mem_nil _)⟩, hu⟩

theorem relLog_trans_rel {L L1 : Nat} {s0 s t : State} {log : ChangeLog} (hL : L ≤ L1)
    (h1 : RelLog L s0 s log) (h2 : Rel L1 s t) : RelLog L s0 t log := by
  obtain ⟨r, _⟩ := h2
  have hpre : t.vertices.take L = s.vertices.take L := take_eq_of_take_eq hL r.pre
  refine ⟨r.perm.trans h1.perm, hpre.trans h1.pre, r.len.trans h1.len, r.maxc.trans h1.maxc,
    r.srch.trans h1.srch, fun p => (r.adj p).trans (h1.adj p), ?_, ?_, h1.out⟩
  · intro p hp
    have hps : p ∈ s.vertices := h1.perm.mem_iff.2 hp
    have := r.av p hps
    simp only [emptyLog, logSum, Nat.add_zero] at this
    rw [this]
    exact h1.av p hp
  · intro p hp
    have hps : p ∈ s.vertices := h1.perm.mem_iff.2 hp
    rcases r.col p hps with e | ⟨e, hn⟩
    · rcases h1.col p hp with e1 | ⟨e1, hn1⟩
      · exact Or.inl (e.trans e1)
      · refine Or.inr ⟨?_, hn1⟩
        rcases e1 with e1 | e1
        · exact Or.inl e1
        · exact Or.inr (e.trans e1)
    · refine Or.inr ⟨?_, ?_⟩
      · rcases e with e | e
        · simp [emptyLog] at e
        · exact Or.inr e
      · intro hm
        apply hn
        rw [← h1.pre] at hm
        exact mem_take_mono hL hm

theorem rel_trans {L L1 : Nat} {s0 s t : State} (hL : L ≤ L1) (h1 : Rel L s0 s)
    (h2 : Rel L1 s t) : Rel L s0 t :=
  ⟨relLog_trans_rel hL h1.1 h2, h2.2.trans h1.2⟩

theorem searchInv_of_rel {k L : Nat} {s t : State} (hi : SearchInv k s) (h : Rel L s t) :
    SearchInv k t := by
  obtain ⟨r, hu⟩ := h
  have hmem : ∀ p, p ∈ t.vertices → p ∈ s.vertices := fun p hp => r.perm.mem_iff.1 hp
  have hav : ∀ p, p ∈ s.vertices →
      (deref t.heap p).availableColors = (deref s.heap p).availableColors := by
    intro p hp
    have := r.av p hp
    simp only [emptyLog, logSum, Nat.add_zero] at this
    exact this
  have hcol : ∀ p, p ∈ s.vertices → (deref t.heap p).color = (deref s.heap p).color ∨
      (deref t.heap p).color = -1 := by
    intro p hp
    rcases r.col p hp with e | ⟨e, _⟩
    · exact Or.inl e
    · rcases e with e | e
      · simp [emptyLog] at e
      · exact Or.inr e
  obtain ⟨n, v, a⟩ := hi.wf
  refine ⟨⟨r.perm.nodup_iff.2 n, ?_, ?_⟩, ?_, hi.kle, ?_, ?_, ?_, ?_, ?_, ?_⟩
  · intro p hp
    rw [r.len]
    exact v p (hmem p hp)
  · intro p hp q hq
    rw [r.adj] at hq ⊢
    obtain ⟨a1, a2, a3⟩ := a p (hmem p hp) q hq
    exact ⟨r.perm.mem_iff.2 a1, a2, a3⟩
  · rw [r.srch]
    exact hi.nonex
  · rw [r.maxc]
    exact hi.maxc
  · rw [hu, r.maxc]
    exact hi.used
  · intro p hp
    rw [hav p (hmem p hp)]
    exact hi.dom p (hmem p hp)
  · intro p hp
    rw [hu]
    rcases hcol p (hmem p hp) with e | e
    · rw [e]
      exact hi.col p (hmem p hp)
    · rw [e]
      exact ⟨le_refl _, hi.used.1⟩
  · intro p hp u hu1 hc
    rw [r.adj] at hu1
    have hus : u ∈ s.vertices := (a p (hmem p hp) u hu1).1
    right
    rcases hcol u hus with e | e
    · rw [e, hav p (hmem p hp)]
      rw [e] at hc
      rcases hi.excl p (hmem p hp) u hu1 hc with x | x
      · exact absurd x.2 (List.not_mem_nil _)
      · exact x
    · exact absurd e hc
  · intro p hp hc
    rcases hcol p (hmem p hp) with e | e
    · rw [e, hav p (hmem p hp)]
      rw [e] at hc
      exact hi.own p (hmem p hp) hc
    · exact absurd e hc

theorem done_of_rel {L L1 : Nat} {s t : State} (hL : L ≤ L1) (hd : Done L s)
    (h : Rel L1 s t) : Done L t := by
  intro p hp
  have hpre : t.vertices.take L = s.vertices.take L := take_eq_of_take_eq hL h.1.pre
  rw [hpre] at hp
  have hps : p ∈ s.vertices := List.mem_of_mem_take hp
  rcases h.1.col p hps with e | ⟨_, hn⟩
  · rw [e]
    exact hd p hp
  · exact absurd (mem_take_mono hL hp) hn

/-! ## The function removeNeighborColors -/

theorem modify_avail (s : State) (q : Nat) (g : Nat → Nat) (hq : q < s.heap.length) :
    (∀ p, (deref (modify s q (fun v => { v with availableColors := g v.availableColors })).heap
        p).adjacentVertices = (deref s.heap p).adjacentVertices) ∧
    (∀ p, (deref (modify s q (fun v => { v with availableColors := g v.availableColors })).heap
        p).color = (deref s.heap p).color) ∧
    (deref (modify s q (fun v => { v with availableColors := g v.availableColors })).heap
        q).availableColors = g (deref s.heap q).availableColors ∧
    (∀ p, p ≠ q →
      (deref (modify s q (fun v => { v with availableColors := g v.availableColors })).heap
        p).availableColors = (deref s.heap p).availableColors) := by
  refine ⟨fun p => ?_, fun p => ?_, ?_, fun p hp => ?_⟩
  · rw [deref_modify_field (fun v => v.adjacentVertices)]
    exact fun _ => rfl
  · rw [deref_modify_field (fun v => v.color)]
    exact fun _ => rfl
  · rw [deref_modify_self s q _ hq]
  · rw [deref_modify_ne s q p _ hp]

theorem removeNeighborColors_skip {k x q : Nat} {rest : List Nat} {s : State}
    (hi : SearchInvX k x (q :: rest) s)
    (hb : (deref s.heap q).availableColors.testBit (deref s.heap x).color.toNat = false) :
    SearchInvX k x rest s := by
  refine ⟨hi.wf, hi.nonex, hi.kle, hi.maxc, hi.used, hi.dom, hi.col, ?_, hi.own⟩
  intro p hp u hu hc
  rcases hi.excl p hp u hu hc with ⟨e1, e2⟩ | e
  · rcases List.mem_cons.1 e2 with e3 | e3
    · right
      rw [e1, e3]
      exact hb
    · exact Or.inl ⟨e1, e3⟩
  · exact Or.inr e

theorem removeNeighborColors_step {k x q : Nat} {rest : List Nat} {s : State} {c : Nat}
    (hi : SearchInvX k x (q :: rest) s) (hx : x ∈ s.vertices)
    (hc : (deref s.heap x).color ≠ -1) (hcn : (deref s.heap x).color.toNat = c)
    (hq : q ∈ (deref s.heap x).adjacentVertices)
    (hb : (deref s.heap q).availableColors.testBit c = true) :
    SearchInvX k x rest
      (modify s q (fun v => { v with availableColors := v.availableColors - 2 ^ c })) := by
  obtain ⟨n, v, a⟩ := hi.wf
  obtain ⟨hqv, hqx, hxq⟩ := a x hx q hq
  obtain ⟨ma, mc, mq, mo⟩ := modify_avail s q (fun a => a - 2 ^ c) (v q hqv)
  have hbit : ∀ p i, (deref s.heap p).availableColors.testBit i = false →
      (deref (modify s q (fun v => { v with availableColors := v.availableColors - 2 ^ c })).heap
        p).availableColors.testBit i = false := by
    intro p i h
    by_cases e : p = q
    · rw [e, mq, testBit_sub_two_pow c _ i hb]
      rw [e] at h
      simp [h]
    · rw [mo p e]
      exact h
  refine ⟨⟨n, ?_, ?_⟩, hi.nonex, hi.kle, hi.maxc, hi.used, ?_, ?_, ?_, ?_⟩
  · intro p hp
    rw [modify_heap_length]
    exact v p hp
  · intro p hp r hr
    rw [ma] at hr ⊢
    exact a p hp r hr
  · intro p hp
    by_cases e : p = q
    · rw [e, mq]
      exact Nat.lt_of_le_of_lt (Nat.sub_le _ _) (hi.dom q hqv)
    · rw [mo p e]
      exact hi.dom p hp
  · intro p hp
    rw [mc]
    exact hi.col p hp
  · intro p hp u hu huc
    rw [ma] at hu
    rw [mc] at huc ⊢
    rcases hi.excl p hp u hu huc with ⟨e1, e2⟩ | e
    · rcases List.mem_cons.1 e2 with e3 | e3
      · right
        rw [e1, e3, hcn, mq, testBit_sub_two_pow c _ c hb]
        simp
      · exact Or.inl ⟨e1, e3⟩
    · exact Or.inr (hbit p _ e)
  · intro p hp hpc
    rw [mc] at hpc ⊢
    by_cases e : p = q
    · rw [e, mq, testBit_sub_two_pow c _ _ hb]
      rw [e] at hpc
      have h1 := hi.own q hqv hpc
      have h2 : (deref s.heap q).color.toNat ≠ c := by
        intro h3
        rcases hi.excl x hx q hq hpc with ⟨e1, _⟩ | e1
        · exact hqx e1
        · have h4 := hi.own x hx hc
          rw [hcn] at h4
          rw [h3, h4] at e1
          cases e1
      simp [h1, h2]
    · rw [mo p e]
      exact hi.own p hp hpc

theorem removeNeighborColors_spec (k L x : Nat) (s0 : State)
    (hd0 : ∀ p ∈ s0.vertices, (deref s0.heap p).availableColors < 2 ^ 64) :
    ∀ (rest : List Nat) (s : State) (log : ChangeLog),
      SearchInvX k x rest s → RelLog L s0 s log → x ∈ s.vertices →
      (deref s.heap x).color ≠ -1 →
      (∀ q ∈ rest, q ∈ (deref s.heap x).adjacentVertices) →
      SearchInvX k x [] (removeNeighborColors rest (deref s.heap x).color s log).1 ∧
      RelLog L s0 (removeNeighborColors rest (deref s.heap x).color s log).1
        (removeNeighborColors rest (deref s.heap x).color s log).2 ∧
      (removeNeighborColors rest (deref s.heap x).color s log).1.vertices = s.vertices ∧
      (removeNeighborColors rest (deref s.heap x).color s log).1.MAX_USED = s.MAX_USED ∧
      (removeNeighborColors rest (deref s.heap x).color s log).1.VERTEX_COUNTER =
        s.VERTEX_COUNTER ∧
      (∀ p, (deref (removeNeighborColors rest (deref s.heap x).color s log).1.heap p).color =
        (deref s.heap p).color) ∧
      (removeNeighborColors rest (deref s.heap x).color s log).2.coloredVertices =
        log.coloredVertices := by
  intro rest
  induction rest with
  | nil =>
    intro s log hi hr _ _ _
    exact ⟨hi, hr, rfl, rfl, rfl, fun _ => rfl, rfl⟩
  | cons q rest ih =>
    intro s log hi hr hx hc hsub
    have hcol := hi.col x hx
    have hc0 : 0 ≤ (deref s.heap x).color := by omega
    have hc1 : (deref s.heap x).color < 64 := by
      have := hi.used
      have := hi.maxc
      have := hi.kle
      omega
    have hbit : bit64 (deref s.heap x).color = 2 ^ (deref s.heap x).color.toNat :=
      bit64_eq _ hc0 hc1
    obtain ⟨n, v, a⟩ := hi.wf
    have hq := hsub q (List.mem_cons_self _ _)
    obtain ⟨hqv, hqx, hxq⟩ := a x hx q hq
    unfold removeNeighborColors
    by_cases hb : (deref s.heap q).availableColors &&& bit64 (deref s.heap x).color ≠ 0
    · rw [if_pos hb]
      simp only []
      rw [hbit] at hb ⊢
      have hb1 := (and_two_pow_ne_zero _ _).1 hb
      obtain ⟨ma, mc, mq, mo⟩ := modify_avail s q
        (fun a => a - 2 ^ (deref s.heap x).color.toNat) (v q hqv)
      have hi1 := removeNeighborColors_step hi hx hc rfl hq hb1
      have hge : 2 ^ (deref s.heap x).color.toNat ≤ (deref s.heap q).availableColors :=
        Nat.testBit_implies_ge hb1
      have hq0 : q ∈ s0.vertices := hr.perm.mem_iff.1 hqv
      have hsum := hr.av q hq0
      have hbound : logSum q log.changedVertices log.vertexChanges +
          2 ^ (deref s.heap x).color.toNat < 2 ^ 64 := by
        have := hd0 q hq0
        omega
      have hr1 : RelLog L s0
          (modify s q (fun v => { v with availableColors :=
            v.availableColors - 2 ^ (deref s.heap x).color.toNat }))
          { log with
            changedVertices := (recordChange q (2 ^ (deref s.heap x).color.toNat)
              log.changedVertices log.vertexChanges).1,
            vertexChanges := (recordChange q (2 ^ (deref s.heap x).color.toNat)
              log.changedVertices log.vertexChanges).2 } := by
        refine ⟨hr.perm, hr.pre, ?_, hr.maxc, hr.srch, ?_, ?_, ?_, hr.out⟩
        · rw [modify_heap_length]
          exact hr.len
        · intro p
          rw [ma]
          exact hr.adj p
        · intro p hp
          simp only []
          rw [logSum_recordChange q _ p _ _ hbound]
          by_cases e : p = q
          · rw [e, mq, if_pos rfl]
            omega
          · rw [mo p e, if_neg (fun c => e c.symm)]
            exact hr.av p hp
        · intro p hp
          rw [mc]
          exact hr.col p hp
      have hcx : (deref (modify s q (fun v => { v with availableColors :=
            v.availableColors - 2 ^ (deref s.heap x).color.toNat })).heap x).color =
          (deref s.heap x).color := mc x
      have hsub1 : ∀ r ∈ rest, r ∈ (deref (modify s q (fun v => { v with availableColors :=
            v.availableColors - 2 ^ (deref s.heap x).color.toNat })).heap x).adjacentVertices := by
        intro r hr2
        rw [ma]
        exact hsub r (List.mem_cons_of_mem _ hr2)
      have := ih _ _ hi1 hr1 hx (by rw [hcx]; exact hc) hsub1
      rw [hcx] at this
      obtain ⟨t1, t2, t3, t4, t5, t6, t7⟩ := this
      refine ⟨t1, t2, t3, t4, t5, ?_, t7⟩
      intro p
      rw [t6, mc]
    · rw [if_neg hb]
      rw [hbit] at hb
      have hb1 : (deref s.heap q).availableColors.testBit (deref s.heap x).color.toNat = false := by
        by_contra h
        exact hb ((and_two_pow_ne_zero _ _).2 (by simpa using h))
      exact ih s log (removeNeighborColors_skip hi hb1) hr hx hc
        (fun r hr2 => hsub r (List.mem_cons_of_mem _ hr2))

/-! ## Coloring one vertex -/

theorem color_spec {k L x : Nat} {s0 s s1 : State} {log log1 : ChangeLog} {c : Int}
    (hi : SearchInv k s) (hr : RelLog L s0 s log)
    (hxL : x ∉ s0.vertices.take L) (hc0 : 0 ≤ c) (hcm : c ≤ s.MAX_COLOR)
    (hb : (deref s.heap x).availableColors.testBit c.toNat = true)
    (hv : s1.vertices = s.vertices) (hl : s1.heap.length = s.heap.length)
    (hm : s1.MAX_COLOR = s.MAX_COLOR) (hs : s1.SEARCH = s.SEARCH)
    (hu : s1.MAX_USED = if c > s.MAX_USED then c else s.MAX_USED)
    (ha : ∀ p, (deref s1.heap p).adjacentVertices = (deref s.heap p).adjacentVertices)
    (hd : ∀ p, (deref s1.heap p).availableColors = (deref s.heap p).availableColors)
    (hcx : (deref s1.heap x).color = c)
    (hco : ∀ p, p ≠ x → (deref s1.heap p).color = (deref s.heap p).color)
    (hl1 : log1.changedVertices = log.changedVertices)
    (hl2 : log1.vertexChanges = log.vertexChanges)
    (hl3 : x ∈ log1.coloredVertices)
    (hl4 : ∀ p ∈ log.coloredVertices, p ∈ log1.coloredVertices)
    (hl5 : ∀ p ∈ log1.coloredVertices, p = x ∨ p ∈ log.coloredVertices) :
    SearchInvX k x (deref s1.heap x).adjacentVertices s1 ∧ RelLog L s0 s1 log1 := by
  obtain ⟨n, v, a⟩ := hi.wf
  have hu1 : s.MAX_USED ≤ s1.MAX_USED ∧ c ≤ s1.MAX_USED ∧ s1.MAX_USED ≤ s.MAX_COLOR := by
    have := hi.used
    rw [hu]
    split <;> omega
  constructor
  · refine ⟨⟨by rw [hv]; exact n, ?_, ?_⟩, by rw [hs]; exact hi.nonex, hi.kle,
      by rw [hm]; exact hi.maxc, ?_, ?_, ?_, ?_, ?_⟩
    · intro p hp
      rw [hl]
      exact v p (by rw [← hv]; exact hp)
    · intro p hp q hq
      rw [hv] at hp ⊢
      rw [ha] at hq ⊢
      exact a p hp q hq
    · have := hi.used
      rw [hm]
      omega
    · intro p hp
      rw [hv] at hp
      rw [hd]
      exact hi.dom p hp
    · intro p hp
      rw [hv] at hp
      by_cases e : p = x
      · rw [e, hcx]
        omega
      · rw [hco p e]
        have := hi.col p hp
        omega
    · intro p hp u hu2 huc
      rw [hv] at hp
      rw [ha] at hu2
      by_cases e : u = x
      · left
        refine ⟨e, ?_⟩
        rw [ha]
        rw [e] at hu2
        exact (a p hp x hu2).2.2
      · right
        rw [hco u e] at huc ⊢
        rw [hd]
        rcases hi.excl p hp u hu2 huc with y | y
        · exact absurd y.2 (List.not_mem_nil _)
        · exact y
    · intro p hp hpc
      rw [hv] at hp
      by_cases e : p = x
      · rw [e, hcx, hd]
        exact hb
      · rw [hco p e] at hpc ⊢
        rw [hd]
        exact hi.own p hp hpc
  · refine ⟨by rw [hv]; exact hr.perm, by rw [hv]; exact hr.pre, hl.trans hr.len,
      hm.trans hr.maxc, hs.trans hr.srch, fun p => (ha p).trans (hr.adj p), ?_, ?_, ?_⟩
    · intro p hp
      rw [hd, hl1, hl2]
      exact hr.av p hp
    · intro p hp
      by_cases e : p = x
      · right
        rw [e]
        exact ⟨Or.inl hl3, hxL⟩
      · rw [hco p e]
        rcases hr.col p hp with y | ⟨y, z⟩
        · exact Or.inl y
        · refine Or.inr ⟨?_, z⟩
          rcases y with y | y
          · exact Or.inl (hl4 p y)
          · exact Or.inr y
    · intro p hp
      rcases hl5 p hp with e | e
      · rw [e]
        exact hxL
      · exact hr.out p e

theorem grow_refl (s : State) : Grow s s := ⟨rfl, rfl, fun _ h => h⟩

theorem grow_trans {s t u : State} (h1 : Grow s t) (h2 : Grow t u) : Grow s u :=
  ⟨h2.1.trans h1.1, h2.2.1.trans h1.2.1, fun p h => h2.2.2 p (h1.2.2 p h)⟩

theorem not_mem_take_of_uncolored {L x : Nat} {s0 s : State} {log : ChangeLog}
    (hr : RelLog L s0 s log) (hd : Done L s0) (hx : x ∈ s.vertices)
    (hc : (deref s.heap x).color = -1) : x ∉ s0.vertices.take L := by
  intro hm
  rcases hr.col x (hr.perm.mem_iff.1 hx) with e | ⟨_, e⟩
  · exact hd x hm (e ▸ hc)
  · exact e hm

theorem searchInvX_nil {k x y : Nat} {s : State} (h : SearchInvX k x [] s) :
    SearchInvX k y [] s := by
  refine ⟨h.wf, h.nonex, h.kle, h.maxc, h.used, h.dom, h.col, ?_, h.own⟩
  intro p hp u hu hc
  rcases h.excl p hp u hu hc with e | e
  · exact absurd e.2 (List.not_mem_nil _)
  · exact Or.inr e

theorem bump_fields (s : State) (c : Int) :
    (if c > s.MAX_USED then { s with MAX_USED := c } else s).heap = s.heap ∧
    (if c > s.MAX_USED then { s with MAX_USED := c } else s).vertices = s.vertices ∧
    (if c > s.MAX_USED then { s with MAX_USED := c } else s).MAX_COLOR = s.MAX_COLOR ∧
    (if c > s.MAX_USED then { s with MAX_USED := c } else s).SEARCH = s.SEARCH ∧
    (if c > s.MAX_USED then { s with MAX_USED := c } else s).VERTEX_COUNTER =
      s.VERTEX_COUNTER ∧
    (if c > s.MAX_USED then { s with MAX_USED := c } else s).MAX_USED =
      if c > s.MAX_USED then c else s.MAX_USED := by
  split <;> exact ⟨rfl, rfl, rfl, rfl, rfl, rfl⟩

/-- Coloring the vertex `x` with a color of its domain and removing that color from the domains
of its neighbors keeps the invariant and extends the log. -/
theorem color_remove_spec {k L x : Nat} {s0 s s2 : State} {log log1 : ChangeLog} {c : Int}
    (hd0 : ∀ p ∈ s0.vertices, (deref s0.heap p).availableColors < 2 ^ 64)
    (hi : SearchInv k s) (hr : RelLog L s0 s log) (hx : x ∈ s.vertices)
    (hxL : x ∉ s0.vertices.take L) (hc0 : 0 ≤ c) (hcm : c ≤ s.MAX_COLOR)
    (hb : (deref s.heap x).availableColors.testBit c.toNat = true)
    (hv : s2.vertices = s.vertices) (hl : s2.heap.length = s.heap.length)
    (hm : s2.MAX_COLOR = s.MAX_COLOR) (hs : s2.SEARCH = s.SEARCH)
    (hu : s2.MAX_USED = if c > s.MAX_USED then c else s.MAX_USED)
    (ha : ∀ p, (deref s2.heap p).adjacentVertices = (deref s.heap p).adjacentVertices)
    (hd : ∀ p, (deref s2.heap p).availableColors = (deref s.heap p).availableColors)
    (hcx : (deref s2.heap x).color = c)
    (hco : ∀ p, p ≠ x → (deref s2.heap p).color = (deref s.heap p).color)
    (hl1 : log1.changedVertices = log.changedVertices)
    (hl2 : log1.vertexChanges = log.vertexChanges)
    (hl3 : x ∈ log1.coloredVertices)
    (hl4 : ∀ p ∈ log.coloredVertices, p ∈ log1.coloredVertices)
    (hl5 : ∀ p ∈ log1.coloredVertices, p = x ∨ p ∈ log.coloredVertices) :
    SearchInv k (removeNeighborColors (deref s2.heap x).adjacentVertices c s2 log1).1 ∧
    RelLog L s0 (removeNeighborColors (deref s2.heap x).adjacentVertices c s2 log1).1
      (removeNeighborColors (deref s2.heap x).adjacentVertices c s2 log1).2 ∧
    (removeNeighborColors (deref s2.heap x).adjacentVertices c s2 log1).1.vertices =
      s.vertices ∧
    (removeNeighborColors (deref s2.heap x).adjacentVertices c s2 log1).1.VERTEX_COUNTER =
      s2.VERTEX_COUNTER ∧
    (removeNeighborColors (deref s2.heap x).adjacentVertices c s2 log1).1.MAX_USED =
      s2.MAX_USED ∧
    (∀ p, (deref (removeNeighborColors (deref s2.heap x).adjacentVertices c s2 log1).1.heap
      p).color = (deref s2.heap p).color) ∧
    (removeNeighborColors (deref s2.heap x).adjacentVertices c s2 log1).2.coloredVertices =
      log1.coloredVertices := by
  obtain ⟨i2, r2⟩ := color_spec hi hr hxL hc0 hcm hb hv hl hm hs hu ha hd hcx hco hl1 hl2 hl3 hl4 hl5
  have hx2 : x ∈ s2.vertices := by rw [hv]; exact hx
  have hne : (deref s2.heap x).color ≠ -1 := by rw [hcx]; omega
  have := removeNeighborColors_spec k L x s0 hd0 _ s2 log1 i2 r2 hx2 hne (fun q hq => hq)
  rw [hcx] at this
  obtain ⟨t1, t2, t3, t4, t5, t6, t7⟩ := this
  exact ⟨searchInvX_nil t1, t2, t3.trans hv, t5, t4, t6, t7⟩

/-! ## The function persistColors -/

theorem modify_color (s : State) (q : Nat) (f : Vertex → Vertex) (c : Int)
    (h1 : ∀ v, (f v).adjacentVertices = v.adjacentVertices)
    (h2 : ∀ v, (f v).availableColors = v.availableColors) (h3 : ∀ v, (f v).color = c)
    (hq : q < s.heap.length) :
    (∀ p, (deref (modify s q f).heap p).adjacentVertices = (deref s.heap p).adjacentVertices) ∧
    (∀ p, (deref (modify s q f).heap p).availableColors = (deref s.heap p).availableColors) ∧
    (deref (modify s q f).heap q).color = c ∧
    (∀ p, p ≠ q → (deref (modify s q f).heap p).color = (deref s.heap p).color) := by
  refine ⟨fun p => ?_, fun p => ?_, ?_, fun p hp => ?_⟩
  · exact deref_modify_field (fun v => v.adjacentVertices) s q p f h1
  · exact deref_modify_field (fun v => v.availableColors) s q p f h2
  · rw [deref_modify_self s q f hq]
    exact h3 _
  · rw [deref_modify_ne s q p f hp]

/-- A write to a counter field changes nothing the invariants look at. -/
theorem modify_counter (L : Nat) (s : State) (q : Nat) (f : Vertex → Vertex)
    (h1 : ∀ v, (f v).adjacentVertices = v.adjacentVertices)
    (h2 : ∀ v, (f v).availableColors = v.availableColors) (h3 : ∀ v, (f v).color = v.color) :
    Rel L s (modify s q f) ∧ Grow s (modify s q f) := by
  have hc : ∀ p, (deref (modify s q f).heap p).color = (deref s.heap p).color :=
    fun p => deref_modify_field (fun v => v.color) s q p f h3
  refine ⟨rel_of_same L s _ rfl (modify_heap_length s q f) rfl rfl rfl
    (fun p => deref_modify_field (fun v => v.adjacentVertices) s q p f h1)
    (fun p => deref_modify_field (fun v => v.availableColors) s q p f h2) hc, rfl, rfl, ?_⟩
  intro p hp
  rw [hc]
  exact hp

theorem persist_color_step {k L nb : Nat} {s0 s : State} {log : ChangeLog}
    (hd0 : ∀ p ∈ s0.vertices, (deref s0.heap p).availableColors < 2 ^ 64) (hdone : Done L s0)
    (hi : SearchInv k s) (hr : RelLog L s0 s log) (hnb : nb ∈ s.vertices)
    (hc : (deref s.heap nb).color = -1) (ha : (deref s.heap nb).availableColors ≠ 0)
    (c : Int) (s1 s2 : State) (log1 : ChangeLog) (r : State × ChangeLog)
    (ec : c = ctzll (deref s.heap nb).availableColors)
    (e1 : s1 = modify s nb (fun v => { v with color := c }))
    (e2 : s2 = if c > s1.MAX_USED then { s1 with MAX_USED := c } else s1)
    (el : log1 = { log with coloredVertices := log.coloredVertices ++ [nb] })
    (er : r = removeNeighborColors (deref s2.heap nb).adjacentVertices c s2 log1) :
    SearchInv k r.1 ∧ RelLog L s0 r.1 r.2 ∧ Grow s r.1 ∧
    ∀ q ∈ (deref r.1.heap nb).adjacentVertices, q ∈ r.1.vertices := by
  obtain ⟨n, v, a⟩ := hi.wf
  have hdom := hi.dom nb hnb
  have hk : (2 : Nat) ^ k ≤ 2 ^ 64 := Nat.pow_le_pow_right (by omega) hi.kle
  obtain ⟨j, hj, ej, tj⟩ := ctzll_spec _ ha (Nat.lt_of_lt_of_le hdom hk)
  have hjk : j < k := by
    by_contra hge
    have h1 : (2 : Nat) ^ k ≤ 2 ^ j := Nat.pow_le_pow_right (by omega) (by omega)
    have h2 := Nat.testBit_lt_two_pow (Nat.lt_of_lt_of_le hdom h1)
    rw [tj] at h2
    cases h2
  have hcj : c = (j : Int) := ec.trans ej
  obtain ⟨ma, md, mq, mo⟩ := modify_color s nb (fun v => { v with color := c }) c
    (fun _ => rfl) (fun _ => rfl) (fun _ => rfl) (v nb hnb)
  obtain ⟨b1, b2, b3, b4, b5, b6⟩ := bump_fields s1 c
  rw [← e2] at b1 b2 b3 b4 b5 b6
  have hs1 : s1.heap = (modify s nb (fun v => { v with color := c })).heap := by rw [e1]
  have hh : s2.heap = (modify s nb (fun v => { v with color := c })).heap := b1.trans hs1
  have hmax := hi.maxc
  have := @color_remove_spec k L nb s0 s s2 log log1 c hd0 hi hr hnb
    (not_mem_take_of_uncolored hr hdone hnb hc) (by omega) (by omega)
    (by rw [hcj, Int.toNat_ofNat]; exact tj)
    (by rw [b2, e1]; rfl) (by rw [hh, modify_heap_length]) (by rw [b3, e1]; rfl)
    (by rw [b4, e1]; rfl) (by rw [b6, e1]; rfl)
    (by rw [hh]; exact ma) (by rw [hh]; exact md) (by rw [hh]; exact mq)
    (by rw [hh]; exact mo) (by rw [el]) (by rw [el])
    (by rw [el]; exact List.mem_append_right _ (List.mem_singleton_self nb))
    (by rw [el]; exact fun p hp => List.mem_append_left _ hp)
    (by
      rw [el]
      intro p hp
      rcases List.mem_append.1 hp with e | e
      · exact Or.inr e
      · exact Or.inl (List.mem_singleton.1 e))
  rw [← er] at this
  obtain ⟨t1, t2, t3, t4, t5, t6, t7⟩ := this
  refine ⟨t1, t2, ⟨t3, ?_, ?_⟩, ?_⟩
  · rw [t4, b5, e1]
    rfl
  · intro p hp
    rw [t6, hh]
    by_cases e : p = nb
    · rw [e, mq]
      omega
    · rw [mo p e]
      exact hp
  · intro q hq
    exact (t1.wf.2.2 nb (by rw [t3]; exact hnb) q hq).1

theorem persistLoop_spec (k L : Nat) (s0 : State)
    (hd0 : ∀ p ∈ s0.vertices, (deref s0.heap p).availableColors < 2 ^ 64) (hdone : Done L s0)
    (self : List Nat → State → ChangeLog → Option (Int × State × ChangeLog))
    (hself : ∀ nbrs s log res s1 log1, SearchInv k s → RelLog L s0 s log →
      (∀ q ∈ nbrs, q ∈ s.vertices) → self nbrs s log = some (res, s1, log1) →
      SearchInv k s1 ∧ RelLog L s0 s1 log1 ∧ Grow s s1) :
    ∀ nbrs s log res s1 log1, SearchInv k s → RelLog L s0 s log →
      (∀ q ∈ nbrs, q ∈ s.vertices) → persistLoop self nbrs s log = some (res, s1, log1) →
      SearchInv k s1 ∧ RelLog L s0 s1 log1 ∧ Grow s s1 := by
  intro nbrs
  induction nbrs with
  | nil =>
    intro s log res s1 log1 hi hr _ h
    rw [persistLoop] at h
    cases h
    exact ⟨hi, hr, grow_refl s⟩
  | cons nb rest ih =>
    intro s log res s1 log1 hi hr hsub h
    have hrest : ∀ q ∈ rest, q ∈ s.vertices := fun q hq => hsub q (List.mem_cons_of_mem _ hq)
    have hnb : nb ∈ s.vertices := hsub nb (List.mem_cons_self _ _)
    rw [persistLoop] at h
    simp only [] at h
    split at h
    · next hc =>
      split at h
      · cases h
        obtain ⟨r1, g1⟩ := modify_counter L s nb
          (fun v => { v with nbConflicts := v.nbConflicts + 1 })
          (fun _ => rfl) (fun _ => rfl) (fun _ => rfl)
        exact ⟨searchInv_of_rel hi r1, relLog_trans_rel (le_refl L) hr r1, g1⟩
      · next ha =>
        split at h
        · obtain ⟨i1, r1, g1, sub1⟩ := persist_color_step hd0 hdone hi hr hnb hc ha
            _ _ _ _ _ rfl rfl rfl rfl rfl
          split at h
          · cases h
          · next res3 s3 log3 hs3 =>
            obtain ⟨i3, r3, g3⟩ := hself _ _ _ _ _ _ i1 r1 sub1 hs3
            have g13 := grow_trans g1 g3
            split at h
            · cases h
              exact ⟨i3, r3, g13⟩
            · obtain ⟨i4, r4, g4⟩ := ih _ _ _ _ _ i3 r3
                (fun q hq => by rw [g13.1]; exact hrest q hq) h
              exact ⟨i4, r4, grow_trans g13 g4⟩
        · exact ih s log res s1 log1 hi hr hrest h
    · exact ih s log res s1 log1 hi hr hrest h

theorem persistColors_spec (k L : Nat) (s0 : State)
    (hd0 : ∀ p ∈ s0.vertices, (deref s0.heap p).availableColors < 2 ^ 64) (hdone : Done L s0) :
    ∀ fuel nbrs s log res s1 log1, SearchInv k s → RelLog L s0 s log →
      (∀ q ∈ nbrs, q ∈ s.vertices) → persistColors fuel nbrs s log = some (res, s1, log1) →
      SearchInv k s1 ∧ RelLog L s0 s1 log1 ∧ Grow s s1 := by
  intro fuel
  induction fuel with
  | zero =>
    intro nbrs s log res s1 log1 _ _ _ h
    rw [persistColors] at h
    cases h
  | succ fuel ih =>
    intro nbrs s log res s1 log1 hi hr hsub h
    rw [persistColors] at h
    exact persistLoop_spec k L s0 hd0 hdone _ ih nbrs s log res s1 log1 hi hr hsub h

/-! ## The function restore -/

theorem restore_rel {k L : Nat} {s0 s : State} {log : ChangeLog} (hi0 : SearchInv k s0)
    (hr : RelLog L s0 s log) :
    Rel L s0 (restore { s with MAX_USED := s0.MAX_USED } log).1 ∧
    (restore { s with MAX_USED := s0.MAX_USED } log).1.vertices = s.vertices ∧
    (restore { s with MAX_USED := s0.MAX_USED } log).1.VERTEX_COUNTER = s.VERTEX_COUNTER := by
  have hs : ({ s with MAX_USED := s0.MAX_USED } : State).SEARCH ≠ search.EXHAUSTIVE := by
    show s.SEARCH ≠ _
    rw [hr.srch]
    exact hi0.nonex
  obtain ⟨h, e, hl, ha, hc, hv⟩ := restore_spec { s with MAX_USED := s0.MAX_USED } log hs
  rw [e]
  have hk : (2 : Nat) ^ k ≤ 2 ^ 64 := Nat.pow_le_pow_right (by omega) hi0.kle
  refine ⟨⟨⟨hr.perm, hr.pre, hl.trans hr.len, hr.maxc, hr.srch,
    fun p => (ha p).trans (hr.adj p), ?_, ?_, fun _ h => absurd h (List.not_mem_nil _)⟩, rfl⟩,
    rfl, rfl⟩
  · intro p hp
    have hlt : p < s.heap.length := by
      rw [hr.len]
      exact hi0.wf.2.1 p hp
    have hsum := hr.av p hp
    have hb := Nat.lt_of_lt_of_le (hi0.dom p hp) hk
    show (deref h p).availableColors + logSum p [] [] = _
    rw [hv p hlt (by show (deref s.heap p).availableColors + _ < _; omega)]
    show (deref s.heap p).availableColors + _ + logSum p [] [] = _
    simp only [logSum, Nat.add_zero]
    exact hsum
  · intro p hp
    have hlt : p < s.heap.length := by
      rw [hr.len]
      exact hi0.wf.2.1 p hp
    show (deref h p).color = _ ∨ _
    by_cases hm : p ∈ log.coloredVertices
    · right
      exact ⟨Or.inr ((hc p).1 hm hlt), hr.out p hm⟩
    · rw [(hc p).2 hm]
      show (deref s.heap p).color = _ ∨ ((p ∈ emptyLog.coloredVertices ∨
        (deref s.heap p).color = -1) ∧ _)
      rcases hr.col p hp with y | ⟨y, z⟩
      · exact Or.inl y
      · rcases y with y | y
        · exact absurd y hm
        · exact Or.inr ⟨Or.inr y, z⟩

/-! ## Selection of the next vertex -/

theorem take_of_getD_false (test : Nat → Bool) (l : List Nat) (j : Nat)
    (h : ∀ m, m < j → test (l.getD m 0) = false) : ∀ p ∈ l.take j, test p = false := by
  induction l generalizing j with
  | nil => intro p hp; simp at hp
  | cons x xs ih =>
    cases j with
    | zero => intro p hp; simp at hp
    | succ j =>
      intro p hp
      rw [List.take_succ_cons] at hp
      rcases List.mem_cons.1 hp with e | e
      · rw [e]
        exact h 0 (by omega)
      · exact ih j (fun m hm => h (m + 1) (by omega)) p e

theorem take_length_takeWhile (f : Nat → Bool) (l : List Nat) :
    ∀ p ∈ l.take (l.takeWhile f).length, f p = true := by
  induction l with
  | nil => intro p hp; simp at hp
  | cons x xs ih =>
    intro p hp
    by_cases hx : f x = true
    · rw [List.takeWhile_cons_of_pos hx, List.length_cons, List.take_succ_cons] at hp
      rcases List.mem_cons.1 hp with e | e
      · rw [e]
        exact hx
      · exact ih p e
    · rw [List.takeWhile_cons_of_neg hx] at hp
      simp at hp

theorem done_add {L j : Nat} {s : State} (hd : Done L s)
    (h : ∀ p ∈ (s.vertices.drop L).take j, (deref s.heap p).color ≠ -1) : Done (L + j) s := by
  intro p hp
  rw [List.take_add] at hp
  rcases List.mem_append.1 hp with e | e
  · exact hd p e
  · exact h p e

theorem selectNextVertexFF_spec (s : State)
    (hd : Done (s.VERTEX_COUNTER + 1).toNat s) :
    (selectNextVertexFF s = -1 → ∀ p ∈ s.vertices, (deref s.heap p).color ≠ -1) ∧
    (selectNextVertexFF s ≠ -1 → 0 ≤ selectNextVertexFF s ∧
      (s.VERTEX_COUNTER + 1).toNat ≤ (selectNextVertexFF s).toNat ∧
      Done (selectNextVertexFF s).toNat s) := by
  unfold selectNextVertexFF
  simp only []
  constructor
  · intro h
    rw [scanFrom_eq_neg_one] at h
    intro p hp
    rw [← List.take_append_drop (s.VERTEX_COUNTER + 1).toNat s.vertices] at hp
    rcases List.mem_append.1 hp with e | e
    · exact hd p e
    · have := h p e
      simpa using this
  · intro h
    obtain ⟨j, e, _, _, hm⟩ := scanFrom_found _ _ _ h
    rw [e]
    refine ⟨by omega, by omega, ?_⟩
    rw [Int.toNat_ofNat]
    apply done_add hd
    intro p hp
    have := take_of_getD_false (fun p => decide ((deref s.heap p).color = -1)) _ j hm p hp
    simpa using this

theorem selectNextVertexCS_spec (s : State) (hvc : -1 ≤ s.VERTEX_COUNTER)
    (hd : Done (s.VERTEX_COUNTER + 1).toNat s) :
    (selectNextVertexCS s).2.heap = s.heap ∧ (selectNextVertexCS s).2.vertices = s.vertices ∧
    (selectNextVertexCS s).2.MAX_USED = s.MAX_USED ∧
    (selectNextVertexCS s).2.MAX_COLOR = s.MAX_COLOR ∧
    (selectNextVertexCS s).2.SEARCH = s.SEARCH ∧ (selectNextVertexCS s).2.CS = s.CS ∧
    s.VERTEX_COUNTER ≤ (selectNextVertexCS s).2.VERTEX_COUNTER ∧
    Done ((selectNextVertexCS s).2.VERTEX_COUNTER + 1).toNat (selectNextVertexCS s).2 ∧
    ((selectNextVertexCS s).1 = -1 → ∀ p ∈ s.vertices, (deref s.heap p).color ≠ -1) ∧
    ((selectNextVertexCS s).1 ≠ -1 → 0 ≤ (selectNextVertexCS s).1 ∧
      ((selectNextVertexCS s).2.VERTEX_COUNTER + 1).toNat ≤ (selectNextVertexCS s).1.toNat) := by
  have hd1 : Done (s.VERTEX_COUNTER + ((((s.vertices.drop (s.VERTEX_COUNTER + 1).toNat).takeWhile
      (fun p => decide ((deref s.heap p).color ≠ -1))).length : Nat) : Int) + 1).toNat
      { s with VERTEX_COUNTER := s.VERTEX_COUNTER +
        ((((s.vertices.drop (s.VERTEX_COUNTER + 1).toNat).takeWhile
          (fun p => decide ((deref s.heap p).color ≠ -1))).length : Nat) : Int) } := by
    have e : (s.VERTEX_COUNTER + ((((s.vertices.drop (s.VERTEX_COUNTER + 1).toNat).takeWhile
        (fun p => decide ((deref s.heap p).color ≠ -1))).length : Nat) : Int) + 1).toNat =
        (s.VERTEX_COUNTER + 1).toNat + ((s.vertices.drop (s.VERTEX_COUNTER + 1).toNat).takeWhile
          (fun p => decide ((deref s.heap p).color ≠ -1))).length := by omega
    rw [e]
    apply @done_add _ _ { s with VERTEX_COUNTER := _ } hd
    intro p hp
    have := take_length_takeWhile _ _ p hp
    simpa using this
  have hff := selectNextVertexFF_spec
    { s with VERTEX_COUNTER := s.VERTEX_COUNTER +
        ((((s.vertices.drop (s.VERTEX_COUNTER + 1).toNat).takeWhile
          (fun p => decide ((deref s.heap p).color ≠ -1))).length : Nat) : Int) }
    hd1
  unfold selectNextVertexCS
  simp only []
  split
  · next h =>
    obtain ⟨j, e, _, _, _⟩ := scanFrom_found _ _ _ h
    refine ⟨rfl, rfl, rfl, rfl, rfl, rfl, by show s.VERTEX_COUNTER ≤ s.VERTEX_COUNTER + _; omega,
      hd1, fun c => absurd c h, fun _ => ?_⟩
    simp only []
    rw [e]
    exact ⟨by omega, by omega⟩
  · refine ⟨rfl, rfl, rfl, rfl, rfl, rfl, by show s.VERTEX_COUNTER ≤ s.VERTEX_COUNTER + _; omega,
      hd1, fun c => hff.1 c, fun c => ?_⟩
    exact ⟨(hff.2 c).1, (hff.2 c).2.1⟩

theorem select_dispatch (s t : State) (hh : t.heap = s.heap)
    (hp : t.vertices.Perm s.vertices)
    (ht : t.vertices.take (s.VERTEX_COUNTER + 1).toNat =
      s.vertices.take (s.VERTEX_COUNTER + 1).toNat)
    (hv : t.VERTEX_COUNTER = s.VERTEX_COUNTER) (hu : t.MAX_USED = s.MAX_USED)
    (hm : t.MAX_COLOR = s.MAX_COLOR) (hs : t.SEARCH = s.SEARCH)
    (hvc : -1 ≤ s.VERTEX_COUNTER) (hd : Done (s.VERTEX_COUNTER + 1).toNat s) :
    SelPost s (if t.CS then selectNextVertexCS t else (selectNextVertexFF t, t)) := by
  have hdt : Done (t.VERTEX_COUNTER + 1).toNat t := by
    intro p hpm
    rw [hv, ht] at hpm
    rw [hh]
    exact hd p hpm
  by_cases hcs : t.CS = true
  · rw [if_pos hcs]
    obtain ⟨c1, c2, c3, c4, c5, c6, c7, c8, c9, c10⟩ :=
      selectNextVertexCS_spec t (by rw [hv]; exact hvc) hdt
    refine ⟨c1.trans hh, by rw [c2]; exact hp, by rw [c2]; exact ht, c3.trans hu, c4.trans hm,
      c5.trans hs, by rw [← hv]; exact c7, ?_, ?_⟩
    · intro e p hpm
      rw [c1]
      rw [c2] at hpm
      exact c9 e p hpm
    · intro e
      exact ⟨(c10 e).1, Or.inl ⟨c6.trans hcs, c8, (c10 e).2⟩⟩
  · rw [if_neg hcs]
    obtain ⟨f1, f2⟩ := selectNextVertexFF_spec t hdt
    refine ⟨hh, hp, ht, hu, hm, hs, by rw [← hv], f1, ?_⟩
    intro e
    obtain ⟨g1, g2, g3⟩ := f2 e
    refine ⟨g1, Or.inr ⟨by simpa using hcs, hv, ?_, g3⟩⟩
    rw [← hv]
    exact g2

theorem selectNextVertex_spec (s : State) (hvc : -1 ≤ s.VERTEX_COUNTER)
    (hd : Done (s.VERTEX_COUNTER + 1).toNat s) : SelPost s (selectNextVertex s) := by
  have key : ∀ t, (t = s ∨ ∃ cmp, t = sortFrom s (s.VERTEX_COUNTER + 1).toNat cmp) →
      SelPost s (if t.CS then selectNextVertexCS t else (selectNextVertexFF t, t)) := by
    intro t ht
    rcases ht with e | ⟨cmp, e⟩
    · rw [e]
      exact select_dispatch s s rfl (List.Perm.refl _) rfl rfl rfl rfl rfl hvc hd
    · rw [e]
      exact select_dispatch s _ rfl (sortFrom_perm s _ cmp) (sortFrom_take s _ cmp)
        rfl rfl rfl rfl hvc hd
  unfold selectNextVertex
  simp only []
  apply key
  split
  · split
    · exact Or.inr ⟨_, rfl⟩
    · exact Or.inr ⟨_, rfl⟩
    · exact Or.inr ⟨_, rfl⟩
    · exact Or.inr ⟨_, rfl⟩
    · exact Or.inl rfl
  · exact Or.inl rfl

/-! ## The loop of colorGraph -/

theorem not_mem_take_of_get (l : List Nat) (hn : l.Nodup) (n L p : Nat)
    (h : l.get? n = some p) (hL : L ≤ n) : p ∉ l.take L := by
  induction l generalizing n L with
  | nil => simp at h
  | cons x xs ih =>
    cases L with
    | zero => simp
    | succ L =>
      cases n with
      | zero => omega
      | succ n =>
        rw [List.get?_cons_succ] at h
        rw [List.take_succ_cons]
        obtain ⟨h1, h2⟩ := List.nodup_cons.1 hn
        intro hm
        rcases List.mem_cons.1 hm with e | e
        · exact h1 (e ▸ List.get?_mem h)
        · exact ih h2 n L h (by omega) e

theorem take_one_drop_of_get (l : List Nat) (n p : Nat) (h : l.get? n = some p) :
    ∀ q ∈ (l.drop n).take 1, q = p := by
  induction l generalizing n with
  | nil => simp at h
  | cons x xs ih =>
    cases n with
    | zero =>
      rw [List.get?_cons_zero] at h
      intro q hq
      simp at hq
      rw [hq]
      exact Option.some.inj h
    | succ n =>
      rw [List.get?_cons_succ] at h
      rw [List.drop_succ_cons]
      exact ih n h

theorem setVertexColor_spec (s : State) (p : Nat) (c : Int) (hp : p < s.heap.length) :
    (setVertexColor s p c).vertices = s.vertices ∧
    (setVertexColor s p c).heap.length = s.heap.length ∧
    (setVertexColor s p c).MAX_COLOR = s.MAX_COLOR ∧
    (setVertexColor s p c).SEARCH = s.SEARCH ∧
    (setVertexColor s p c).MAX_USED = s.MAX_USED ∧
    (setVertexColor s p c).VERTEX_COUNTER = s.VERTEX_COUNTER ∧
    (∀ q, (deref (setVertexColor s p c).heap q).adjacentVertices =
      (deref s.heap q).adjacentVertices) ∧
    (∀ q, (deref (setVertexColor s p c).heap q).availableColors =
      (deref s.heap q).availableColors) ∧
    (deref (setVertexColor s p c).heap p).color = c ∧
    (∀ q, q ≠ p → (deref (setVertexColor s p c).heap q).color = (deref s.heap q).color) := by
  obtain ⟨a, d, e, o⟩ := modify_color s p
    (fun v => { v with color := c, nbRecolorings := v.nbRecolorings + 1 }) c
    (fun _ => rfl) (fun _ => rfl) (fun _ => rfl) hp
  exact ⟨rfl, modify_heap_length _ _ _, rfl, rfl, rfl, rfl, a, d, e, o⟩

theorem loop_fail_step {k L : Nat} {s : State} {p : Nat} (oc : Int) (hi : SearchInv k s)
    (hp : p ∈ s.vertices) (hpL : p ∉ s.vertices.take L) (c : Int) (hc : c = -1) :
    Rel L s { setVertexColor s p c with VERTEX_COUNTER := oc } := by
  subst hc
  obtain ⟨e1, e2, e3, e4, e5, _, e7, e8, e9, e10⟩ :=
    setVertexColor_spec s p (-1) (hi.wf.2.1 p hp)
  refine ⟨⟨by show (setVertexColor s p (-1)).vertices.Perm _; rw [e1],
    by show (setVertexColor s p (-1)).vertices.take L = _; rw [e1], e2, e3, e4, e7, ?_, ?_,
    fun _ h => absurd h (List.not_mem_nil _)⟩, e5⟩
  · intro q _
    show (deref (setVertexColor s p (-1)).heap q).availableColors + logSum q [] [] = _
    rw [e8]
    rfl
  · intro q _
    show (deref (setVertexColor s p (-1)).heap q).color = _ ∨ _
    by_cases e : q = p
    · right
      rw [e]
      exact ⟨Or.inr e9, hpL⟩
    · exact Or.inl (e10 q e)

theorem loop_color_step {k L p : Nat} {s : State} (m : Int)
    (hi : SearchInv k s) (hp : p ∈ s.vertices)
    (hpL : p ∉ s.vertices.take L) (hm0 : 0 ≤ m) (hm1 : m ≤ 64)
    (c : Int) (s1 s2 : State) (log0 : ChangeLog) (r : State × ChangeLog)
    (ec : c = findColorFF s m p) (hc : c ≠ -1)
    (e1 : s1 = setVertexColor s p c)
    (e2 : s2 = if c > s1.MAX_USED then { s1 with MAX_USED := c } else s1)
    (el : log0 = { emptyLog with coloredVertices := [p] })
    (er : r = removeNeighborColors (deref s2.heap p).adjacentVertices c s2 log0) :
    SearchInv k r.1 ∧ RelLog L s r.1 r.2 ∧ Grow s r.1 ∧ (deref r.1.heap p).color ≠ -1 ∧
    (∀ q ∈ (deref r.1.heap p).adjacentVertices, q ∈ r.1.vertices) ∧ 0 ≤ c ∧ c ≤ 63 := by
  have hk : (2 : Nat) ^ k ≤ 2 ^ 64 := Nat.pow_le_pow_right (by omega) hi.kle
  have hdom := Nat.lt_of_lt_of_le (hi.dom p hp) hk
  have hd0 : ∀ q ∈ s.vertices, (deref s.heap q).availableColors < 2 ^ 64 :=
    fun q hq => Nat.lt_of_lt_of_le (hi.dom q hq) hk
  rw [ec] at hc
  obtain ⟨f1, f2, f3, f4⟩ := findColorFF_spec s m p hi.nonex hm0 hm1 hdom hc
  rw [← ec] at f1 f2 f3 f4 hc
  obtain ⟨v1, v2, v3, v4, v5, v6, v7, v8, v9, v10⟩ :=
    setVertexColor_spec s p c (hi.wf.2.1 p hp)
  rw [← e1] at v1 v2 v3 v4 v5 v6 v7 v8 v9 v10
  obtain ⟨b1, b2, b3, b4, b5, b6⟩ := bump_fields s1 c
  rw [← e2] at b1 b2 b3 b4 b5 b6
  have hmax := hi.maxc
  have hkle := hi.kle
  have := @color_remove_spec k L p s s s2 emptyLog log0 c
    hd0 hi (rel_refl L s).1 hp hpL f1 f3 f4
    (b2.trans v1) (by rw [b1]; exact v2) (b3.trans v3) (b4.trans v4) (by rw [b6, v5])
    (by rw [b1]; exact v7) (by rw [b1]; exact v8) (by rw [b1]; exact v9)
    (by rw [b1]; exact v10) (by rw [el]) (by rw [el])
    (by rw [el]; exact List.mem_singleton_self p)
    (fun q hq => absurd hq (List.not_mem_nil _))
    (by
      rw [el]
      intro q hq
      exact Or.inl (List.mem_singleton.1 hq))
  rw [← er] at this
  obtain ⟨t1, t2, t3, t4, t5, t6, t7⟩ := this
  refine ⟨t1, t2, ⟨t3, ?_, ?_⟩, ?_, ?_, f1, by omega⟩
  · rw [t4, b5, v6]
  · intro q hq
    rw [t6, b1]
    by_cases e : q = p
    · rw [e, v9]
      exact hc
    · rw [v10 q e]
      exact hq
  · rw [t6, b1, v9]
    exact hc
  · intro q hq
    exact (t1.wf.2.2 p (by rw [t3]; exact hp) q hq).1

theorem done_of_grow {L : Nat} {s t : State} (hd : Done L s) (hg : Grow s t) : Done L t := by
  intro p hp
  rw [hg.1] at hp
  exact hg.2.2 p (hd p hp)

theorem colorLoop_spec (k L : Nat) (self : State → Option (Int × State)) (fuel : Nat)
    (old_counter : Int) (nv : Nat) (sL : State)
    (hself : ∀ s r, SearchInv k s → -1 ≤ s.VERTEX_COUNTER →
      Done (s.VERTEX_COUNTER + 1).toNat s → self s = some r →
      FramePost k (s.VERTEX_COUNTER + 1).toNat s.VERTEX_COUNTER s r)
    (hiL : SearchInv k sL) (hdL : Done L sL) (hLnv : L ≤ nv) (hvcL : -1 ≤ sL.VERTEX_COUNTER)
    (halt : (sL.VERTEX_COUNTER + 1).toNat = L ∨
      ((sL.VERTEX_COUNTER + 1).toNat = L + 1 ∧ nv = L)) :
    ∀ n nextColor s r, Rel L sL s → s.VERTEX_COUNTER = sL.VERTEX_COUNTER → -1 ≤ nextColor →
      nextColor ≤ 63 →
      colorLoop self fuel old_counter nv sL.MAX_USED n nextColor s = some r →
      FramePost k L old_counter sL r := by
  intro n
  induction n with
  | zero =>
    intro nextColor s r _ _ _ _ h
    rw [colorLoop] at h
    cases h
  | succ n ih =>
    intro nextColor s r hrel hvc hn0 hn1 h
    have hi : SearchInv k s := searchInv_of_rel hiL hrel
    have hd : Done L s := done_of_rel (le_refl L) hdL hrel
    have hk : (2 : Nat) ^ k ≤ 2 ^ 64 := Nat.pow_le_pow_right (by omega) hi.kle
    have hd0 : ∀ q ∈ s.vertices, (deref s.heap q).availableColors < 2 ^ 64 :=
      fun q hq => Nat.lt_of_lt_of_le (hi.dom q hq) hk
    rw [colorLoop] at h
    simp only [] at h
    split at h
    · next hex => exact absurd hex.1 hi.nonex
    · split at h
      · cases h
      · next p hget =>
        have hp : p ∈ s.vertices := List.get?_mem hget
        have hpL : p ∉ s.vertices.take L := not_mem_take_of_get _ hi.wf.1 nv L p hget hLnv
        split at h
        · next hfail =>
          cases h
          right
          exact ⟨rfl, rel_trans (le_refl L) hrel (loop_fail_step old_counter hi hp hpL _ hfail),
            rfl⟩
        · next hc =>
          obtain ⟨i1, r1, g1, c1, sub1, hc0, hc1⟩ := loop_color_step (nextColor + 1) hi hp hpL
            (by omega) (by omega) _ _ _ _ _ rfl hc rfl rfl rfl rfl
          have hback : ∀ (t : State) (log3 : ChangeLog), RelLog L s t log3 →
              t.VERTEX_COUNTER = s.VERTEX_COUNTER →
              colorLoop self fuel old_counter nv sL.MAX_USED n (findColorFF s (nextColor + 1) p)
                (restore { t with MAX_USED := sL.MAX_USED } log3).1 = some r →
              FramePost k L old_counter sL r := by
            intro t log3 hrl htv hrun
            have e := restore_rel hi hrl
            rw [hrel.2] at e
            obtain ⟨e1, _, e3⟩ := e
            exact ih _ _ r (rel_trans (le_refl L) hrel e1) (by rw [e3, htv, hvc])
              (by omega) hc1 hrun
          split at h
          · cases h
          · next res s3 log3 hper =>
            obtain ⟨i3, r3, g3⟩ := persistColors_spec k L s hd0 hd _ _ _ _ _ _ _ i1 r1 sub1 hper
            have g13 := grow_trans g1 g3
            split at h
            · split at h
              · cases h
              · next res1 s4 hs4 =>
                have hv3 : s3.VERTEX_COUNTER = sL.VERTEX_COUNTER := g13.2.1.trans hvc
                have hd3 : Done (s3.VERTEX_COUNTER + 1).toNat s3 := by
                  rw [hv3]
                  rcases halt with e | ⟨e, e2⟩
                  · rw [e]
                    exact done_of_grow hd g13
                  · rw [e]
                    apply done_add (done_of_grow hd g13)
                    intro q hq
                    rw [g13.1] at hq
                    rw [e2] at hget
                    rw [take_one_drop_of_get _ _ _ hget q hq]
                    exact g3.2.2 p c1
                have hL3 : L ≤ (s3.VERTEX_COUNTER + 1).toNat := by
                  rw [hv3]
                  rcases halt with e | ⟨e, _⟩ <;> omega
                have post := hself s3 (res1, s4) i3 (by rw [hv3]; exact hvcL) hd3 hs4
                have hnex : s3.SEARCH ≠ search.EXHAUSTIVE := i3.nonex
                rw [if_neg hnex] at h
                rcases post with ⟨p1, p2, p3, p4, p5⟩ | ⟨p1, p2, p3⟩
                · have p1a : res1 = 1 := p1
                  rw [if_pos p1a] at h
                  cases h
                  left
                  refine ⟨rfl, p2, p3, ?_, ?_⟩
                  · have a1 : s4.vertices.Perm s.vertices := by
                      have := p4
                      rw [g13.1] at this
                      exact this
                    exact a1.trans hrel.1.perm
                  · intro q
                    exact (p5 q).trans ((r3.adj q).trans (hrel.1.adj q))
                · have p1a : res1 = -1 := p1
                  have hne : ¬ res1 = 1 := by omega
                  rw [if_neg hne] at h
                  exact hback s4 log3 (relLog_trans_rel hL3 r3 p2)
                    ((show s4.VERTEX_COUNTER = s3.VERTEX_COUNTER from p3).trans g13.2.1) h
            · exact hback s3 log3 r3 g13.2.1 h

/-! ## The function colorGraph -/

theorem foldl_rel (L : Nat) (g : State → Nat → State)
    (hg : ∀ t p, Rel L t (g t p) ∧ (g t p).VERTEX_COUNTER = t.VERTEX_COUNTER) (l : List Nat)
    (s : State) :
    Rel L s (l.foldl g s) ∧ (l.foldl g s).VERTEX_COUNTER = s.VERTEX_COUNTER := by
  induction l generalizing s with
  | nil => exact ⟨rel_refl L s, rfl⟩
  | cons x xs ih =>
    rw [List.foldl_cons]
    obtain ⟨a, b⟩ := ih (g s x)
    exact ⟨rel_trans (le_refl L) (hg s x).1 a, b.trans (hg s x).2⟩

theorem decayCounters_rel (L : Nat) (s : State) :
    Rel L s (decayCounters s) ∧ (decayCounters s).VERTEX_COUNTER = s.VERTEX_COUNTER := by
  unfold decayCounters
  split
  · apply foldl_rel
    intro t p
    obtain ⟨a, b⟩ := modify_counter L t p
      (fun v => { v with nbRecolorings := v.nbRecolorings * t.DECAY_FACTOR })
      (fun _ => rfl) (fun _ => rfl) (fun _ => rfl)
    exact ⟨a, b.2.1⟩
  · apply foldl_rel
    intro t p
    obtain ⟨a, b⟩ := modify_counter L t p
      (fun v => { v with nbConflicts := v.nbConflicts * t.DECAY_FACTOR })
      (fun _ => rfl) (fun _ => rfl) (fun _ => rfl)
    exact ⟨a, b.2.1⟩
  · exact ⟨rel_refl L s, rfl⟩

/-- The head of `colorGraph`: decay, count, select, and move `VERTEX_COUNTER`. -/
theorem frame_entry {k : Nat} {s : State} (hi : SearchInv k s) (hvc : -1 ≤ s.VERTEX_COUNTER)
    (hd : Done (s.VERTEX_COUNTER + 1).toNat s) (s2 : State) (sel : Int × State) (s3 : State)
    (e2 : s2 = { decayCounters s with SORTING_COUNTER := (decayCounters s).SORTING_COUNTER + 1 })
    (es : sel = selectNextVertex s2)
    (e3 : s3 = if ¬ sel.2.CS then { sel.2 with VERTEX_COUNTER := sel.1 } else sel.2) :
    Rel (s.VERTEX_COUNTER + 1).toNat s s3 ∧ SearchInv k s3 ∧
    (sel.1 = -1 → ∀ p ∈ s3.vertices, (deref s3.heap p).color ≠ -1) ∧
    (sel.1 ≠ -1 → 0 ≤ sel.1 ∧ -1 ≤ s3.VERTEX_COUNTER ∧
      ∃ L1, (s.VERTEX_COUNTER + 1).toNat ≤ L1 ∧ L1 ≤ sel.1.toNat ∧ Done L1 s3 ∧
        ((s3.VERTEX_COUNTER + 1).toNat = L1 ∨
          ((s3.VERTEX_COUNTER + 1).toNat = L1 + 1 ∧ sel.1.toNat = L1))) := by
  obtain ⟨d1, d2⟩ := decayCounters_rel (s.VERTEX_COUNTER + 1).toNat s
  have r2 : Rel (s.VERTEX_COUNTER + 1).toNat s s2 := by
    refine rel_trans (le_refl _) d1 ?_
    rw [e2]
    exact rel_of_same _ _ _ rfl rfl rfl rfl rfl (fun _ => rfl) (fun _ => rfl) (fun _ => rfl)
  have v2 : s2.VERTEX_COUNTER = s.VERTEX_COUNTER := by
    rw [e2]
    exact d2
  have hd2 : Done (s2.VERTEX_COUNTER + 1).toNat s2 := by
    rw [v2]
    exact done_of_rel (le_refl _) hd r2
  have sp := selectNextVertex_spec s2 (by rw [v2]; exact hvc) hd2
  rw [← es] at sp
  obtain ⟨q1, q2, q3, q4, q5, q6, q7, q8, q9⟩ := sp
  rw [v2] at q3 q7
  have h3 : s3.heap = sel.2.heap ∧ s3.vertices = sel.2.vertices ∧
      s3.MAX_USED = sel.2.MAX_USED ∧ s3.MAX_COLOR = sel.2.MAX_COLOR ∧
      s3.SEARCH = sel.2.SEARCH := by
    rw [e3]
    split <;> exact ⟨rfl, rfl, rfl, rfl, rfl⟩
  obtain ⟨t1, t2, t3, t4, t5⟩ := h3
  have r3 : Rel (s.VERTEX_COUNTER + 1).toNat s2 s3 :=
    ⟨⟨by rw [t2]; exact q2, by rw [t2]; exact q3, by rw [t1, q1], t4.trans q5, t5.trans q6,
      fun p => by rw [t1, q1], fun p _ => by rw [t1, q1]; rfl,
      fun p _ => Or.inl (by rw [t1, q1]), fun _ h => absurd h (List.not_mem_nil _)⟩,
      t3.trans q4⟩
  have r23 := rel_trans (le_refl _) r2 r3
  refine ⟨r23, searchInv_of_rel hi r23, ?_, ?_⟩
  · intro e
    rw [t1, t2]
    exact q8 e
  · intro e
    obtain ⟨n0, alt⟩ := q9 e
    rcases alt with ⟨c1, c2, c3⟩ | ⟨c1, c2, c3, c4⟩
    · rw [v2] at *
      have e4 : s3 = sel.2 := by
        rw [e3, if_neg (by simp [c1])]
      rw [e4]
      exact ⟨n0, by omega, _, by omega, c3, c2, Or.inl rfl⟩
    · rw [v2] at c2 c3
      have e4 : s3 = { sel.2 with VERTEX_COUNTER := sel.1 } := by
        rw [e3, if_pos (by simp [c1])]
      refine ⟨n0, by rw [e4]; show -1 ≤ sel.1; omega, sel.1.toNat, c3, le_refl _, ?_, ?_⟩
      · intro p hp
        rw [t2] at hp
        rw [t1]
        exact c4 p hp
      · right
        rw [e4]
        refine ⟨?_, rfl⟩
        show (sel.1 + 1).toNat = _
        omega

theorem colorGraph_spec (k : Nat) : ∀ fuel s r, SearchInv k s → -1 ≤ s.VERTEX_COUNTER →
    Done (s.VERTEX_COUNTER + 1).toNat s → colorGraph fuel s = some r →
    FramePost k (s.VERTEX_COUNTER + 1).toNat s.VERTEX_COUNTER s r := by
  intro fuel
  induction fuel with
  | zero =>
    intro s r _ _ _ h
    rw [colorGraph] at h
    cases h
  | succ fuel ih =>
    intro s r hi hvc hd h
    rw [colorGraph] at h
    simp only [] at h
    obtain ⟨f1, f2, f3, f4⟩ := frame_entry hi hvc hd _ _ _ rfl rfl rfl
    by_cases hsel : (selectNextVertex { decayCounters s with
        SORTING_COUNTER := (decayCounters s).SORTING_COUNTER + 1 }).1 = -1
    · rw [if_pos hsel] at h
      have hn := f2.nonex
      rw [if_neg (fun c => hn c.1)] at h
      cases h
      left
      exact ⟨rfl, f2, f3 hsel, f1.1.perm, f1.1.adj⟩
    · rw [if_neg hsel] at h
      obtain ⟨g1, g2, L1, g3, g4, g5, g6⟩ := f4 hsel
      have post := colorLoop_spec k L1 (colorGraph fuel) (fuel + 1) s.VERTEX_COUNTER _ _ ih
        f2 g5 g4 g2 g6 65 (-1) _ r (rel_refl L1 _) rfl (by omega) (by omega) h
      rcases post with ⟨p1, p2, p3, p4, p5⟩ | ⟨p1, p2, p3⟩
      · left
        exact ⟨p1, p2, p3, p4.trans f1.1.perm, fun q => (p5 q).trans (f1.1.adj q)⟩
      · right
        exact ⟨p1, rel_trans g3 f1 p2, p3⟩

/-! ## The entry point outside EXHAUSTIVE mode -/

theorem foldl_modify_heap (f : Vertex → Vertex) (l : List Nat) (s : State) :
    ∃ h, l.foldl (fun t p => modify t p f) s = { s with heap := h } := by
  induction l generalizing s with
  | nil => exact ⟨s.heap, rfl⟩
  | cons x xs ih =>
    obtain ⟨h, e⟩ := ih (modify s x f)
    exact ⟨h, by rw [List.foldl_cons, e]; rfl⟩

theorem availability_lt (k : Int) (h0 : 0 ≤ k) (h1 : k ≤ 64) :
    (if k - 1 = 63 then 2 ^ 64 - 1 else (bit64 (k - 1 + 1) + 2 ^ 64 - 1) % 2 ^ 64) <
      2 ^ k.toNat := by
  by_cases e : k - 1 = 63
  · rw [if_pos e]
    have : k.toNat = 64 := by omega
    rw [this]
    omega
  · rw [if_neg e]
    have e1 : k - 1 + 1 = k := by omega
    rw [e1, bit64_eq k h0 (by omega)]
    have hlt : 2 ^ k.toNat < 2 ^ 64 := Nat.pow_lt_pow_right (by omega) (by omega)
    have hpos := Nat.two_pow_pos k.toNat
    have e2 : 2 ^ k.toNat + 2 ^ 64 - 1 = (2 ^ k.toNat - 1) + 2 ^ 64 := by omega
    rw [e2, Nat.add_mod_right, Nat.mod_eq_of_lt (by omega)]
    omega

theorem searchInv_setAvailableColors (s : State) (k : Int) (hw : WellFormed s)
    (hu : Uncolored s) (h0 : 0 ≤ k) (h1 : k ≤ 64) (hs : s.SEARCH ≠ search.EXHAUSTIVE) :
    SearchInv k.toNat (initializeCounters (setAvailableColors s k)) ∧
    (initializeCounters (setAvailableColors s k)).vertices = s.vertices ∧
    ∀ p, (deref (initializeCounters (setAvailableColors s k)).heap p).adjacentVertices =
      (deref s.heap p).adjacentVertices := by
  obtain ⟨n, v, a⟩ := hw
  unfold setAvailableColors
  simp only []
  obtain ⟨h, e⟩ := foldl_modify_heap
    (fun v => { v with availableColors :=
      if k - 1 = 63 then 2 ^ 64 - 1 else (bit64 (k - 1 + 1) + 2 ^ 64 - 1) % 2 ^ 64 })
    s.vertices { s with MAX_COLOR := k - 1 }
  have hadj := fun p => foldl_modify_field (fun v => v.adjacentVertices)
    (fun v => { v with availableColors :=
      if k - 1 = 63 then 2 ^ 64 - 1 else (bit64 (k - 1 + 1) + 2 ^ 64 - 1) % 2 ^ 64 })
    (fun _ => rfl) s.vertices { s with MAX_COLOR := k - 1 } p
  have hcol := fun p => foldl_modify_field (fun v => v.color)
    (fun v => { v with availableColors :=
      if k - 1 = 63 then 2 ^ 64 - 1 else (bit64 (k - 1 + 1) + 2 ^ 64 - 1) % 2 ^ 64 })
    (fun _ => rfl) s.vertices { s with MAX_COLOR := k - 1 } p
  have hav := fun p hp => foldl_modify_const (fun v => v.availableColors)
    (fun v => { v with availableColors :=
      if k - 1 = 63 then 2 ^ 64 - 1 else (bit64 (k - 1 + 1) + 2 ^ 64 - 1) % 2 ^ 64 })
    (if k - 1 = 63 then 2 ^ 64 - 1 else (bit64 (k - 1 + 1) + 2 ^ 64 - 1) % 2 ^ 64)
    (fun _ => rfl) s.vertices { s with MAX_COLOR := k - 1 } p hp (v p hp)
  have hlen := (foldl_modify_vertices
    (fun v => { v with availableColors :=
      if k - 1 = 63 then 2 ^ 64 - 1 else (bit64 (k - 1 + 1) + 2 ^ 64 - 1) % 2 ^ 64 })
    s.vertices { s with MAX_COLOR := k - 1 }).2.1
  rw [e] at hadj hcol hav hlen ⊢
  simp only [] at hadj hcol hav hlen
  have hc1 : ∀ p ∈ s.vertices, (deref h p).color = -1 := fun p hp => (hcol p).trans (hu p hp)
  refine ⟨⟨⟨n, ?_, ?_⟩, hs, by omega, ?_, ?_, ?_, ?_, ?_, ?_⟩, rfl, hadj⟩
  · intro p hp
    show p < h.length
    rw [hlen]
    exact v p hp
  · intro p hp q hq
    show q ∈ s.vertices ∧ q ≠ p ∧ p ∈ (deref h q).adjacentVertices
    have hq1 : q ∈ (deref s.heap p).adjacentVertices := by
      rw [← hadj p]
      exact hq
    rw [hadj q]
    exact a p hp q hq1
  · show k - 1 + 1 = ((k.toNat : Nat) : Int)
    omega
  · show -1 ≤ (-1 : Int) ∧ (-1 : Int) ≤ k - 1
    omega
  · intro p hp
    show (deref h p).availableColors < _
    rw [hav p hp]
    exact availability_lt k h0 h1
  · intro p hp
    show -1 ≤ (deref h p).color ∧ (deref h p).color ≤ -1
    rw [hc1 p hp]
    omega
  · intro p hp u hu1 hc
    exfalso
    apply hc
    have hu2 : u ∈ (deref s.heap p).adjacentVertices := by
      rw [← hadj p]
      exact hu1
    exact hc1 u (a p hp u hu2).1
  · intro p hp hc
    exact absurd (hc1 p hp) hc

theorem initialSorting_rel (s : State) :
    Rel 0 s (initialSorting s) ∧ (initialSorting s).VERTEX_COUNTER = s.VERTEX_COUNTER := by
  have key : ∀ cmp, Rel 0 s (sortFrom s 0 cmp) ∧
      (sortFrom s 0 cmp).VERTEX_COUNTER = s.VERTEX_COUNTER := by
    intro cmp
    exact ⟨⟨⟨sortFrom_perm s 0 cmp, by simp, rfl, rfl, rfl, fun _ => rfl, fun _ _ => rfl,
      fun _ _ => Or.inl rfl, fun _ h => absurd h (List.not_mem_nil _)⟩, rfl⟩, rfl⟩
  unfold initialSorting
  split <;> exact key _

theorem coloring_sound_aux (s : State) (k : Int) (fuel : Nat) (r : Int) (t : State)
    (hw : WellFormed s) (hu : Uncolored s) (h0 : 0 ≤ k) (h1 : k ≤ 64)
    (hs : s.SEARCH ≠ search.EXHAUSTIVE)
    (h : coloring fuel (setAvailableColors s k) = some (r, t)) (hr : r ≠ -1) :
    r ≤ k ∧ ProperlyColored t r ∧ t.vertices.Perm s.vertices ∧
    ∀ p, (deref t.heap p).adjacentVertices = (deref s.heap p).adjacentVertices := by
  obtain ⟨i0, v0, a0⟩ := searchInv_setAvailableColors s k hw hu h0 h1 hs
  obtain ⟨r1, c1⟩ := initialSorting_rel (initializeCounters (setAvailableColors s k))
  have i1 := searchInv_of_rel i0 r1
  have hvc : (initialSorting (initializeCounters (setAvailableColors s k))).VERTEX_COUNTER =
      -1 := c1
  have hd : Done ((initialSorting (initializeCounters
      (setAvailableColors s k))).VERTEX_COUNTER + 1).toNat
      (initialSorting (initializeCounters (setAvailableColors s k))) := by
    rw [hvc]
    intro p hp
    simp at hp
  unfold coloring at h
  simp only [] at h
  rw [if_neg i0.nonex] at h
  split at h
  · cases h
  · next res s2 hrun =>
    have post := colorGraph_spec k.toNat fuel _ _ i1 (by rw [hvc]) hd hrun
    rcases post with ⟨p1, p2, p3, p4, p5⟩ | ⟨p1, _, _⟩
    · have p1a : res = 1 := p1
      have p2 : SearchInv k.toNat s2 := p2
      have p3 : ∀ p ∈ s2.vertices, (deref s2.heap p).color ≠ -1 := p3
      have p4 : s2.vertices.Perm
          (initialSorting (initializeCounters (setAvailableColors s k))).vertices := p4
      have p5 : ∀ p, (deref s2.heap p).adjacentVertices = (deref
          (initialSorting (initializeCounters (setAvailableColors s k))).heap
          p).adjacentVertices := p5
      rw [if_pos (by omega)] at h
      have e1 : s2.MAX_USED + 1 = r := (Prod.mk.inj (Option.some.inj h)).1
      have e2 : s2 = t := (Prod.mk.inj (Option.some.inj h)).2
      subst e2
      have hmax := p2.maxc
      have hused := p2.used
      refine ⟨by omega, ?_, ?_, ?_⟩
      · intro p hp
        have hc := p2.col p hp
        have hne := p3 p hp
        refine ⟨by omega, by omega, ?_⟩
        intro q hq hcq
        have hqv := (p2.wf.2.2 p hp q hq).1
        rcases p2.excl p hp q hq (p3 q hqv) with x | x
        · exact absurd x.2 (List.not_mem_nil _)
        · have y := p2.own p hp hne
          rw [hcq, x] at y
          cases y
      · have := p4.trans r1.1.perm
        rw [v0] at this
        exact this
      · intro p
        exact (p5 p).trans ((r1.1.adj p).trans (a0 p))
    · have p1a : res = -1 := p1
      rw [if_neg (by omega)] at h
      have e1 : res = r := (Prod.mk.inj (Option.some.inj h)).1
      omega

/-- C2: outside EXHAUSTIVE mode, for a simple graph with every vertex uncolored whose domains
were set by `setAvailableColors` for a budget `k` in `[0, 64]`, and for every configuration of
SORTING, SORTING_RATE and CS: whenever `coloring` returns `r` different from -1, then `r ≤ k`,
and in the state `t` it leaves every vertex has a color in `[0, r)`, adjacent vertices have
different colors, and the graph is the one that was given. -/
theorem coloring_sound (s : State) (k : Int) (fuel : Nat) (r : Int)
    (hw : WellFormed s) (hu : Uncolored s) (h0 : 0 ≤ k) (h1 : k ≤ 64)
    (hs : s.SEARCH ≠ search.EXHAUSTIVE)
    (h : (coloring fuel (setAvailableColors s k)).map Prod.fst = some r) (hr : r ≠ -1) :
    ∃ t, coloring fuel (setAvailableColors s k) = some (r, t) ∧
      r ≤ k ∧ ProperlyColored t r ∧ t.vertices.Perm s.vertices ∧
      ∀ p, (deref t.heap p).adjacentVertices = (deref s.heap p).adjacentVertices := by
  cases hrun : coloring fuel (setAvailableColors s k) with
  | none =>
    rw [hrun] at h
    cases h
  | some x =>
    obtain ⟨r1, t⟩ := x
    rw [hrun] at h
    have e : r1 = r := Option.some.inj h
    subst e
    exact ⟨t, rfl, coloring_sound_aux s k fuel r1 t hw hu h0 h1 hs hrun hr⟩

set_option maxRecDepth 100000 in
theorem coloring_sound_witness :
    WellFormed pathSearch ∧ Uncolored pathSearch ∧
    ∃ t, coloring 5 (setAvailableColors pathSearch 2) = some (2, t) ∧
      (2 : Int) ≤ 2 ∧ ProperlyColored t 2 ∧ t.vertices.Perm pathSearch.vertices ∧
      ∀ p, (deref t.heap p).adjacentVertices = (deref pathSearch.heap p).adjacentVertices :=
  ⟨by unfold WellFormed; decide, by unfold Uncolored; decide,
    coloring_sound pathSearch 2 5 2 (by unfold WellFormed; decide) (by unfold Uncolored; decide)
      (by decide) (by decide) (by decide) (by decide) (by decide)⟩

/-! ## graph.c : the domains -/

theorem availability_eq (k : Int) (h0 : 0 ≤ k) (h1 : k ≤ 64) :
    (if k - 1 = 63 then 2 ^ 64 - 1 else (bit64 (k - 1 + 1) + 2 ^ 64 - 1) % 2 ^ 64) =
      2 ^ k.toNat - 1 := by
  by_cases e : k - 1 = 63
  · rw [if_pos e]
    have : k.toNat = 64 := by omega
    rw [this]
  · rw [if_neg e]
    have e1 : k - 1 + 1 = k := by omega
    rw [e1, bit64_eq k h0 (by omega)]
    have hlt : 2 ^ k.toNat < 2 ^ 64 := Nat.pow_lt_pow_right (by omega) (by omega)
    have hpos := Nat.two_pow_pos k.toNat
    have e2 : 2 ^ k.toNat + 2 ^ 64 - 1 = (2 ^ k.toNat - 1) + 2 ^ 64 := by omega
    rw [e2, Nat.add_mod_right, Nat.mod_eq_of_lt (by omega)]

theorem setAvailableColors_fields (s : State) (k : Int) (h1 : 0 ≤ k) (h2 : k ≤ 64)
    (hr : ∀ p ∈ s.vertices, p < s.heap.length) :
    (setAvailableColors s k).MAX_COLOR = k - 1 ∧
    (setAvailableColors s k).vertices = s.vertices ∧
    (∀ p ∈ s.vertices,
      (deref (setAvailableColors s k).heap p).availableColors = 2 ^ k.toNat - 1 ∧
      ∀ i, (deref (setAvailableColors s k).heap p).availableColors.testBit i =
        decide (i < k.toNat)) ∧
    ∀ p, deref (setAvailableColors s k).heap p =
      { deref s.heap p with
        availableColors := (deref (setAvailableColors s k).heap p).availableColors } := by
  unfold setAvailableColors
  simp only []
  obtain ⟨h, e⟩ := foldl_modify_heap
    (fun v => { v with availableColors :=
      if k - 1 = 63 then 2 ^ 64 - 1 else (bit64 (k - 1 + 1) + 2 ^ 64 - 1) % 2 ^ 64 })
    s.vertices { s with MAX_COLOR := k - 1 }
  have hav := fun p hp => foldl_modify_const (fun v => v.availableColors)
    (fun v => { v with availableColors :=
      if k - 1 = 63 then 2 ^ 64 - 1 else (bit64 (k - 1 + 1) + 2 ^ 64 - 1) % 2 ^ 64 })
    (if k - 1 = 63 then 2 ^ 64 - 1 else (bit64 (k - 1 + 1) + 2 ^ 64 - 1) % 2 ^ 64)
    (fun _ => rfl) s.vertices { s with MAX_COLOR := k - 1 } p hp (hr p hp)
  have hrest := fun p => foldl_modify_field
    (fun v => ((v.number, v.degree, v.color), (v.adjacentVertices, v.neighbors),
      (v.nbRecolorings, v.nbConflicts)))
    (fun v => { v with availableColors :=
      if k - 1 = 63 then 2 ^ 64 - 1 else (bit64 (k - 1 + 1) + 2 ^ 64 - 1) % 2 ^ 64 })
    (fun _ => rfl) s.vertices { s with MAX_COLOR := k - 1 } p
  rw [e] at hav hrest ⊢
  simp only [] at hav hrest
  refine ⟨rfl, rfl, ?_, ?_⟩
  · intro p hp
    show (deref h p).availableColors = _ ∧ ∀ i, (deref h p).availableColors.testBit i = _
    rw [hav p hp, availability_eq k h1 h2]
    exact ⟨rfl, fun i => Nat.testBit_two_pow_sub_one _ _⟩
  · intro p
    show deref h p = { deref s.heap p with availableColors := (deref h p).availableColors }
    have := hrest p
    simp only [Prod.mk.injEq] at this
    obtain ⟨⟨a1, a2, a3⟩, ⟨a4, a5⟩, a6, a7⟩ := this
    cases hv : deref h p
    cases hw : deref s.heap p
    rw [hv, hw] at a1 a2 a3 a4 a5 a6 a7
    simp only [] at a1 a2 a3 a4 a5 a6 a7
    simp only [Vertex.mk.injEq]
    exact ⟨a1, a2, a3, trivial, a4, a5, a6, a7⟩

/-- C19: for `1 ≤ k ≤ 64`, `setAvailableColors` sets `MAX_COLOR` to `k - 1` and gives every
vertex of the array the domain `2 ^ k - 1`, the mask whose set bits are exactly the bits below
`k`; the array and all other fields of every record (color, degree, adjacency, number, neighbor
words, counters) are unchanged. -/
theorem setAvailableColors_spec (s : State) (k : Int) (h1 : 1 ≤ k) (h2 : k ≤ 64)
    (hr : ∀ p ∈ s.vertices, p < s.heap.length) :
    (setAvailableColors s k).MAX_COLOR = k - 1 ∧
    (setAvailableColors s k).vertices = s.vertices ∧
    (∀ p ∈ s.vertices,
      (deref (setAvailableColors s k).heap p).availableColors = 2 ^ k.toNat - 1 ∧
      ∀ i, (deref (setAvailableColors s k).heap p).availableColors.testBit i =
        decide (i < k.toNat)) ∧
    ∀ p, deref (setAvailableColors s k).heap p =
      { deref s.heap p with
        availableColors := (deref (setAvailableColors s k).heap p).availableColors } :=
  setAvailableColors_fields s k (by omega) h2 hr

set_option maxRecDepth 100000 in
theorem setAvailableColors_spec_witness :
    (setAvailableColors pathSearch 2).MAX_COLOR = 2 - 1 ∧
    (setAvailableColors pathSearch 2).vertices = pathSearch.vertices ∧
    (∀ p ∈ pathSearch.vertices,
      (deref (setAvailableColors pathSearch 2).heap p).availableColors =
        2 ^ (2 : Int).toNat - 1 ∧
      ∀ i, (deref (setAvailableColors pathSearch 2).heap p).availableColors.testBit i =
        decide (i < (2 : Int).toNat)) ∧
    ∀ p, deref (setAvailableColors pathSearch 2).heap p =
      { deref pathSearch.heap p with
        availableColors := (deref (setAvailableColors pathSearch 2).heap p).availableColors } :=
  setAvailableColors_spec pathSearch 2 (by decide) (by decide) (by decide)

theorem keepMask_eq (k : Int) (h0 : 0 ≤ k) (h1 : k ≤ 63) : keepMask k = 2 ^ k.toNat - 1 := by
  unfold keepMask
  rw [bit64_eq k h0 (by omega)]
  have hlt : 2 ^ k.toNat < 2 ^ 64 := Nat.pow_lt_pow_right (by omega) (by omega)
  have hpos := Nat.two_pow_pos k.toNat
  have e2 : 2 ^ k.toNat + 2 ^ 64 - 1 = (2 ^ k.toNat - 1) + 2 ^ 64 := by omega
  rw [e2, Nat.add_mod_right, Nat.mod_eq_of_lt (by omega)]

theorem updateVertexAvailability_deref (s : State) (p q : Nat) (k : Int) :
    deref (updateVertexAvailability s p k).heap q =
      if q = p ∧ p < s.heap.length then
        { deref s.heap q with
          availableColors := (deref s.heap q).availableColors &&& keepMask k }
      else deref s.heap q := by
  unfold updateVertexAvailability
  rw [deref_modify]
  by_cases h : q = p ∧ p < s.heap.length
  · rw [if_pos h, if_pos h, h.1]
  · rw [if_neg h, if_neg h]

theorem updateAvailability_deref (k : Int) (l : List Nat) (s : State) (q : Nat) :
    (l.foldl (fun t p => updateVertexAvailability t p k) s).heap.length = s.heap.length ∧
    deref (l.foldl (fun t p => updateVertexAvailability t p k) s).heap q =
      if q ∈ l ∧ q < s.heap.length then
        { deref s.heap q with
          availableColors := (deref s.heap q).availableColors &&& keepMask k }
      else deref s.heap q := by
  induction l generalizing s with
  | nil => simp
  | cons x xs ih =>
    rw [List.foldl_cons]
    obtain ⟨a, b⟩ := ih (updateVertexAvailability s x k)
    have hl : (updateVertexAvailability s x k).heap.length = s.heap.length :=
      modify_heap_length _ _ _
    refine ⟨a.trans hl, ?_⟩
    rw [b, hl, updateVertexAvailability_deref]
    by_cases hq : q < s.heap.length
    · by_cases hx : q = x
      · subst hx
        by_cases hm : q ∈ xs
        · simp [hq, hm, Nat.and_assoc]
        · simp [hq, hm]
      · by_cases hm : q ∈ xs
        · simp [hq, hm, hx]
        · simp [hq, hm, hx]
    · simp [hq]
      intro h1 h2
      omega

theorem updateAvailability_vertices (s : State) (k : Int) :
    (updateAvailability s k).vertices = s.vertices :=
  (foldl_modify_vertices (fun v => { v with availableColors := v.availableColors &&& keepMask k })
    s.vertices s).1

/-- C20: for `0 ≤ k ≤ 63`, `updateAvailability` replaces the domain `D` of every vertex of the
array by `D &&& (2 ^ k - 1)`, so that bit `i` of the result is bit `i` of `D` for `i < k` and is
clear for `i ≥ k`; nothing else changes; a second call changes nothing; and
`updateVertexAvailability` does the same to the one record it is given. -/
theorem updateAvailability_spec (s : State) (k : Int) (h0 : 0 ≤ k) (h1 : k ≤ 63)
    (hr : ∀ p ∈ s.vertices, p < s.heap.length) :
    (updateAvailability s k).vertices = s.vertices ∧
    (∀ p ∈ s.vertices,
      deref (updateAvailability s k).heap p =
        { deref s.heap p with
          availableColors := (deref s.heap p).availableColors &&& (2 ^ k.toNat - 1) } ∧
      ∀ i, (deref (updateAvailability s k).heap p).availableColors.testBit i =
        ((deref s.heap p).availableColors.testBit i && decide (i < k.toNat))) ∧
    (∀ p, p ∉ s.vertices → deref (updateAvailability s k).heap p = deref s.heap p) ∧
    (∀ p, deref (updateAvailability (updateAvailability s k) k).heap p =
      deref (updateAvailability s k).heap p) ∧
    ∀ p, p < s.heap.length →
      deref (updateVertexAvailability s p k).heap p =
        { deref s.heap p with
          availableColors := (deref s.heap p).availableColors &&& (2 ^ k.toNat - 1) } ∧
      ∀ q, q ≠ p → deref (updateVertexAvailability s p k).heap q = deref s.heap q := by
  have hm := keepMask_eq k h0 h1
  have hd : ∀ (t : State) q, deref (updateAvailability t k).heap q =
      if q ∈ t.vertices ∧ q < t.heap.length then
        { deref t.heap q with
          availableColors := (deref t.heap q).availableColors &&& keepMask k }
      else deref t.heap q := fun t q => (updateAvailability_deref k t.vertices t q).2
  have hlen : (updateAvailability s k).heap.length = s.heap.length :=
    (updateAvailability_deref k s.vertices s 0).1
  refine ⟨updateAvailability_vertices s k, ?_, ?_, ?_, ?_⟩
  · intro p hp
    have e := hd s p
    rw [if_pos ⟨hp, hr p hp⟩, hm] at e
    refine ⟨e, fun i => ?_⟩
    rw [e]
    show ((deref s.heap p).availableColors &&& (2 ^ k.toNat - 1)).testBit i = _
    rw [Nat.testBit_and, Nat.testBit_two_pow_sub_one]
  · intro p hp
    rw [hd s p, if_neg (fun c => hp c.1)]
  · intro p
    rw [hd (updateAvailability s k) p, updateAvailability_vertices, hlen, hd s p]
    by_cases h : p ∈ s.vertices ∧ p < s.heap.length
    · rw [if_pos h, if_pos h]
      simp [Nat.and_assoc]
    · rw [if_neg h, if_neg h]
  · intro p hp
    constructor
    · rw [updateVertexAvailability_deref, if_pos ⟨rfl, hp⟩, hm]
    · intro q hq
      rw [updateVertexAvailability_deref, if_neg (fun c => hq c.1)]

set_option maxRecDepth 100000 in
theorem updateAvailability_spec_witness :
    (updateAvailability (setAvailableColors pathSearch 2) 1).vertices =
      (setAvailableColors pathSearch 2).vertices ∧
    ∀ p ∈ (setAvailableColors pathSearch 2).vertices,
      (deref (updateAvailability (setAvailableColors pathSearch 2) 1).heap
        p).availableColors = 1 := by
  have h := updateAvailability_spec (setAvailableColors pathSearch 2) 1 (by decide) (by decide)
    (by decide)
  refine ⟨h.1, fun p hp => ?_⟩
  rw [(h.2.1 p hp).1]
  revert p
  decide

/-! ## search.c and coloring.c : how the runs start -/

theorem sameScalars_refl (s : State) : SameScalars s s := ⟨s.heap, s.vertices, rfl⟩

theorem sameScalars_trans {s t u : State} (h1 : SameScalars s t) (h2 : SameScalars t u) :
    SameScalars s u := by
  obtain ⟨h, l, e⟩ := h1
  obtain ⟨h', l', e'⟩ := h2
  exact ⟨h', l', by rw [e', e]⟩

theorem sameScalars_modify (s : State) (p : Nat) (f : Vertex → Vertex) :
    SameScalars s (modify s p f) := ⟨_, s.vertices, rfl⟩

theorem sameScalars_foldl (f : Vertex → Vertex) (l : List Nat) (s : State) :
    SameScalars s (l.foldl (fun t p => modify t p f) s) := by
  obtain ⟨h, e⟩ := foldl_modify_heap f l s
  exact ⟨h, s.vertices, e⟩

theorem sameScalars_wpInner (c : Int) : ∀ (fuel : Nat) (t : State) (cand : List Nat)
    (t1 : State), wpInner c fuel t cand = some t1 → SameScalars t t1 := by
  intro fuel
  induction fuel with
  | zero => intro t cand t1 h; simp [wpInner] at h
  | succ fuel ih =>
    intro t cand t1 h
    cases cand with
    | nil =>
      simp only [wpInner, Option.some.injEq] at h
      rw [← h]
      exact sameScalars_refl t
    | cons x rest =>
      exact sameScalars_trans (sameScalars_modify t x _) (ih _ _ _ h)

theorem sameScalars_wpOuter (inner : Nat) : ∀ (fuel : Nat) (t : State) (idx c r : Int)
    (s2 : State), wpOuter inner fuel t idx c = some (r, s2) → SameScalars t s2 := by
  intro fuel
  induction fuel with
  | zero => intro t idx c r s2 h; simp [wpOuter] at h
  | succ fuel ih =>
    intro t idx c r s2 h
    unfold wpOuter at h
    split at h
    · simp only at h
      split at h
      · cases h
      · next t1 e1 =>
        exact sameScalars_trans (sameScalars_trans (sameScalars_modify t _ _)
          (sameScalars_wpInner c _ _ _ _ e1)) (ih _ _ _ _ _ h)
    · cases h
      exact sameScalars_refl t

theorem sameScalars_rlfInner (c : Int) : ∀ (fuel : Nat) (t : State) (setU setV : List Nat)
    (t1 : State), rlfInner c fuel t setU setV = some t1 → SameScalars t t1 := by
  intro fuel
  induction fuel with
  | zero => intro t setU setV t1 h; simp [rlfInner] at h
  | succ fuel ih =>
    intro t setU setV t1 h
    unfold rlfInner at h
    split at h
    · exact sameScalars_trans (sameScalars_modify t _ _) (ih _ _ _ _ h)
    · cases h
      exact sameScalars_refl t

theorem sameScalars_rlfOuter (inner : Nat) : ∀ (fuel : Nat) (t : State) (idx c r : Int)
    (s2 : State), rlfOuter inner fuel t idx c = some (r, s2) → SameScalars t s2 := by
  intro fuel
  induction fuel with
  | zero => intro t idx c r s2 h; simp [rlfOuter] at h
  | succ fuel ih =>
    intro t idx c r s2 h
    unfold rlfOuter at h
    split at h
    · simp only at h
      split at h
      · cases h
      · next t1 e1 =>
        exact sameScalars_trans (sameScalars_trans (sameScalars_modify t _ _)
          (sameScalars_rlfInner c _ _ _ _ _ e1)) (ih _ _ _ _ _ h)
    · cases h
      exact sameScalars_refl t

theorem sameScalars_getUpperBound (fuel : Nat) (s : State) (bound : Int) (s1 : State)
    (h : getUpperBound fuel s = some (bound, s1)) : SameScalars s s1 := by
  unfold getUpperBound at h
  split at h
  · cases h
    exact sameScalars_refl s
  · unfold upperBoundRLF at h
    simp only [] at h
    split at h
    · cases h
    · next r s2 e =>
      cases h
      exact sameScalars_trans (sameScalars_trans ⟨s.heap, _, rfl⟩
        (sameScalars_rlfOuter _ _ _ _ _ _ _ e)) (sameScalars_foldl _ _ _)
  · unfold upperBoundWP at h
    simp only [] at h
    split at h
    · cases h
    · next r s2 e =>
      cases h
      exact sameScalars_trans (sameScalars_trans ⟨s.heap, _, rfl⟩
        (sameScalars_wpOuter _ _ _ _ _ _ _ e)) (sameScalars_foldl _ _ _)
  · cases h
    exact sameScalars_refl s

theorem initialSorting_eq (s : State) :
    ∃ l, initialSorting s = { s with vertices := l } ∧ l.Perm s.vertices := by
  have key : ∀ cmp, ∃ l, sortFrom s 0 cmp = { s with vertices := l } ∧ l.Perm s.vertices :=
    fun cmp => ⟨_, rfl, sortFrom_perm s 0 cmp⟩
  unfold initialSorting
  split <;> exact key _

/-- C13, counterexample: for the bound 3 the BINARY branch starts with the interval `(0, 3]`,
where the doubling of the specification would give `(0, 6]`. -/
theorem binaryInterval_not_doubled :
    binaryInterval 3 = (0, 3) ∧ binaryIntervalSpec 3 = (0, 6) ∧
    binaryInterval 3 ≠ binaryIntervalSpec 3 := by decide

/-- C13, amended: in BINARY mode (when the Brooks bound is not accepted at once) the bisection of
`connectedSearch` starts with `lowerBound = 0` and `upperBound = B` if `B < 64`, and with
`upperBound = 128` otherwise: the bound is capped at 64 and it is the capped value 64 that is
doubled. -/
theorem connectedSearch_binary_interval (s : State) (fuel : Nat) ( CHROMATIC_NUMBER bound : Int)
    (hm : s.SEARCH = search.BINARY)
    (hb : (getUpperBound fuel (initializeCounters s)).map Prod.fst = some bound)
    (hn : ¬ (s.BOUNDS = bounds.BROOKS ∧ bound = s.MAX_DEGREE + 1)) :
    binaryInterval bound = (0, if bound < 64 then bound else 128) ∧
    ∃ s1, getUpperBound fuel (initializeCounters s) = some (bound, s1) ∧
      connectedSearch fuel s CHROMATIC_NUMBER =
        (binaryLoop fuel 130 0 (if bound < 64 then bound else 128)
          (initializeCounters s1)).map
          (fun r => (if r.2.1 > CHROMATIC_NUMBER then r.2.1 else CHROMATIC_NUMBER, r.2.2)) := by
  have hi : binaryInterval bound = (0, if bound < 64 then bound else 128) := by
    unfold binaryInterval INIT_STARTING_INTERVAL
    by_cases h : bound < 64
    · simp [h]
    · simp [h]
  refine ⟨hi, ?_⟩
  cases hg : getUpperBound fuel (initializeCounters s) with
  | none =>
    rw [hg] at hb
    cases hb
  | some x =>
    obtain ⟨b, s1⟩ := x
    rw [hg] at hb
    have e : b = bound := Option.some.inj hb
    subst e
    refine ⟨s1, rfl, ?_⟩
    obtain ⟨h, l, e1⟩ := sameScalars_getUpperBound _ _ _ _ hg
    have hn2 : ¬ ((initializeCounters s1).BOUNDS = bounds.BROOKS ∧
        b = (initializeCounters s1).MAX_DEGREE + 1) := by
      rw [e1]
      exact hn
    have hm0 : ¬ (initializeCounters s).SEARCH = search.GREEDY := by
      show ¬ s.SEARCH = search.GREEDY
      rw [hm]
      decide
    have hm2 : (initializeCounters s1).SEARCH = search.BINARY := by
      rw [e1]
      exact hm
    unfold connectedSearch
    simp only []
    rw [if_neg hm0, hg]
    simp only []
    rw [if_neg hn2, if_pos hm2, hi]
    simp only []
    cases binaryLoop fuel 130 0 (if b < 64 then b else 128) (initializeCounters s1) with
    | none => rfl
    | some y => rfl

set_option maxRecDepth 100000 in
theorem connectedSearch_binary_interval_witness :
    binaryInterval 2 = (0, if (2 : Int) < 64 then 2 else 128) ∧
    ∃ s1, getUpperBound 5 (initializeCounters
        { pathExhaustive with SEARCH := search.BINARY }) = some (2, s1) ∧
      connectedSearch 5 { pathExhaustive with SEARCH := search.BINARY } (-1) =
        (binaryLoop 5 130 0 (if (2 : Int) < 64 then 2 else 128)
          (initializeCounters s1)).map
          (fun r => (if r.2.1 > -1 then r.2.1 else -1, r.2.2)) :=
  connectedSearch_binary_interval { pathExhaustive with SEARCH := search.BINARY } 5 (-1) 2 rfl
    (by decide) (by decide)

theorem setAvailableColors_scalars (s : State) (k : Int) :
    (setAvailableColors s k).MAX_COLOR = k - 1 ∧
    (setAvailableColors s k).CHROMATIC = s.CHROMATIC ∧
    (setAvailableColors s k).vertices = s.vertices ∧
    (setAvailableColors s k).heap.length = s.heap.length := by
  unfold setAvailableColors
  simp only []
  obtain ⟨h, e⟩ := foldl_modify_heap
    (fun v => { v with availableColors :=
      if k - 1 = 63 then 2 ^ 64 - 1 else (bit64 (k - 1 + 1) + 2 ^ 64 - 1) % 2 ^ 64 })
    s.vertices { s with MAX_COLOR := k - 1 }
  have hl := (foldl_modify_vertices
    (fun v => { v with availableColors :=
      if k - 1 = 63 then 2 ^ 64 - 1 else (bit64 (k - 1 + 1) + 2 ^ 64 - 1) % 2 ^ 64 })
    s.vertices { s with MAX_COLOR := k - 1 }).2.1
  rw [e] at hl ⊢
  exact ⟨rfl, rfl, rfl, hl⟩

theorem setAvailableColors_avail (s : State) (k : Int) (h0 : 0 ≤ k) (h1 : k ≤ 64) (p : Nat)
    (hp : p ∈ s.vertices) (hl : p < s.heap.length) :
    (deref (setAvailableColors s k).heap p).availableColors = 2 ^ k.toNat - 1 := by
  unfold setAvailableColors
  simp only []
  rw [← availability_eq k h0 h1]
  exact foldl_modify_const (fun v => v.availableColors)
    (fun v => { v with availableColors :=
      if k - 1 = 63 then 2 ^ 64 - 1 else (bit64 (k - 1 + 1) + 2 ^ 64 - 1) % 2 ^ 64 })
    (if k - 1 = 63 then 2 ^ 64 - 1 else (bit64 (k - 1 + 1) + 2 ^ 64 - 1) % 2 ^ 64)
    (fun _ => rfl) s.vertices { s with MAX_COLOR := k - 1 } p hp hl

theorem eq_some_of_map_fst {o : Option (Int × State)} {b : Int}
    (h : o.map Prod.fst = some b) : ∃ t, o = some (b, t) := by
  cases o with
  | none => cases h
  | some x =>
    obtain ⟨b1, t⟩ := x
    have e : b1 = b := Option.some.inj h
    subst e
    exact ⟨t, rfl⟩

set_option maxRecDepth 100000 in
/-- C14, counterexample: on the path with three vertices the Welsh-Powell bound is `B = 2`;
`coloring` then sets `CHROMATIC` to 1 and gives every vertex the domain `1` (the one color 0),
where the specification asks for the low `min(B, 64) = 2` bits, the mask 3. -/
theorem exhaustiveStart_path :
    (getUpperBound 5 (initialSorting (initializeCounters pathExhaustive))).map
      (fun r => (r.1, (exhaustiveStart (initializeCounters r.2) r.1).CHROMATIC,
        r.2.vertices.map (fun p =>
          (deref (exhaustiveStart (initializeCounters r.2) r.1).heap p).availableColors))) =
      some (2, 1, [1, 1, 1]) ∧
    exhaustiveDomainSpec 2 = 3 := by decide

/-- C14, amended: in EXHAUSTIVE mode with the value `B ≥ 1` of `getUpperBound` (not accepted at
once as a tight Brooks bound), `coloring` runs `colorGraph` once, from the state in which, for
`B < 64`, `CHROMATIC = B - 1`, `MAX_COLOR = B - 2` and every vertex has the low `B - 1` bits as its
domain, and for `B ≥ 64`, `CHROMATIC = 127`, `MAX_COLOR = 63` and every domain has all 64 bits;
it returns `CHROMATIC + 1` of the final state. -/
theorem coloring_exhaustive_start (s : State) (fuel : Nat) (bound : Int)
    (hs : s.SEARCH = search.EXHAUSTIVE)
    (hb : (getUpperBound fuel (initialSorting (initializeCounters s))).map Prod.fst =
      some bound)
    (hn : ¬ (s.BOUNDS = bounds.BROOKS ∧ bound = s.MAX_DEGREE + 1)) (h1 : 1 ≤ bound) :
    ∃ s2, getUpperBound fuel (initialSorting (initializeCounters s)) = some (bound, s2) ∧
      coloring fuel s =
        (colorGraph fuel (exhaustiveStart (initializeCounters s2) bound)).map
          (fun r => (r.2.CHROMATIC + 1, r.2)) ∧
      (bound < 64 →
        (exhaustiveStart (initializeCounters s2) bound).CHROMATIC = bound - 1 ∧
        (exhaustiveStart (initializeCounters s2) bound).MAX_COLOR = bound - 2 ∧
        ∀ p ∈ s2.vertices, p < s2.heap.length →
          (deref (exhaustiveStart (initializeCounters s2) bound).heap p).availableColors =
            2 ^ (bound - 1).toNat - 1) ∧
      (64 ≤ bound →
        (exhaustiveStart (initializeCounters s2) bound).CHROMATIC = 127 ∧
        (exhaustiveStart (initializeCounters s2) bound).MAX_COLOR = 63 ∧
        ∀ p ∈ s2.vertices, p < s2.heap.length →
          (deref (exhaustiveStart (initializeCounters s2) bound).heap p).availableColors =
            2 ^ 64 - 1) := by
  obtain ⟨s2, hg⟩ := eq_some_of_map_fst hb
  refine ⟨s2, hg, ?_, ?_, ?_⟩
  · obtain ⟨l, e0, _⟩ := initialSorting_eq (initializeCounters s)
    obtain ⟨h, l2, e1⟩ := sameScalars_getUpperBound _ _ _ _ hg
    have hn2 : ¬ ((initializeCounters s2).BOUNDS = bounds.BROOKS ∧
        bound = (initializeCounters s2).MAX_DEGREE + 1) := by
      rw [e1, e0]
      exact hn
    have hs0 : (initializeCounters s).SEARCH = search.EXHAUSTIVE := hs
    unfold coloring
    simp only []
    rw [if_pos hs0, hg]
    simp only []
    rw [if_neg hn2]
    unfold exhaustiveStart
    cases colorGraph fuel (if bound < 64 then
        setAvailableColors { initializeCounters s2 with CHROMATIC := bound - 1 } (bound - 1)
      else setAvailableColors { initializeCounters s2 with CHROMATIC := 127 } 64) with
    | none => rfl
    | some y => rfl
  · intro hlt
    unfold exhaustiveStart
    rw [if_pos hlt]
    obtain ⟨a1, a2, _, _⟩ := setAvailableColors_scalars
      { initializeCounters s2 with CHROMATIC := bound - 1 } (bound - 1)
    refine ⟨a2, by rw [a1]; omega, fun p hp hl => ?_⟩
    exact setAvailableColors_avail _ (bound - 1) (by omega) (by omega) p hp hl
  · intro hge
    unfold exhaustiveStart
    rw [if_neg (by omega)]
    obtain ⟨a1, a2, _, _⟩ := setAvailableColors_scalars
      { initializeCounters s2 with CHROMATIC := 127 } 64
    refine ⟨a2, by rw [a1]; rfl, fun p hp hl => ?_⟩
    exact setAvailableColors_avail _ 64 (by omega) (by omega) p hp hl

set_option maxRecDepth 100000 in
theorem coloring_exhaustive_start_witness :
    ∃ s2, getUpperBound 5 (initialSorting (initializeCounters pathExhaustive)) = some (2, s2) ∧
      coloring 5 pathExhaustive =
        (colorGraph 5 (exhaustiveStart (initializeCounters s2) 2)).map
          (fun r => (r.2.CHROMATIC + 1, r.2)) ∧
      (exhaustiveStart (initializeCounters s2) 2).CHROMATIC = 2 - 1 := by
  obtain ⟨s2, a, b, c, _⟩ := coloring_exhaustive_start pathExhaustive 5 2 rfl (by decide)
    (by decide) (by decide)
  exact ⟨s2, a, b, (c (by decide)).1⟩

theorem brooksTight_congr {s t : State} (hh : t.heap = s.heap)
    (hp : t.vertices.Perm s.vertices) (h : brooksTight s) : brooksTight t := by
  have hv : VERTICES t = VERTICES s := by
    unfold VERTICES
    rw [hp.length_eq]
  unfold brooksTight at h ⊢
  rw [hv, hh]
  rcases h with ⟨a, d, b, c⟩ | ⟨a, b⟩
  · exact Or.inl ⟨a, d, fun p hpm => b p (hp.mem_iff.1 hpm), c⟩
  · exact Or.inr ⟨a, fun p hpm => b p (hp.mem_iff.1 hpm)⟩

theorem brooksTight_of_eq (s : State) (h : brooksUpperBound s = s.MAX_DEGREE + 1) :
    brooksTight s := by
  rcases brooks_cases s with ⟨t, _⟩ | ⟨_, e⟩
  · exact t
  · rw [e] at h
    omega

theorem brooksUpperBound_of_tight (s : State) (h : brooksTight s) :
    brooksUpperBound s = s.MAX_DEGREE + 1 := by
  rcases brooks_cases s with ⟨_, e⟩ | ⟨t, _⟩
  · exact e
  · exact absurd h t

theorem brooksTight_complete (s : State) (h : CompleteGraph s) : brooksTight s := by
  obtain ⟨h1, _, h3⟩ := h
  unfold brooksTight
  have hV : VERTICES s = (s.vertices.length : Int) := rfl
  by_cases ho : VERTICES s % 2 = 1
  · exact Or.inl ⟨ho, VERTICES s - 1, h3, Or.inr rfl⟩
  · exact Or.inr ⟨by omega, h3⟩

/-- C15: with `BOUNDS = BROOKS` and a Brooks bound equal to `MAX_DEGREE + 1`, `coloring` in
EXHAUSTIVE mode returns that bound, and `connectedSearch` in every mode that computes a bound
(all but GREEDY) records the larger of that bound and the previous `CHROMATIC_NUMBER`; both do so
for every `fuel`, even 0, so `colorGraph` is not run. A complete graph (every degree and
`MAX_DEGREE` equal to `VERTICES - 1`) has the Brooks bound `MAX_DEGREE + 1 = VERTICES`, so for it
the value reported is its number of vertices. -/
theorem brooks_bound_accepted (s : State) (hb : s.BOUNDS = bounds.BROOKS) :
    (brooksUpperBound s = s.MAX_DEGREE + 1 →
      (s.SEARCH = search.EXHAUSTIVE →
        ∀ fuel, (coloring fuel s).map Prod.fst = some (s.MAX_DEGREE + 1)) ∧
      (s.SEARCH ≠ search.GREEDY → ∀ fuel cn,
        (connectedSearch fuel s cn).map Prod.fst =
          some (if s.MAX_DEGREE + 1 > cn then s.MAX_DEGREE + 1 else cn))) ∧
    (CompleteGraph s →
      brooksUpperBound s = s.MAX_DEGREE + 1 ∧ s.MAX_DEGREE + 1 = VERTICES s ∧
      (s.SEARCH = search.EXHAUSTIVE → ∀ fuel, (coloring fuel s).map Prod.fst = some (VERTICES s)) ∧
      (s.SEARCH ≠ search.GREEDY → ∀ fuel,
        (searchFunction fuel true s).map Prod.fst = some (VERTICES s))) := by
  have main : brooksUpperBound s = s.MAX_DEGREE + 1 →
      (s.SEARCH = search.EXHAUSTIVE →
        ∀ fuel, (coloring fuel s).map Prod.fst = some (s.MAX_DEGREE + 1)) ∧
      (s.SEARCH ≠ search.GREEDY → ∀ fuel cn,
        (connectedSearch fuel s cn).map Prod.fst =
          some (if s.MAX_DEGREE + 1 > cn then s.MAX_DEGREE + 1 else cn)) := by
    intro he
    have ht := brooksTight_of_eq s he
    constructor
    · intro hs fuel
      obtain ⟨l, e0, hp⟩ := initialSorting_eq (initializeCounters s)
      have ht1 : brooksTight (initialSorting (initializeCounters s)) := by
        rw [e0]
        exact @brooksTight_congr s _ rfl hp ht
      have e1 := brooksUpperBound_of_tight _ ht1
      have hg : getUpperBound fuel (initialSorting (initializeCounters s)) =
          some (brooksUpperBound (initialSorting (initializeCounters s)),
            initialSorting (initializeCounters s)) := by
        unfold getUpperBound
        have hB : (initialSorting (initializeCounters s)).BOUNDS = bounds.BROOKS := by
          rw [e0]
          exact hb
        rw [hB]
      have hs0 : (initializeCounters s).SEARCH = search.EXHAUSTIVE := hs
      have hc : (initializeCounters (initialSorting (initializeCounters s))).BOUNDS =
          bounds.BROOKS ∧ brooksUpperBound (initialSorting (initializeCounters s)) =
          (initializeCounters (initialSorting (initializeCounters s))).MAX_DEGREE + 1 := by
        refine ⟨?_, ?_⟩
        · rw [e0]
          exact hb
        · rw [e1]
          rfl
      unfold coloring
      simp only []
      rw [if_pos hs0, hg]
      simp only []
      rw [if_pos hc, e1, e0]
      rfl
    · intro hs fuel cn
      have hg : getUpperBound fuel (initializeCounters s) =
          some (brooksUpperBound (initializeCounters s), initializeCounters s) := by
        unfold getUpperBound
        have hB : (initializeCounters s).BOUNDS = bounds.BROOKS := hb
        rw [hB]
      have e1 : brooksUpperBound (initializeCounters s) = s.MAX_DEGREE + 1 :=
        brooksUpperBound_of_tight _ (@brooksTight_congr s _ rfl (List.Perm.refl _) ht)
      have hs0 : ¬ (initializeCounters s).SEARCH = search.GREEDY := hs
      have hc : (initializeCounters (initializeCounters s)).BOUNDS = bounds.BROOKS ∧
          brooksUpperBound (initializeCounters s) =
          (initializeCounters (initializeCounters s)).MAX_DEGREE + 1 := ⟨hb, e1⟩
      unfold connectedSearch
      simp only []
      rw [if_neg hs0, hg]
      simp only []
      rw [if_pos hc, e1]
      rfl
  refine ⟨main, ?_⟩
  intro hc
  have he := brooksUpperBound_of_tight s (brooksTight_complete s hc)
  have hv : s.MAX_DEGREE + 1 = VERTICES s := by
    have := hc.2.1
    omega
  obtain ⟨m1, m2⟩ := main he
  refine ⟨he, hv, ?_, ?_⟩
  · intro hs fuel
    rw [← hv]
    exact m1 hs fuel
  · intro hs fuel
    have := m2 hs fuel (-1)
    unfold searchFunction
    rw [if_pos rfl, this, ← hv]
    have hd : (0 : Int) ≤ s.MAX_DEGREE := by
      have := hc.1
      omega
    rw [if_pos (by omega)]

set_option maxRecDepth 100000 in
theorem brooks_bound_accepted_witness :
    (coloring 0 triangleExhaustive).map Prod.fst = some 3 ∧
    (searchFunction 0 true triangleBinary).map Prod.fst = some 3 := by
  have h1 := (brooks_bound_accepted triangleExhaustive (by decide)).2
    (by unfold CompleteGraph; decide)
  have h2 := (brooks_bound_accepted triangleBinary (by decide)).2
    (by unfold CompleteGraph; decide)
  exact ⟨h1.2.2.1 (by decide) 0, h2.2.2.2 (by decide) 0⟩

/-! ## low-k.c : the two-coloring -/

theorem twoExt_refl (s : State) : TwoExt s s := fun _ _ => rfl

theorem twoExt_trans {s t u : State} (h1 : TwoExt s t) (h2 : TwoExt t u) : TwoExt s u := by
  intro p hp
  have e1 := h1 p hp
  have e2 := h2 p (by rw [e1]; exact hp)
  rw [e2, e1]

theorem uncoloredCount_le {g s t : State} (h : TwoExt s t) :
    uncoloredCount g t ≤ uncoloredCount g s := by
  unfold uncoloredCount
  apply List.countP_mono_left
  intro p _ hp
  have hp1 : (deref t.heap p).color = -1 := of_decide_eq_true hp
  apply decide_eq_true
  by_contra hc
  have := h p hc
  rw [hp1] at this
  exact hc this.symm

theorem countP_lt_of_mem (l : List Nat) (P Q : Nat → Bool) (h : ∀ x, P x = true → Q x = true)
    (v : Nat) (hv : v ∈ l) (hq : Q v = true) (hp : P v = false) :
    l.countP P < l.countP Q := by
  induction l with
  | nil => cases hv
  | cons a l ih =>
    have hmono : l.countP P ≤ l.countP Q := List.countP_mono_left (fun x _ => h x)
    rcases List.mem_cons.1 hv with e | e
    · subst e
      rw [List.countP_cons_of_pos _ _ hq, List.countP_cons_of_neg _ _ (by simp [hp])]
      omega
    · have := ih e
      by_cases ha : P a = true
      · rw [List.countP_cons_of_pos _ _ ha, List.countP_cons_of_pos _ _ (h a ha)]
        omega
      · rw [List.countP_cons_of_neg _ _ ha]
        by_cases hqa : Q a = true
        · rw [List.countP_cons_of_pos _ _ hqa]; omega
        · rw [List.countP_cons_of_neg _ _ hqa]; omega

theorem twoClosed_ext {g s t : State} (hi : TwoInv g s) (he : TwoExt s t) (p : Nat)
    (hp : p ∈ g.vertices) (hc : (deref s.heap p).color ≠ -1) (h : TwoClosed g s p) :
    TwoClosed g t p := by
  intro q hq
  have e1 := h q hq
  have ep := he p hc
  have hr := hi.range p hp
  have eq1 : (deref t.heap q).color = (deref s.heap q).color := he q (by omega)
  rw [eq1, ep, e1]

/-- The loop of `twoColorVertex` over the rest `l` of the adjacency list of `v`. -/
theorem twoColorLoop_spec (g : State)
    (self : State → Nat → Int → Option (Int × State)) (c : Int) (hc : c = 0 ∨ c = 1)
    (s0 : State)
    (hself : ∀ s nb, TwoInv g s → TwoExt s0 s → nb ∈ g.vertices →
      (deref s.heap nb).color = -1 → TwoPost g s nb (1 - c) (self s nb (1 - c)))
    (l : List Nat) (hl : ∀ q ∈ l, q ∈ g.vertices)
    (s : State) (hi : TwoInv g s) (he : TwoExt s0 s) :
    ∃ res t, twoColorLoop self c l s = some (res, t) ∧ (res = 1 ∨ res = -1) ∧ TwoInv g t ∧
      TwoExt s t ∧
      (res = 1 → (∀ q ∈ l, (deref t.heap q).color = 1 - c) ∧
        ∀ p ∈ g.vertices, (deref s.heap p).color = -1 → (deref t.heap p).color ≠ -1 →
          TwoClosed g t p) ∧
      (∀ f, TwoProper g f → TwoAgrees g s f → (∀ q ∈ l, f q = 1 - c) →
        res = 1 ∧ TwoAgrees g t f) := by
  induction l generalizing s with
  | nil =>
    refine ⟨1, s, rfl, Or.inl rfl, hi, twoExt_refl s, fun _ => ⟨fun q hq => (by cases hq), ?_⟩,
      fun f _ ha _ => ⟨rfl, ha⟩⟩
    intro p _ h1 h2
    exact absurd h1 h2
  | cons nb rest ih =>
    have hnb : nb ∈ g.vertices := hl nb (List.mem_cons_self _ _)
    have hrest : ∀ q ∈ rest, q ∈ g.vertices := fun q hq => hl q (List.mem_cons_of_mem _ hq)
    unfold twoColorLoop
    by_cases h1 : (deref s.heap nb).color = c
    · rw [if_pos h1]
      refine ⟨-1, s, rfl, Or.inr rfl, hi, twoExt_refl s, fun h => absurd h (by decide), ?_⟩
      intro f _ ha hf
      have e1 := ha nb hnb (by omega)
      have e2 := hf nb (List.mem_cons_self _ _)
      omega
    · rw [if_neg h1]
      by_cases h2 : (deref s.heap nb).color = -1
      · rw [if_pos h2]
        obtain ⟨res1, s1, e, hres1, hi1, he1, hcol1, hcl1, hcomp1⟩ := hself s nb hi he hnb h2
        rw [e]
        by_cases h3 : res1 = -1
        · simp only [h3, if_true]
          refine ⟨-1, s1, rfl, Or.inr rfl, hi1, he1, fun h => absurd h (by decide), ?_⟩
          intro f hp ha hf
          have := (hcomp1 f hp ha (hf nb (List.mem_cons_self _ _))).1
          omega
        · simp only [h3, if_false]
          have hr1 : res1 = 1 := by omega
          obtain ⟨res, t, e2, hres, hit, het, hcl, hcomp⟩ :=
            ih hrest s1 hi1 (twoExt_trans he he1)
          refine ⟨res, t, e2, hres, hit, twoExt_trans he1 het, fun hr => ⟨?_, ?_⟩, ?_⟩
          · intro q hq
            rcases List.mem_cons.1 hq with e3 | e3
            · subst e3
              have := het q (by omega)
              omega
            · exact (hcl hr).1 q e3
          · intro p hp hps hpt
            by_cases hp1 : (deref s1.heap p).color = -1
            · exact (hcl hr).2 p hp hp1 hpt
            · exact twoClosed_ext hi1 het p hp hp1 (hcl1 hr1 p hp hps hp1)
          · intro f hp ha hf
            have c1 := hcomp1 f hp ha (hf nb (List.mem_cons_self _ _))
            exact hcomp f hp c1.2 (fun q hq => hf q (List.mem_cons_of_mem _ hq))
      · rw [if_neg h2]
        obtain ⟨res, t, e2, hres, hit, het, hcl, hcomp⟩ := ih hrest s hi he
        refine ⟨res, t, e2, hres, hit, het, fun hr => ⟨?_, (hcl hr).2⟩, ?_⟩
        · intro q hq
          rcases List.mem_cons.1 hq with e3 | e3
          · subst e3
            have := het q h2
            have := hi.range q hnb
            omega
          · exact (hcl hr).1 q e3
        · intro f hp ha hf
          exact hcomp f hp ha (fun q hq => hf q (List.mem_cons_of_mem _ hq))

/-- A call of `twoColorVertex` on an uncolored vertex, with more fuel than uncolored vertices. -/
theorem twoColorVertex_spec (g : State) (hw : WellFormed g) (fuel : Nat) :
    ∀ (s : State) (v : Nat) (c : Int), TwoInv g s → v ∈ g.vertices →
      (deref s.heap v).color = -1 → (c = 0 ∨ c = 1) → uncoloredCount g s < fuel →
      TwoPost g s v c (twoColorVertex fuel s v c) := by
  induction fuel with
  | zero => intro s v c _ _ _ _ h; omega
  | succ fuel ih =>
    intro s v c hi hv hcv hc hf
    have hvl : v < s.heap.length := by rw [hi.len]; exact hw.2.1 v hv
    have hcol1 : (deref (modify s v (fun x => { x with color := c })).heap v).color = c := by
      rw [deref_modify_self _ _ _ hvl]
    have hother : ∀ p, p ≠ v →
        deref (modify s v (fun x => { x with color := c })).heap p = deref s.heap p :=
      fun p hp => deref_modify_ne _ _ _ _ hp
    have hadj1 : ∀ p, (deref (modify s v (fun x => { x with color := c })).heap p).adjacentVertices
        = (deref s.heap p).adjacentVertices := by
      intro p
      rw [deref_modify_field (fun x => x.adjacentVertices)]
      exact fun _ => rfl
    have hi1 : TwoInv g (modify s v (fun x => { x with color := c })) := by
      refine ⟨hi.verts, by rw [modify_heap_length]; exact hi.len,
        fun p => by rw [hadj1]; exact hi.adj p, fun p hp => ?_⟩
      by_cases e : p = v
      · subst e; rw [hcol1]; omega
      · rw [hother p e]; exact hi.range p hp
    have he1 : TwoExt s (modify s v (fun x => { x with color := c })) := by
      intro p hp
      by_cases e : p = v
      · subst e; exact absurd hcv hp
      · rw [hother p e]
    have hcount : uncoloredCount g (modify s v (fun x => { x with color := c })) <
        uncoloredCount g s := by
      unfold uncoloredCount
      apply countP_lt_of_mem _ _ _ _ v hv (decide_eq_true hcv)
      · rw [hcol1]; apply decide_eq_false; omega
      · intro p hp
        have hp1 := of_decide_eq_true hp
        apply decide_eq_true
        by_cases e : p = v
        · subst e; exact hcv
        · rw [hother p e] at hp1; exact hp1
    unfold twoColorVertex
    simp only []
    rw [hadj1, hi.adj]
    obtain ⟨res, t, e, hres, hit, het, hcl, hcomp⟩ :=
      twoColorLoop_spec g (twoColorVertex fuel) c hc
        (modify s v (fun x => { x with color := c }))
        (fun s2 nb hi2 he2 hnb hcnb =>
          ih s2 nb (1 - c) hi2 hnb hcnb (by omega)
            (by have := @uncoloredCount_le g _ _ he2; omega))
        (deref g.heap v).adjacentVertices (fun q hq => (hw.2.2 v hv q hq).1)
        (modify s v (fun x => { x with color := c })) hi1 (twoExt_refl _)
    have hcolt : (deref t.heap v).color = c := by
      have := het v (by rw [hcol1]; omega)
      rw [this, hcol1]
    refine ⟨res, t, e, hres, hit, twoExt_trans he1 het, hcolt, fun hr p hp hps hpt => ?_, ?_⟩
    · by_cases e1 : p = v
      · subst e1
        intro q hq
        rw [hcolt]
        exact (hcl hr).1 q hq
      · exact (hcl hr).2 p hp (by rw [hother p e1]; exact hps) hpt
    · intro f hp ha hfv
      apply hcomp f hp
      · intro p hpv hpc
        by_cases e1 : p = v
        · subst e1; rw [hcol1, hfv]
        · rw [hother p e1] at hpc ⊢; exact ha p hpv hpc
      · intro q hq
        have h1 := (hp v hv).2 q hq
        have h2 := (hp q (hw.2.2 v hv q hq).1).1
        omega

/-- Claim C17. On a connected simple graph with every vertex uncolored, `twoColoring`, given more
fuel than there are vertices, returns 2 or -1; it returns 2 exactly when the graph has a proper
coloring with two colors; and when it returns 2 the colors it leaves are a proper coloring of
the same graph with the colors 0 and 1. -/
theorem twoColoring_spec (s : State) (fuel : Nat) (hw : WellFormed s) (hu : Uncolored s)
    (hc : Connected s) (hf : s.vertices.length < fuel) :
    ∃ r t, twoColoring fuel s = some (r, t) ∧ (r = 2 ∨ r = -1) ∧ (r = 2 ↔ Colorable s 2) ∧
      (r = 2 → ProperlyColored t 2 ∧ t.vertices = s.vertices ∧
        ∀ p, (deref t.heap p).adjacentVertices = (deref s.heap p).adjacentVertices) := by
  have hv0 : s.vertices.getD 0 0 ∈ s.vertices := by
    have h := hc.1
    cases hs : s.vertices with
    | nil => exact absurd hs h
    | cons a l => simp
  have hinv : TwoInv s s := ⟨rfl, rfl, fun _ => rfl, fun p hp => Or.inl (hu p hp)⟩
  have hcount : uncoloredCount s s < fuel := lt_of_le_of_lt (List.countP_le_length _) hf
  obtain ⟨res, t, e, hres, hit, het, hcol, hcl, hcomp⟩ :=
    twoColorVertex_spec s hw fuel s (s.vertices.getD 0 0) 0 hinv hv0 (hu _ hv0) (Or.inl rfl) hcount
  have hA : res = 1 → ∀ p ∈ s.vertices, (deref t.heap p).color ≠ -1 ∧ TwoClosed s t p := by
    intro hr
    have reach : ∀ p, Relation.ReflTransGen (fun a b => b ∈ (deref s.heap a).adjacentVertices)
        (s.vertices.getD 0 0) p → p ∈ s.vertices ∧ (deref t.heap p).color ≠ -1 := by
      intro p hp
      induction hp with
      | refl => exact ⟨hv0, by rw [hcol]; decide⟩
      | @tail a b _ hab ih =>
        have hcla := hcl hr a ih.1 (hu a ih.1) ih.2 b hab
        have hra := hit.range a ih.1
        exact ⟨(hw.2.2 a ih.1 b hab).1, by omega⟩
    intro p hp
    have hp1 := (reach p (hc.2 p hp)).2
    exact ⟨hp1, hcl hr p hp (hu p hp) hp1⟩
  have hB : Colorable s 2 → res = 1 := by
    rintro ⟨f, hf2⟩
    have hagree : TwoAgrees s s (fun p =>
        if f (s.vertices.getD 0 0) = 0 then (f p : Int) else 1 - (f p : Int)) :=
      fun p hp hpc => absurd (hu p hp) hpc
    refine (hcomp _ ?_ hagree ?_).1
    · intro p hp
      have h1 := (hf2 p hp).1
      refine ⟨?_, fun q hq => ?_⟩
      · show (if f (s.vertices.getD 0 0) = 0 then (f p : Int) else 1 - (f p : Int)) = 0 ∨
          (if f (s.vertices.getD 0 0) = 0 then (f p : Int) else 1 - (f p : Int)) = 1
        split <;> omega
      · have h2 := (hf2 p hp).2 q hq
        show (if f (s.vertices.getD 0 0) = 0 then (f q : Int) else 1 - (f q : Int)) ≠
          (if f (s.vertices.getD 0 0) = 0 then (f p : Int) else 1 - (f p : Int))
        split <;> omega
    · have h1 := (hf2 _ hv0).1
      show (if f (s.vertices.getD 0 0) = 0 then (f (s.vertices.getD 0 0) : Int)
        else 1 - (f (s.vertices.getD 0 0) : Int)) = 0
      split <;> omega
  have hC : res = 1 → ProperlyColored t 2 := by
    intro hr p hp
    rw [hit.verts] at hp
    have h1 := hA hr p hp
    have h2 := hit.range p hp
    refine ⟨by omega, by omega, fun q hq => ?_⟩
    rw [hit.adj] at hq
    have := h1.2 q hq
    omega
  have hD : res = 1 → Colorable s 2 := by
    intro hr
    refine ⟨fun p => (deref t.heap p).color.toNat, fun p hp => ?_⟩
    have h1 := hA hr p hp
    have h2 := hit.range p hp
    refine ⟨by show (deref t.heap p).color.toNat < 2; omega, fun q hq => ?_⟩
    have h3 := h1.2 q hq
    show (deref t.heap p).color.toNat ≠ (deref t.heap q).color.toNat
    omega
  unfold twoColoring
  rw [e]
  by_cases hr : res = 1
  · simp only [hr, if_true]
    exact ⟨2, t, rfl, Or.inl rfl, ⟨fun _ => hD hr, fun _ => rfl⟩,
      fun _ => ⟨hC hr, hit.verts, hit.adj⟩⟩
  · simp only [hr, if_false]
    refine ⟨-1, t, rfl, Or.inr rfl, ⟨fun h => absurd h (by decide), fun h => absurd (hB h) hr⟩,
      fun h => absurd h (by decide)⟩

theorem twoColoring_spec_witness :
    WellFormed pathSearch ∧ Uncolored pathSearch ∧ Connected pathSearch ∧
    ∃ r t, twoColoring 4 pathSearch = some (r, t) ∧ (r = 2 ∨ r = -1) ∧
      (r = 2 ↔ Colorable pathSearch 2) ∧
      (r = 2 → ProperlyColored t 2 ∧ t.vertices = pathSearch.vertices ∧
        ∀ p, (deref t.heap p).adjacentVertices = (deref pathSearch.heap p).adjacentVertices) :=
  have hconn : Connected pathSearch := by
    refine ⟨by decide, ?_⟩
    have h01 : Relation.ReflTransGen
        (fun a b => b ∈ (deref pathSearch.heap a).adjacentVertices) 0 1 :=
      Relation.ReflTransGen.single (by decide)
    have h12 : Relation.ReflTransGen
        (fun a b => b ∈ (deref pathSearch.heap a).adjacentVertices) 0 2 :=
      Relation.ReflTransGen.tail h01 (by decide)
    intro p hp
    have hp3 : p = 0 ∨ p = 1 ∨ p = 2 := by
      have : pathSearch.vertices = [0, 1, 2] := by decide
      rw [this] at hp
      simpa using hp
    have e0 : pathSearch.vertices.getD 0 0 = 0 := by decide
    rw [e0]
    rcases hp3 with h | h | h
    · rw [h]
    · rw [h]; exact h01
    · rw [h]; exact h12
  ⟨by unfold WellFormed; decide, by unfold Uncolored; decide, hconn,
    twoColoring_spec pathSearch 4 (by unfold WellFormed; decide) (by unfold Uncolored; decide)
      hconn (by decide)⟩

/-! ## low-k.c : the k-coloring by maximal independent sets -/

set_option maxRecDepth 1000000 in
set_option maxHeartbeats 4000000 in
/-- Claim C18, evaluated at a failing input. The triangle is a connected simple graph with every
vertex uncolored whose neighbor bitsets agree with its adjacency lists, and it has a proper
3-coloring; yet `kColoring` with `k = 3` returns -1. -/
theorem kColoring_rejects_triangle :
    WellFormed triangleLowK ∧ Uncolored triangleLowK ∧ Connected triangleLowK ∧
    BitsetsConsistent triangleLowK ∧ Colorable triangleLowK 3 ∧
    (kColoring 10 triangleLowK 3).map Prod.fst = some (-1) := by
  refine ⟨?_, ?_, ⟨?_, ?_⟩, ?_, ⟨fun p => p, ?_⟩, ?_⟩
  · unfold WellFormed; decide
  · unfold Uncolored; decide
  · decide
  · have e0 : triangleLowK.vertices.getD 0 0 = 0 := by decide
    have h1 : 1 ∈ (deref triangleLowK.heap 0).adjacentVertices := by decide
    have h2 : 2 ∈ (deref triangleLowK.heap 0).adjacentVertices := by decide
    intro p hp
    have hp3 : p = 0 ∨ p = 1 ∨ p = 2 := by
      have : triangleLowK.vertices = [0, 1, 2] := by decide
      rw [this] at hp
      simpa using hp
    rw [e0]
    rcases hp3 with h | h | h
    · rw [h]
    · rw [h]; exact Relation.ReflTransGen.single h1
    · rw [h]; exact Relation.ReflTransGen.single h2
  · unfold BitsetsConsistent adjacentAt; decide
  · unfold ProperColoring; decide
  · decide!

/-! ## The two programs on graphs without edges -/

theorem removeIsolatedWord_some ( B v : Nat) (hv : v % 64 ≠ 63) (words : List Nat) (j : Nat) :
    ∃ ws, removeIsolatedWord B v words j = some ws := by
  have hv1 : v % 64 < 64 := Nat.mod_lt _ (by decide)
  have h1 : ∃ lo, keepLowBits (words.getD j 0) v = some lo := by
    unfold keepLowBits
    by_cases h0 : v % 64 = 0
    · exact ⟨0, by rw [if_pos h0]⟩
    · rw [if_neg h0]
      unfold shl64 shr64
      rw [if_pos (by omega)]
      simp only []
      rw [if_pos (by omega)]
      exact ⟨_, rfl⟩
  have h2 : ∃ hi, dropBit (words.getD j 0) v = some hi := by
    unfold dropBit shl64 shr64
    rw [if_pos (by omega)]
    simp only []
    rw [if_pos (by omega)]
    exact ⟨_, rfl⟩
  obtain ⟨lo, e1⟩ := h1
  obtain ⟨hi, e2⟩ := h2
  unfold removeIsolatedWord
  simp only []
  by_cases hj : j = v / 64
  · rw [if_pos hj, e1, e2]
    exact ⟨_, rfl⟩
  · rw [if_neg hj]
    unfold shr64
    rw [if_pos (by decide)]
    exact ⟨_, rfl⟩

theorem removeIsolatedWords_some ( B v : Nat) (hv : v % 64 ≠ 63) (js : List Nat) :
    ∀ words : List Nat, ∃ ws, removeIsolatedWords B v js words = some ws := by
  induction js with
  | nil => intro words; exact ⟨words, rfl⟩
  | cons j js ih =>
    intro words
    obtain ⟨w1, e1⟩ := removeIsolatedWord_some B v hv words j
    unfold removeIsolatedWords
    rw [e1]
    exact ih w1

/-- Away from the undefined shift, `removeIsolatedNeighbor` has a result, and it changes no
degree. -/
theorem removeIsolatedNeighbor_degree ( B v : Nat) (hv : v % 64 ≠ 63) (l : List (Option Nat)) :
    ∀ heap : List Vertex, ∃ h1, removeIsolatedNeighbor B v l heap = some h1 ∧
      ∀ q, (deref h1 q).degree = (deref heap q).degree := by
  induction l with
  | nil => intro heap; exact ⟨heap, rfl, fun _ => rfl⟩
  | cons a l ih =>
    intro heap
    cases a with
    | none =>
      unfold removeIsolatedNeighbor
      exact ih heap
    | some p =>
      obtain ⟨ws, e⟩ := removeIsolatedWords_some B v hv
        (List.range' (v / 64) (B - v / 64)) (deref heap p).neighbors
      unfold removeIsolatedNeighbor
      rw [e]
      obtain ⟨h1, e1, hd⟩ := ih (heap.set p { deref heap p with neighbors := ws })
      refine ⟨h1, e1, fun q => ?_⟩
      rw [hd, deref_set]
      split
      · next h => rw [h.1]
      · rfl

/-- When every entry still to be visited is an isolated vertex, the loop of
`removeIsolatedVertices` leaves `counter` as it is. -/
theorem removeIsolatedLoop_counter ( B : Nat) (c : Nat) (hc : c % 64 ≠ 63) (n : Nat) :
    ∀ (i : Nat) (heap : List Vertex) (l : List (Option Nat)),
      (∀ j, i ≤ j → j < i + n → ∃ p, l.getD j none = some p ∧ (deref heap p).degree = 0) →
      ∃ r, removeIsolatedLoop B n i c heap l = some r ∧ r.2.2 = c := by
  induction n with
  | zero => intro i heap l _; exact ⟨_, rfl, rfl⟩
  | succ n ih =>
    intro i heap l h
    obtain ⟨p, hp, hd⟩ := h i (le_refl _) (by omega)
    obtain ⟨h1, e1, hdeg⟩ := removeIsolatedNeighbor_degree B c hc l heap
    unfold removeIsolatedLoop
    rw [hp]
    simp only [hd, if_true]
    rw [e1]
    apply ih
    intro j h1 h2
    obtain ⟨q, hq, hqd⟩ := h j (by omega) (by omega)
    refine ⟨q, ?_, ?_⟩
    · rw [← hq]
      simp only [List.getD_eq_getElem?_getD]
      rw [List.getElem?_set_ne (by omega)]
    · rw [hdeg]
      exact hqd

theorem removeIsolatedVertices_edgeless (s : State)
    (he : ∀ p ∈ s.vertices, (deref s.heap p).degree = 0) :
    ∃ h, removeIsolatedVertices s = some { s with heap := h, vertices := [] } := by
  have hc : ∃ r, removeIsolatedLoop ((s.vertices.length + 63) / 64) s.vertices.length 0 0 s.heap
      (s.vertices.map some) = some r ∧ r.2.2 = 0 := by
    apply removeIsolatedLoop_counter _ 0 (by decide)
    intro j _ hj
    have hj1 : j < s.vertices.length := by omega
    refine ⟨s.vertices[j], ?_, he _ (List.getElem_mem _)⟩
    simp [List.getD_eq_getElem?_getD, hj1]
  obtain ⟨r, e, hr⟩ := hc
  refine ⟨r.1, ?_⟩
  unfold removeIsolatedVertices
  rw [e]
  simp only []
  rw [hr]
  rfl

theorem sortFrom_nil (s : State) (hv : s.vertices = []) (start : Nat)
    (cmp : List Vertex → Nat → Nat → Int) : sortFrom s start cmp = s := by
  obtain ⟨heap, vertices, MD, MC, VC, MU, CH, SC, SE, CS, SO, SR, DF, BO⟩ := s
  simp only at hv
  subst hv
  simp [sortFrom, qsort]

theorem initialSorting_nil (s : State) (hv : s.vertices = []) : initialSorting s = s := by
  unfold initialSorting
  split <;> exact sortFrom_nil s hv _ _

theorem selectNextVertexFF_nil (s : State) (hv : s.vertices = []) : selectNextVertexFF s = -1 := by
  simp [selectNextVertexFF, hv, scanFrom]

theorem getUpperBound_nil (fuel : Nat) (s : State) (hv : s.vertices = []) :
    ∃ b, getUpperBound (fuel + 1) s = some (b, s) ∧
      (s.BOUNDS = bounds.BROOKS → b = s.MAX_DEGREE + 1) ∧
      (s.BOUNDS ≠ bounds.BROOKS → b = 64 ∨ b = 0) := by
  have hclear : clearColoring s = s := by simp [clearColoring, hv]
  unfold getUpperBound
  split
  · next h =>
    exact ⟨_, rfl, fun _ => by simp [brooksUpperBound, VERTICES, hv], fun c => absurd h c⟩
  · next h =>
    refine ⟨0, ?_, fun c => ?_, fun _ => Or.inr rfl⟩
    · simp [upperBoundRLF, sortFrom_nil s hv, selectNextVertexFF_nil s hv, rlfOuter, hclear]
    · rw [h] at c; cases c
  · next h =>
    refine ⟨0, ?_, fun c => ?_, fun _ => Or.inr rfl⟩
    · simp [upperBoundWP, sortFrom_nil s hv, selectNextVertexFF_nil s hv, wpOuter, hclear]
    · rw [h] at c; cases c
  · next h =>
    refine ⟨64, rfl, fun c => ?_, fun _ => Or.inl rfl⟩
    rw [h] at c; cases c

theorem selectNextVertex_nil (s : State) (hv : s.vertices = []) :
    (selectNextVertex s).1 = -1 ∧ (selectNextVertex s).2.vertices = [] ∧
    (selectNextVertex s).2.SEARCH = s.SEARCH ∧ (selectNextVertex s).2.MAX_USED = s.MAX_USED ∧
    (selectNextVertex s).2.CHROMATIC = s.CHROMATIC := by
  obtain ⟨heap, vertices, MD, MC, VC, MU, CH, SC, SE, CS, SO, SR, DF, BO⟩ := s
  simp only at hv
  subst hv
  cases SO <;> cases CS <;>
    simp [selectNextVertex, sortFrom, qsort, selectNextVertexCS, selectNextVertexFF, scanFrom]

theorem decayCounters_nil (s : State) (hv : s.vertices = []) : decayCounters s = s := by
  unfold decayCounters
  split <;> simp [hv]

theorem colorGraph_nil (fuel : Nat) (s : State) (hv : s.vertices = []) :
    ∃ t, colorGraph (fuel + 1) s = some (1, t) ∧
      t.CHROMATIC =
        if s.SEARCH = search.EXHAUSTIVE ∧ s.MAX_USED < s.CHROMATIC then s.MAX_USED
        else s.CHROMATIC := by
  unfold colorGraph
  simp only []
  rw [decayCounters_nil s hv]
  obtain ⟨h1, hf⟩ := selectNextVertex_nil { s with SORTING_COUNTER := s.SORTING_COUNTER + 1 } hv
  generalize selectNextVertex { s with SORTING_COUNTER := s.SORTING_COUNTER + 1 } = sel at h1 hf ⊢
  obtain ⟨n, t⟩ := sel
  simp only at h1 hf
  subst h1
  by_cases hcs : t.CS = true <;>
    by_cases hc : s.SEARCH = search.EXHAUSTIVE ∧ s.MAX_USED < s.CHROMATIC <;>
    simp [hcs, hc, hf.1, hf.2.1, hf.2.2.1, hf.2.2.2, updateAvailability]

theorem setAvailableColors_nil (s : State) (hv : s.vertices = []) (k : Int) :
    setAvailableColors s k = { s with MAX_COLOR := k - 1 } := by
  simp [setAvailableColors, hv]

theorem colorGraph_start_nil (fuel : Nat) (s : State) (bound : Int) (hv : s.vertices = [])
    (hs : s.SEARCH = search.EXHAUSTIVE) (hm : s.MAX_USED = -1) (hb : bound = 64 ∨ bound = 0) :
    ∃ t, colorGraph (fuel + 1)
        (if bound < 64 then setAvailableColors { s with CHROMATIC := bound - 1 } (bound - 1)
          else setAvailableColors { s with CHROMATIC := 127 } 64) = some (1, t) ∧
      t.CHROMATIC = -1 := by
  rcases hb with hb | hb
  · subst hb
    rw [if_neg (by decide), setAvailableColors_nil { s with CHROMATIC := 127 } hv]
    obtain ⟨t, e, hc⟩ := colorGraph_nil fuel
      { { s with CHROMATIC := 127 } with MAX_COLOR := 64 - 1 } hv
    refine ⟨t, e, ?_⟩
    rw [hc]
    simp [hs, hm]
  · subst hb
    rw [if_pos (by decide), setAvailableColors_nil { s with CHROMATIC := 0 - 1 } hv]
    obtain ⟨t, e, hc⟩ := colorGraph_nil fuel
      { { s with CHROMATIC := 0 - 1 } with MAX_COLOR := 0 - 1 - 1 } hv
    refine ⟨t, e, ?_⟩
    rw [hc]
    simp [hs, hm]

/-- On an empty array the exhaustive `coloring` returns 0, except with the Brooks bound, where
it returns `MAX_DEGREE + 1`. -/
theorem coloring_nil (fuel : Nat) (s : State) (hv : s.vertices = [])
    (hs : s.SEARCH = search.EXHAUSTIVE) :
    (coloring (fuel + 1) s).map Prod.fst =
      some (if s.BOUNDS = bounds.BROOKS then s.MAX_DEGREE + 1 else 0) := by
  have hv0 : (initializeCounters s).vertices = [] := hv
  have e0 : (initializeCounters s).SEARCH = search.EXHAUSTIVE := hs
  obtain ⟨b, e1, hb1, hb2⟩ := getUpperBound_nil fuel (initializeCounters s) hv0
  unfold coloring
  simp only []
  rw [if_pos e0, initialSorting_nil _ hv0, e1]
  simp only []
  by_cases hb : s.BOUNDS = bounds.BROOKS
  · have := hb1 hb
    rw [if_pos ⟨hb, this⟩, if_pos hb, this]
    rfl
  · rw [if_neg (fun c => hb c.1), if_neg hb]
    obtain ⟨t, e, hc⟩ := colorGraph_start_nil fuel (initializeCounters (initializeCounters s)) b
      hv hs rfl (hb2 hb)
    rw [e]
    simp [hc]

theorem dynamic_isChromatic (s : State) (junk : Int) (hw : WellFormed s)
    (hV : s.vertices.length ≤ 20) :
    0 ≤ dynamic s junk ∧ IsChromaticNumber s (dynamic s junk).toNat := by
  have hV32 : s.vertices.length ≤ 32 := by omega
  obtain ⟨h0, hT⟩ := calculateChromaticTable_entries s hw hV32 junk
  have hall := table_chromatic s hw hV32 junk _ h0 hT
  have hdyn : dynamic s junk =
      (calculateChromaticTable s (createTable s) junk).getD (2 ^ s.vertices.length - 1) junk := by
    unfold dynamic TABLE_SIZE
    rw [Nat.one_shiftLeft]
  have hpos : 0 < 2 ^ s.vertices.length := Nat.two_pow_pos _
  rw [hdyn]
  obtain ⟨c0, _, c2, c3⟩ := hall (2 ^ s.vertices.length - 1) (by omega)
  refine ⟨c0, (colorableOn_full_iff s hw _).1 c2, fun k hk hcol => ?_⟩
  have := c3 k ((colorableOn_full_iff s hw k).2 hcol)
  omega

/-- On a graph without edges that has a vertex, `dynamic` returns 1, the chromatic number. -/
theorem dynamic_edgeless (s : State) (junk : Int) (hw : WellFormed s) (hn : s.vertices ≠ [])
    (hV : s.vertices.length ≤ 20) (he : Edgeless s) :
    dynamic s junk = 1 ∧ IsChromaticNumber s 1 := by
  obtain ⟨h0, hcol, hmin⟩ := dynamic_isChromatic s junk hw hV
  have h1 : Colorable s 1 :=
    ⟨fun _ => 0, fun p hp => ⟨Nat.zero_lt_one, fun q hq => by rw [(he p hp).2] at hq; cases hq⟩⟩
  have h2 : ¬ Colorable s 0 := by
    rintro ⟨f, hf⟩
    cases hs : s.vertices with
    | nil => exact hn hs
    | cons a l => exact Nat.not_lt_zero _ (hf a (by rw [hs]; exact List.mem_cons_self _ _)).1
  have e : (dynamic s junk).toNat = 1 := by
    by_contra hc
    rcases Nat.lt_or_gt_of_ne hc with h | h
    · have : (dynamic s junk).toNat = 0 := by omega
      rw [this] at hcol
      exact h2 hcol
    · exact hmin 1 h h1
  refine ⟨by omega, ?_⟩
  rw [e] at hcol hmin
  exact ⟨hcol, hmin⟩

/-- On a graph without edges the exhaustive main program colors the empty array. -/
theorem mainExhaustive_edgeless (s : State) (fuel : Nat) (he : Edgeless s)
    (hs : s.SEARCH = search.EXHAUSTIVE) :
    (mainExhaustive (fuel + 1) s).map Prod.fst =
      some (if s.BOUNDS = bounds.BROOKS then s.MAX_DEGREE + 1 else 0) := by
  obtain ⟨h, e⟩ := removeIsolatedVertices_edgeless s (fun p hp => (he p hp).1)
  unfold mainExhaustive
  rw [e]
  exact coloring_nil fuel { s with heap := h, vertices := [] } rfl hs


/-! ## heuristics.c : the comparators -/

/-- Claim C27, counterexample. The two end vertices of the path on three vertices are distinct
vertices of equal degree (with distinct numbers); `compareByDegree` returns 0 on them, whereas
the ordering with ties broken by identity puts vertex 0 first. -/
theorem compareByDegree_ties_unbroken :
    compareByDegree pathSearch.heap 0 2 = 0 ∧
    (deref pathSearch.heap 0).number ≠ (deref pathSearch.heap 2).number ∧
    (deref pathSearch.heap 0).degree = (deref pathSearch.heap 2).degree ∧
    compareByDegreeSpec pathSearch.heap 0 2 < 0 := by
  decide

/-- Claim C27, amended. The comparator `compareByDegree` returns the degree of the second
vertex minus the degree of the first: it is negative exactly when the first vertex has the
larger degree, positive exactly when it has the smaller one, and 0 exactly when the two degrees
are equal, whichever vertices they are. -/
theorem compareByDegree_spec (heap : List Vertex) (a b : Nat) :
    compareByDegree heap a b = (deref heap b).degree - (deref heap a).degree ∧
    (compareByDegree heap a b < 0 ↔ (deref heap a).degree > (deref heap b).degree) ∧
    (compareByDegree heap a b > 0 ↔ (deref heap a).degree < (deref heap b).degree) ∧
    (compareByDegree heap a b = 0 ↔ (deref heap a).degree = (deref heap b).degree) := by
  unfold compareByDegree
  refine ⟨rfl, ?_, ?_, ?_⟩ <;> constructor <;> intro h <;> omega

/-- Claim C28, evaluated at a failing input. The vertex at address 0 has three available colors
(32, 33 and 34), the vertex at address 1 has two (0 and 1), so by the number of available
colors the second one comes first; `compareBySaturationDegree` puts the first one first (-1
with the first one as first argument, 1 with the second one as first argument), because
`__builtin_popcount` counts the low 32 bits only. -/
theorem compareBySaturationDegree_ignores_high_colors :
    popcount64 (deref saturationPair 0).availableColors = 3 ∧
    popcount64 (deref saturationPair 1).availableColors = 2 ∧
    (deref saturationPair 0).availableColors < 2 ^ 64 ∧
    (deref saturationPair 0).degree = (deref saturationPair 1).degree ∧
    compareBySaturationDegree saturationPair 0 1 = -1 ∧
    compareBySaturationDegree saturationPair 1 0 = 1 := by
  decide

/-! ## The exhaustive search on the named test graphs -/

set_option maxRecDepth 1000000 in
set_option maxHeartbeats 4000000 in
/-- Claim C30. With SEARCH = EXHAUSTIVE and BOUNDS = RLF, in each of the 36 configurations of
`exhaustiveRLFRuns`, `coloring` returns 3 on the Petersen graph, on the cycle on five vertices
and on the triangle, and 2 on the path on four vertices and on the complete bipartite graph
with two parts of three vertices. -/
theorem exhaustive_rlf_on_test_graphs :
    exhaustiveRLFRuns 10 petersenEdges = List.replicate 36 (some 3) ∧
    exhaustiveRLFRuns 5 cycleFiveEdges = List.replicate 36 (some 3) ∧
    exhaustiveRLFRuns 3 triangleEdges = List.replicate 36 (some 3) ∧
    exhaustiveRLFRuns 4 pathFourEdges = List.replicate 36 (some 2) ∧
    exhaustiveRLFRuns 6 completeBipartiteEdges = List.replicate 36 (some 2) := by
  refine ⟨?_, ?_, ?_, ?_, ?_⟩ <;> decide!

/-! ## graph.c : adding an edge -/

theorem wordBit_iff (words : List Nat) (i : Nat) :
    wordBit words i = (words.getD (i / 64) 0).testBit (i % 64) := by
  unfold wordBit
  rw [bit64_eq _ (by omega) (by omega)]
  have e : ((i % 64 : Nat) : Int).toNat = i % 64 := by omega
  rw [e]
  by_cases h : (words.getD (i / 64) 0).testBit (i % 64) = true
  · rw [h]; exact decide_eq_true ((and_two_pow_ne_zero _ _).2 h)
  · have h1 : (words.getD (i / 64) 0).testBit (i % 64) = false := by simpa using h
    rw [h1]
    exact decide_eq_false (fun c => h ((and_two_pow_ne_zero _ _).1 c))

theorem wordBit_setNeighborBit (words : List Nat) (k : Nat) (hk : k / 64 < words.length)
    (i : Nat) :
    wordBit (setNeighborBit words (k : Int)) i = (wordBit words i || decide (i = k)) := by
  rw [wordBit_iff, wordBit_iff]
  unfold setNeighborBit
  have e : ((k : Int)).toNat = k := by omega
  rw [e, bit64_eq _ (by omega) (by omega)]
  have e2 : ((k % 64 : Nat) : Int).toNat = k % 64 := by omega
  rw [e2]
  simp only [List.getD_eq_getElem?_getD]
  by_cases h : i / 64 = k / 64
  · rw [h, List.getElem?_set_self hk]
    simp only [Option.getD_some]
    rw [Nat.testBit_or, Nat.testBit_two_pow]
    by_cases h2 : k % 64 = i % 64
    · have : i = k := by omega
      simp [h2, this]
    · have : i ≠ k := fun c => h2 (by rw [c])
      simp [h2, this]
  · rw [List.getElem?_set_ne (fun c => h c.symm)]
    have : i ≠ k := fun c => h (by rw [c])
    simp [this]

set_option maxHeartbeats 1000000 in
/-- Claim C23. For two distinct vertex records whose numbers lie inside the bit array of the
other, after `addEdgeDouble(v1, v2)`: `neighbors(v1, v2)` and `neighbors(v2, v1)` hold, `v2` is
the new head of the adjacency list of `v1` and `v1` of that of `v2`, each degree has grown by
1, bit `v2.number` is set in `v1.neighbors` and bit `v1.number` in `v2.neighbors`, every other
bit of the two bitsets is as before, the other fields of the two records are as before, and no
other record changes. -/
theorem addEdgeDouble_spec (heap : List Vertex) (v1 v2 : Nat) (h12 : v1 ≠ v2)
    (h1 : v1 < heap.length) (h2 : v2 < heap.length)
    (hn1 : 0 ≤ (deref heap v1).number) (hn2 : 0 ≤ (deref heap v2).number)
    (hb1 : (deref heap v2).number.toNat / 64 < (deref heap v1).neighbors.length)
    (hb2 : (deref heap v1).number.toNat / 64 < (deref heap v2).neighbors.length) :
    neighbors (addEdgeDouble heap v1 v2) v1 v2 = true ∧
    neighbors (addEdgeDouble heap v1 v2) v2 v1 = true ∧
    (deref (addEdgeDouble heap v1 v2) v1).adjacentVertices =
      v2 :: (deref heap v1).adjacentVertices ∧
    (deref (addEdgeDouble heap v1 v2) v2).adjacentVertices =
      v1 :: (deref heap v2).adjacentVertices ∧
    (deref (addEdgeDouble heap v1 v2) v1).degree = (deref heap v1).degree + 1 ∧
    (deref (addEdgeDouble heap v1 v2) v2).degree = (deref heap v2).degree + 1 ∧
    (∀ i, wordBit (deref (addEdgeDouble heap v1 v2) v1).neighbors i =
      (wordBit (deref heap v1).neighbors i || decide (i = (deref heap v2).number.toNat))) ∧
    (∀ i, wordBit (deref (addEdgeDouble heap v1 v2) v2).neighbors i =
      (wordBit (deref heap v2).neighbors i || decide (i = (deref heap v1).number.toNat))) ∧
    (∀ p, p = v1 ∨ p = v2 →
      (deref (addEdgeDouble heap v1 v2) p).number = (deref heap p).number ∧
      (deref (addEdgeDouble heap v1 v2) p).color = (deref heap p).color ∧
      (deref (addEdgeDouble heap v1 v2) p).availableColors = (deref heap p).availableColors ∧
      (deref (addEdgeDouble heap v1 v2) p).nbRecolorings = (deref heap p).nbRecolorings ∧
      (deref (addEdgeDouble heap v1 v2) p).nbConflicts = (deref heap p).nbConflicts ∧
      (deref (addEdgeDouble heap v1 v2) p).neighbors.length = (deref heap p).neighbors.length) ∧
    (∀ p, p ≠ v1 → p ≠ v2 → deref (addEdgeDouble heap v1 v2) p = deref heap p) ∧
    (addEdgeDouble heap v1 v2).length = heap.length := by
  have e1 : deref (addEdgeDouble heap v1 v2) v1 =
      { deref heap v1 with
        adjacentVertices := v2 :: (deref heap v1).adjacentVertices
        neighbors := setNeighborBit (deref heap v1).neighbors (deref heap v2).number
        degree := (deref heap v1).degree + 1 } := by
    unfold addEdgeDouble
    simp only []
    rw [deref_set, if_pos ⟨rfl, by simpa using h1⟩]
    rw [deref_set, if_neg (fun c => h12 c.1)]
    rw [deref_set, if_pos ⟨rfl, h2⟩]
  have e2 : deref (addEdgeDouble heap v1 v2) v2 =
      { deref heap v2 with
        adjacentVertices := v1 :: (deref heap v2).adjacentVertices
        neighbors := setNeighborBit (deref heap v2).neighbors (deref heap v1).number
        degree := (deref heap v2).degree + 1 } := by
    unfold addEdgeDouble
    simp only []
    rw [deref_set, if_neg (fun c => h12 c.1.symm)]
    rw [deref_set, if_pos ⟨rfl, h2⟩]
  have e3 : ∀ p, p ≠ v1 → p ≠ v2 → deref (addEdgeDouble heap v1 v2) p = deref heap p := by
    intro p hp1 hp2
    unfold addEdgeDouble
    simp only []
    rw [deref_set, if_neg (fun c => hp1 c.1)]
    rw [deref_set, if_neg (fun c => hp2 c.1)]
  have c1 : ((deref heap v2).number.toNat : Int) = (deref heap v2).number := by omega
  have c2 : ((deref heap v1).number.toNat : Int) = (deref heap v1).number := by omega
  refine ⟨?_, ?_, ?_, ?_, ?_, ?_, ?_, ?_, ?_, e3, ?_⟩
  · unfold neighbors; rw [e1]; simp
  · unfold neighbors; rw [e2]; simp
  · rw [e1]
  · rw [e2]
  · rw [e1]
  · rw [e2]
  · intro i
    rw [e1]
    simp only []
    rw [← c1, wordBit_setNeighborBit _ _ hb1, c1]
  · intro i
    rw [e2]
    simp only []
    rw [← c2, wordBit_setNeighborBit _ _ hb2, c2]
  · intro p hp
    rcases hp with hp | hp
    · subst hp; rw [e1]; simp [setNeighborBit]
    · subst hp; rw [e2]; simp [setNeighborBit]
  · unfold addEdgeDouble
    simp

theorem addEdgeDouble_spec_witness :
    (0 : Nat) ≠ 1 ∧ 0 < freshPair.length ∧ 1 < freshPair.length ∧
    0 ≤ (deref freshPair 0).number ∧ 0 ≤ (deref freshPair 1).number ∧
    (deref freshPair 1).number.toNat / 64 < (deref freshPair 0).neighbors.length ∧
    (deref freshPair 0).number.toNat / 64 < (deref freshPair 1).neighbors.length ∧
    neighbors (addEdgeDouble freshPair 0 1) 0 1 = true ∧
    neighbors (addEdgeDouble freshPair 0 1) 1 0 = true :=
  ⟨by decide, by decide, by decide, by decide, by decide, by decide, by decide,
    (addEdgeDouble_spec freshPair 0 1 (by decide) (by decide) (by decide) (by decide)
      (by decide) (by decide) (by decide)).1,
    (addEdgeDouble_spec freshPair 0 1 (by decide) (by decide) (by decide) (by decide)
      (by decide) (by decide) (by decide)).2.1⟩

/-! ## heuristics.c : the first-fit color -/

/-- The bit that `y & -y` isolates has no set bit of `y` below it. -/
theorem and_neg_two_pow_below (n : Nat) :
    ∀ (y j : Nat), 0 < y → y < 2 ^ n → y &&& (2 ^ n - y) = 2 ^ j →
      ∀ i, i < j → y.testBit i = false := by
  induction n with
  | zero =>
    intro y j h0 h1
    rw [Nat.pow_zero] at h1
    omega
  | succ n ih =>
    intro y j h0 h1 e i hi
    have hp : 2 ^ (n + 1) = 2 * 2 ^ n := by
      rw [Nat.pow_succ]
      omega
    have hbit0 : (y &&& (2 ^ (n + 1) - y)).testBit 0 = decide (y % 2 = 1) := by
      rw [Nat.testBit_and, Nat.testBit_zero, Nat.testBit_zero]
      by_cases hodd : y % 2 = 1
      · have : (2 ^ (n + 1) - y) % 2 = 1 := by omega
        simp [hodd, this]
      · simp [hodd]
    rw [e, Nat.testBit_two_pow] at hbit0
    by_cases hodd : y % 2 = 1
    · have : j = 0 := by simpa [hodd] using hbit0
      omega
    · have hj : j ≠ 0 := by
        intro c
        rw [c] at hbit0
        simp [hodd] at hbit0
      obtain ⟨j1, rfl⟩ := Nat.exists_eq_succ_of_ne_zero hj
      have e2 : y / 2 &&& (2 ^ n - y / 2) = 2 ^ j1 := by
        have b2 : (2 ^ (n + 1) - y) / 2 = 2 ^ n - y / 2 := by
          rw [hp]
          omega
        have b1 : 2 ^ (j1 + 1) / 2 = 2 ^ j1 := by
          rw [Nat.pow_succ]
          omega
        rw [← b1, ← e, ← b2]
        apply Nat.eq_of_testBit_eq
        intro t
        rw [Nat.testBit_and, ← Nat.testBit_succ, ← Nat.testBit_succ, ← Nat.testBit_succ,
          Nat.testBit_and]
      cases i with
      | zero =>
        rw [Nat.testBit_zero]
        simp [hodd]
      | succ i =>
        rw [Nat.testBit_succ]
        exact ih (y / 2) j1 (by omega) (by omega) e2 i (by omega)

/-- The value of `getFirstSetBitPos` on a non-zero word: one more than the position of its
lowest set bit. -/
theorem getFirstSetBitPos_spec (y : Nat) (h0 : y ≠ 0) (h1 : y < 2 ^ 64) :
    ∃ j : Nat, j < 64 ∧ getFirstSetBitPos y = (j : Int) + 1 ∧ y.testBit j = true ∧
      ∀ i, i < j → y.testBit i = false := by
  obtain ⟨j, hj, e, t⟩ := and_neg_two_pow 64 y (Nat.pos_of_ne_zero h0) h1
  refine ⟨j, hj, ?_, t, and_neg_two_pow_below 64 y j (Nat.pos_of_ne_zero h0) h1 e⟩
  unfold getFirstSetBitPos
  rw [if_neg h0, e, ilog2_two_pow 64 j hj]

/-- The value `findColorFF` computes before its range tests: the position of the lowest set bit
of the domain at or above `m`, or a negative number if there is none. -/
theorem firstColor_spec (D : Nat) (m : Int) (hm0 : 0 ≤ m) (hm1 : m ≤ 63) (ha : D < 2 ^ 64) :
    ((∀ c : Nat, m.toNat ≤ c → D.testBit c = false) →
      getFirstSetBitPos (D >>> m.toNat) + m - 1 < 0) ∧
    (∀ c : Nat, m.toNat ≤ c → D.testBit c = true →
      (∀ i, m.toNat ≤ i → i < c → D.testBit i = false) →
      getFirstSetBitPos (D >>> m.toNat) + m - 1 = (c : Int)) := by
  have hlt : D >>> m.toNat < 2 ^ 64 := by
    rw [Nat.shiftRight_eq_div_pow]
    exact Nat.lt_of_le_of_lt (Nat.div_le_self _ _) ha
  constructor
  · intro h
    have hz : D >>> m.toNat = 0 := by
      apply Nat.eq_of_testBit_eq
      intro i
      rw [Nat.testBit_shiftRight, Nat.zero_testBit]
      exact h _ (by omega)
    unfold getFirstSetBitPos
    rw [if_pos hz]
    omega
  · intro c hc ht hlow
    have hnz : D >>> m.toNat ≠ 0 := by
      intro hz
      have : (D >>> m.toNat).testBit (c - m.toNat) = true := by
        rw [Nat.testBit_shiftRight]
        have : m.toNat + (c - m.toNat) = c := by omega
        rw [this]
        exact ht
      rw [hz, Nat.zero_testBit] at this
      cases this
    obtain ⟨j, _, e, t, hb⟩ := getFirstSetBitPos_spec _ hnz hlt
    rw [Nat.testBit_shiftRight] at t
    have hjc : m.toNat + j = c := by
      by_contra hne
      rcases Nat.lt_or_gt_of_ne hne with h | h
      · have := hlow (m.toNat + j) (by omega) h
        rw [this] at t
        cases t
      · have := hb (c - m.toNat) (by omega)
        rw [Nat.testBit_shiftRight] at this
        have e3 : m.toNat + (c - m.toNat) = c := by omega
        rw [e3, ht] at this
        cases this
    rw [e]
    omega

/-- Claim C26. For a 64-bit domain `D` and `minColor` in `[0, 63]`: if `D` has no bit at or
above `minColor`, `findColorFF` returns -1; otherwise, with `c` the smallest color at or above
`minColor` in `D`, it returns `c` if `c <= MAX_USED + 1` and `c <= MAX_COLOR` (outside
EXHAUSTIVE mode) or `c < CHROMATIC` (in EXHAUSTIVE mode), and -1 if not; so it returns -1
exactly when no color of `D` at or above `minColor` meets these bounds. -/
theorem findColorFF_contract (s : State) (m : Int) (p : Nat) (hm0 : 0 ≤ m) (hm1 : m ≤ 63)
    (ha : (deref s.heap p).availableColors < 2 ^ 64) :
    ((∀ c : Nat, m.toNat ≤ c → (deref s.heap p).availableColors.testBit c = false) →
      findColorFF s m p = -1) ∧
    (∀ c : Nat, m.toNat ≤ c → (deref s.heap p).availableColors.testBit c = true →
      (∀ i, m.toNat ≤ i → i < c → (deref s.heap p).availableColors.testBit i = false) →
      findColorFF s m p =
        if (c : Int) ≤ s.MAX_USED + 1 ∧ (s.SEARCH ≠ search.EXHAUSTIVE → (c : Int) ≤ s.MAX_COLOR) ∧
          (s.SEARCH = search.EXHAUSTIVE → (c : Int) < s.CHROMATIC) then (c : Int) else -1) ∧
    (findColorFF s m p = -1 ↔
      ∀ c : Nat, m.toNat ≤ c → (deref s.heap p).availableColors.testBit c = true →
        ¬ ((c : Int) ≤ s.MAX_USED + 1 ∧ (s.SEARCH ≠ search.EXHAUSTIVE → (c : Int) ≤ s.MAX_COLOR) ∧
          (s.SEARCH = search.EXHAUSTIVE → (c : Int) < s.CHROMATIC))) := by
  obtain ⟨f1, f2⟩ := firstColor_spec (deref s.heap p).availableColors m hm0 hm1 ha
  have key1 : (∀ c : Nat, m.toNat ≤ c → (deref s.heap p).availableColors.testBit c = false) →
      findColorFF s m p = -1 := by
    intro h
    have := f1 h
    unfold findColorFF
    simp only []
    rw [if_neg (fun c => by omega), if_neg (fun c => by omega)]
  have key2 : ∀ c : Nat, m.toNat ≤ c → (deref s.heap p).availableColors.testBit c = true →
      (∀ i, m.toNat ≤ i → i < c → (deref s.heap p).availableColors.testBit i = false) →
      findColorFF s m p =
        if (c : Int) ≤ s.MAX_USED + 1 ∧ (s.SEARCH ≠ search.EXHAUSTIVE → (c : Int) ≤ s.MAX_COLOR) ∧
          (s.SEARCH = search.EXHAUSTIVE → (c : Int) < s.CHROMATIC) then (c : Int) else -1 := by
    intro c hc ht hlow
    have e := f2 c hc ht hlow
    unfold findColorFF
    simp only []
    rw [e]
    by_cases hs : s.SEARCH = search.EXHAUSTIVE
    · rw [if_neg (fun x => x.1 hs)]
      by_cases hb : (c : Int) ≤ s.MAX_USED + 1 ∧ (c : Int) < s.CHROMATIC
      · rw [if_pos ⟨hs, by omega, hb.1, hb.2⟩, if_pos ⟨hb.1, fun x => absurd hs x, fun _ => hb.2⟩]
      · rw [if_neg (fun x => hb ⟨x.2.2.1, x.2.2.2⟩), if_neg (fun x => hb ⟨x.1, x.2.2 hs⟩)]
    · by_cases hb : (c : Int) ≤ s.MAX_USED + 1 ∧ (c : Int) ≤ s.MAX_COLOR
      · rw [if_pos ⟨hs, by omega, hb.1, hb.2⟩, if_pos ⟨hb.1, fun _ => hb.2, fun x => absurd x hs⟩]
      · rw [if_neg (fun x => hb ⟨x.2.2.1, x.2.2.2⟩), if_neg (fun x => hs x.1),
          if_neg (fun x => hb ⟨x.1, x.2.1 hs⟩)]
  refine ⟨key1, key2, ?_⟩
  by_cases hex : ∃ c : Nat, m.toNat ≤ c ∧ (deref s.heap p).availableColors.testBit c = true
  · classical
    have hmin := Nat.find_spec hex
    have hlow : ∀ i, m.toNat ≤ i → i < Nat.find hex →
        (deref s.heap p).availableColors.testBit i = false := by
      intro i hi hlt
      have := Nat.find_min hex hlt
      by_contra hc
      exact this ⟨hi, by simpa using hc⟩
    have e := key2 (Nat.find hex) hmin.1 hmin.2 hlow
    constructor
    · intro h c hc ht hb
      rw [e] at h
      have hle : Nat.find hex ≤ c := Nat.find_min' hex ⟨hc, ht⟩
      have hb0 : ((Nat.find hex : Nat) : Int) ≤ s.MAX_USED + 1 ∧
          (s.SEARCH ≠ search.EXHAUSTIVE → ((Nat.find hex : Nat) : Int) ≤ s.MAX_COLOR) ∧
          (s.SEARCH = search.EXHAUSTIVE → ((Nat.find hex : Nat) : Int) < s.CHROMATIC) :=
        ⟨by omega, fun x => by have := hb.2.1 x; omega, fun x => by have := hb.2.2 x; omega⟩
      rw [if_pos hb0] at h
      omega
    · intro h
      rw [e, if_neg (h _ hmin.1 hmin.2)]
  · have hnone : ∀ c : Nat, m.toNat ≤ c → (deref s.heap p).availableColors.testBit c = false := by
      intro c hc
      by_contra ht
      exact hex ⟨c, hc, by simpa using ht⟩
    constructor
    · intro _ c hc ht
      rw [hnone c hc] at ht
      cases ht
    · intro _
      exact key1 hnone

theorem findColorFF_contract_witness :
    (0 : Int) ≤ 0 ∧ (0 : Int) ≤ 63 ∧ (deref staleIndexGraph.heap 0).availableColors < 2 ^ 64 ∧
    (findColorFF staleIndexGraph 0 0 = -1 ↔
      ∀ c : Nat, (0 : Int).toNat ≤ c →
        (deref staleIndexGraph.heap 0).availableColors.testBit c = true →
        ¬ ((c : Int) ≤ staleIndexGraph.MAX_USED + 1 ∧
          (staleIndexGraph.SEARCH ≠ search.EXHAUSTIVE → (c : Int) ≤ staleIndexGraph.MAX_COLOR) ∧
          (staleIndexGraph.SEARCH = search.EXHAUSTIVE → (c : Int) < staleIndexGraph.CHROMATIC))) :=
  ⟨by decide, by decide, by decide,
    (findColorFF_contract staleIndexGraph 0 0 (by decide) (by decide) (by decide)).2.2⟩

/-! ## heuristics.c : the selection of the next vertex -/

theorem getD_drop_add (l : List Nat) (start j : Nat) :
    (l.drop start).getD j 0 = l.getD (start + j) 0 := by
  simp only [List.getD_eq_getElem?_getD, List.getElem?_drop]

/-- The scan of the array from the index `start` on. -/
theorem scanDrop_spec (test : Nat → Bool) (l : List Nat) (start : Nat) :
    (scanFrom test (l.drop start) start = -1 ↔
      ∀ i, start ≤ i → i < l.length → test (l.getD i 0) = false) ∧
    (scanFrom test (l.drop start) start ≠ -1 →
      ∃ vi : Nat, scanFrom test (l.drop start) start = (vi : Int) ∧ start ≤ vi ∧
        vi < l.length ∧ test (l.getD vi 0) = true ∧
        ∀ i, start ≤ i → i < vi → test (l.getD i 0) = false) := by
  constructor
  · rw [scanFrom_eq_neg_one]
    constructor
    · intro h i hi hl
      have hm : l.getD i 0 ∈ l.drop start := by
        rw [List.mem_iff_getElem]
        refine ⟨i - start, by rw [List.length_drop]; omega, ?_⟩
        rw [List.getElem_drop, List.getD_eq_getElem _ _ hl]
        congr 1
        omega
      exact h _ hm
    · intro h p hp
      obtain ⟨j, hj, e⟩ := List.mem_iff_getElem.1 hp
      rw [List.length_drop] at hj
      have := h (start + j) (by omega) (by omega)
      rw [List.getD_eq_getElem _ _ (by omega)] at this
      rw [List.getElem_drop] at e
      rw [← e]
      exact this
  · intro h
    obtain ⟨j, e, hj, ht, hm⟩ := scanFrom_found test (l.drop start) start h
    rw [List.length_drop] at hj
    rw [getD_drop_add] at ht
    refine ⟨start + j, e, by omega, by omega, ht, fun i hi hlt => ?_⟩
    have := hm (i - start) (by omega)
    rw [getD_drop_add] at this
    have e2 : start + (i - start) = i := by omega
    rw [e2] at this
    exact this

/-- The part of claim C24 about `selectNextVertexFF` alone. With `VERTEX_COUNTER >= -1`:
`selectNextVertexFF` returns -1 exactly when no
index from `VERTEX_COUNTER + 1` on holds an uncolored vertex; otherwise it returns the smallest
index from `VERTEX_COUNTER + 1` on that holds an uncolored vertex; and when the entries up to
`VERTEX_COUNTER` are colored, which is the state in which `colorGraph` selects a vertex without
CS, a result of -1 means that every vertex of the array is colored, also after the sort that
`selectNextVertex` may apply first. -/
theorem selectNextVertexFF_contract (s : State) (hvc : -1 ≤ s.VERTEX_COUNTER) :
    (selectNextVertexFF s = -1 ↔
      ∀ i : Nat, s.VERTEX_COUNTER + 1 ≤ (i : Int) → i < s.vertices.length →
        (deref s.heap (s.vertices.getD i 0)).color ≠ -1) ∧
    (selectNextVertexFF s ≠ -1 →
      ∃ vi : Nat, selectNextVertexFF s = (vi : Int) ∧ s.VERTEX_COUNTER + 1 ≤ (vi : Int) ∧
        vi < s.vertices.length ∧ (deref s.heap (s.vertices.getD vi 0)).color = -1 ∧
        ∀ i : Nat, s.VERTEX_COUNTER + 1 ≤ (i : Int) → i < vi →
          (deref s.heap (s.vertices.getD i 0)).color ≠ -1) ∧
    (Done (s.VERTEX_COUNTER + 1).toNat s → selectNextVertexFF s = -1 →
      ∀ p ∈ s.vertices, (deref s.heap p).color ≠ -1) ∧
    (Done (s.VERTEX_COUNTER + 1).toNat s → s.CS = false → (selectNextVertex s).1 = -1 →
      ∀ p ∈ (selectNextVertex s).2.vertices, (deref (selectNextVertex s).2.heap p).color ≠ -1) := by
  obtain ⟨h1, h2⟩ := scanDrop_spec (fun p => decide ((deref s.heap p).color = -1)) s.vertices
    (s.VERTEX_COUNTER + 1).toNat
  refine ⟨?_, ?_, fun hd => (selectNextVertexFF_spec s hd).1,
    fun hd _ => (selectNextVertex_spec s hvc hd).2.2.2.2.2.2.2.1⟩
  · unfold selectNextVertexFF
    simp only []
    rw [h1]
    constructor
    · intro h i hi hl
      have := h i (by omega) hl
      simpa using this
    · intro h i hi hl
      have := h i (by omega) hl
      simpa using this
  · intro hne
    unfold selectNextVertexFF at hne ⊢
    simp only [] at hne ⊢
    obtain ⟨vi, e, hs, hl, ht, hm⟩ := h2 hne
    refine ⟨vi, e, by omega, hl, by simpa using ht, fun i hi hlt => ?_⟩
    have := hm i (by omega) hlt
    simpa using this

theorem selectNextVertexFF_contract_witness :
    -1 ≤ staleIndexGraph.VERTEX_COUNTER ∧
    (selectNextVertexFF staleIndexGraph = -1 ↔
      ∀ i : Nat, staleIndexGraph.VERTEX_COUNTER + 1 ≤ (i : Int) →
        i < staleIndexGraph.vertices.length →
        (deref staleIndexGraph.heap (staleIndexGraph.vertices.getD i 0)).color ≠ -1) :=
  ⟨by decide, (selectNextVertexFF_contract staleIndexGraph (by decide)).1⟩

theorem hasColoredNeighbor_iff (heap : List Vertex) (p : Nat) :
    hasColoredNeighbor heap p = true ↔
      ∃ q ∈ (deref heap p).adjacentVertices, (deref heap q).color ≠ -1 := by
  unfold hasColoredNeighbor
  simp

theorem takeWhile_run (f : Nat → Bool) (l : List Nat) :
    (l.takeWhile f).length ≤ l.length ∧
    (∀ j, j < (l.takeWhile f).length → f (l.getD j 0) = true) ∧
    ((l.takeWhile f).length < l.length → f (l.getD (l.takeWhile f).length 0) = false) := by
  induction l with
  | nil => simp
  | cons a l ih =>
    by_cases h : f a = true
    · rw [List.takeWhile_cons_of_pos h]
      refine ⟨by simp; exact ih.1, fun j hj => ?_, fun hl => ?_⟩
      · cases j with
        | zero => simpa using h
        | succ j =>
          have := ih.2.1 j (by simpa using hj)
          simpa using this
      · have := ih.2.2 (by simpa using hl)
        simpa using this
    · rw [List.takeWhile_cons_of_neg h]
      refine ⟨by simp, fun j hj => by simp at hj, fun _ => by simpa using h⟩

/-- The two parts of `selectNextVertexCS`, with `k` the number of colored entries behind
`VERTEX_COUNTER`. -/
theorem selectNextVertexCS_eq (s : State) (hvc : -1 ≤ s.VERTEX_COUNTER) :
    ∃ k : Nat, k ≤ s.vertices.length - (s.VERTEX_COUNTER + 1).toNat ∧
      (∀ j, j < k → (deref s.heap (s.vertices.getD ((s.VERTEX_COUNTER + 1).toNat + j) 0)).color
        ≠ -1) ∧
      ((s.VERTEX_COUNTER + 1).toNat + k < s.vertices.length →
        (deref s.heap (s.vertices.getD ((s.VERTEX_COUNTER + 1).toNat + k) 0)).color = -1) ∧
      (selectNextVertexCS s).2 = { s with VERTEX_COUNTER := s.VERTEX_COUNTER + (k : Int) } ∧
      (selectNextVertexCS s).1 =
        if scanFrom
            (fun p => hasColoredNeighbor s.heap p && decide ((deref s.heap p).color = -1))
            (s.vertices.drop ((s.VERTEX_COUNTER + 1).toNat + k))
            ((s.VERTEX_COUNTER + 1).toNat + k) ≠ -1
        then scanFrom
            (fun p => hasColoredNeighbor s.heap p && decide ((deref s.heap p).color = -1))
            (s.vertices.drop ((s.VERTEX_COUNTER + 1).toNat + k))
            ((s.VERTEX_COUNTER + 1).toNat + k)
        else selectNextVertexFF { s with VERTEX_COUNTER := s.VERTEX_COUNTER + (k : Int) } := by
  obtain ⟨r1, r2, r3⟩ := takeWhile_run (fun p => decide ((deref s.heap p).color ≠ -1))
    (s.vertices.drop (s.VERTEX_COUNTER + 1).toNat)
  have hstart : ∀ k : Nat, (s.VERTEX_COUNTER + (k : Int) + 1).toNat =
      (s.VERTEX_COUNTER + 1).toNat + k := by
    intro k
    omega
  refine ⟨((s.vertices.drop (s.VERTEX_COUNTER + 1).toNat).takeWhile
      (fun p => decide ((deref s.heap p).color ≠ -1))).length, ?_, ?_, ?_, ?_, ?_⟩
  · rw [List.length_drop] at r1
    exact r1
  · intro j hj
    have := r2 j hj
    rw [getD_drop_add] at this
    simpa using this
  · intro hl
    rw [List.length_drop] at r3
    have := r3 (by omega)
    rw [getD_drop_add] at this
    simpa using this
  · unfold selectNextVertexCS
    simp only []
    split <;> rfl
  · unfold selectNextVertexCS
    simp only [hstart]
    split <;> rfl

/-- Claim C25. With `VERTEX_COUNTER >= -1`, `selectNextVertexCS` first advances
`VERTEX_COUNTER` by the number `k` of colored vertices that follow it directly (the entry after
them, if any, is uncolored), and changes nothing else in the state. If some index behind the
new `VERTEX_COUNTER` holds an uncolored vertex with a colored neighbor, it returns the
smallest such index; if none does, it returns what `selectNextVertexFF` returns in the new
state. The result is -1 or the index of an uncolored vertex. -/
theorem selectNextVertexCS_contract (s : State) (hvc : -1 ≤ s.VERTEX_COUNTER) :
    ∃ k : Nat, (selectNextVertexCS s).2 = { s with VERTEX_COUNTER := s.VERTEX_COUNTER + k } ∧
      (∀ i : Nat, s.VERTEX_COUNTER + 1 ≤ (i : Int) → (i : Int) ≤ s.VERTEX_COUNTER + k →
        i < s.vertices.length ∧ (deref s.heap (s.vertices.getD i 0)).color ≠ -1) ∧
      (∀ i : Nat, (i : Int) = s.VERTEX_COUNTER + k + 1 → i < s.vertices.length →
        (deref s.heap (s.vertices.getD i 0)).color = -1) ∧
      (∀ vi : Nat, s.VERTEX_COUNTER + k + 1 ≤ (vi : Int) → vi < s.vertices.length →
        (deref s.heap (s.vertices.getD vi 0)).color = -1 →
        (∃ q ∈ (deref s.heap (s.vertices.getD vi 0)).adjacentVertices,
          (deref s.heap q).color ≠ -1) →
        (∀ i : Nat, s.VERTEX_COUNTER + k + 1 ≤ (i : Int) → i < vi →
          ¬ ((deref s.heap (s.vertices.getD i 0)).color = -1 ∧
            ∃ q ∈ (deref s.heap (s.vertices.getD i 0)).adjacentVertices,
              (deref s.heap q).color ≠ -1)) →
        (selectNextVertexCS s).1 = (vi : Int)) ∧
      ((∀ i : Nat, s.VERTEX_COUNTER + k + 1 ≤ (i : Int) → i < s.vertices.length →
          ¬ ((deref s.heap (s.vertices.getD i 0)).color = -1 ∧
            ∃ q ∈ (deref s.heap (s.vertices.getD i 0)).adjacentVertices,
              (deref s.heap q).color ≠ -1)) →
        (selectNextVertexCS s).1 =
          selectNextVertexFF { s with VERTEX_COUNTER := s.VERTEX_COUNTER + k }) ∧
      ((selectNextVertexCS s).1 = -1 ∨
        ∃ vi : Nat, (selectNextVertexCS s).1 = (vi : Int) ∧ vi < s.vertices.length ∧
          (deref s.heap (s.vertices.getD vi 0)).color = -1) := by
  obtain ⟨k, hk, hrun, hstop, hst, hres⟩ := selectNextVertexCS_eq s hvc
  obtain ⟨g1, g2⟩ := scanDrop_spec
    (fun p => hasColoredNeighbor s.heap p && decide ((deref s.heap p).color = -1)) s.vertices
    ((s.VERTEX_COUNTER + 1).toNat + k)
  have htest : ∀ p, (hasColoredNeighbor s.heap p && decide ((deref s.heap p).color = -1)) = true ↔
      ((deref s.heap p).color = -1 ∧
        ∃ q ∈ (deref s.heap p).adjacentVertices, (deref s.heap q).color ≠ -1) := by
    intro p
    rw [Bool.and_eq_true, hasColoredNeighbor_iff, decide_eq_true_iff]
    exact And.comm
  have htestf : ∀ p, (hasColoredNeighbor s.heap p && decide ((deref s.heap p).color = -1)) = false ↔
      ¬ ((deref s.heap p).color = -1 ∧
        ∃ q ∈ (deref s.heap p).adjacentVertices, (deref s.heap q).color ≠ -1) := by
    intro p
    rw [← htest, Bool.not_eq_true]
  have hidx : ∀ i : Nat, s.VERTEX_COUNTER + k + 1 ≤ (i : Int) ↔
      (s.VERTEX_COUNTER + 1).toNat + k ≤ i := by
    intro i
    omega
  generalize scanFrom
    (fun p => hasColoredNeighbor s.heap p && decide ((deref s.heap p).color = -1))
    (s.vertices.drop ((s.VERTEX_COUNTER + 1).toNat + k))
    ((s.VERTEX_COUNTER + 1).toNat + k) = sc at g1 g2 hres
  refine ⟨k, hst, ?_, ?_, ?_, ?_, ?_⟩
  · clear g1 g2 hres htest htestf
    intro i h1 h2
    have hj : i - (s.VERTEX_COUNTER + 1).toNat < k := by omega
    have := hrun _ hj
    have e : (s.VERTEX_COUNTER + 1).toNat + (i - (s.VERTEX_COUNTER + 1).toNat) = i := by omega
    rw [e] at this
    exact ⟨by omega, this⟩
  · clear g1 g2 hres htest htestf
    intro i h1 hil
    have e : (s.VERTEX_COUNTER + 1).toNat + k = i := by omega
    rw [e] at hstop
    exact hstop hil
  · intro vi h1 hl hc hn hmin
    have hne : sc ≠ -1 := by
      intro c
      have := g1.1 c vi ((hidx vi).1 h1) hl
      rw [htestf] at this
      exact this ⟨hc, hn⟩
    obtain ⟨w, e, hs, hwl, ht, hm⟩ := g2 hne
    rw [hres, if_pos hne, e]
    have hw : w = vi := by
      by_contra hne2
      rcases Nat.lt_or_gt_of_ne hne2 with h | h
      · exact hmin w ((hidx w).2 hs) h ((htest _).1 ht)
      · have := hm vi ((hidx vi).1 h1) h
        rw [htestf] at this
        exact this ⟨hc, hn⟩
    rw [hw]
  · intro hnone
    have : sc = -1 := by
      rw [g1]
      intro i hi hl
      rw [htestf]
      exact hnone i ((hidx i).2 hi) hl
    rw [hres, if_neg (fun c => c this)]
  · by_cases hne : sc ≠ -1
    · obtain ⟨w, e, _, hwl, ht, _⟩ := g2 hne
      right
      rw [hres, if_pos hne]
      exact ⟨w, e, hwl, ((htest _).1 ht).1⟩
    · rw [hres, if_neg hne]
      obtain ⟨f1, f2⟩ := scanDrop_spec (fun p => decide ((deref s.heap p).color = -1))
        s.vertices ((s.VERTEX_COUNTER + 1).toNat + k)
      have hff : selectNextVertexFF { s with VERTEX_COUNTER := s.VERTEX_COUNTER + (k : Int) } =
          scanFrom (fun p => decide ((deref s.heap p).color = -1))
            (s.vertices.drop ((s.VERTEX_COUNTER + 1).toNat + k))
            ((s.VERTEX_COUNTER + 1).toNat + k) := by
        unfold selectNextVertexFF
        have e : (s.VERTEX_COUNTER + (k : Int) + 1).toNat = (s.VERTEX_COUNTER + 1).toNat + k := by
          omega
        simp only [e]
      rw [hff]
      by_cases hf : scanFrom (fun p => decide ((deref s.heap p).color = -1))
          (s.vertices.drop ((s.VERTEX_COUNTER + 1).toNat + k))
          ((s.VERTEX_COUNTER + 1).toNat + k) = -1
      · exact Or.inl hf
      · obtain ⟨w, e, _, hwl, ht, _⟩ := f2 hf
        exact Or.inr ⟨w, e, hwl, by simpa using ht⟩

theorem selectNextVertexCS_contract_witness :
    -1 ≤ csExample.VERTEX_COUNTER ∧
    (selectNextVertexCS csExample).1 = 3 ∧
    (selectNextVertexCS csExample).2.VERTEX_COUNTER = 0 ∧
    selectNextVertexFF (selectNextVertexCS csExample).2 = 1 ∧
    ∃ k : Nat, (selectNextVertexCS csExample).2 =
        { csExample with VERTEX_COUNTER := csExample.VERTEX_COUNTER + k } ∧
      (∀ i : Nat, csExample.VERTEX_COUNTER + 1 ≤ (i : Int) →
        (i : Int) ≤ csExample.VERTEX_COUNTER + k →
        i < csExample.vertices.length ∧
          (deref csExample.heap (csExample.vertices.getD i 0)).color ≠ -1) ∧
      (∀ i : Nat, (i : Int) = csExample.VERTEX_COUNTER + k + 1 → i < csExample.vertices.length →
        (deref csExample.heap (csExample.vertices.getD i 0)).color = -1) ∧
      (∀ vi : Nat, csExample.VERTEX_COUNTER + k + 1 ≤ (vi : Int) → vi < csExample.vertices.length →
        (deref csExample.heap (csExample.vertices.getD vi 0)).color = -1 →
        (∃ q ∈ (deref csExample.heap (csExample.vertices.getD vi 0)).adjacentVertices,
          (deref csExample.heap q).color ≠ -1) →
        (∀ i : Nat, csExample.VERTEX_COUNTER + k + 1 ≤ (i : Int) → i < vi →
          ¬ ((deref csExample.heap (csExample.vertices.getD i 0)).color = -1 ∧
            ∃ q ∈ (deref csExample.heap (csExample.vertices.getD i 0)).adjacentVertices,
              (deref csExample.heap q).color ≠ -1)) →
        (selectNextVertexCS csExample).1 = (vi : Int)) ∧
      ((∀ i : Nat, csExample.VERTEX_COUNTER + k + 1 ≤ (i : Int) → i < csExample.vertices.length →
          ¬ ((deref csExample.heap (csExample.vertices.getD i 0)).color = -1 ∧
            ∃ q ∈ (deref csExample.heap (csExample.vertices.getD i 0)).adjacentVertices,
              (deref csExample.heap q).color ≠ -1)) →
        (selectNextVertexCS csExample).1 =
          selectNextVertexFF { csExample with VERTEX_COUNTER := csExample.VERTEX_COUNTER + k }) ∧
      ((selectNextVertexCS csExample).1 = -1 ∨
        ∃ vi : Nat, (selectNextVertexCS csExample).1 = (vi : Int) ∧
          vi < csExample.vertices.length ∧
          (deref csExample.heap (csExample.vertices.getD vi 0)).color = -1) :=
  ⟨by decide, by decide, by decide, by decide, selectNextVertexCS_contract csExample (by decide)⟩

/-! ## coloring.c : the rollback of one attempt -/

theorem recordChange_shape (p c : Nat) (qs ds : List Nat) (hl : qs.length = ds.length) :
    (recordChange p c qs ds).1.length = (recordChange p c qs ds).2.length ∧
    (∀ q, q ∈ (recordChange p c qs ds).1 ↔ q ∈ qs ∨ q = p) ∧
    (qs.Nodup → (recordChange p c qs ds).1.Nodup) := by
  induction qs generalizing ds with
  | nil =>
    cases ds with
    | nil => simp [recordChange]
    | cons d ds => simp at hl
  | cons a qs ih =>
    cases ds with
    | nil => simp at hl
    | cons d ds =>
      have hl1 : qs.length = ds.length := by simpa using hl
      obtain ⟨i1, i2, i3⟩ := ih ds hl1
      unfold recordChange
      by_cases ha : a = p
      · rw [if_pos ha]
        refine ⟨by simp [hl1], fun q => ?_, fun h => h⟩
        simp only [List.mem_cons]
        constructor
        · intro h; exact Or.inl h
        · intro h
          rcases h with h | h
          · exact h
          · exact Or.inl (by rw [h, ha])
      · rw [if_neg ha]
        refine ⟨by simp [i1], fun q => ?_, fun h => ?_⟩
        · simp only [List.mem_cons, i2]
          constructor
          · intro h
            rcases h with h | h | h
            · exact Or.inl (Or.inl h)
            · exact Or.inl (Or.inr h)
            · exact Or.inr h
          · intro h
            rcases h with (h | h) | h
            · exact Or.inl h
            · exact Or.inr (Or.inl h)
            · exact Or.inr (Or.inr h)
        · rw [List.nodup_cons] at h ⊢
          refine ⟨fun c1 => ?_, i3 h.2⟩
          rcases (i2 a).1 c1 with c2 | c2
          · exact h.1 c2
          · exact ha c2

theorem logged_refl (s : State) : Logged s s emptyLog :=
  ⟨rfl, rfl, rfl, rfl, fun _ => rfl, fun _ => rfl, fun q hq => (by cases hq), fun _ _ => rfl,
    fun q hq => (by cases hq), rfl, List.nodup_nil, fun q hq => (by cases hq)⟩

theorem keeps_refl (s : State) : Keeps s s := ⟨rfl, fun _ _ => rfl⟩

theorem keeps_trans {s t u : State} (h1 : Keeps s t) (h2 : Keeps t u) : Keeps s u := by
  refine ⟨h2.1.trans h1.1, fun q hq => ?_⟩
  have e1 := h1.2 q hq
  rw [h2.2 q (by rw [e1]; exact hq), e1]

theorem avail_pos_valid (heap : List Vertex) (q : Nat) (h : (deref heap q).availableColors ≠ 0) :
    q < heap.length := by
  by_contra hc
  rw [deref_out heap q (by omega)] at h
  exact h rfl

/-- The function `removeNeighborColors` keeps the log exact and touches no color. -/
theorem removeNeighborColors_logged (s0 : State)
    (hd0 : ∀ q, (deref s0.heap q).availableColors < 2 ^ 64) (c : Int) (hc0 : 0 ≤ c)
    (hc1 : c ≤ 63) :
    ∀ (rest : List Nat) (s : State) (log : ChangeLog), Logged s0 s log →
      Logged s0 (removeNeighborColors rest c s log).1 (removeNeighborColors rest c s log).2 ∧
      (removeNeighborColors rest c s log).2.coloredVertices = log.coloredVertices ∧
      (removeNeighborColors rest c s log).1.MAX_USED = s.MAX_USED ∧
      ∀ q, (deref (removeNeighborColors rest c s log).1.heap q).color = (deref s.heap q).color := by
  intro rest
  induction rest with
  | nil => intro s log h; exact ⟨h, rfl, rfl, fun _ => rfl⟩
  | cons nv rest ih =>
    intro s log h
    unfold removeNeighborColors
    by_cases hb : (deref s.heap nv).availableColors &&& bit64 c ≠ 0
    · rw [if_pos hb]
      have hbit : bit64 c = 2 ^ c.toNat := bit64_eq c hc0 (by omega)
      have ht : (deref s.heap nv).availableColors.testBit c.toNat = true := by
        rw [hbit] at hb
        exact (and_two_pow_ne_zero _ _).1 hb
      have hge : 2 ^ c.toNat ≤ (deref s.heap nv).availableColors := Nat.testBit_implies_ge ht
      have hnv : nv < s.heap.length :=
        avail_pos_valid _ _ (fun e => by rw [e] at hge; have := Nat.two_pow_pos c.toNat; omega)
      have hsum := h.av nv
      have hlt := hd0 nv
      have hshape := recordChange_shape nv (bit64 c) log.changedVertices log.vertexChanges h.lens
      obtain ⟨m1, m2, m3, m4⟩ := modify_avail s nv (fun a => a - bit64 c) hnv
      have hl1 : Logged s0
          (modify s nv (fun v => { v with availableColors := v.availableColors - bit64 c }))
          { log with
            changedVertices :=
              (recordChange nv (bit64 c) log.changedVertices log.vertexChanges).1
            vertexChanges :=
              (recordChange nv (bit64 c) log.changedVertices log.vertexChanges).2 } := by
        refine ⟨h.verts, by rw [modify_heap_length]; exact h.len, h.srch, h.chrom,
          fun q => by rw [m1]; exact h.adj q, fun q => ?_, h.colIn,
          fun q hq => by rw [m2]; exact h.colOut q hq, fun q hq => ?_, hshape.1, hshape.2.2 h.nodup,
          fun q hq => ?_⟩
        · show _ + logSum q (recordChange nv (bit64 c) log.changedVertices log.vertexChanges).1
            (recordChange nv (bit64 c) log.changedVertices log.vertexChanges).2 = _
          rw [logSum_recordChange nv (bit64 c) q _ _ (by rw [hbit]; omega)]
          by_cases e : nv = q
          · subst e
            rw [m3, if_pos rfl, hbit]
            omega
          · rw [m4 q (fun x => e x.symm), if_neg e]
            exact h.av q
        · rcases (hshape.2.1 q).1 hq with h1 | h1
          · exact h.chg q h1
          · rw [h1, ← h.len]; exact hnv
        · show 0 < logSum q (recordChange nv (bit64 c) log.changedVertices log.vertexChanges).1
            (recordChange nv (bit64 c) log.changedVertices log.vertexChanges).2
          rw [logSum_recordChange nv (bit64 c) q _ _ (by rw [hbit]; omega)]
          rcases (hshape.2.1 q).1 hq with h1 | h1
          · have := h.pos q h1
            omega
          · rw [if_pos h1.symm, hbit]
            have := Nat.two_pow_pos c.toNat
            omega
      obtain ⟨r1, r2, r3, r4⟩ := ih _ _ hl1
      exact ⟨r1, r2, r3, fun q => by rw [r4, m2]⟩
    · rw [if_neg hb]
      exact ih s log h

theorem uncoloredCells_le {s t : State} (h : Keeps s t) : uncoloredCells t ≤ uncoloredCells s := by
  unfold uncoloredCells
  rw [h.1]
  apply List.countP_mono_left
  intro q _ hq
  have hq1 : (deref t.heap q).color = -1 := of_decide_eq_true hq
  apply decide_eq_true
  by_contra hc
  have := h.2 q hc
  rw [hq1] at this
  exact hc this.symm

theorem logged_maxUsed {s0 s : State} {log : ChangeLog} (h : Logged s0 s log) (m : Int) :
    Logged s0 { s with MAX_USED := m } log :=
  ⟨h.verts, h.len, h.srch, h.chrom, h.adj, h.av, h.colIn, h.colOut, h.chg, h.lens, h.nodup,
    h.pos⟩

theorem keeps_maxUsed {s t : State} (h : Keeps s t) (m : Int) :
    Keeps s { t with MAX_USED := m } := ⟨h.1, h.2⟩

/-- Coloring an uncolored record of the heap: the log stays exact once the vertex is appended to
`coloredVertices`, and one uncolored record less is left. -/
theorem logged_color_step {s0 s : State} {log : ChangeLog} (h : Logged s0 s log) (nb : Nat)
    (hnb : nb < s.heap.length) (hu : (deref s.heap nb).color = -1)
    (f : Vertex → Vertex) (c : Int) (hc : c ≠ -1)
    (f1 : ∀ v, (f v).adjacentVertices = v.adjacentVertices)
    (f2 : ∀ v, (f v).availableColors = v.availableColors) (f3 : ∀ v, (f v).color = c) :
    Logged s0 (modify s nb f) { log with coloredVertices := log.coloredVertices ++ [nb] } ∧
    Keeps s (modify s nb f) ∧ uncoloredCells (modify s nb f) < uncoloredCells s := by
  obtain ⟨m1, m2, m3, m4⟩ := modify_color s nb f c f1 f2 f3 hnb
  have hu0 : (deref s0.heap nb).color = -1 := by
    by_cases hin : nb ∈ log.coloredVertices
    · exact (h.colIn nb hin).2
    · rw [← h.colOut nb hin]; exact hu
  refine ⟨⟨h.verts, by rw [modify_heap_length]; exact h.len,
    h.srch, h.chrom, fun q => by rw [m1]; exact h.adj q,
    fun q => by rw [m2]; exact h.av q, ?_, ?_, h.chg, h.lens, h.nodup, h.pos⟩, ⟨?_, ?_⟩, ?_⟩
  · intro q hq
    rcases List.mem_append.1 hq with h1 | h1
    · exact h.colIn q h1
    · have e : q = nb := by simpa using h1
      rw [e]
      exact ⟨by rw [← h.len]; exact hnb, hu0⟩
  · intro q hq
    have h1 : q ∉ log.coloredVertices := fun x => hq (List.mem_append.2 (Or.inl x))
    have h2 : q ≠ nb := fun x => hq (List.mem_append.2 (Or.inr (by simp [x])))
    rw [m4 q h2]
    exact h.colOut q h1
  · rw [modify_heap_length]
  · intro q hq
    have h2 : q ≠ nb := fun x => hq (by rw [x]; exact hu)
    rw [m4 q h2]
  · unfold uncoloredCells
    rw [modify_heap_length]
    apply countP_lt_of_mem _ _ _ _ nb (List.mem_range.2 hnb) (decide_eq_true hu)
    · rw [m3]
      exact decide_eq_false hc
    · intro q hq
      have hq1 : (deref (modify s nb f).heap q).color = -1 := of_decide_eq_true hq
      apply decide_eq_true
      by_cases e : q = nb
      · rw [e]; exact hu
      · rw [m4 q e] at hq1; exact hq1

/-- The loop of `persistColors`: it has a result, the log stays exact and no color is lost. -/
theorem persistLoop_logged (s0 : State)
    (hd0 : ∀ q, (deref s0.heap q).availableColors < 2 ^ 64) (fuel : Nat)
    (self : List Nat → State → ChangeLog → Option (Int × State × ChangeLog))
    (hself : ∀ nbrs s log, Logged s0 s log → uncoloredCells s < fuel →
      ∃ res s1 log1, self nbrs s log = some (res, s1, log1) ∧ (res = 1 ∨ res = -1) ∧
        Logged s0 s1 log1 ∧ Keeps s s1) :
    ∀ nbrs s log, Logged s0 s log → uncoloredCells s ≤ fuel →
      ∃ res s1 log1, persistLoop self nbrs s log = some (res, s1, log1) ∧
        (res = 1 ∨ res = -1) ∧ Logged s0 s1 log1 ∧ Keeps s s1 := by
  intro nbrs
  induction nbrs with
  | nil => intro s log h _; exact ⟨1, s, log, rfl, Or.inl rfl, h, keeps_refl s⟩
  | cons nb rest ih =>
    intro s log h hf
    unfold persistLoop
    by_cases h1 : (deref s.heap nb).color = -1
    · rw [if_pos h1]
      simp only []
      by_cases h2 : (deref s.heap nb).availableColors = 0
      · rw [if_pos h2]
        refine ⟨-1, _, log, rfl, Or.inr rfl, ?_, ?_⟩
        · refine ⟨h.verts, by rw [modify_heap_length]; exact h.len, h.srch, h.chrom,
            fun q => ?_, fun q => ?_, h.colIn, fun q hq => ?_, h.chg, h.lens, h.nodup, h.pos⟩
          · rw [deref_modify_field (fun v => v.adjacentVertices)]
            · exact h.adj q
            · exact fun _ => rfl
          · rw [deref_modify_field (fun v => v.availableColors)]
            · exact h.av q
            · exact fun _ => rfl
          · rw [deref_modify_field (fun v => v.color)]
            · exact h.colOut q hq
            · exact fun _ => rfl
        · refine ⟨by rw [modify_heap_length], fun q _ => ?_⟩
          rw [deref_modify_field (fun v => v.color)]
          exact fun _ => rfl
      · rw [if_neg h2]
        by_cases h3 : (deref s.heap nb).availableColors &&&
            ((deref s.heap nb).availableColors - 1) = 0
        · rw [if_pos h3]
          have hlt : (deref s.heap nb).availableColors < 2 ^ 64 := by
            have := h.av nb
            have := hd0 nb
            omega
          obtain ⟨j, hj, ej, _⟩ := ctzll_spec _ h2 hlt
          have hnb : nb < s.heap.length := avail_pos_valid _ _ h2
          obtain ⟨l0, k0, u0⟩ := logged_color_step h nb hnb h1
            (fun v => { v with color := ctzll (deref s.heap nb).availableColors })
            (ctzll (deref s.heap nb).availableColors) (by rw [ej]; omega)
            (fun _ => rfl) (fun _ => rfl) (fun _ => rfl)
          generalize hm : (if ctzll (deref s.heap nb).availableColors >
              (modify s nb (fun v =>
                { v with color := ctzll (deref s.heap nb).availableColors })).MAX_USED
            then { modify s nb (fun v =>
                { v with color := ctzll (deref s.heap nb).availableColors }) with
              MAX_USED := ctzll (deref s.heap nb).availableColors }
            else modify s nb (fun v =>
                { v with color := ctzll (deref s.heap nb).availableColors })) = s2
          have l1 : Logged s0 s2 { log with coloredVertices := log.coloredVertices ++ [nb] } := by
            rw [← hm]
            split
            · exact logged_maxUsed l0 _
            · exact l0
          have k1 : Keeps s s2 := by
            rw [← hm]
            split
            · exact keeps_maxUsed k0 _
            · exact k0
          have u1 : uncoloredCells s2 < uncoloredCells s := by
            rw [← hm]
            split
            · exact u0
            · exact u0
          obtain ⟨r1, _, _, r4⟩ := removeNeighborColors_logged s0 hd0
            (ctzll (deref s.heap nb).availableColors) (by rw [ej]; omega) (by rw [ej]; omega)
            (deref s2.heap nb).adjacentVertices s2
            { log with coloredVertices := log.coloredVertices ++ [nb] } l1
          generalize hr : removeNeighborColors (deref s2.heap nb).adjacentVertices
            (ctzll (deref s.heap nb).availableColors) s2
            { log with coloredVertices := log.coloredVertices ++ [nb] } = r at r1 r4
          have hlen : r.1.heap.length = s2.heap.length := by rw [r1.len, l1.len]
          have kr : Keeps s2 r.1 := ⟨hlen, fun q _ => r4 q⟩
          have ur : uncoloredCells r.1 < fuel := by
            have := uncoloredCells_le kr
            omega
          obtain ⟨res, s3, log3, e3, hres, l3, k3⟩ :=
            hself (deref r.1.heap nb).adjacentVertices r.1 r.2 r1 ur
          rw [e3]
          simp only []
          have ks3 : Keeps s s3 := keeps_trans k1 (keeps_trans kr k3)
          by_cases hneg : res = -1
          · rw [if_pos hneg]
            exact ⟨-1, s3, log3, rfl, Or.inr rfl, l3, ks3⟩
          · rw [if_neg hneg]
            have u3 : uncoloredCells s3 ≤ fuel := by
              have := uncoloredCells_le ks3
              omega
            obtain ⟨res4, s4, log4, e4, hres4, l4, k4⟩ := ih s3 log3 l3 u3
            exact ⟨res4, s4, log4, e4, hres4, l4, keeps_trans ks3 k4⟩
        · rw [if_neg h3]
          exact ih s log h hf
    · rw [if_neg h1]
      exact ih s log h hf

/-- With more fuel than uncolored records, `persistColors` has a result; the log stays exact
and no color is lost. -/
theorem persistColors_logged (s0 : State)
    (hd0 : ∀ q, (deref s0.heap q).availableColors < 2 ^ 64) (fuel : Nat) :
    ∀ nbrs s log, Logged s0 s log → uncoloredCells s < fuel →
      ∃ res s1 log1, persistColors fuel nbrs s log = some (res, s1, log1) ∧
        (res = 1 ∨ res = -1) ∧ Logged s0 s1 log1 ∧ Keeps s s1 := by
  induction fuel with
  | zero => intro nbrs s log _ h; omega
  | succ fuel ih =>
    intro nbrs s log h hf
    unfold persistColors
    exact persistLoop_logged s0 hd0 fuel (persistColors fuel) ih nbrs s log h (by omega)

theorem logSum_not_mem (p : Nat) (qs ds : List Nat) (h : p ∉ qs) : logSum p qs ds = 0 := by
  induction qs generalizing ds with
  | nil => simp [logSum]
  | cons q qs ih =>
    cases ds with
    | nil => simp [logSum]
    | cons d ds =>
      have h1 : q ≠ p := fun e => h (by simp [e])
      have h2 : p ∉ qs := fun e => h (List.mem_cons_of_mem _ e)
      simp only [logSum, if_neg h1, ih ds h2]

/-- The second loop of `restore`, in both modes: a logged vertex gets its bits back (and in
EXHAUSTIVE mode is cut down to the bits that `updateVertexAvailability` keeps), every other
domain is left alone. -/
theorem foldl_readd_modes (qs : List Nat) :
    ∀ (ds : List Nat) (s : State), qs.length = ds.length → qs.Nodup →
    ∃ h, (qs.zip ds).foldl
        (fun t pc =>
          let t1 := modify t pc.1
            (fun v => { v with availableColors := (v.availableColors + pc.2) % 2 ^ 64 })
          if t1.SEARCH = search.EXHAUSTIVE then updateVertexAvailability t1 pc.1 t1.CHROMATIC
          else t1) s = { s with heap := h } ∧ h.length = s.heap.length ∧
      (∀ p, (deref h p).adjacentVertices = (deref s.heap p).adjacentVertices) ∧
      (∀ p, (deref h p).color = (deref s.heap p).color) ∧
      (∀ p, p < s.heap.length → (deref s.heap p).availableColors + logSum p qs ds < 2 ^ 64 →
        (deref h p).availableColors =
          if p ∈ qs then
            (if s.SEARCH = search.EXHAUSTIVE then
              ((deref s.heap p).availableColors + logSum p qs ds) &&& keepMask s.CHROMATIC
            else (deref s.heap p).availableColors + logSum p qs ds)
          else (deref s.heap p).availableColors) := by
  induction qs with
  | nil =>
    intro ds s _ _
    exact ⟨s.heap, rfl, rfl, fun _ => rfl, fun _ => rfl, fun p _ _ => by simp⟩
  | cons q qs ih =>
    intro ds s hl hn
    cases ds with
    | nil => simp at hl
    | cons d ds =>
      have hl1 : qs.length = ds.length := by simpa using hl
      rw [List.nodup_cons] at hn
      -- the state after the step for `(q, d)`
      have hstep : ∃ t : State, t = (if (modify s q
            (fun v => { v with availableColors := (v.availableColors + d) % 2 ^ 64 })).SEARCH =
              search.EXHAUSTIVE then
            updateVertexAvailability (modify s q
              (fun v => { v with availableColors := (v.availableColors + d) % 2 ^ 64 })) q
              (modify s q
                (fun v => { v with availableColors := (v.availableColors + d) % 2 ^ 64 })).CHROMATIC
          else modify s q
            (fun v => { v with availableColors := (v.availableColors + d) % 2 ^ 64 })) ∧
          t.SEARCH = s.SEARCH ∧ t.CHROMATIC = s.CHROMATIC ∧
          t.heap.length = s.heap.length ∧
          (∃ h, t = { s with heap := h }) ∧
          (∀ p, (deref t.heap p).adjacentVertices = (deref s.heap p).adjacentVertices) ∧
          (∀ p, (deref t.heap p).color = (deref s.heap p).color) ∧
          (∀ p, p ≠ q → (deref t.heap p).availableColors = (deref s.heap p).availableColors) ∧
          (q < s.heap.length → (deref t.heap q).availableColors =
            if s.SEARCH = search.EXHAUSTIVE then
              ((deref s.heap q).availableColors + d) % 2 ^ 64 &&& keepMask s.CHROMATIC
            else ((deref s.heap q).availableColors + d) % 2 ^ 64) := by
        refine ⟨_, rfl, ?_⟩
        have hs1 : (modify s q
            (fun v => { v with availableColors := (v.availableColors + d) % 2 ^ 64 })).SEARCH =
            s.SEARCH := rfl
        rw [hs1]
        by_cases hex : s.SEARCH = search.EXHAUSTIVE
        · rw [if_pos hex, if_pos hex]
          unfold updateVertexAvailability
          refine ⟨rfl, rfl, by rw [modify_heap_length, modify_heap_length], ⟨_, rfl⟩,
            fun p => ?_, fun p => ?_, fun p hp => ?_, fun hq => ?_⟩
          · rw [deref_modify_field (fun v => v.adjacentVertices),
              deref_modify_field (fun v => v.adjacentVertices)]
            · exact fun _ => rfl
            · exact fun _ => rfl
          · rw [deref_modify_field (fun v => v.color), deref_modify_field (fun v => v.color)]
            · exact fun _ => rfl
            · exact fun _ => rfl
          · rw [deref_modify_ne _ _ _ _ hp, deref_modify_ne _ _ _ _ hp]
          · rw [deref_modify_self _ _ _ (by rw [modify_heap_length]; exact hq),
              deref_modify_self _ _ _ hq]
            rfl
        · rw [if_neg hex, if_neg hex]
          refine ⟨rfl, rfl, by rw [modify_heap_length], ⟨_, rfl⟩,
            fun p => ?_, fun p => ?_, fun p hp => ?_, fun hq => ?_⟩
          · rw [deref_modify_field (fun v => v.adjacentVertices)]
            exact fun _ => rfl
          · rw [deref_modify_field (fun v => v.color)]
            exact fun _ => rfl
          · rw [deref_modify_ne _ _ _ _ hp]
          · rw [deref_modify_self _ _ _ hq]
      obtain ⟨t, et, ts, tc, tl, ⟨th, eth⟩, ta, tcol, tne, tq⟩ := hstep
      obtain ⟨h, e, hlen, ha, hc, hv⟩ := ih ds t hl1 hn.2
      refine ⟨h, ?_, by rw [hlen, tl], fun p => by rw [ha, ta], fun p => by rw [hc, tcol],
        fun p hp hb => ?_⟩
      · rw [List.zip_cons_cons, List.foldl_cons]
        refine Eq.trans (Eq.trans ?_ e) (by rw [eth])
        rw [et]
      · simp only [logSum] at hb ⊢
        by_cases hq : q = p
        · subst hq
          have hz : logSum q qs ds = 0 := logSum_not_mem q qs ds hn.1
          rw [if_pos rfl, hz] at hb ⊢
          have h1 := hv q (by rw [tl]; exact hp)
            (by rw [hz, tq hp]
                split
                · exact Nat.lt_of_le_of_lt Nat.and_le_left (by omega)
                · omega)
          rw [h1, if_neg hn.1, tq hp, if_pos (List.mem_cons_self _ _),
            Nat.mod_eq_of_lt (by omega)]
          rfl
        · rw [if_neg hq] at hb ⊢
          have h1 := hv p (by rw [tl]; exact hp)
            (by rw [tne p (fun x => hq x.symm)]; omega)
          by_cases hin : p ∈ qs
          · rw [if_pos hin] at h1
            rw [if_pos (List.mem_cons_of_mem _ hin), h1, tne p (fun x => hq x.symm), ts, tc]
            simp only [Nat.zero_add]
          · rw [if_neg hin] at h1
            have hnm : p ∉ q :: qs := by
              intro x
              rcases List.mem_cons.1 x with x1 | x1
              · exact hq x1.symm
              · exact hin x1
            rw [if_neg hnm, h1, tne p (fun x => hq x.symm)]

/-- The attempt is a pass through the loop of `colorGraph`: when `persistColors` signals a
conflict, the loop goes on from the state that `attemptAndRestore` returns. -/
theorem colorLoop_conflict_step (self : State → Option (Int × State)) (fuel : Nat)
    (old_counter : Int) (nextVertex : Nat) (max_used_temp : Int) (n : Nat) (nextColor : Int)
    (s : State) (p : Nat) (res : Int) (t : State) (log : ChangeLog)
    (h1 : ¬ (s.SEARCH = search.EXHAUSTIVE ∧ s.MAX_USED ≥ s.CHROMATIC))
    (h2 : s.vertices.get? nextVertex = some p) (h3 : findColorFF s (nextColor + 1) p ≠ -1)
    (h4 : attemptAndRestore fuel max_used_temp s p (findColorFF s (nextColor + 1) p) =
      some (res, t, log)) (h5 : res ≠ 1) :
    colorLoop self fuel old_counter nextVertex max_used_temp (n + 1) nextColor s =
      colorLoop self fuel old_counter nextVertex max_used_temp n
        (findColorFF s (nextColor + 1) p) t := by
  unfold attemptAndRestore at h4
  simp only [] at h4
  rw [colorLoop, if_neg h1, h2]
  simp only []
  rw [if_neg h3]
  cases hpc : persistColors fuel
      (deref (removeNeighborColors
        (deref (if findColorFF s (nextColor + 1) p >
            (setVertexColor s p (findColorFF s (nextColor + 1) p)).MAX_USED
          then { setVertexColor s p (findColorFF s (nextColor + 1) p) with
            MAX_USED := findColorFF s (nextColor + 1) p }
          else setVertexColor s p (findColorFF s (nextColor + 1) p)).heap p).adjacentVertices
        (findColorFF s (nextColor + 1) p)
        (if findColorFF s (nextColor + 1) p >
            (setVertexColor s p (findColorFF s (nextColor + 1) p)).MAX_USED
          then { setVertexColor s p (findColorFF s (nextColor + 1) p) with
            MAX_USED := findColorFF s (nextColor + 1) p }
          else setVertexColor s p (findColorFF s (nextColor + 1) p))
        { emptyLog with coloredVertices := [p] }).1.heap p).adjacentVertices
      (removeNeighborColors
        (deref (if findColorFF s (nextColor + 1) p >
            (setVertexColor s p (findColorFF s (nextColor + 1) p)).MAX_USED
          then { setVertexColor s p (findColorFF s (nextColor + 1) p) with
            MAX_USED := findColorFF s (nextColor + 1) p }
          else setVertexColor s p (findColorFF s (nextColor + 1) p)).heap p).adjacentVertices
        (findColorFF s (nextColor + 1) p)
        (if findColorFF s (nextColor + 1) p >
            (setVertexColor s p (findColorFF s (nextColor + 1) p)).MAX_USED
          then { setVertexColor s p (findColorFF s (nextColor + 1) p) with
            MAX_USED := findColorFF s (nextColor + 1) p }
          else setVertexColor s p (findColorFF s (nextColor + 1) p))
        { emptyLog with coloredVertices := [p] }).1
      (removeNeighborColors
        (deref (if findColorFF s (nextColor + 1) p >
            (setVertexColor s p (findColorFF s (nextColor + 1) p)).MAX_USED
          then { setVertexColor s p (findColorFF s (nextColor + 1) p) with
            MAX_USED := findColorFF s (nextColor + 1) p }
          else setVertexColor s p (findColorFF s (nextColor + 1) p)).heap p).adjacentVertices
        (findColorFF s (nextColor + 1) p)
        (if findColorFF s (nextColor + 1) p >
            (setVertexColor s p (findColorFF s (nextColor + 1) p)).MAX_USED
          then { setVertexColor s p (findColorFF s (nextColor + 1) p) with
            MAX_USED := findColorFF s (nextColor + 1) p }
          else setVertexColor s p (findColorFF s (nextColor + 1) p))
        { emptyLog with coloredVertices := [p] }).2 with
  | none =>
    rw [hpc] at h4
    cases h4
  | some x =>
    obtain ⟨res1, s3, log3⟩ := x
    rw [hpc] at h4
    simp only [Option.some.injEq, Prod.mk.injEq] at h4
    obtain ⟨e1, e2, _⟩ := h4
    simp only []
    rw [e1, if_neg h5, e2]

/-! ## graph.c : the removal of isolated vertices -/

theorem keepLowBits_eq (x v : Nat) :
    keepLowBits x v = some (x % 2 ^ (v % 64)) := by
  have hr : v % 64 < 64 := Nat.mod_lt _ (by decide)
  unfold keepLowBits
  by_cases h0 : v % 64 = 0
  · rw [if_pos h0, h0]
    simp [Nat.mod_one]
  · rw [if_neg h0]
    unfold shl64 shr64
    rw [if_pos (by omega)]
    simp only []
    rw [if_pos (by omega)]
    congr 1
    apply Nat.eq_of_testBit_eq
    intro i
    rw [Nat.testBit_shiftRight, Nat.testBit_mod_two_pow, Nat.testBit_shiftLeft,
      Nat.testBit_mod_two_pow]
    have e : 64 - v % 64 + i - (64 - v % 64) = i := by omega
    rw [e]
    by_cases hi : i < v % 64
    · have h1 : 64 - v % 64 + i < 64 := by omega
      have h2 : 64 - v % 64 + i ≥ 64 - v % 64 := by omega
      simp [hi, h1, h2]
    · have h1 : ¬ 64 - v % 64 + i < 64 := by omega
      simp [hi, h1]

theorem dropBit_eq (x v : Nat) (hv : v % 64 ≠ 63) :
    dropBit x v = some ((x >>> (v % 64 + 1) <<< (v % 64)) % 2 ^ 64) := by
  have hr : v % 64 < 64 := Nat.mod_lt _ (by decide)
  unfold dropBit shr64 shl64
  rw [if_pos (by omega)]
  simp only []
  rw [if_pos (by omega)]

theorem carry_bits ( B v : Nat) (words : List Nat) (j w0 : Nat)
    (hx : words.getD j 0 < 2 ^ 64) (hvj : v / 64 ≤ j) (hw0 : w0 < 2 ^ 64)
    (hb0 : ∀ b, b < 64 → w0.testBit b =
      if 64 * j + b < v then (words.getD j 0).testBit b else (words.getD j 0).testBit (b + 1)) :
    (if j < B - 1 ∧ words.getD (j + 1) 0 % 2 = 1 then w0 ||| 2 ^ 63 else w0) < 2 ^ 64 ∧
    ∀ b, b < 64 →
      (if j < B - 1 ∧ words.getD (j + 1) 0 % 2 = 1 then w0 ||| 2 ^ 63 else w0).testBit b =
        if 64 * j + b < v then (words.getD j 0).testBit b
        else if b < 63 then (words.getD j 0).testBit (b + 1)
        else (decide (j < B - 1) && (words.getD (j + 1) 0).testBit 0) := by
  have hr : v % 64 < 64 := Nat.mod_lt _ (by decide)
  have hdm : 64 * (v / 64) + v % 64 = v := Nat.div_add_mod v 64
  generalize words.getD (j + 1) 0 = y at *
  generalize words.getD j 0 = x at *
  have htop : x.testBit 64 = false := Nat.testBit_lt_two_pow hx
  by_cases hc : j < B - 1 ∧ y % 2 = 1
  · rw [if_pos hc]
    refine ⟨Nat.or_lt_two_pow hw0 (by decide), ?_⟩
    intro b hb
    rw [Nat.testBit_or, Nat.testBit_two_pow, hb0 b hb]
    have hodd : y.testBit 0 = true := by
      rw [Nat.testBit_zero]; exact decide_eq_true hc.2
    by_cases h1 : 64 * j + b < v
    · have : ¬ 63 = b := by
        have : 64 * (v / 64) ≤ 64 * j := Nat.mul_le_mul_left 64 hvj
        omega
      simp [h1, this]
    · by_cases h2 : b < 63
      · have : ¬ 63 = b := by omega
        simp [h1, h2, this]
      · have : b = 63 := by omega
        subst this
        simp [h1, htop, hodd, hc.1]
  · rw [if_neg hc]
    refine ⟨hw0, ?_⟩
    intro b hb
    rw [hb0 b hb]
    by_cases h1 : 64 * j + b < v
    · simp [h1]
    · by_cases h2 : b < 63
      · simp [h1, h2]
      · have : b = 63 := by omega
        subst this
        have hodd : (decide (j < B - 1) && y.testBit 0) = false := by
          rw [Nat.testBit_zero]
          by_cases hjb : j < B - 1
          · have : ¬ y % 2 = 1 := fun c => hc ⟨hjb, c⟩
            simp [this]
          · simp [hjb]
        simp only [if_neg h1, if_neg h2, htop, hodd]

/-- One pass of the inner loop of `removeIsolatedNeighbor`, away from the undefined shift:
the word `j` keeps its bits below the position, takes the other bits from one place higher,
and takes its bit 63 from bit 0 of the next word, if there is one. -/
theorem removeIsolatedWord_bits ( B v : Nat) (hv : v % 64 ≠ 63) (words : List Nat) (j : Nat)
    (hx : words.getD j 0 < 2 ^ 64) (hvj : v / 64 ≤ j) :
    ∃ w, removeIsolatedWord B v words j = some (words.set j w) ∧ w < 2 ^ 64 ∧
      ∀ b, b < 64 → w.testBit b =
        if 64 * j + b < v then (words.getD j 0).testBit b
        else if b < 63 then (words.getD j 0).testBit (b + 1)
        else (decide (j < B - 1) && (words.getD (j + 1) 0).testBit 0) := by
  have hr : v % 64 < 64 := Nat.mod_lt _ (by decide)
  have hdm : 64 * (v / 64) + v % 64 = v := Nat.div_add_mod v 64
  by_cases hj : j = v / 64
  · unfold removeIsolatedWord
    simp only []
    rw [if_pos hj, keepLowBits_eq _ _, dropBit_eq _ _ hv]
    simp only []
    refine ⟨_, rfl, carry_bits B v words j _ hx hvj ?_ ?_⟩
    · apply Nat.or_lt_two_pow
      · exact lt_of_le_of_lt (Nat.mod_le _ _) hx
      · exact Nat.mod_lt _ (Nat.two_pow_pos 64)
    · intro b hb
      rw [Nat.testBit_or, Nat.testBit_mod_two_pow, Nat.testBit_mod_two_pow,
        Nat.testBit_shiftLeft, Nat.testBit_shiftRight]
      by_cases hlt : b < v % 64
      · have h1 : 64 * j + b < v := by rw [hj]; omega
        have h2 : ¬ b ≥ v % 64 := by omega
        simp [hlt, h1, h2]
      · have h1 : ¬ 64 * j + b < v := by rw [hj]; omega
        have h2 : b ≥ v % 64 := by omega
        have e : v % 64 + 1 + (b - v % 64) = b + 1 := by omega
        simp [hlt, h1, h2, hb, e]
  · unfold removeIsolatedWord
    simp only []
    rw [if_neg hj]
    unfold shr64
    rw [if_pos (by decide)]
    simp only []
    refine ⟨_, rfl, carry_bits B v words j _ hx hvj ?_ ?_⟩
    · rw [Nat.shiftRight_eq_div_pow]
      exact lt_of_le_of_lt (Nat.div_le_self _ _) hx
    · intro b hb
      have hj1 : v / 64 + 1 ≤ j := by omega
      have h1 : ¬ 64 * j + b < v := by
        have : 64 * (v / 64 + 1) ≤ 64 * j := Nat.mul_le_mul_left 64 hj1
        omega
      rw [Nat.testBit_shiftRight, if_neg h1, Nat.add_comm]

theorem removeIsolatedWords_bits ( B v : Nat) (hv : v % 64 ≠ 63) (orig : List Nat)
    (hlt : ∀ i, orig.getD i 0 < 2 ^ 64) :
    ∀ (n a : Nat) (cur : List Nat), v / 64 ≤ a → a + n ≤ orig.length →
      cur.length = orig.length → (∀ i, a ≤ i → cur.getD i 0 = orig.getD i 0) →
      ∃ ws, removeIsolatedWords B v (List.range' a n) cur = some ws ∧
        ws.length = orig.length ∧
        (∀ i, i < a → ws.getD i 0 = cur.getD i 0) ∧
        (∀ i, a + n ≤ i → ws.getD i 0 = orig.getD i 0) ∧
        (∀ i, a ≤ i → i < a + n → ∀ b, b < 64 → (ws.getD i 0).testBit b =
          if 64 * i + b < v then (orig.getD i 0).testBit b
          else if b < 63 then (orig.getD i 0).testBit (b + 1)
          else (decide (i < B - 1) && (orig.getD (i + 1) 0).testBit 0)) := by
  intro n
  induction n with
  | zero =>
    intro a cur _ _ hl hc
    refine ⟨cur, rfl, hl, fun _ _ => rfl, fun i hi => hc i (by omega), ?_⟩
    intro i h1 h2
    omega
  | succ n ih =>
    intro a cur hva han hl hc
    obtain ⟨w, e, _, hb⟩ := removeIsolatedWord_bits B v hv cur a
      (by rw [hc a (Nat.le_refl a)]; exact hlt a) hva
    have hset : ∀ i, i ≠ a → (cur.set a w).getD i 0 = cur.getD i 0 := by
      intro i hi
      simp only [List.getD_eq_getElem?_getD]
      rw [List.getElem?_set_ne (fun c => hi c.symm)]
    have hself : (cur.set a w).getD a 0 = w := by
      simp only [List.getD_eq_getElem?_getD]
      rw [List.getElem?_set_self (by omega)]
      rfl
    obtain ⟨ws, e1, l1, p1, p2, p3⟩ := ih (a + 1) (cur.set a w) (by omega) (by omega)
      (by rw [List.length_set]; exact hl)
      (fun i hi => by rw [hset i (by omega)]; exact hc i (by omega))
    refine ⟨ws, ?_, l1, ?_, ?_, ?_⟩
    · rw [List.range'_succ]
      unfold removeIsolatedWords
      rw [e]
      exact e1
    · intro i hi
      rw [p1 i (by omega), hset i (by omega)]
    · intro i hi
      exact p2 i (by omega)
    · intro i h1 h2 b hb1
      by_cases hia : i = a
      · subst hia
        rw [p1 i (by omega), hself, hb b hb1, hc i (Nat.le_refl i), hc (i + 1) (by omega)]
      · exact p3 i (by omega) (by omega) b hb1

/-- Away from the undefined shift (`v mod 64` is not 63), for a bitset of `BIT_ARRAY_SIZE`
64-bit words and a position `v` below `64 * BIT_ARRAY_SIZE`, the inner loop of
`removeIsolatedNeighbor` has a result: the bits below `v` are unchanged, the bit at every
position `p >= v` is the old bit at `p + 1`, also across the words, and the topmost bit is
cleared. -/
theorem removeIsolatedWords_shift ( B v : Nat) (hv : v % 64 ≠ 63) (words : List Nat)
    (hB : words.length = B) (hlt : ∀ i, words.getD i 0 < 2 ^ 64) (hvB : v < 64 * B) :
    ∃ ws, removeIsolatedWords B v (List.range' (v / 64) (B - v / 64)) words = some ws ∧
      ws.length = B ∧
      (∀ p, wordBit ws p = if p < v then wordBit words p else wordBit words (p + 1)) ∧
      wordBit ws (64 * B - 1) = false := by
  have hvd : v / 64 < B := by omega
  have hdm : 64 * (v / 64) + v % 64 = v := Nat.div_add_mod v 64
  obtain ⟨ws, e, l, p1, p2, p3⟩ := removeIsolatedWords_bits B v hv words hlt (B - v / 64)
    (v / 64) words (Nat.le_refl _) (by omega) rfl (fun _ _ => rfl)
  have hout : ∀ (l : List Nat) (i : Nat), l.length ≤ i → l.getD i 0 = 0 := by
    intro l i hi
    simp only [List.getD_eq_getElem?_getD]
    rw [List.getElem?_eq_none hi]
    rfl
  have key : ∀ p, wordBit ws p = if p < v then wordBit words p else wordBit words (p + 1) := by
    intro p
    have hpm : 64 * (p / 64) + p % 64 = p := Nat.div_add_mod p 64
    have hpr : p % 64 < 64 := Nat.mod_lt _ (by decide)
    rw [wordBit_iff, wordBit_iff, wordBit_iff]
    by_cases h1 : p / 64 < v / 64
    · have hpv : p < v := by
        have : 64 * (p / 64 + 1) ≤ 64 * (v / 64) := Nat.mul_le_mul_left 64 h1
        omega
      rw [if_pos hpv, p1 _ h1]
    · by_cases h2 : p / 64 < B
      · rw [p3 (p / 64) (by omega) (by omega) (p % 64) hpr, hpm]
        by_cases hpv : p < v
        · rw [if_pos hpv, if_pos hpv]
        · rw [if_neg hpv, if_neg hpv]
          by_cases h3 : p % 64 < 63
          · have e1 : (p + 1) / 64 = p / 64 := by omega
            have e2 : (p + 1) % 64 = p % 64 + 1 := by omega
            rw [if_pos h3, e1, e2]
          · have e1 : (p + 1) / 64 = p / 64 + 1 := by omega
            have e2 : (p + 1) % 64 = 0 := by omega
            rw [if_neg h3, e1, e2]
            by_cases h4 : p / 64 < B - 1
            · simp [h4]
            · have : words.getD (p / 64 + 1) 0 = 0 := hout words _ (by omega)
              rw [this]
              simp
      · have hpv : ¬ p < v := by
          have : 64 * B ≤ 64 * (p / 64) := Nat.mul_le_mul_left 64 (by omega)
          omega
        rw [if_neg hpv, hout ws _ (by omega), hout words _ (by omega)]
        simp
  refine ⟨ws, e, by rw [l, hB], key, ?_⟩
  rw [key, if_neg (by omega)]
  have e1 : 64 * B - 1 + 1 = 64 * B := by omega
  rw [e1, wordBit_iff, Nat.mul_div_cancel_left B (by decide), hout words B (by omega)]
  simp

/-- Away from the undefined shift, `removeIsolatedNeighbor` has a result on an array of
distinct records with bitsets of `BIT_ARRAY_SIZE` 64-bit words: in the bitset of every record
of the array the bits below `v` are unchanged, the bit at every position `p >= v` is the old bit
at `p + 1` and the topmost bit is cleared; the other fields and the other records are
unchanged. -/
theorem removeIsolatedNeighbor_shift ( B v : Nat) (hv : v % 64 ≠ 63) (hvB : v < 64 * B) :
    ∀ (l : List (Option Nat)) (heap : List Vertex), (l.filterMap id).Nodup →
      (∀ q, some q ∈ l → q < heap.length ∧ (deref heap q).neighbors.length = B ∧
        ∀ i, (deref heap q).neighbors.getD i 0 < 2 ^ 64) →
      ∃ h1, removeIsolatedNeighbor B v l heap = some h1 ∧ h1.length = heap.length ∧
        (∀ q, some q ∉ l → deref h1 q = deref heap q) ∧
        (∀ q, some q ∈ l →
          (∃ ws, deref h1 q = { deref heap q with neighbors := ws }) ∧
          (deref h1 q).neighbors.length = B ∧
          (∀ p, wordBit (deref h1 q).neighbors p =
            if p < v then wordBit (deref heap q).neighbors p
            else wordBit (deref heap q).neighbors (p + 1)) ∧
          wordBit (deref h1 q).neighbors (64 * B - 1) = false) := by
  intro l
  induction l with
  | nil =>
    intro heap _ _
    refine ⟨heap, rfl, rfl, fun _ _ => rfl, ?_⟩
    intro q hq
    cases hq
  | cons a l ih =>
    intro heap hnd hwf
    cases a with
    | none =>
      obtain ⟨h1, e, hl, f1, f2⟩ := ih heap (by simpa using hnd)
        (fun q hq => hwf q (List.mem_cons_of_mem _ hq))
      refine ⟨h1, ?_, hl, ?_, ?_⟩
      · unfold removeIsolatedNeighbor
        exact e
      · intro q hq
        exact f1 q (fun c => hq (List.mem_cons_of_mem _ c))
      · intro q hq
        rcases List.mem_cons.1 hq with c | c
        · cases c
        · exact f2 q c
    | some p =>
      have hnd1 : p ∉ l.filterMap id ∧ (l.filterMap id).Nodup := by
        simpa [List.filterMap_cons] using hnd
      have hpl : some p ∉ l := by
        intro c
        apply hnd1.1
        rw [List.mem_filterMap]
        exact ⟨some p, c, rfl⟩
      obtain ⟨hp, hlen, hlt⟩ := hwf p (List.mem_cons_self _ _)
      obtain ⟨ws, e, wl, wb, wt⟩ := removeIsolatedWords_shift B v hv (deref heap p).neighbors
        hlen hlt hvB
      have hframe : ∀ q, q ≠ p →
          deref (heap.set p { deref heap p with neighbors := ws }) q = deref heap q := by
        intro q hq
        rw [deref_set, if_neg (fun c => hq c.1)]
      have hself : deref (heap.set p { deref heap p with neighbors := ws }) p =
          { deref heap p with neighbors := ws } := by
        rw [deref_set, if_pos ⟨rfl, hp⟩]
      obtain ⟨h1, e1, hl, f1, f2⟩ := ih (heap.set p { deref heap p with neighbors := ws })
        hnd1.2 (fun q hq => by
          have hqp : q ≠ p := fun c => hpl (c ▸ hq)
          rw [hframe q hqp, List.length_set]
          exact hwf q (List.mem_cons_of_mem _ hq))
      refine ⟨h1, ?_, by rw [hl, List.length_set], ?_, ?_⟩
      · unfold removeIsolatedNeighbor
        rw [e]
        exact e1
      · intro q hq
        have hqp : q ≠ p := fun c => hq (c ▸ List.mem_cons_self _ _)
        rw [f1 q (fun c => hq (List.mem_cons_of_mem _ c)), hframe q hqp]
      · intro q hq
        rcases List.mem_cons.1 hq with c | c
        · cases c
          rw [f1 p hpl, hself]
          exact ⟨⟨ws, rfl⟩, wl, wb, wt⟩
        · have hqp : q ≠ p := fun c1 => hpl (c1 ▸ c)
          have := f2 q c
          rw [hframe q hqp] at this
          exact this

theorem removeIsolatedNeighbor_shift_witness :
    4 % 64 ≠ 63 ∧ 4 < 64 * 1 ∧ ([some 0].filterMap id).Nodup ∧
    ∃ h1, removeIsolatedNeighbor 1 4 [some 0] lastBitHeap = some h1 ∧
      wordBit (deref h1 0).neighbors 0 = true :=
  ⟨by decide, by decide, by decide,
    (removeIsolatedNeighbor_shift 1 4 (by decide) (by decide) [some 0] lastBitHeap (by decide)
      (fun q hq => by
        have hq0 : q = 0 := by simpa using hq
        subst hq0
        refine ⟨by decide, by decide, ?_⟩
        intro i
        cases i with
        | zero => decide
        | succ i => exact Nat.two_pow_pos 64)).elim
      (fun h1 h => ⟨h1, h.1, by
        have := (h.2.2.2 0 (List.mem_cons_self _ _)).2.2.1 0
        rw [this]
        decide⟩)⟩

/-- Claim C22, evaluated at a failing input. For a bitset of one word with bit 0 set and the
position 63 (`v mod 64 = 63`), `removeIsolatedNeighbor` evaluates `neighborsj >> 64`, which C
leaves undefined: there is no result. For the position 62 the call has a result, and the word
is unchanged. -/
theorem removeIsolatedNeighbor_undefined_at_63 :
    (deref lastBitHeap 0).neighbors = [1] ∧
    dropBit 1 63 = none ∧
    removeIsolatedNeighbor 1 63 [some 0] lastBitHeap = none ∧
    (removeIsolatedNeighbor 1 62 [some 0] lastBitHeap).map (fun h => (deref h 0).neighbors) =
      some [1] := by
  decide

set_option maxRecDepth 1000000 in
set_option maxHeartbeats 4000000 in
/-- Claim C21, evaluated at a failing input. The path on the vertices 0..62 followed by the
isolated vertex 63 has consistent neighbor bitsets and `vertices[i]` has the number `i`; the 63
vertices in front of the isolated one have a positive degree, so `removeIsolatedVertices`
calls `removeIsolatedNeighbor` with the position 63, whose shift by 64 is undefined: there is
no result. -/
theorem removeIsolatedVertices_undefined_at_63 :
    pathAndIsolatedVertex.vertices.length = 64 ∧
    BitsetsConsistent pathAndIsolatedVertex ∧ NumberedByIndex pathAndIsolatedVertex ∧
    (deref pathAndIsolatedVertex.heap 63).degree = 0 ∧
    (∀ i ∈ List.range 63, 0 < (deref pathAndIsolatedVertex.heap i).degree) ∧
    removeIsolatedVertices pathAndIsolatedVertex = none := by
  refine ⟨?_, ?_, ?_, ?_, ?_, ?_⟩
  · decide!
  · unfold BitsetsConsistent adjacentAt; decide!
  · unfold NumberedByIndex; decide!
  · decide!
  · decide!
  · decide!

/-! ## graph.c and low-k.c : bit arrays -/

/-- Claim C35, counterexample. For the word binary 0110110010 and `isolatedVertex = 4`,
`removeIsolatedNeighbor` does not leave the word binary 0011011010 of the comment. -/
theorem removeIsolatedNeighbor_example_differs :
    (deref docExampleHeap 0).neighbors = [0b0110110010] ∧
    (removeIsolatedNeighbor 1 4 [some 0] docExampleHeap).map (fun h => (deref h 0).neighbors) ≠
      some [0b0011011010] := by
  decide

/-- Claim C35, amended. For the word binary 0110110010 and `isolatedVertex = 4`,
`removeIsolatedNeighbor` leaves the word binary 0011010010: the bit at position 4 (counted from
0) is deleted and the bits above it move down by one. The word binary 0011011010 of the comment
is what the call leaves for `isolatedVertex = 3`. -/
theorem removeIsolatedNeighbor_example :
    (removeIsolatedNeighbor 1 4 [some 0] docExampleHeap).map (fun h => (deref h 0).neighbors) =
      some [0b0011010010] ∧
    (removeIsolatedNeighbor 1 3 [some 0] docExampleHeap).map (fun h => (deref h 0).neighbors) =
      some [0b0011011010] := by
  decide

/-- Claim C36, evaluated at failing inputs. The word `2 ^ 32` has one set bit, at position 32,
and `getKthSetBitPos` returns -1 for `k = 1`; in the two words `5` and `2 ^ 40 + 3` the fifth
set bit is at position 104, and `getKthSetBitPos` returns -1 for `k = 5`. For `k = 4` it returns
the position 65 of the fourth set bit. -/
theorem getKthSetBitPos_misses_high_bits :
    wordBit [2 ^ 32] 32 = true ∧ getKthSetBitPos [2 ^ 32] 0 1 = -1 ∧
    wordBit [5, 2 ^ 40 + 3] 0 = true ∧ wordBit [5, 2 ^ 40 + 3] 2 = true ∧
    wordBit [5, 2 ^ 40 + 3] 64 = true ∧ wordBit [5, 2 ^ 40 + 3] 65 = true ∧
    wordBit [5, 2 ^ 40 + 3] 104 = true ∧
    getKthSetBitPos [5, 2 ^ 40 + 3] 0 5 = -1 ∧ getKthSetBitPos [5, 2 ^ 40 + 3] 0 4 = 65 := by
  decide

/-- Claim C38, evaluated at a failing input. On the two disjoint edges 0-2 and 1-3 (consistent
bitsets, `vertices[i]` numbered `i`), `subGraph` puts the vertices 0 and 2 into `subGraph1` and
1 and 3 into `subGraph2` and numbers each part 0, 1; the neighbor bitsets are left as they
were, so vertex 0 still has bit 2 set and bit 1 clear although its neighbor is now numbered 1,
and the bitsets of neither part are consistent with the new numbers. -/
theorem subGraph_leaves_stale_bitsets :
    BitsetsConsistent twoEdges ∧ NumberedByIndex twoEdges ∧
    (subGraph 5 twoEdges).map (fun r => (r.2.1, r.2.2)) = some ([0, 2], [1, 3]) ∧
    (subGraph 5 twoEdges).map (fun r => r.1.heap.map (fun v => (v.number, v.neighbors))) =
      some [(0, [4]), (0, [8]), (1, [1]), (1, [2])] ∧
    (∀ t, firstPart 5 twoEdges = some t → ¬ BitsetsConsistent t) ∧
    (∀ t, secondPart 5 twoEdges = some t → ¬ BitsetsConsistent t) := by
  refine ⟨?_, ?_, ?_, ?_, ?_, ?_⟩
  · unfold BitsetsConsistent adjacentAt; decide
  · unfold NumberedByIndex; decide
  · decide
  · decide
  · have e : firstPart 5 twoEdges ≠ none ∧
        ∀ t ∈ (firstPart 5 twoEdges).toList, ¬ BitsetsConsistent t := by
      unfold BitsetsConsistent adjacentAt; decide
    intro t ht
    exact e.2 t (by rw [ht]; simp)
  · have e : secondPart 5 twoEdges ≠ none ∧
        ∀ t ∈ (secondPart 5 twoEdges).toList, ¬ BitsetsConsistent t := by
      unfold BitsetsConsistent adjacentAt; decide
    intro t ht
    exact e.2 t (by rw [ht]; simp)

/-! ## bounds.c : the sets of the RLF estimator -/

theorem filter_length_split (f : Nat → Bool) (l : List Nat) :
    (l.filter f).length + (l.filter (fun p => !f p)).length = l.length := by
  induction l with
  | nil => rfl
  | cons a l ih =>
    simp only [List.filter_cons]
    cases f a <;> simp <;> omega

/-- Claim C33, counterexample. When `upperBoundRLF` opens the second color class on the
triangle 0, 1, 2 with the edge 3-4 (primary vertex 1), `createSetsUV` puts the colored vertices
0 and 3 into `setU`, and vertex 3 is not adjacent to the primary vertex. -/
theorem createSetsUV_keeps_colored_vertices :
    rlfSecondClass.vertices = [0, 1, 2, 3, 4] ∧
    rlfSecondClass.vertices.map (fun p => (deref rlfSecondClass.heap p).color) =
      [0, 1, -1, 0, -1] ∧
    createSetsUV rlfSecondClass 1 = ([0, 2, 3], [4]) ∧
    neighbors rlfSecondClass.heap 3 1 = false := by
  decide

/-- Claim C33, amended. The function `createSetsUV` splits the vertices other than the primary
one: `setU` holds those that are colored or adjacent to the primary vertex, `setV` those that
are uncolored and not adjacent to it, each in array order; no vertex is in both, and every
vertex other than the primary one is in one of them. -/
theorem createSetsUV_spec (s : State) (primaryVertex : Nat) :
    (∀ p, p ∈ (createSetsUV s primaryVertex).1 ↔ p ∈ s.vertices ∧ p ≠ primaryVertex ∧
      ((deref s.heap p).color ≠ -1 ∨ primaryVertex ∈ (deref s.heap p).adjacentVertices)) ∧
    (∀ p, p ∈ (createSetsUV s primaryVertex).2 ↔ p ∈ s.vertices ∧ p ≠ primaryVertex ∧
      (deref s.heap p).color = -1 ∧ primaryVertex ∉ (deref s.heap p).adjacentVertices) ∧
    (createSetsUV s primaryVertex).1.Sublist s.vertices ∧
    (createSetsUV s primaryVertex).2.Sublist s.vertices ∧
    (∀ p, p ∈ (createSetsUV s primaryVertex).1 → p ∉ (createSetsUV s primaryVertex).2) ∧
    (createSetsUV s primaryVertex).1.length + (createSetsUV s primaryVertex).2.length =
      (s.vertices.filter (fun p => decide (p ≠ primaryVertex))).length := by
  have hn : ∀ p, neighbors s.heap p primaryVertex = true ↔
      primaryVertex ∈ (deref s.heap p).adjacentVertices := fun p => neighbors_iff s.heap p _
  have hU : ∀ p, p ∈ (createSetsUV s primaryVertex).1 ↔ p ∈ s.vertices ∧ p ≠ primaryVertex ∧
      ((deref s.heap p).color ≠ -1 ∨ primaryVertex ∈ (deref s.heap p).adjacentVertices) := by
    intro p
    unfold createSetsUV
    simp only [List.mem_filter, decide_eq_true_eq, Bool.or_eq_true, hn]
    tauto
  have hV : ∀ p, p ∈ (createSetsUV s primaryVertex).2 ↔ p ∈ s.vertices ∧ p ≠ primaryVertex ∧
      (deref s.heap p).color = -1 ∧ primaryVertex ∉ (deref s.heap p).adjacentVertices := by
    intro p
    unfold createSetsUV
    simp only [List.mem_filter, decide_eq_true_eq, Bool.not_eq_true', Bool.or_eq_false_iff,
      decide_eq_false_iff_not, not_not]
    have := hn p
    constructor
    · rintro ⟨⟨h1, h2⟩, h3, h4⟩
      exact ⟨h1, h2, h3, fun c => by rw [this.2 c] at h4; exact absurd h4 (by decide)⟩
    · rintro ⟨h1, h2, h3, h4⟩
      refine ⟨⟨h1, h2⟩, h3, ?_⟩
      cases hb : neighbors s.heap p primaryVertex
      · rfl
      · exact absurd (this.1 hb) h4
  refine ⟨hU, hV, ?_, ?_, ?_, ?_⟩
  · unfold createSetsUV
    exact (List.filter_sublist _).trans (List.filter_sublist _)
  · unfold createSetsUV
    exact (List.filter_sublist _).trans (List.filter_sublist _)
  · intro p h1 h2
    have a := (hU p).1 h1
    have b := (hV p).1 h2
    rcases a.2.2 with c | c
    · exact c b.2.2.1
    · exact b.2.2.2 c
  · unfold createSetsUV
    exact filter_length_split _ _

theorem findSecondaryLoop_spec (heap : List Vertex) (setU : List Nat) :
    ∀ (l : List Nat) (max : Int) (cur : Nat),
      (findSecondaryLoop heap setU l max cur = cur ∧
        ∀ j, j < l.length → (neighborsInU heap setU (l.getD j 0) : Int) ≤ max) ∨
      ∃ i, i < l.length ∧ findSecondaryLoop heap setU l max cur = l.getD i 0 ∧
        max < (neighborsInU heap setU (l.getD i 0) : Int) ∧
        (∀ j, j < l.length →
          neighborsInU heap setU (l.getD j 0) ≤ neighborsInU heap setU (l.getD i 0)) ∧
        ∀ j, j < i → neighborsInU heap setU (l.getD j 0) < neighborsInU heap setU (l.getD i 0) := by
  intro l
  induction l with
  | nil =>
    intro max cur
    left
    exact ⟨rfl, fun j hj => absurd hj (by simp)⟩
  | cons v rest ih =>
    intro max cur
    unfold findSecondaryLoop
    simp only []
    have hv : ((setU.filter (fun u => neighbors heap v u)).length : Int) =
        (neighborsInU heap setU v : Int) := rfl
    rw [hv]
    by_cases hgt : (neighborsInU heap setU v : Int) > max
    · rw [if_pos hgt]
      right
      rcases ih (neighborsInU heap setU v : Int) v with ⟨e, hle⟩ | ⟨i, hi, e, hlt, hmax, hfirst⟩
      · refine ⟨0, by simp, by rw [e]; rfl, hgt, ?_, fun j hj => absurd hj (by omega)⟩
        intro j hj
        cases j with
        | zero => exact Nat.le_refl _
        | succ j =>
          have := hle j (by simpa using hj)
          simp only [List.getD_cons_succ, List.getD_cons_zero]
          omega
      · refine ⟨i + 1, by simpa using hi, by rw [e]; rfl, ?_, ?_, ?_⟩
        · simp only [List.getD_cons_succ]
          omega
        · intro j hj
          cases j with
          | zero =>
            simp only [List.getD_cons_succ, List.getD_cons_zero]
            omega
          | succ j =>
            simp only [List.getD_cons_succ]
            exact hmax j (by simpa using hj)
        · intro j hj
          cases j with
          | zero =>
            simp only [List.getD_cons_succ, List.getD_cons_zero]
            omega
          | succ j =>
            simp only [List.getD_cons_succ]
            exact hfirst j (by omega)
    · rw [if_neg hgt]
      rcases ih max cur with ⟨e, hle⟩ | ⟨i, hi, e, hlt, hmax, hfirst⟩
      · left
        refine ⟨e, ?_⟩
        intro j hj
        cases j with
        | zero =>
          simp only [List.getD_cons_zero]
          omega
        | succ j =>
          simp only [List.getD_cons_succ]
          exact hle j (by simpa using hj)
      · right
        refine ⟨i + 1, by simpa using hi, by rw [e]; rfl, ?_, ?_, ?_⟩
        · simp only [List.getD_cons_succ]
          exact hlt
        · intro j hj
          cases j with
          | zero =>
            simp only [List.getD_cons_succ, List.getD_cons_zero]
            omega
          | succ j =>
            simp only [List.getD_cons_succ]
            exact hmax j (by simpa using hj)
        · intro j hj
          cases j with
          | zero =>
            simp only [List.getD_cons_succ, List.getD_cons_zero]
            omega
          | succ j =>
            simp only [List.getD_cons_succ]
            exact hfirst j (by omega)

/-- Claim C34. For a non-empty `setV`, `findSecondaryVertex` returns the entry of `setV` at an
index `i` such that no entry of `setV` has more neighbors in `setU` and every entry before `i`
has fewer: the first of the entries with the largest number of neighbors in `setU`. -/
theorem findSecondaryVertex_spec (heap : List Vertex) (setU setV : List Nat)
    (hne : setV ≠ []) :
    ∃ i, i < setV.length ∧ findSecondaryVertex heap setU setV = setV.getD i 0 ∧
      findSecondaryVertex heap setU setV ∈ setV ∧
      (∀ j, j < setV.length →
        neighborsInU heap setU (setV.getD j 0) ≤ neighborsInU heap setU (setV.getD i 0)) ∧
      (∀ v ∈ setV, neighborsInU heap setU v ≤
        neighborsInU heap setU (findSecondaryVertex heap setU setV)) ∧
      ∀ j, j < i → neighborsInU heap setU (setV.getD j 0) < neighborsInU heap setU (setV.getD i 0) := by
  have hpos : 0 < setV.length := List.length_pos.2 hne
  unfold findSecondaryVertex
  rcases findSecondaryLoop_spec heap setU setV (-1) 0 with ⟨_, hle⟩ | ⟨i, hi, e, _, hmax, hfirst⟩
  · have := hle 0 hpos
    omega
  · refine ⟨i, hi, e, ?_, hmax, ?_, hfirst⟩
    · rw [e, List.getD_eq_getElem _ _ hi]
      exact List.getElem_mem _
    · intro v hv
      obtain ⟨j, hj, ej⟩ := List.getElem_of_mem hv
      have := hmax j hj
      rw [List.getD_eq_getElem _ _ hj, ej] at this
      rw [e]
      exact this

theorem findSecondaryVertex_spec_witness :
    createSetsUV rlfTieClass 0 = ([1, 2, 3], [4, 5, 6]) ∧ ([4, 5, 6] : List Nat) ≠ [] ∧
    ([4, 5, 6] : List Nat).map (neighborsInU rlfTieClass.heap [1, 2, 3]) = [1, 2, 2] ∧
    findSecondaryVertex rlfTieClass.heap [1, 2, 3] [4, 5, 6] = 5 ∧
    ∃ i, i < ([4, 5, 6] : List Nat).length ∧
      findSecondaryVertex rlfTieClass.heap [1, 2, 3] [4, 5, 6] = ([4, 5, 6] : List Nat).getD i 0 ∧
      findSecondaryVertex rlfTieClass.heap [1, 2, 3] [4, 5, 6] ∈ ([4, 5, 6] : List Nat) ∧
      (∀ j, j < ([4, 5, 6] : List Nat).length →
        neighborsInU rlfTieClass.heap [1, 2, 3] (([4, 5, 6] : List Nat).getD j 0) ≤
          neighborsInU rlfTieClass.heap [1, 2, 3] (([4, 5, 6] : List Nat).getD i 0)) ∧
      (∀ v ∈ ([4, 5, 6] : List Nat), neighborsInU rlfTieClass.heap [1, 2, 3] v ≤
        neighborsInU rlfTieClass.heap [1, 2, 3]
          (findSecondaryVertex rlfTieClass.heap [1, 2, 3] [4, 5, 6])) ∧
      ∀ j, j < i → neighborsInU rlfTieClass.heap [1, 2, 3] (([4, 5, 6] : List Nat).getD j 0) <
        neighborsInU rlfTieClass.heap [1, 2, 3] (([4, 5, 6] : List Nat).getD i 0) :=
  ⟨by decide, by decide, by decide, by decide,
    findSecondaryVertex_spec rlfTieClass.heap [1, 2, 3] [4, 5, 6] (by decide)⟩

/-! ## bounds.c : the greedy estimators stay within the maximum degree plus one -/

/-- Coloring an uncolored vertex `x` with the active color keeps the three greedy invariants,
for a new candidate list that drops at most `x` and neighbors of `x`. -/
theorem greedy_step {t : State} {c : Int} {x : Nat} {cand cand1 : List Nat}
    (hw : WellFormed t) (hc : 0 ≤ c) (hxv : x ∈ t.vertices) (hxu : (deref t.heap x).color = -1)
    (hl : Ladder t) (hs : Saturated t c) (hk : Complete t c cand)
    (hsub : ∀ q ∈ cand, q ∈ t.vertices → q ≠ x →
      q ∈ cand1 ∨ x ∈ (deref t.heap q).adjacentVertices) :
    Ladder (setVertexColor t x c) ∧ Saturated (setVertexColor t x c) c ∧
      Complete (setVertexColor t x c) c cand1 := by
  have hxl : x < t.heap.length := hw.2.1 x hxv
  have hadj : ∀ p, (deref (setVertexColor t x c).heap p).adjacentVertices =
      (deref t.heap p).adjacentVertices :=
    fun p => ((sameGraph_setVertexColor t x c).2.2.2 p).1
  have hcol : ∀ q, (deref (setVertexColor t x c).heap q).color =
      if q = x then c else (deref t.heap q).color := fun q => setVertexColor_color t x q c hxl
  have keep : ∀ (q : Nat) (d : Int), 0 ≤ d →
      (∃ r ∈ (deref t.heap q).adjacentVertices, (deref t.heap r).color = d) →
      ∃ r ∈ (deref (setVertexColor t x c).heap q).adjacentVertices,
        (deref (setVertexColor t x c).heap r).color = d := by
    intro q d hd ⟨r, hr, hrc⟩
    refine ⟨r, by rw [hadj]; exact hr, ?_⟩
    rw [hcol, if_neg (fun e => by rw [e, hxu] at hrc; omega)]
    exact hrc
  have hv : (setVertexColor t x c).vertices = t.vertices := rfl
  refine ⟨?_, ?_, ?_⟩
  · intro q hq hqc d hd0 hd1
    rw [hcol] at hqc hd1
    by_cases e : q = x
    · rw [if_pos e] at hd1
      rw [e]
      exact keep x d hd0 (hs x hxv hxu d hd0 hd1)
    · rw [if_neg e] at hqc hd1
      exact keep q d hd0 (hl q hq hqc d hd0 hd1)
  · intro q hq hqc d hd0 hd1
    rw [hcol] at hqc
    by_cases e : q = x
    · rw [if_pos e] at hqc; omega
    · rw [if_neg e] at hqc
      exact keep q d hd0 (hs q hq hqc d hd0 hd1)
  · intro q hq hqc
    rw [hcol] at hqc
    by_cases e : q = x
    · rw [if_pos e] at hqc; omega
    · rw [if_neg e] at hqc
      rcases hk q hq hqc with h1 | h1
      · rcases hsub q h1 hq e with h2 | h2
        · exact Or.inl h2
        · right
          refine ⟨x, by rw [hadj]; exact h2, ?_⟩
          rw [hcol, if_pos rfl]
      · exact Or.inr (keep q c hc h1)

theorem saturated_succ {t : State} {c : Int} (hs : Saturated t c) (hk : Complete t c []) :
    Saturated t (c + 1) := by
  intro q hq hqc d hd0 hd1
  by_cases e : d = c
  · rcases hk q hq hqc with h | h
    · cases h
    · rw [e]; exact h
  · exact hs q hq hqc d hd0 (by omega)

theorem wpInner_ladder (s0 : State) (hw : WellFormed s0) (c : Int) (hc : 0 ≤ c) :
    ∀ (fuel : Nat) (t : State) (cand : List Nat) (t1 : State),
      wpInner c fuel t cand = some t1 → SameGraph s0 t → Candidates t c cand → Ladder t →
      Saturated t c → Complete t c cand → Ladder t1 ∧ Saturated t1 (c + 1) := by
  intro fuel
  induction fuel with
  | zero => intro t cand t1 h; cases h
  | succ fuel ih =>
    intro t cand t1 h hsg hcand hl hs hk
    cases cand with
    | nil =>
      have e : t = t1 := by
        have : wpInner c (fuel + 1) t [] = some t := rfl
        rw [this] at h
        exact Option.some.inj h
      subst e
      exact ⟨hl, saturated_succ hs hk⟩
    | cons x rest =>
      have hwt : WellFormed t := wellFormed_of_sameGraph hsg hw
      obtain ⟨hxv, hxu, hxn⟩ := hcand x (List.mem_cons_self _ _)
      have hxl : x < t.heap.length := hwt.2.1 x hxv
      have hsg1 := sameGraph_setVertexColor t x c
      have hadj : ∀ p, (deref (setVertexColor t x c).heap p).adjacentVertices =
          (deref t.heap p).adjacentVertices := fun p => (hsg1.2.2.2 p).1
      have h1 : wpInner c fuel (setVertexColor t x c)
          (removeNeighbors (setVertexColor t x c).heap x (x :: rest)) = some t1 := h
      have hmem : ∀ q, q ∈ removeNeighbors (setVertexColor t x c).heap x (x :: rest) ↔
          q ∈ x :: rest ∧ x ≠ q ∧ q ∉ (deref t.heap x).adjacentVertices := by
        intro q
        unfold removeNeighbors
        rw [List.mem_filter]
        simp only [Bool.and_eq_true, decide_eq_true_eq, Bool.not_eq_true',
          ← Bool.not_eq_true, neighbors_iff, hadj]
      obtain ⟨g1, g2, g3⟩ := @greedy_step t c x (x :: rest)
        (removeNeighbors (setVertexColor t x c).heap x (x :: rest)) hwt hc hxv hxu hl hs hk
        (fun q hq hqv hqx => by
          by_cases hn : q ∈ (deref t.heap x).adjacentVertices
          · exact Or.inr (hwt.2.2 x hxv q hn).2.2
          · exact Or.inl ((hmem q).2 ⟨hq, fun e => hqx e.symm, hn⟩))
      apply ih _ _ _ h1 (sameGraph_trans hsg hsg1) _ g1 g2 g3
      apply candidates_step hxl hcand
      intro q hq
      obtain ⟨a, b, d⟩ := (hmem q).1 hq
      exact ⟨a, fun e => b e.symm, fun hxq => d (hwt.2.2 q (hcand q a).1 x hxq).2.2⟩

theorem rlfInner_ladder (s0 : State) (hw : WellFormed s0) (c : Int) (hc : 0 ≤ c) :
    ∀ (fuel : Nat) (t : State) (setU setV : List Nat) (t1 : State),
      rlfInner c fuel t setU setV = some t1 → SameGraph s0 t → Candidates t c setV → Ladder t →
      Saturated t c → Complete t c setV → Ladder t1 ∧ Saturated t1 (c + 1) := by
  intro fuel
  induction fuel with
  | zero => intro t setU setV t1 h; cases h
  | succ fuel ih =>
    intro t setU setV t1 h hsg hcand hl hs hk
    unfold rlfInner at h
    by_cases hpos : setV.length > 0
    · rw [if_pos hpos] at h
      simp only [] at h
      have hwt : WellFormed t := wellFormed_of_sameGraph hsg hw
      have hmemx := findSecondaryVertex_mem t.heap setU setV hpos
      generalize findSecondaryVertex t.heap setU setV = x at hmemx h
      obtain ⟨hxv, hxu, hxn⟩ := hcand x hmemx
      have hxl : x < t.heap.length := hwt.2.1 x hxv
      have hsg1 := sameGraph_setVertexColor t x c
      have hadj : ∀ p, (deref (setVertexColor t x c).heap p).adjacentVertices =
          (deref t.heap p).adjacentVertices := fun p => (hsg1.2.2.2 p).1
      have hmem : ∀ q, q ∈ (updateUV (setVertexColor t x c).heap setU setV x).2 ↔
          q ∈ setV ∧ q ≠ x ∧ x ∉ (deref t.heap q).adjacentVertices := by
        intro q
        unfold updateUV
        rw [List.mem_filter]
        simp only [Bool.and_eq_true, decide_eq_true_eq, Bool.not_eq_true',
          ← Bool.not_eq_true, neighbors_iff, hadj]
      obtain ⟨g1, g2, g3⟩ := @greedy_step t c x setV
        (updateUV (setVertexColor t x c).heap setU setV x).2 hwt hc hxv hxu hl hs hk
        (fun q hq hqv hqx => by
          by_cases hn : x ∈ (deref t.heap q).adjacentVertices
          · exact Or.inr hn
          · exact Or.inl ((hmem q).2 ⟨hq, hqx, hn⟩))
      apply ih _ _ _ _ h (sameGraph_trans hsg hsg1) _ g1 g2 g3
      apply candidates_step hxl hcand
      intro q hq
      exact (hmem q).1 hq
    · rw [if_neg hpos] at h
      have e : t = t1 := Option.some.inj h
      subst e
      have hnil : setV = [] := List.length_eq_zero.1 (by omega)
      rw [hnil] at hk
      exact ⟨hl, saturated_succ hs hk⟩

theorem complete_uncolored (t : State) (c : Int) : Complete t c (uncoloredVertices t) := by
  intro q hq hqc
  left
  unfold uncoloredVertices
  rw [List.mem_filter]
  exact ⟨hq, decide_eq_true hqc⟩

theorem wpOuter_ladder (s0 : State) (hw : WellFormed s0) (inner : Nat)
    (hinner : s0.vertices.length < inner) (hvc : s0.VERTEX_COUNTER = -1) :
    ∀ (fuel : Nat) (t : State) (c r : Int) (s2 : State),
      wpOuter inner fuel t (selectNextVertexFF t) c = some (r, s2) → 0 ≤ c → SameGraph s0 t →
      PartialProper t c → ClassesUsed t c → Ladder t → Saturated t c → Ladder s2 := by
  intro fuel
  induction fuel with
  | zero => intro t c r s2 h; cases h
  | succ fuel ih =>
    intro t c r s2 h hc hsg hpp hcu hl hs
    have hwt : WellFormed t := wellFormed_of_sameGraph hsg hw
    have hvct : t.VERTEX_COUNTER = -1 := by rw [hsg.2.2.1, hvc]
    unfold wpOuter at h
    by_cases hsel : selectNextVertexFF t = -1
    · rw [if_neg (by simpa using hsel)] at h
      have e : t = s2 := (Prod.mk.inj (Option.some.inj h)).2
      rw [← e]
      exact hl
    · rw [if_pos hsel] at h
      obtain ⟨hxv, hxu⟩ := selectNextVertexFF_found t hvct hsel
      generalize t.vertices.getD (selectNextVertexFF t).toNat 0 = x at hxv hxu h
      have hxl : x < t.heap.length := hwt.2.1 x hxv
      have hsg1 := sameGraph_setVertexColor t x c
      have hadj : ∀ p, (deref (setVertexColor t x c).heap p).adjacentVertices =
          (deref t.heap p).adjacentVertices := fun p => (hsg1.2.2.2 p).1
      have hcol : ∀ r ∈ t.vertices, (deref t.heap r).color ≠ c := by
        intro r hr
        rcases hpp.1 r hr with h1 | h1 <;> omega
      have hxn : ∀ r ∈ (deref t.heap x).adjacentVertices, (deref t.heap r).color ≠ c :=
        fun r hr => hcol r (hwt.2.2 x hxv r hr).1
      have hpp1 := partialProper_step hwt (partialProper_mono hpp (by omega)) hc hxv hxn
      have hcu1 := classesUsed_new hxl hxv hcu hxu
      have hmem : ∀ q, q ∈ removeNeighbors (setVertexColor t x c).heap x
            (uncoloredVertices (setVertexColor t x c)) ↔
          (q ∈ t.vertices ∧ (deref (setVertexColor t x c).heap q).color = -1) ∧ x ≠ q ∧
            q ∉ (deref t.heap x).adjacentVertices := by
        intro q
        unfold removeNeighbors uncoloredVertices
        rw [List.mem_filter, List.mem_filter]
        simp only [Bool.and_eq_true, decide_eq_true_eq, Bool.not_eq_true',
          ← Bool.not_eq_true, neighbors_iff, hadj]
        rfl
      have hcand : Candidates (setVertexColor t x c) c
          (removeNeighbors (setVertexColor t x c).heap x
            (uncoloredVertices (setVertexColor t x c))) := by
        intro q hq
        obtain ⟨⟨hq1, hq3⟩, hq2, hq4⟩ := (hmem q).1 hq
        refine ⟨hq1, hq3, ?_⟩
        intro r hr
        rw [hadj] at hr
        rw [setVertexColor_color _ _ _ _ hxl]
        by_cases h : r = x
        · subst h
          exact absurd (hwt.2.2 q hq1 r hr).2.2 hq4
        · rw [if_neg h]
          exact hcol r (hwt.2.2 q hq1 r hr).1
      have hlen : (removeNeighbors (setVertexColor t x c).heap x
          (uncoloredVertices (setVertexColor t x c))).length < inner := by
        unfold removeNeighbors uncoloredVertices
        have h1 := List.length_filter_le (fun q => decide (x ≠ q) &&
          !neighbors (setVertexColor t x c).heap x q)
          (List.filter (fun p => decide ((deref (setVertexColor t x c).heap p).color = -1))
            (setVertexColor t x c).vertices)
        have h2 := List.length_filter_le
          (fun p => decide ((deref (setVertexColor t x c).heap p).color = -1))
          (setVertexColor t x c).vertices
        have h3 : (setVertexColor t x c).vertices = s0.vertices := hsg.1
        have h4 : (setVertexColor t x c).vertices.length = s0.vertices.length := by rw [h3]
        omega
      obtain ⟨t1, e1, hsgt1, hppt1, hcut1⟩ := wpInner_spec s0 hw c hc inner _ _
        (sameGraph_trans hsg hsg1) hpp1 hcu1 hcand hlen
      obtain ⟨g1, g2, g3⟩ := @greedy_step t c x (uncoloredVertices t)
        (removeNeighbors (setVertexColor t x c).heap x
          (uncoloredVertices (setVertexColor t x c))) hwt hc hxv hxu hl hs
        (complete_uncolored t c)
        (fun q hq hqv hqx => by
          by_cases hn : q ∈ (deref t.heap x).adjacentVertices
          · exact Or.inr (hwt.2.2 x hxv q hn).2.2
          · left
            refine (hmem q).2 ⟨⟨hqv, ?_⟩, fun e => hqx e.symm, hn⟩
            rw [setVertexColor_color _ _ _ _ hxl, if_neg hqx]
            unfold uncoloredVertices at hq
            rw [List.mem_filter] at hq
            exact of_decide_eq_true hq.2)
      obtain ⟨l1, l2⟩ := wpInner_ladder s0 hw c hc inner _ _ t1 e1
        (sameGraph_trans hsg hsg1) hcand g1 g2 g3
      simp only [e1] at h
      exact ih t1 (c + 1) r s2 h (by omega) hsgt1 hppt1 hcut1 l1 l2

theorem createSetsUV_members (s : State) (primaryVertex p : Nat) :
    (p ∈ (createSetsUV s primaryVertex).1 ↔ p ∈ s.vertices ∧ p ≠ primaryVertex ∧
      ((deref s.heap p).color ≠ -1 ∨ primaryVertex ∈ (deref s.heap p).adjacentVertices)) ∧
    (p ∈ (createSetsUV s primaryVertex).2 ↔ p ∈ s.vertices ∧ p ≠ primaryVertex ∧
      (deref s.heap p).color = -1 ∧ primaryVertex ∉ (deref s.heap p).adjacentVertices) := by
  have hn : neighbors s.heap p primaryVertex = true ↔
      primaryVertex ∈ (deref s.heap p).adjacentVertices := neighbors_iff s.heap p _
  constructor
  · unfold createSetsUV
    simp only [List.mem_filter, decide_eq_true_eq, Bool.or_eq_true, hn]
    tauto
  · unfold createSetsUV
    simp only [List.mem_filter, decide_eq_true_eq, Bool.not_eq_true', Bool.or_eq_false_iff,
      decide_eq_false_iff_not, not_not]
    constructor
    · rintro ⟨⟨h1, h2⟩, h3, h4⟩
      exact ⟨h1, h2, h3, fun c => by rw [hn.2 c] at h4; exact absurd h4 (by decide)⟩
    · rintro ⟨h1, h2, h3, h4⟩
      refine ⟨⟨h1, h2⟩, h3, ?_⟩
      cases hb : neighbors s.heap p primaryVertex
      · rfl
      · exact absurd (hn.1 hb) h4

theorem rlfOuter_ladder (s0 : State) (hw : WellFormed s0) (inner : Nat)
    (hinner : s0.vertices.length < inner) (hvc : s0.VERTEX_COUNTER = -1) :
    ∀ (fuel : Nat) (t : State) (c r : Int) (s2 : State),
      rlfOuter inner fuel t (selectNextVertexFF t) c = some (r, s2) → 0 ≤ c → SameGraph s0 t →
      PartialProper t c → ClassesUsed t c → Ladder t → Saturated t c → Ladder s2 := by
  intro fuel
  induction fuel with
  | zero => intro t c r s2 h; cases h
  | succ fuel ih =>
    intro t c r s2 h hc hsg hpp hcu hl hs
    have hwt : WellFormed t := wellFormed_of_sameGraph hsg hw
    have hvct : t.VERTEX_COUNTER = -1 := by rw [hsg.2.2.1, hvc]
    unfold rlfOuter at h
    by_cases hsel : selectNextVertexFF t = -1
    · rw [if_neg (by simpa using hsel)] at h
      have e : t = s2 := (Prod.mk.inj (Option.some.inj h)).2
      rw [← e]
      exact hl
    · rw [if_pos hsel] at h
      obtain ⟨hxv, hxu⟩ := selectNextVertexFF_found t hvct hsel
      generalize t.vertices.getD (selectNextVertexFF t).toNat 0 = x at hxv hxu h
      have hxl : x < t.heap.length := hwt.2.1 x hxv
      have hsg1 := sameGraph_setVertexColor t x c
      have hadj : ∀ p, (deref (setVertexColor t x c).heap p).adjacentVertices =
          (deref t.heap p).adjacentVertices := fun p => (hsg1.2.2.2 p).1
      have hcol : ∀ r ∈ t.vertices, (deref t.heap r).color ≠ c := by
        intro r hr
        rcases hpp.1 r hr with h1 | h1 <;> omega
      have hxn : ∀ r ∈ (deref t.heap x).adjacentVertices, (deref t.heap r).color ≠ c :=
        fun r hr => hcol r (hwt.2.2 x hxv r hr).1
      have hpp1 := partialProper_step hwt (partialProper_mono hpp (by omega)) hc hxv hxn
      have hcu1 := classesUsed_new hxl hxv hcu hxu
      have hmem : ∀ q, q ∈ (createSetsUV (setVertexColor t x c) x).2 ↔
          q ∈ t.vertices ∧ q ≠ x ∧ (deref (setVertexColor t x c).heap q).color = -1 ∧
            x ∉ (deref t.heap q).adjacentVertices := by
        intro q
        have := (createSetsUV_members (setVertexColor t x c) x q).2
        rw [hadj] at this
        exact this
      have hcand : Candidates (setVertexColor t x c) c
          (createSetsUV (setVertexColor t x c) x).2 := by
        intro q hq
        obtain ⟨hq1, _, hq3, hq4⟩ := (hmem q).1 hq
        refine ⟨hq1, hq3, ?_⟩
        intro r hr
        rw [hadj] at hr
        rw [setVertexColor_color _ _ _ _ hxl]
        by_cases h : r = x
        · subst h
          exact absurd hr hq4
        · rw [if_neg h]
          exact hcol r (hwt.2.2 q hq1 r hr).1
      have hlen : (createSetsUV (setVertexColor t x c) x).2.length < inner := by
        unfold createSetsUV
        simp only
        have h1 := List.length_filter_le (fun p =>
          !(decide ((deref (setVertexColor t x c).heap p).color ≠ -1) ||
            neighbors (setVertexColor t x c).heap p x))
          (List.filter (fun p => decide (p ≠ x)) (setVertexColor t x c).vertices)
        have h2 := List.length_filter_le (fun p => decide (p ≠ x))
          (setVertexColor t x c).vertices
        have h3 : (setVertexColor t x c).vertices = s0.vertices := hsg.1
        have h4 : (setVertexColor t x c).vertices.length = s0.vertices.length := by rw [h3]
        omega
      obtain ⟨t1, e1, hsgt1, hppt1, hcut1⟩ := rlfInner_spec s0 hw c hc inner _
        (createSetsUV (setVertexColor t x c) x).1 _
        (sameGraph_trans hsg hsg1) hpp1 hcu1 hcand hlen
      obtain ⟨g1, g2, g3⟩ := @greedy_step t c x (uncoloredVertices t)
        (createSetsUV (setVertexColor t x c) x).2 hwt hc hxv hxu hl hs
        (complete_uncolored t c)
        (fun q hq hqv hqx => by
          by_cases hn : x ∈ (deref t.heap q).adjacentVertices
          · exact Or.inr hn
          · left
            refine (hmem q).2 ⟨hqv, hqx, ?_, hn⟩
            rw [setVertexColor_color _ _ _ _ hxl, if_neg hqx]
            unfold uncoloredVertices at hq
            rw [List.mem_filter] at hq
            exact of_decide_eq_true hq.2)
      obtain ⟨l1, l2⟩ := rlfInner_ladder s0 hw c hc inner _ _ _ t1 e1
        (sameGraph_trans hsg hsg1) hcand g1 g2 g3
      simp only [e1] at h
      exact ih t1 (c + 1) r s2 h (by omega) hsgt1 hppt1 hcut1 l1 l2

theorem ladder_degree {t : State} {q : Nat} (hq : q ∈ t.vertices) (hl : Ladder t)
    (h0 : 0 ≤ (deref t.heap q).color) :
    (deref t.heap q).color ≤ ((deref t.heap q).adjacentVertices.length : Int) := by
  have hsub : List.range (deref t.heap q).color.toNat ⊆
      (deref t.heap q).adjacentVertices.map (fun r => (deref t.heap r).color.toNat) := by
    intro d hd
    rw [List.mem_range] at hd
    obtain ⟨r, hr, hrc⟩ := hl q hq (by omega) (d : Int) (by omega) (by omega)
    rw [List.mem_map]
    exact ⟨r, hr, by rw [hrc]; simp⟩
  have h1 := (List.subperm_of_subset (List.nodup_range _) hsub).length_le
  rw [List.length_range, List.length_map] at h1
  omega

/-- The size of a greedy coloring: when every color below `r` is used and every colored vertex
has a neighbor of each smaller color, `r` is at most `Δ + 1`. -/
theorem ladder_bound {s s2 : State} {r : Int} {Δ : Nat} (hsg : SameGraph s s2)
    (hcu : ClassesUsed s2 r) (hl : Ladder s2)
    (hΔ : ∀ p ∈ s.vertices, (deref s.heap p).adjacentVertices.length ≤ Δ) :
    r ≤ (Δ : Int) + 1 := by
  by_contra hlt
  obtain ⟨p, hp, hpcol⟩ := hcu (r - 1) (by omega) (by omega)
  have h1 := ladder_degree hp hl (by omega)
  have hps : p ∈ s.vertices := by rw [← hsg.1]; exact hp
  have h2 := hΔ p hps
  rw [(hsg.2.2.2 p).1] at h1
  omega

/-- Claim C40. On a simple graph whose vertices have at most `Δ` neighbors, with every vertex
uncolored and `VERTEX_COUNTER = -1`, `upperBoundWP` and `upperBoundRLF` return (any `fuel` above
the vertex count is enough) values of at most `Δ + 1`: in the coloring each of them builds
before the reset, every vertex has a neighbor in each class built before its own, so every
class is maximal among the vertices that were still uncolored. -/
theorem upperBounds_within_max_degree (s : State) (fuel Δ : Nat) (hw : WellFormed s)
    (hu : Uncolored s) (hvc : s.VERTEX_COUNTER = -1) (hf : s.vertices.length < fuel)
    (hΔ : ∀ p ∈ s.vertices, (deref s.heap p).adjacentVertices.length ≤ Δ) :
    (∃ r s2, upperBoundWP fuel s = some (r, clearColoring s2) ∧ ProperlyColored s2 r ∧
      Ladder s2 ∧ r ≤ (Δ : Int) + 1) ∧
    (∃ r s2, upperBoundRLF fuel s = some (r, clearColoring s2) ∧ ProperlyColored s2 r ∧
      Ladder s2 ∧ r ≤ (Δ : Int) + 1) := by
  have hp := sortFrom_perm s 0 compareByDegree
  have hw1 := wellFormed_sortFrom s compareByDegree hw
  have hlen : (sortFrom s 0 compareByDegree).vertices.length = s.vertices.length := hp.length_eq
  have hpp0 : PartialProper (sortFrom s 0 compareByDegree) 0 :=
    ⟨fun p hpm => Or.inl (hu p (hp.mem_iff.1 hpm)),
      fun p hpm q _ hc => absurd (hu p (hp.mem_iff.1 hpm)) hc⟩
  have hcu0 : ClassesUsed (sortFrom s 0 compareByDegree) 0 := fun d h0 h1 => by omega
  have hl0 : Ladder (sortFrom s 0 compareByDegree) :=
    fun q hq hc => absurd (hu q (hp.mem_iff.1 hq)) hc
  have hs0 : Saturated (sortFrom s 0 compareByDegree) 0 := fun q _ _ d h0 h1 => by omega
  have hΔ1 : ∀ p ∈ (sortFrom s 0 compareByDegree).vertices,
      (deref (sortFrom s 0 compareByDegree).heap p).adjacentVertices.length ≤ Δ :=
    fun p hpm => hΔ p (hp.mem_iff.1 hpm)
  constructor
  · obtain ⟨r, s2, e, hsg, hpc, hcu, _⟩ := wpOuter_spec (sortFrom s 0 compareByDegree) hw1 fuel
      (by rw [hlen]; exact hf) hvc fuel (sortFrom s 0 compareByDegree) 0 (le_refl 0)
      (sameGraph_refl _) hpp0 hcu0 (by rw [hlen]; omega)
    have hl := wpOuter_ladder (sortFrom s 0 compareByDegree) hw1 fuel
      (by rw [hlen]; exact hf) hvc fuel _ 0 r s2 e (le_refl 0) (sameGraph_refl _) hpp0 hcu0
      hl0 hs0
    refine ⟨r, s2, ?_, hpc, hl, ladder_bound hsg hcu hl hΔ1⟩
    unfold upperBoundWP
    simp only [e]
  · obtain ⟨r, s2, e, hsg, hpc, hcu, _⟩ := rlfOuter_spec (sortFrom s 0 compareByDegree) hw1 fuel
      (by rw [hlen]; exact hf) hvc fuel (sortFrom s 0 compareByDegree) 0 (le_refl 0)
      (sameGraph_refl _) hpp0 hcu0 (by rw [hlen]; omega)
    have hl := rlfOuter_ladder (sortFrom s 0 compareByDegree) hw1 fuel
      (by rw [hlen]; exact hf) hvc fuel _ 0 r s2 e (le_refl 0) (sameGraph_refl _) hpp0 hcu0
      hl0 hs0
    refine ⟨r, s2, ?_, hpc, hl, ladder_bound hsg hcu hl hΔ1⟩
    unfold upperBoundRLF
    simp only [e]

set_option maxRecDepth 100000 in
theorem upperBounds_within_max_degree_witness :
    WellFormed pathThree ∧ Uncolored pathThree ∧ pathThree.VERTEX_COUNTER = -1 ∧
    (∀ p ∈ pathThree.vertices, (deref pathThree.heap p).adjacentVertices.length ≤ 2) ∧
    (∃ r s2, upperBoundWP 4 pathThree = some (r, clearColoring s2) ∧ ProperlyColored s2 r ∧
      Ladder s2 ∧ r ≤ ((2 : Nat) : Int) + 1) ∧
    (∃ r s2, upperBoundRLF 4 pathThree = some (r, clearColoring s2) ∧ ProperlyColored s2 r ∧
      Ladder s2 ∧ r ≤ ((2 : Nat) : Int) + 1) :=
  ⟨by unfold WellFormed; decide, by unfold Uncolored; decide, by decide, by decide,
    upperBounds_within_max_degree pathThree 4 2 (by unfold WellFormed; decide)
      (by unfold Uncolored; decide) (by decide) (by decide) (by decide)⟩

/-! ## coloring.c : the propagation -/

theorem pow_two_of_and_pred (a : Nat) (h0 : a ≠ 0) (h : a &&& (a - 1) = 0) : ∃ j, a = 2 ^ j := by
  induction a using Nat.strong_induction_on with
  | _ a ih =>
    have h2 : a / 2 &&& (a - 1) / 2 = 0 := by
      rw [← Nat.and_div_two, h]
    by_cases hodd : a % 2 = 1
    · have e : (a - 1) / 2 = a / 2 := by omega
      rw [e, Nat.and_self] at h2
      exact ⟨0, by omega⟩
    · have e : (a - 1) / 2 = a / 2 - 1 := by omega
      rw [e] at h2
      obtain ⟨j, hj⟩ := ih (a / 2) (by omega) (by omega) h2
      exact ⟨j + 1, by rw [Nat.pow_succ]; omega⟩

/-- A 64-bit domain with a single color: `__builtin_ctzll` returns that color. -/
theorem single_color (a : Nat) (h0 : a ≠ 0) (h1 : a < 2 ^ 64) (h : a &&& (a - 1) = 0) :
    ∃ j : Nat, j < 64 ∧ ctzll a = (j : Int) ∧ a = 2 ^ j := by
  obtain ⟨j, hj, e, t⟩ := ctzll_spec a h0 h1
  obtain ⟨i, hi⟩ := pow_two_of_and_pred a h0 h
  refine ⟨j, hj, e, ?_⟩
  rw [hi, Nat.testBit_two_pow] at t
  have : i = j := of_decide_eq_true t
  rw [hi, this]

theorem eq_two_pow_of_subset (a j : Nat) (h1 : ∀ i, a.testBit i = true → (2 ^ j).testBit i = true)
    (h2 : a.testBit j = true) : a = 2 ^ j := by
  apply Nat.eq_of_testBit_eq
  intro i
  by_cases e : j = i
  · rw [← e, h2, Nat.testBit_two_pow_self]
  · rw [Nat.testBit_two_pow_of_ne e]
    by_contra hc
    have := h1 i (by simpa using hc)
    rw [Nat.testBit_two_pow_of_ne e] at this
    cases this

theorem lt_of_testBit_subset (a b n : Nat) (h : ∀ i, a.testBit i = true → b.testBit i = true)
    (hb : b < 2 ^ n) : a < 2 ^ n :=
  Nat.lt_of_le_of_lt (Nat.le_of_testBit h) hb

/-- What `removeNeighborColors` changes, whatever the state: the bit `color` of the domains of
the listed vertices is cleared, and nothing else is touched but the two change arrays. -/
theorem removeNeighborColors_frame (c : Int) (hc0 : 0 ≤ c) (hc1 : c ≤ 63) :
    ∀ (rest : List Nat) (s : State) (log : ChangeLog),
      (removeNeighborColors rest c s log).1.vertices = s.vertices ∧
      (removeNeighborColors rest c s log).1.heap.length = s.heap.length ∧
      (removeNeighborColors rest c s log).2.coloredVertices = log.coloredVertices ∧
      (∀ q, (deref (removeNeighborColors rest c s log).1.heap q).adjacentVertices =
        (deref s.heap q).adjacentVertices) ∧
      (∀ q, (deref (removeNeighborColors rest c s log).1.heap q).color =
        (deref s.heap q).color) ∧
      (∀ q, (deref (removeNeighborColors rest c s log).1.heap q).nbConflicts =
        (deref s.heap q).nbConflicts) ∧
      (∀ q i, (deref (removeNeighborColors rest c s log).1.heap q).availableColors.testBit i =
        ((deref s.heap q).availableColors.testBit i && !(decide (i = c.toNat) && decide (q ∈ rest)))) := by
  have hbit : bit64 c = 2 ^ c.toNat := bit64_eq c hc0 (by omega)
  intro rest
  induction rest with
  | nil =>
    intro s log
    refine ⟨rfl, rfl, rfl, fun _ => rfl, fun _ => rfl, fun _ => rfl, fun q i => ?_⟩
    have e : removeNeighborColors [] c s log = (s, log) := rfl
    rw [e]
    simp
  | cons nv rest ih =>
    intro s log
    unfold removeNeighborColors
    by_cases hb : (deref s.heap nv).availableColors &&& bit64 c ≠ 0
    · rw [if_pos hb]
      have ht : (deref s.heap nv).availableColors.testBit c.toNat = true := by
        rw [hbit] at hb
        exact (and_two_pow_ne_zero _ _).1 hb
      have hge : 2 ^ c.toNat ≤ (deref s.heap nv).availableColors := Nat.testBit_implies_ge ht
      have hnv : nv < s.heap.length :=
        avail_pos_valid _ _ (fun e => by rw [e] at hge; have := Nat.two_pow_pos c.toNat; omega)
      obtain ⟨m1, m2, m3, m4⟩ := modify_avail s nv (fun a => a - bit64 c) hnv
      have m5 : ∀ q, (deref (modify s nv
          (fun v => { v with availableColors := v.availableColors - bit64 c })).heap q).nbConflicts =
          (deref s.heap q).nbConflicts :=
        fun q => deref_modify_field (fun v => v.nbConflicts) s nv q _ (fun _ => rfl)
      obtain ⟨r1, r2, r3, r4, r5, r6, r7⟩ := ih
        (modify s nv (fun v => { v with availableColors := v.availableColors - bit64 c }))
        { log with
          changedVertices := (recordChange nv (bit64 c) log.changedVertices log.vertexChanges).1
          vertexChanges := (recordChange nv (bit64 c) log.changedVertices log.vertexChanges).2 }
      refine ⟨r1, by rw [r2, modify_heap_length], r3, fun q => by rw [r4, m1],
        fun q => by rw [r5, m2], fun q => by rw [r6, m5], fun q i => ?_⟩
      rw [r7]
      by_cases e : q = nv
      · subst e
        rw [m3, hbit, testBit_sub_two_pow _ _ _ ht]
        by_cases e2 : i = c.toNat
        · simp [e2]
        · simp [e2]
      · rw [m4 q e]
        simp [e]
    · rw [if_neg hb]
      have ht : (deref s.heap nv).availableColors.testBit c.toNat = false := by
        rw [hbit] at hb
        by_contra hc
        exact hb ((and_two_pow_ne_zero _ _).2 (by simpa using hc))
      obtain ⟨r1, r2, r3, r4, r5, r6, r7⟩ := ih s log
      refine ⟨r1, r2, r3, r4, r5, r6, fun q i => ?_⟩
      rw [r7]
      by_cases e : q = nv
      · subst e
        by_cases e2 : i = c.toNat
        · rw [e2, ht]; simp
        · simp [e2]
      · simp [e]

/-- A state with the array, the adjacency lists, the colors and the domains of a consistent
state is consistent. -/
theorem consistent_congr {s t : State} (h : Consistent s) (hv : t.vertices = s.vertices)
    (hl : t.heap.length = s.heap.length)
    (hadj : ∀ q, (deref t.heap q).adjacentVertices = (deref s.heap q).adjacentVertices)
    (hcol : ∀ q, (deref t.heap q).color = (deref s.heap q).color)
    (hav : ∀ q, (deref t.heap q).availableColors = (deref s.heap q).availableColors) :
    Consistent t := by
  refine ⟨⟨by rw [hv]; exact h.wf.1, fun p hp => by rw [hl]; exact h.wf.2.1 p (by rw [← hv]; exact hp),
    fun p hp q hq => ?_⟩, fun p hp => by rw [hav]; exact h.dom p (by rw [← hv]; exact hp),
    fun p hp hc u hu huc => ?_, fun p hp hc u hu => ?_⟩
  · rw [hv] at hp ⊢
    rw [hadj] at hq
    rw [hadj]
    exact h.wf.2.2 p hp q hq
  · rw [hv] at hp
    rw [hcol] at hc huc
    rw [hadj] at hu
    rw [hav, hcol]
    exact h.excl p hp hc u hu huc
  · rw [hv] at hp
    rw [hcol] at hc
    rw [hadj] at hu
    rw [hcol, hcol]
    exact h.proper p hp hc u hu

/-- Coloring an uncolored vertex `x` with a color of its domain and removing that color from
the domains of its neighbors keeps the partial coloring consistent. The state `s1` is `s` with
`x` colored. -/
theorem consistent_after_remove {s s1 : State} {x : Nat} {c : Int} (h : Consistent s)
    (hx : x ∈ s.vertices) (hxu : (deref s.heap x).color = -1) (hc0 : 0 ≤ c) (hc1 : c ≤ 63)
    (hbit : (deref s.heap x).availableColors.testBit c.toNat = true)
    (hv : s1.vertices = s.vertices) (hl : s1.heap.length = s.heap.length)
    (hadj : ∀ q, (deref s1.heap q).adjacentVertices = (deref s.heap q).adjacentVertices)
    (hav : ∀ q, (deref s1.heap q).availableColors = (deref s.heap q).availableColors)
    (hcol : ∀ q, (deref s1.heap q).color = if q = x then c else (deref s.heap q).color)
    (log : ChangeLog) :
    Consistent (removeNeighborColors (deref s1.heap x).adjacentVertices c s1 log).1 := by
  obtain ⟨r1, r2, _, r4, r5, _, r7⟩ :=
    removeNeighborColors_frame c hc0 hc1 (deref s1.heap x).adjacentVertices s1 log
  have hshr : ∀ q i, (deref (removeNeighborColors (deref s1.heap x).adjacentVertices c s1
      log).1.heap q).availableColors.testBit i = true →
      (deref s.heap q).availableColors.testBit i = true := by
    intro q i hi
    rw [r7, hav] at hi
    simp only [Bool.and_eq_true] at hi
    exact hi.1
  refine ⟨⟨by rw [r1, hv]; exact h.wf.1,
    fun p hp => by rw [r2, hl]; exact h.wf.2.1 p (by rw [← hv, ← r1]; exact hp),
    fun p hp q hq => ?_⟩,
    fun p hp => lt_of_testBit_subset _ _ 64 (hshr p) (h.dom p (by rw [← hv, ← r1]; exact hp)),
    fun p hp hpc u hu huc => ?_, fun p hp hpc u hu => ?_⟩
  · rw [r1, hv] at hp ⊢
    rw [r4, hadj] at hq
    rw [r4, hadj]
    exact h.wf.2.2 p hp q hq
  · rw [r1, hv] at hp
    rw [r5, hcol] at hpc huc
    rw [r4, hadj] at hu
    rw [r5, hcol, r7, hav]
    have hpx : p ≠ x := fun e => by rw [if_pos e] at hpc; omega
    rw [if_neg hpx] at hpc
    by_cases e : u = x
    · rw [if_pos e]
      have hmem : p ∈ (deref s1.heap x).adjacentVertices := by
        rw [hadj]
        rw [e] at hu
        exact (h.wf.2.2 p hp x hu).2.2
      simp [hmem]
    · rw [if_neg e] at huc ⊢
      rw [h.excl p hp hpc u hu huc]
      rfl
  · rw [r1, hv] at hp
    rw [r5, hcol] at hpc
    rw [r4, hadj] at hu
    rw [r5, r5, hcol, hcol]
    have hum : u ∈ s.vertices := (h.wf.2.2 p hp u hu).1
    by_cases e : p = x
    · rw [if_pos e]
      rw [e] at hu
      have hux : u ≠ x := (h.wf.2.2 x hx u hu).2.1
      rw [if_neg hux]
      by_cases huc : (deref s.heap u).color = -1
      · omega
      · intro hcc
        have := h.excl x hx hxu u hu huc
        rw [hcc, hbit] at this
        cases this
    · rw [if_neg e] at hpc ⊢
      by_cases e2 : u = x
      · rw [if_pos e2]
        rw [e2] at hu
        have hpx : p ∈ (deref s.heap x).adjacentVertices := (h.wf.2.2 p hp x hu).2.2
        intro hcc
        have := h.excl x hx hxu p hpx hpc
        rw [← hcc, hbit] at this
        cases this
      · rw [if_neg e2]
        exact h.proper p hp hpc u hu

theorem persistPost_keeps {s t : State} {log log1 : ChangeLog} {nbrs new : List Nat} {res : Int}
    (h : PersistPost s log nbrs res t log1 new) : Keeps s t := by
  refine ⟨h.len, fun q hq => ?_⟩
  by_cases hn : q ∈ new
  · exact absurd (h.fresh q hn).2.1 hq
  · exact h.keep q hn

/-- Nothing to do: every listed vertex is settled. -/
theorem persistPost_refl {s : State} (log : ChangeLog) {nbrs : List Nat} (hc : Consistent s)
    (hs : ∀ q ∈ nbrs, Settled s q) : PersistPost s log nbrs 1 s log [] where
  result := Or.inl rfl
  cons := hc
  verts := rfl
  len := rfl
  adj := fun _ => rfl
  logc := (List.append_nil _).symm
  nodup := List.nodup_nil
  fresh := fun q hq => by cases hq
  keep := fun _ _ => rfl
  shrink := fun _ _ h => h
  own := fun _ _ _ h => h
  conflict := fun h => absurd h (by decide)
  quiet := fun _ _ => rfl
  settledKeep := fun _ _ h => h
  settled := fun _ => ⟨hs, fun q hq => by cases hq⟩

/-- After a conflict it does not matter which list was walked. -/
theorem persistPost_fail {s t : State} {log log1 : ChangeLog} {nbrs new : List Nat}
    (nbrs1 : List Nat) (hsub : ∀ q ∈ nbrs, q ∈ nbrs1)
    (h : PersistPost s log nbrs (-1) t log1 new) :
    PersistPost s log nbrs1 (-1) t log1 new :=
  { h with
    conflict := fun hr => by
      obtain ⟨q, hq, hreach, rest⟩ := h.conflict hr
      refine ⟨q, hq, ?_, rest⟩
      rcases hreach with h1 | h1
      · exact Or.inl (hsub q h1)
      · exact Or.inr h1
    settled := fun hr => absurd hr (by decide) }

/-- The conflict: the vertex `nb` is uncolored with an empty domain. -/
theorem persistPost_conflict {s : State} (log : ChangeLog) {nb : Nat} (nbrs : List Nat)
    (hmem : nb ∈ nbrs)
    (hc : Consistent s) (hnb : nb ∈ s.vertices) (hu : (deref s.heap nb).color = -1)
    (ha : (deref s.heap nb).availableColors = 0) :
    PersistPost s log nbrs (-1)
      (modify s nb (fun v => { v with nbConflicts := v.nbConflicts + 1 })) log [] := by
  have hl : nb < s.heap.length := hc.wf.2.1 nb hnb
  have fadj : ∀ q, (deref (modify s nb
      (fun v => { v with nbConflicts := v.nbConflicts + 1 })).heap q).adjacentVertices =
      (deref s.heap q).adjacentVertices :=
    fun q => deref_modify_field (fun v => v.adjacentVertices) s nb q _ (fun _ => rfl)
  have fcol : ∀ q, (deref (modify s nb
      (fun v => { v with nbConflicts := v.nbConflicts + 1 })).heap q).color =
      (deref s.heap q).color :=
    fun q => deref_modify_field (fun v => v.color) s nb q _ (fun _ => rfl)
  have fav : ∀ q, (deref (modify s nb
      (fun v => { v with nbConflicts := v.nbConflicts + 1 })).heap q).availableColors =
      (deref s.heap q).availableColors :=
    fun q => deref_modify_field (fun v => v.availableColors) s nb q _ (fun _ => rfl)
  exact {
    result := Or.inr rfl
    cons := consistent_congr hc rfl (modify_heap_length _ _ _) fadj fcol fav
    verts := rfl
    len := modify_heap_length _ _ _
    adj := fadj
    logc := (List.append_nil _).symm
    nodup := List.nodup_nil
    fresh := fun q hq => by cases hq
    keep := fun q _ => fcol q
    shrink := fun q i h => by rw [fav] at h; exact h
    own := fun q _ _ h => by rw [fav]; exact h
    conflict := fun _ => ⟨nb, hnb, Or.inl hmem, by rw [fcol]; exact hu, by rw [fav]; exact ha,
      by rw [deref_modify_self s nb _ hl], fun q1 h1 => by rw [deref_modify_ne s nb q1 _ h1]⟩
    quiet := fun h => absurd h (by decide)
    settledKeep := fun h => absurd h (by decide)
    settled := fun h => absurd h (by decide) }

/-- Two stretches of the walk, the first without conflict, make one. -/
theorem persistPost_trans {s s3 t : State} {log log3 log4 : ChangeLog}
    {l1 l2 new1 new2 : List Nat} {res : Int}
    (P1 : PersistPost s log l1 1 s3 log3 new1) (P2 : PersistPost s3 log3 l2 res t log4 new2) :
    PersistPost s log (l1 ++ l2) res t log4 (new1 ++ new2) := by
  have hdis : ∀ q, q ∈ new1 → q ∉ new2 := by
    intro q h1 h2
    have a := (P1.fresh q h1).2.2.1
    have b := (P2.fresh q h2).2.1
    omega
  exact {
    result := P2.result
    cons := P2.cons
    verts := P2.verts.trans P1.verts
    len := P2.len.trans P1.len
    adj := fun q => (P2.adj q).trans (P1.adj q)
    logc := by rw [P2.logc, P1.logc, List.append_assoc]
    nodup := List.nodup_append.2 ⟨P1.nodup, P2.nodup, fun q h1 h2 => hdis q h1 h2⟩
    fresh := by
      intro q hq
      rcases List.mem_append.1 hq with h1 | h2
      · obtain ⟨a, b, c, c1, d⟩ := P1.fresh q h1
        have hk := P2.keep q (hdis q h1)
        refine ⟨a, b, by rw [hk]; exact c, by rw [hk]; exact c1, ?_⟩
        rw [hk]
        apply eq_two_pow_of_subset
        · intro i hi
          rw [← d]
          exact P2.shrink q i hi
        · apply P2.own q (by rw [P1.verts]; exact a) (by omega)
          rw [d]
          exact Nat.testBit_two_pow_self
      · obtain ⟨a, b, c, c1, d⟩ := P2.fresh q h2
        have hn1 : q ∉ new1 := fun h1 => hdis q h1 h2
        refine ⟨by rw [← P1.verts]; exact a, by rw [← P1.keep q hn1]; exact b, c, c1, d⟩
    keep := by
      intro q hq
      rw [P2.keep q (fun h => hq (List.mem_append.2 (Or.inr h))),
        P1.keep q (fun h => hq (List.mem_append.2 (Or.inl h)))]
    shrink := fun q i h => P1.shrink q i (P2.shrink q i h)
    own := by
      intro q hq hc hb
      have hn1 : q ∉ new1 := fun h1 => hc (P1.fresh q h1).2.1
      have e := P1.keep q hn1
      have := P2.own q (by rw [P1.verts]; exact hq) (by rw [e]; exact hc)
        (by rw [e]; exact P1.own q hq hc hb)
      rw [e] at this
      exact this
    conflict := by
      intro hr
      obtain ⟨q, hq, hreach, a, b, c, d⟩ := P2.conflict hr
      refine ⟨q, by rw [← P1.verts]; exact hq, ?_, a, b, by rw [c, P1.quiet rfl],
        fun q1 h1 => ?_⟩
      · rcases hreach with h1 | ⟨q1, h1, h2⟩
        · exact Or.inl (List.mem_append.2 (Or.inr h1))
        · exact Or.inr ⟨q1, List.mem_append.2 (Or.inr h1), by rw [← P1.adj]; exact h2⟩
      · rw [d q1 h1, P1.quiet rfl]
    quiet := fun hr q => by rw [P2.quiet hr, P1.quiet rfl]
    settledKeep := fun hr q h => P2.settledKeep hr q (P1.settledKeep rfl q h)
    settled := by
      intro hr
      refine ⟨fun q hq => ?_, fun q hq n hn => ?_⟩
      · rcases List.mem_append.1 hq with h1 | h2
        · exact P2.settledKeep hr q ((P1.settled rfl).1 q h1)
        · exact (P2.settled hr).1 q h2
      · rcases List.mem_append.1 hq with h1 | h2
        · exact P2.settledKeep hr n ((P1.settled rfl).2 q h1 n hn)
        · exact (P2.settled hr).2 q h2 n (by rw [P1.adj]; exact hn) }

/-- The vertex `nb`, uncolored with the single color `j` in its domain, is colored `j`, the
color is removed from its neighbors (state `r`), and the walk goes through its adjacency list
(state `s3`). -/
theorem persistPost_forced {s r s3 : State} {log logr log3 : ChangeLog} {nb j : Nat}
    {new1 : List Nat} {res1 : Int}
    (hc : Consistent s) (hnb : nb ∈ s.vertices) (hu : (deref s.heap nb).color = -1)
    (hj : j < 64) (ha : (deref s.heap nb).availableColors = 2 ^ j)
    (R1 : r.vertices = s.vertices) (R2 : r.heap.length = s.heap.length)
    (R3 : logr.coloredVertices = log.coloredVertices ++ [nb])
    (R4 : ∀ q, (deref r.heap q).adjacentVertices = (deref s.heap q).adjacentVertices)
    (R5 : ∀ q, (deref r.heap q).color = if q = nb then (j : Int) else (deref s.heap q).color)
    (R6 : ∀ q, (deref r.heap q).nbConflicts = (deref s.heap q).nbConflicts)
    (R7 : ∀ q i, (deref r.heap q).availableColors.testBit i =
      ((deref s.heap q).availableColors.testBit i &&
        !(decide (i = j) && decide (q ∈ (deref s.heap nb).adjacentVertices))))
    (P1 : PersistPost r logr (deref s.heap nb).adjacentVertices res1 s3 log3 new1) :
    PersistPost s log [nb] res1 s3 log3 (nb :: new1) := by
  have hnbr : (deref r.heap nb).color = (j : Int) := by rw [R5, if_pos rfl]
  have hn1 : nb ∉ new1 := by
    intro h
    have := (P1.fresh nb h).2.1
    omega
  have hloop : nb ∉ (deref s.heap nb).adjacentVertices :=
    fun h => (hc.wf.2.2 nb hnb nb h).2.1 rfl
  have hnb3 : (deref s3.heap nb).color = (j : Int) := by rw [P1.keep nb hn1, hnbr]
  have havr : (deref r.heap nb).availableColors = 2 ^ j := by
    apply Nat.eq_of_testBit_eq
    intro i
    rw [R7, ha]
    simp [hloop]
  have hsame : ∀ q, q ∉ (deref s.heap nb).adjacentVertices →
      (deref r.heap q).availableColors = (deref s.heap q).availableColors := by
    intro q hq
    apply Nat.eq_of_testBit_eq
    intro i
    rw [R7]
    simp [hq]
  exact {
    result := P1.result
    cons := P1.cons
    verts := P1.verts.trans R1
    len := P1.len.trans R2
    adj := fun q => (P1.adj q).trans (R4 q)
    logc := by rw [P1.logc, R3, List.append_assoc]; rfl
    nodup := List.nodup_cons.2 ⟨hn1, P1.nodup⟩
    fresh := by
      intro q hq
      rcases List.mem_cons.1 hq with e | h1
      · rw [e]
        refine ⟨hnb, hu, by rw [hnb3]; omega, by rw [hnb3]; omega, ?_⟩
        rw [hnb3]
        simp only [Int.toNat_ofNat]
        apply eq_two_pow_of_subset
        · intro i hi
          rw [← havr]
          exact P1.shrink nb i hi
        · have := P1.own nb (by rw [R1]; exact hnb) (by rw [hnbr]; omega)
            (by rw [hnbr, havr]; simp)
          rw [hnbr] at this
          simpa using this
      · obtain ⟨a, b, c, c1, d⟩ := P1.fresh q h1
        have hq : q ≠ nb := fun e => hn1 (e ▸ h1)
        rw [R5, if_neg hq] at b
        exact ⟨by rw [← R1]; exact a, b, c, c1, d⟩
    keep := by
      intro q hq
      have h1 : q ≠ nb := fun e => hq (by rw [e]; exact List.mem_cons_self _ _)
      rw [P1.keep q (fun h => hq (List.mem_cons_of_mem _ h)), R5, if_neg h1]
    shrink := by
      intro q i h
      have := P1.shrink q i h
      rw [R7] at this
      simp only [Bool.and_eq_true] at this
      exact this.1
    own := by
      intro q hq hcq hb
      have hqn : q ≠ nb := fun e => hcq (by rw [e]; exact hu)
      have hcr : (deref r.heap q).color = (deref s.heap q).color := by rw [R5, if_neg hqn]
      have hbr : (deref r.heap q).availableColors.testBit (deref s.heap q).color.toNat = true := by
        rw [R7, hb]
        by_cases hadj : q ∈ (deref s.heap nb).adjacentVertices
        · have := hc.excl nb hnb hu q hadj hcq
          rw [ha, Nat.testBit_two_pow] at this
          have hne : ¬ (deref s.heap q).color.toNat = j := fun e => by
            rw [e] at this
            simp at this
          simp [hne]
        · simp [hadj]
      have := P1.own q (by rw [R1]; exact hq) (by rw [hcr]; exact hcq) (by rw [hcr]; exact hbr)
      rw [hcr] at this
      exact this
    conflict := by
      intro hr
      obtain ⟨q, hq, hreach, a, b, c, d⟩ := P1.conflict hr
      refine ⟨q, by rw [← R1]; exact hq, Or.inr ?_, a, b, by rw [c, R6],
        fun q1 h1 => by rw [d q1 h1, R6]⟩
      rcases hreach with h1 | ⟨q1, h1, h2⟩
      · exact ⟨nb, List.mem_cons_self _ _, h1⟩
      · exact ⟨q1, List.mem_cons_of_mem _ h1, by rw [← R4]; exact h2⟩
    quiet := fun hr q => by rw [P1.quiet hr, R6]
    settledKeep := by
      intro hr q hs
      by_cases e : q = nb
      · left
        rw [e, hnb3]
        omega
      · by_cases hadj : q ∈ (deref s.heap nb).adjacentVertices
        · exact (P1.settled hr).1 q hadj
        · apply P1.settledKeep hr q
          unfold Settled at hs ⊢
          rw [R5, if_neg e, hsame q hadj]
          exact hs
    settled := by
      intro hr
      refine ⟨fun q hq => ?_, fun q hq n hn => ?_⟩
      · have e : q = nb := by simpa using hq
        left
        rw [e, hnb3]
        omega
      · rcases List.mem_cons.1 hq with e | h1
        · rw [e] at hn
          exact (P1.settled hr).1 n hn
        · exact (P1.settled hr).2 q h1 n (by rw [R4]; exact hn) }

/-- The loop of `persistColors` on a consistent state: it has a result, with the effect
described by `PersistPost`. -/
theorem persistLoop_post (fuel : Nat)
    (self : List Nat → State → ChangeLog → Option (Int × State × ChangeLog))
    (hself : ∀ nbrs s log, Consistent s → (∀ q ∈ nbrs, q ∈ s.vertices) →
      uncoloredCells s < fuel →
      ∃ res t log1 new, self nbrs s log = some (res, t, log1) ∧
        PersistPost s log nbrs res t log1 new) :
    ∀ nbrs s log, Consistent s → (∀ q ∈ nbrs, q ∈ s.vertices) → uncoloredCells s ≤ fuel →
      ∃ res t log1 new, persistLoop self nbrs s log = some (res, t, log1) ∧
        PersistPost s log nbrs res t log1 new := by
  intro nbrs
  induction nbrs with
  | nil =>
    intro s log hc _ _
    exact ⟨1, s, log, [], rfl, persistPost_refl log hc (fun q hq => by cases hq)⟩
  | cons nb rest ih =>
    intro s log hc hin hf
    have hnb : nb ∈ s.vertices := hin nb (List.mem_cons_self _ _)
    have hrest : ∀ q ∈ rest, q ∈ s.vertices := fun q hq => hin q (List.mem_cons_of_mem _ hq)
    have skip : Settled s nb → ∃ res t log1 new,
        persistLoop self rest s log = some (res, t, log1) ∧
        PersistPost s log (nb :: rest) res t log1 new := by
      intro hs
      obtain ⟨res, t, log1, new, e, P⟩ := ih s log hc hrest hf
      have := persistPost_trans (persistPost_refl log hc
        (fun q hq => by rw [List.mem_singleton.1 hq]; exact hs)) P
      exact ⟨res, t, log1, new, e, this⟩
    unfold persistLoop
    by_cases h1 : (deref s.heap nb).color = -1
    · rw [if_pos h1]
      simp only []
      by_cases h2 : (deref s.heap nb).availableColors = 0
      · rw [if_pos h2]
        exact ⟨-1, _, log, [], rfl,
          persistPost_conflict log (nb :: rest) (List.mem_cons_self _ _) hc hnb h1 h2⟩
      · rw [if_neg h2]
        by_cases h3 : (deref s.heap nb).availableColors &&&
            ((deref s.heap nb).availableColors - 1) = 0
        · rw [if_pos h3]
          have hlt : (deref s.heap nb).availableColors < 2 ^ 64 := hc.dom nb hnb
          obtain ⟨j, hj, ej, ha⟩ := single_color _ h2 hlt h3
          have hnbl : nb < s.heap.length := hc.wf.2.1 nb hnb
          obtain ⟨_, k0, u0⟩ := logged_color_step (logged_refl s) nb hnbl h1
            (fun v => { v with color := ctzll (deref s.heap nb).availableColors })
            (ctzll (deref s.heap nb).availableColors) (by rw [ej]; omega)
            (fun _ => rfl) (fun _ => rfl) (fun _ => rfl)
          obtain ⟨m1, m2, m3, m4⟩ := modify_color s nb
            (fun v => { v with color := ctzll (deref s.heap nb).availableColors })
            (ctzll (deref s.heap nb).availableColors)
            (fun _ => rfl) (fun _ => rfl) (fun _ => rfl) hnbl
          have m5 : ∀ q, (deref (modify s nb (fun v =>
              { v with color := ctzll (deref s.heap nb).availableColors })).heap q).nbConflicts =
              (deref s.heap q).nbConflicts :=
            fun q => deref_modify_field (fun v => v.nbConflicts) s nb q _ (fun _ => rfl)
          generalize hm : (if ctzll (deref s.heap nb).availableColors >
              (modify s nb (fun v =>
                { v with color := ctzll (deref s.heap nb).availableColors })).MAX_USED
            then { modify s nb (fun v =>
                { v with color := ctzll (deref s.heap nb).availableColors }) with
              MAX_USED := ctzll (deref s.heap nb).availableColors }
            else modify s nb (fun v =>
                { v with color := ctzll (deref s.heap nb).availableColors })) = s2
          have hheap : s2.heap = (modify s nb (fun v =>
              { v with color := ctzll (deref s.heap nb).availableColors })).heap := by
            rw [← hm]
            split <;> rfl
          have hverts : s2.vertices = s.vertices := by
            rw [← hm]
            split <;> rfl
          have hcol2 : ∀ q, (deref s2.heap q).color =
              if q = nb then (j : Int) else (deref s.heap q).color := by
            intro q
            rw [hheap]
            by_cases e : q = nb
            · rw [if_pos e, e, m3, ej]
            · rw [if_neg e, m4 q e]
          have u1 : uncoloredCells s2 < uncoloredCells s := by
            unfold uncoloredCells at u0 ⊢
            rw [hheap]
            exact u0
          have hbit : (deref s.heap nb).availableColors.testBit ((j : Int)).toNat = true := by
            rw [ha]
            simp
          have hcons := @consistent_after_remove s s2 nb (j : Int) hc hnb h1 (by omega)
            (by omega) hbit hverts (by rw [hheap, modify_heap_length])
            (fun q => by rw [hheap]; exact m1 q) (fun q => by rw [hheap]; exact m2 q) hcol2
            { log with coloredVertices := log.coloredVertices ++ [nb] }
          obtain ⟨r1, r2, r3, r4, r5, r6, r7⟩ := removeNeighborColors_frame (j : Int)
            (by omega) (by omega) (deref s2.heap nb).adjacentVertices s2
            { log with coloredVertices := log.coloredVertices ++ [nb] }
          rw [ej]
          generalize hr : removeNeighborColors (deref s2.heap nb).adjacentVertices (j : Int) s2
            { log with coloredVertices := log.coloredVertices ++ [nb] } = r
            at hcons r1 r2 r3 r4 r5 r6 r7
          have hadj2 : (deref s2.heap nb).adjacentVertices = (deref s.heap nb).adjacentVertices := by
            rw [hheap]; exact m1 nb
          have hadjr : (deref r.1.heap nb).adjacentVertices =
              (deref s.heap nb).adjacentVertices := by
            rw [r4, hadj2]
          have kr : Keeps s2 r.1 := ⟨r2, fun q _ => r5 q⟩
          have ur : uncoloredCells r.1 < fuel := by
            have := uncoloredCells_le kr
            omega
          have hin1 : ∀ q ∈ (deref r.1.heap nb).adjacentVertices, q ∈ r.1.vertices := by
            intro q hq
            rw [hadjr] at hq
            rw [r1, hverts]
            exact (hc.wf.2.2 nb hnb q hq).1
          obtain ⟨res1, s3, log3, new1, e3, P1⟩ :=
            hself (deref r.1.heap nb).adjacentVertices r.1 r.2 hcons hin1 ur
          rw [hadjr] at P1
          have PH := @persistPost_forced s r.1 s3 log r.2 log3 nb j new1 res1 hc hnb h1 hj ha
            (by rw [r1, hverts]) (by rw [r2, hheap, modify_heap_length]) r3
            (fun q => by rw [r4, hheap]; exact m1 q) (fun q => by rw [r5]; exact hcol2 q)
            (fun q => by rw [r6, hheap]; exact m5 q)
            (fun q i => by
              rw [r7, hheap, m2, m1]
              simp only [Int.toNat_ofNat])
            P1
          rw [e3]
          simp only []
          by_cases hneg : res1 = -1
          · rw [if_pos hneg]
            rw [hneg] at PH
            exact ⟨-1, s3, log3, nb :: new1, rfl, persistPost_fail (nb :: rest)
              (fun q hq => by rw [List.mem_singleton.1 hq]; exact List.mem_cons_self _ _) PH⟩
          · rw [if_neg hneg]
            have hone : res1 = 1 := by
              rcases P1.result with h | h
              · exact h
              · exact absurd h hneg
            rw [hone] at PH
            have u3 : uncoloredCells s3 ≤ fuel := by
              have := uncoloredCells_le (persistPost_keeps PH)
              omega
            obtain ⟨res4, t, log4, new2, e4, P2⟩ := ih s3 log3 PH.cons
              (fun q hq => by rw [PH.verts]; exact hrest q hq) u3
            exact ⟨res4, t, log4, (nb :: new1) ++ new2, e4, persistPost_trans PH P2⟩
        · rw [if_neg h3]
          exact skip (Or.inr ⟨h2, h3⟩)
    · rw [if_neg h1]
      exact skip (Or.inl h1)

/-- With more fuel than uncolored records, `persistColors` on a consistent state has a result,
with the effect described by `PersistPost`. -/
theorem persistColors_post (fuel : Nat) :
    ∀ nbrs s log, Consistent s → (∀ q ∈ nbrs, q ∈ s.vertices) → uncoloredCells s < fuel →
      ∃ res t log1 new, persistColors fuel nbrs s log = some (res, t, log1) ∧
        PersistPost s log nbrs res t log1 new := by
  induction fuel with
  | zero => intro nbrs s log _ _ h; omega
  | succ fuel ih =>
    intro nbrs s log hc hin hf
    unfold persistColors
    exact persistLoop_post fuel (persistColors fuel) ih nbrs s log hc hin (by omega)

/-- A color that `findColorFF` returns is a color of the domain, in `[0, 63]`. -/
theorem findColorFF_available (s : State) (m : Int) (p : Nat) (hm0 : 0 ≤ m) (hm1 : m ≤ 63)
    (ha : (deref s.heap p).availableColors < 2 ^ 64) (h : findColorFF s m p ≠ -1) :
    0 ≤ findColorFF s m p ∧ findColorFF s m p ≤ 63 ∧
    (deref s.heap p).availableColors.testBit (findColorFF s m p).toNat = true := by
  have hlt : (deref s.heap p).availableColors >>> m.toNat < 2 ^ 64 := by
    rw [Nat.shiftRight_eq_div_pow]
    exact Nat.lt_of_le_of_lt (Nat.div_le_self _ _) ha
  have raw : 0 ≤ getFirstSetBitPos ((deref s.heap p).availableColors >>> m.toNat) + m - 1 →
      getFirstSetBitPos ((deref s.heap p).availableColors >>> m.toNat) + m - 1 ≤ 63 ∧
      (deref s.heap p).availableColors.testBit
        (getFirstSetBitPos ((deref s.heap p).availableColors >>> m.toNat) + m - 1).toNat = true := by
    intro h0
    by_cases hz : (deref s.heap p).availableColors >>> m.toNat = 0
    · rw [hz] at h0
      unfold getFirstSetBitPos at h0
      rw [if_pos rfl] at h0
      omega
    · obtain ⟨j, _, e, t, _⟩ := getFirstSetBitPos_spec _ hz hlt
      rw [Nat.testBit_shiftRight] at t
      have hb : m.toNat + j < 64 := by
        by_contra hge
        have h64 : (deref s.heap p).availableColors < 2 ^ (m.toNat + j) :=
          Nat.lt_of_lt_of_le ha (Nat.pow_le_pow_right (by decide) (by omega))
        rw [Nat.testBit_lt_two_pow h64] at t
        cases t
      rw [e]
      have e2 : ((j : Int) + 1 + m - 1).toNat = m.toNat + j := by omega
      rw [e2]
      exact ⟨by omega, t⟩
  unfold findColorFF at h ⊢
  simp only [] at h ⊢
  split at h
  · next h1 =>
    rw [if_pos h1]
    exact ⟨h1.2.1, raw h1.2.1⟩
  · next h1 =>
    rw [if_neg h1]
    split at h
    · next h2 =>
      rw [if_pos h2]
      exact ⟨h2.2.1, raw h2.2.1⟩
    · exact absurd rfl h

/-- Claim C31. On a simple graph with 64-bit domains in which no uncolored vertex has the color
of a colored neighbor in its domain and no two adjacent colored vertices share a color: when
the uncolored vertex `p` gets a color returned by `findColorFF`, the color is removed from its
neighbors and `persistColors` has run (it returns 1 or -1, with enough fuel), both properties
hold again, for a partial coloring that extends the old one by `p` and by the vertices that
`persistColors` colored. -/
theorem propagation_keeps_consistency (s : State) (p : Nat) (m : Int) (fuel : Nat)
    (hc : Consistent s) (hp : p ∈ s.vertices) (hu : (deref s.heap p).color = -1)
    (hm0 : 0 ≤ m) (hm1 : m ≤ 63) (hne : findColorFF s m p ≠ -1) (hf : s.heap.length ≤ fuel) :
    ∃ res t log, attempt fuel s p (findColorFF s m p) = some (res, t, log) ∧
      (res = 1 ∨ res = -1) ∧ Consistent t ∧ t.vertices = s.vertices ∧
      (∀ q, (deref t.heap q).adjacentVertices = (deref s.heap q).adjacentVertices) ∧
      (deref t.heap p).color = findColorFF s m p ∧
      (∀ q, (deref s.heap q).color ≠ -1 → (deref t.heap q).color = (deref s.heap q).color) ∧
      (∀ q ∈ t.vertices, (deref t.heap q).color = -1 →
        ∀ u ∈ (deref t.heap q).adjacentVertices, (deref t.heap u).color ≠ -1 →
          (deref t.heap q).availableColors.testBit (deref t.heap u).color.toNat = false) ∧
      (∀ q ∈ t.vertices, (deref t.heap q).color ≠ -1 →
        ∀ u ∈ (deref t.heap q).adjacentVertices,
          (deref t.heap u).color ≠ (deref t.heap q).color) := by
  obtain ⟨c0, c1, cb⟩ := findColorFF_available s m p hm0 hm1 (hc.dom p hp) hne
  generalize findColorFF s m p = c at hne c0 c1 cb ⊢
  have hpl : p < s.heap.length := hc.wf.2.1 p hp
  obtain ⟨_, k0, u0⟩ := logged_color_step (logged_refl s) p hpl hu
    (fun v => { v with color := c, nbRecolorings := v.nbRecolorings + 1 }) c hne
    (fun _ => rfl) (fun _ => rfl) (fun _ => rfl)
  have hsg := sameGraph_setVertexColor s p c
  have hcells : uncoloredCells s ≤ s.heap.length := by
    unfold uncoloredCells
    have := List.countP_le_length (fun q => decide ((deref s.heap q).color = -1))
      (l := List.range s.heap.length)
    simpa using this
  unfold attempt
  simp only []
  generalize hm : (if c > (setVertexColor s p c).MAX_USED
    then { setVertexColor s p c with MAX_USED := c } else setVertexColor s p c) = s2
  have hheap : s2.heap = (setVertexColor s p c).heap := by
    rw [← hm]
    split <;> rfl
  have hverts : s2.vertices = s.vertices := by
    rw [← hm]
    split <;> rfl
  have hcol2 : ∀ q, (deref s2.heap q).color = if q = p then c else (deref s.heap q).color := by
    intro q
    rw [hheap]
    exact setVertexColor_color s p q c hpl
  have u1 : uncoloredCells s2 < uncoloredCells s := by
    unfold uncoloredCells at u0 ⊢
    rw [hheap]
    exact u0
  have hadj2 : ∀ q, (deref s2.heap q).adjacentVertices = (deref s.heap q).adjacentVertices :=
    fun q => by rw [hheap]; exact (hsg.2.2.2 q).1
  have hcons := @consistent_after_remove s s2 p c hc hp hu c0 c1 cb hverts
    (by rw [hheap]; exact hsg.2.1) hadj2
    (fun q => by rw [hheap]; exact (hsg.2.2.2 q).2.2.1) hcol2
    { emptyLog with coloredVertices := [p] }
  obtain ⟨r1, r2, _, r4, r5, _, _⟩ := removeNeighborColors_frame c c0 c1
    (deref s2.heap p).adjacentVertices s2 { emptyLog with coloredVertices := [p] }
  generalize removeNeighborColors (deref s2.heap p).adjacentVertices c s2
    { emptyLog with coloredVertices := [p] } = r at hcons r1 r2 r4 r5
  have kr : Keeps s2 r.1 := ⟨r2, fun q _ => r5 q⟩
  have ur : uncoloredCells r.1 < fuel := by
    have := uncoloredCells_le kr
    omega
  have hin1 : ∀ q ∈ (deref r.1.heap p).adjacentVertices, q ∈ r.1.vertices := by
    intro q hq
    rw [r4, hadj2] at hq
    rw [r1, hverts]
    exact (hc.wf.2.2 p hp q hq).1
  obtain ⟨res, t, log1, new, e, P⟩ :=
    persistColors_post fuel (deref r.1.heap p).adjacentVertices r.1 r.2 hcons hin1 ur
  have hpr : (deref r.1.heap p).color = c := by rw [r5, hcol2, if_pos rfl]
  have hrs : ∀ q, (deref s.heap q).color ≠ -1 → (deref r.1.heap q).color = (deref s.heap q).color := by
    intro q hq
    rw [r5, hcol2, if_neg (fun e => hq (by rw [e]; exact hu))]
  have hk := persistPost_keeps P
  refine ⟨res, t, log1, e, P.result, P.cons, by rw [P.verts, r1, hverts],
    fun q => by rw [P.adj, r4, hadj2], ?_, ?_, P.cons.excl, P.cons.proper⟩
  · rw [hk.2 p (by rw [hpr]; exact hne), hpr]
  · intro q hq
    rw [hk.2 q (by rw [hrs q hq]; exact hq), hrs q hq]

theorem propagation_keeps_consistency_witness :
    Consistent staleIndexGraph ∧ 0 ∈ staleIndexGraph.vertices ∧
    (deref staleIndexGraph.heap 0).color = -1 ∧ (0 : Int) ≤ 0 ∧ (0 : Int) ≤ 63 ∧
    findColorFF staleIndexGraph 0 0 ≠ -1 ∧ staleIndexGraph.heap.length ≤ 7 ∧
    ∃ res t log, attempt 7 staleIndexGraph 0 (findColorFF staleIndexGraph 0 0) =
        some (res, t, log) ∧ (res = 1 ∨ res = -1) ∧ Consistent t :=
  ⟨⟨by unfold WellFormed; decide, by decide, by decide, by decide⟩, by decide, by decide,
    by decide, by decide, by decide, by decide,
    (propagation_keeps_consistency staleIndexGraph 0 0 7
      ⟨by unfold WellFormed; decide, by decide, by decide, by decide⟩ (by decide) (by decide)
      (by decide) (by decide) (by decide) (by decide)).elim
      (fun res h => h.elim (fun t h1 => h1.elim (fun log h2 =>
        ⟨res, t, log, h2.1, h2.2.1, h2.2.2.1⟩)))⟩

/-- Claim C32. On a consistent state, with more fuel than records, `persistColors` returns 1
or -1. It returns -1 exactly when a vertex that the walk reaches (an entry of the list, or a
neighbor of a vertex it colored) is left uncolored with an empty domain; then the conflict
counter of one such vertex has grown by 1 and no other counter has changed. When it returns 1,
no conflict counter has changed and every vertex the walk reached is colored or has at least
two colors left. In both cases the vertices it colored are those it appended to
`coloredVertices`, each once; each of them was uncolored, and its domain is the single color
it got. -/
theorem persistColors_contract (s : State) (nbrs : List Nat) (log : ChangeLog) (fuel : Nat)
    (hc : Consistent s) (hin : ∀ q ∈ nbrs, q ∈ s.vertices) (hf : s.heap.length < fuel) :
    ∃ res t log1 new, persistColors fuel nbrs s log = some (res, t, log1) ∧
      (res = 1 ∨ res = -1) ∧
      (res = -1 ↔ ∃ q, (q ∈ nbrs ∨ ∃ q1 ∈ new, q ∈ (deref s.heap q1).adjacentVertices) ∧
        (deref t.heap q).color = -1 ∧ (deref t.heap q).availableColors = 0) ∧
      (res = -1 → ∃ q, (q ∈ nbrs ∨ ∃ q1 ∈ new, q ∈ (deref s.heap q1).adjacentVertices) ∧
        (deref t.heap q).color = -1 ∧ (deref t.heap q).availableColors = 0 ∧
        (deref t.heap q).nbConflicts = (deref s.heap q).nbConflicts + 1 ∧
        ∀ q1, q1 ≠ q → (deref t.heap q1).nbConflicts = (deref s.heap q1).nbConflicts) ∧
      (res = 1 → (∀ q, (deref t.heap q).nbConflicts = (deref s.heap q).nbConflicts) ∧
        (∀ q ∈ nbrs, Settled t q) ∧
        ∀ q ∈ new, ∀ n ∈ (deref s.heap q).adjacentVertices, Settled t n) ∧
      log1.coloredVertices = log.coloredVertices ++ new ∧ new.Nodup ∧
      (∀ q ∈ new, (deref s.heap q).color = -1 ∧ 0 ≤ (deref t.heap q).color ∧
        (deref t.heap q).availableColors = 2 ^ (deref t.heap q).color.toNat) ∧
      (∀ q, q ∉ new → (deref t.heap q).color = (deref s.heap q).color) := by
  have hcells : uncoloredCells s ≤ s.heap.length := by
    unfold uncoloredCells
    have := List.countP_le_length (fun q => decide ((deref s.heap q).color = -1))
      (l := List.range s.heap.length)
    simpa using this
  obtain ⟨res, t, log1, new, e, P⟩ := persistColors_post fuel nbrs s log hc hin (by omega)
  refine ⟨res, t, log1, new, e, P.result, ⟨fun hr => ?_, fun hex => ?_⟩, fun hr => ?_,
    fun hr => ⟨P.quiet hr, (P.settled hr).1, (P.settled hr).2⟩, P.logc, P.nodup,
    fun q hq => ⟨(P.fresh q hq).2.1, (P.fresh q hq).2.2.1, (P.fresh q hq).2.2.2.2⟩, P.keep⟩
  · obtain ⟨q, _, hreach, a, b, _⟩ := P.conflict hr
    exact ⟨q, hreach, a, b⟩
  · rcases P.result with h1 | h1
    · exfalso
      obtain ⟨q, hreach, a, b⟩ := hex
      have hs : Settled t q := by
        rcases hreach with h2 | ⟨q1, h2, h3⟩
        · exact (P.settled h1).1 q h2
        · exact (P.settled h1).2 q1 h2 q h3
      rcases hs with h4 | h4
      · exact h4 a
      · exact h4.1 b
    · exact h1
  · obtain ⟨q, _, hreach, a, b, c, d⟩ := P.conflict hr
    exact ⟨q, hreach, a, b, c, d⟩

/-- The witness runs `persistColors` as `colorGraph` calls it after coloring vertex 0 with
color 0, with two colors. On the triangle the walk colors vertex 2 with its single color 1 and
then finds vertex 1 with an empty domain: the result is -1 and the conflict counter of vertex 1
grows. On the path 0-1-2 the walk colors vertex 1 with 1 and vertex 2 with 0 and returns 1. -/
theorem persistColors_contract_witness :
    Consistent (beforePersist triangleTwoColors 0 0).1 ∧
    (∀ q ∈ (deref (beforePersist triangleTwoColors 0 0).1.heap 0).adjacentVertices,
      q ∈ (beforePersist triangleTwoColors 0 0).1.vertices) ∧
    (beforePersist triangleTwoColors 0 0).1.heap.length < 4 ∧
    (persistColors 4 (deref (beforePersist triangleTwoColors 0 0).1.heap 0).adjacentVertices
        (beforePersist triangleTwoColors 0 0).1 (beforePersist triangleTwoColors 0 0).2).map
      (fun r => (r.1, r.2.2.coloredVertices,
        r.2.1.heap.map (fun v => (v.color, v.availableColors, v.nbConflicts)))) =
      some (-1, [0, 2], [(0, 1, 0), (-1, 0, 1), (1, 2, 0)]) ∧
    (∃ res t log1 new, persistColors 4 (deref (beforePersist triangleTwoColors 0 0).1.heap 0).adjacentVertices (beforePersist triangleTwoColors 0 0).1 (beforePersist triangleTwoColors 0 0).2 = some (res, t, log1) ∧
      (res = 1 ∨ res = -1) ∧
      (res = -1 ↔ ∃ q, (q ∈ (deref (beforePersist triangleTwoColors 0 0).1.heap 0).adjacentVertices ∨ ∃ q1 ∈ new, q ∈ (deref (beforePersist triangleTwoColors 0 0).1.heap q1).adjacentVertices) ∧
        (deref t.heap q).color = -1 ∧ (deref t.heap q).availableColors = 0) ∧
      (res = -1 → ∃ q, (q ∈ (deref (beforePersist triangleTwoColors 0 0).1.heap 0).adjacentVertices ∨ ∃ q1 ∈ new, q ∈ (deref (beforePersist triangleTwoColors 0 0).1.heap q1).adjacentVertices) ∧
        (deref t.heap q).color = -1 ∧ (deref t.heap q).availableColors = 0 ∧
        (deref t.heap q).nbConflicts = (deref (beforePersist triangleTwoColors 0 0).1.heap q).nbConflicts + 1 ∧
        ∀ q1, q1 ≠ q → (deref t.heap q1).nbConflicts = (deref (beforePersist triangleTwoColors 0 0).1.heap q1).nbConflicts) ∧
      (res = 1 → (∀ q, (deref t.heap q).nbConflicts = (deref (beforePersist triangleTwoColors 0 0).1.heap q).nbConflicts) ∧
        (∀ q ∈ (deref (beforePersist triangleTwoColors 0 0).1.heap 0).adjacentVertices, Settled t q) ∧
        ∀ q ∈ new, ∀ n ∈ (deref (beforePersist triangleTwoColors 0 0).1.heap q).adjacentVertices, Settled t n) ∧
      log1.coloredVertices = (beforePersist triangleTwoColors 0 0).2.coloredVertices ++ new ∧ new.Nodup ∧
      (∀ q ∈ new, (deref (beforePersist triangleTwoColors 0 0).1.heap q).color = -1 ∧ 0 ≤ (deref t.heap q).color ∧
        (deref t.heap q).availableColors = 2 ^ (deref t.heap q).color.toNat) ∧
      (∀ q, q ∉ new → (deref t.heap q).color = (deref (beforePersist triangleTwoColors 0 0).1.heap q).color)) ∧
    Consistent (beforePersist pathTwoColors 0 0).1 ∧
    (∀ q ∈ (deref (beforePersist pathTwoColors 0 0).1.heap 0).adjacentVertices,
      q ∈ (beforePersist pathTwoColors 0 0).1.vertices) ∧
    (beforePersist pathTwoColors 0 0).1.heap.length < 4 ∧
    (persistColors 4 (deref (beforePersist pathTwoColors 0 0).1.heap 0).adjacentVertices
        (beforePersist pathTwoColors 0 0).1 (beforePersist pathTwoColors 0 0).2).map
      (fun r => (r.1, r.2.2.coloredVertices,
        r.2.1.heap.map (fun v => (v.color, v.availableColors, v.nbConflicts)))) =
      some (1, [0, 1, 2], [(0, 1, 0), (1, 2, 0), (0, 1, 0)]) ∧
    (∃ res t log1 new, persistColors 4 (deref (beforePersist pathTwoColors 0 0).1.heap 0).adjacentVertices (beforePersist pathTwoColors 0 0).1 (beforePersist pathTwoColors 0 0).2 = some (res, t, log1) ∧
      (res = 1 ∨ res = -1) ∧
      (res = -1 ↔ ∃ q, (q ∈ (deref (beforePersist pathTwoColors 0 0).1.heap 0).adjacentVertices ∨ ∃ q1 ∈ new, q ∈ (deref (beforePersist pathTwoColors 0 0).1.heap q1).adjacentVertices) ∧
        (deref t.heap q).color = -1 ∧ (deref t.heap q).availableColors = 0) ∧
      (res = -1 → ∃ q, (q ∈ (deref (beforePersist pathTwoColors 0 0).1.heap 0).adjacentVertices ∨ ∃ q1 ∈ new, q ∈ (deref (beforePersist pathTwoColors 0 0).1.heap q1).adjacentVertices) ∧
        (deref t.heap q).color = -1 ∧ (deref t.heap q).availableColors = 0 ∧
        (deref t.heap q).nbConflicts = (deref (beforePersist pathTwoColors 0 0).1.heap q).nbConflicts + 1 ∧
        ∀ q1, q1 ≠ q → (deref t.heap q1).nbConflicts = (deref (beforePersist pathTwoColors 0 0).1.heap q1).nbConflicts) ∧
      (res = 1 → (∀ q, (deref t.heap q).nbConflicts = (deref (beforePersist pathTwoColors 0 0).1.heap q).nbConflicts) ∧
        (∀ q ∈ (deref (beforePersist pathTwoColors 0 0).1.heap 0).adjacentVertices, Settled t q) ∧
        ∀ q ∈ new, ∀ n ∈ (deref (beforePersist pathTwoColors 0 0).1.heap q).adjacentVertices, Settled t n) ∧
      log1.coloredVertices = (beforePersist pathTwoColors 0 0).2.coloredVertices ++ new ∧ new.Nodup ∧
      (∀ q ∈ new, (deref (beforePersist pathTwoColors 0 0).1.heap q).color = -1 ∧ 0 ≤ (deref t.heap q).color ∧
        (deref t.heap q).availableColors = 2 ^ (deref t.heap q).color.toNat) ∧
      (∀ q, q ∉ new → (deref t.heap q).color = (deref (beforePersist pathTwoColors 0 0).1.heap q).color)) :=
  ⟨⟨by unfold WellFormed; decide, by decide, by decide, by decide⟩, by decide, by decide,
    by decide!,
    persistColors_contract (beforePersist triangleTwoColors 0 0).1
      (deref (beforePersist triangleTwoColors 0 0).1.heap 0).adjacentVertices
      (beforePersist triangleTwoColors 0 0).2 4
      ⟨by unfold WellFormed; decide, by decide, by decide, by decide⟩ (by decide) (by decide),
    ⟨by unfold WellFormed; decide, by decide, by decide, by decide⟩, by decide, by decide,
    by decide!,
    persistColors_contract (beforePersist pathTwoColors 0 0).1
      (deref (beforePersist pathTwoColors 0 0).1.heap 0).adjacentVertices
      (beforePersist pathTwoColors 0 0).2 4
      ⟨by unfold WellFormed; decide, by decide, by decide, by decide⟩ (by decide) (by decide)⟩

/-! ## The colors in use after a successful search -/

set_option maxRecDepth 1000000 in
set_option maxHeartbeats 4000000 in
/-- Claim C39, evaluated at a failing input. The graph `colorGapGraph` is a simple graph on twelve
uncolored vertices, the mode is not EXHAUSTIVE and the domains were set by `setAvailableColors`
with `k = 6`. `colorGraph` succeeds with `MAX_USED = 5` and `coloring` returns 6, but no vertex
holds color 1: the coloring found uses the five colors 0, 2, 3, 4 and 5. -/
theorem colorGraph_leaves_color_gap :
    WellFormed colorGapGraph ∧ Uncolored colorGapGraph ∧
    colorGapGraph.SEARCH ≠ search.EXHAUSTIVE ∧
    (colorGraph 13 (initialSorting (initializeCounters colorGapGraph))).map
        (fun r => (r.1, r.2.MAX_USED, colorsByNumber r.2)) =
      some (1, 5, [0, 0, 2, 0, 0, 5, 3, 4, 5, 2, 4, 3]) ∧
    (coloring 13 colorGapGraph).map (fun r => (r.1, colorsByNumber r.2)) =
      some (6, [0, 0, 2, 0, 0, 5, 3, 4, 5, 2, 4, 3]) ∧
    (1 : Int) ∉ [0, 0, 2, 0, 0, 5, 3, 4, 5, 2, 4, 3] ∧
    ([0, 0, 2, 0, 0, 5, 3, 4, 5, 2, 4, 3] : List Int).dedup.length = 5 := by
  refine ⟨?_, ?_, ?_, ?_, ?_, ?_, ?_⟩
  · unfold WellFormed; decide
  · unfold Uncolored; decide
  · decide
  · decide!
  · decide!
  · decide
  · decide

/-! ## low-k.c : the complement graph -/

theorem not64_lt (w : Nat) : not64 w < 2 ^ 64 := by
  unfold not64
  have := Nat.two_pow_pos 64
  omega

theorem not64_testBit (w b : Nat) : (not64 w).testBit b = (decide (b < 64) && !w.testBit b) := by
  unfold not64
  have h : w % 2 ^ 64 < 2 ^ 64 := Nat.mod_lt _ (Nat.two_pow_pos 64)
  have e : 2 ^ 64 - 1 - w % 2 ^ 64 = 2 ^ 64 - (w % 2 ^ 64 + 1) := by omega
  rw [e, Nat.testBit_two_pow_sub_succ h, Nat.testBit_mod_two_pow]
  by_cases hb : b < 64 <;> simp [hb]

/-- The last word of a complement bitset holds the complement of the bits below
`VERTICES % 64`, and of all 64 bits when `VERTICES` is a multiple of 64. -/
theorem complementLastWord_testBit (w n b : Nat) :
    (complementLastWord w n).testBit b =
      (decide (b < 64) && (decide (n % 64 = 0) || decide (b < n % 64)) && !w.testBit b) := by
  have hm : n % 64 < 64 := Nat.mod_lt _ (by decide)
  unfold complementLastWord shrCount shlCount
  by_cases h0 : n % 64 = 0
  · rw [h0]
    have e : (64 - 0) % 64 = 0 := by decide
    rw [e, Nat.shiftLeft_zero, Nat.shiftRight_zero, Nat.mod_eq_of_lt (not64_lt w), not64_testBit]
    simp
  · have e : (64 - n % 64) % 64 = 64 - n % 64 := Nat.mod_eq_of_lt (by omega)
    rw [e, Nat.testBit_shiftRight, Nat.testBit_mod_two_pow, Nat.testBit_shiftLeft, not64_testBit]
    have e2 : 64 - n % 64 + b - (64 - n % 64) = b := by omega
    rw [e2]
    by_cases hb : b < n % 64
    · have h1 : 64 - n % 64 + b < 64 := by omega
      have h2 : 64 - n % 64 + b ≥ 64 - n % 64 := by omega
      have h3 : b < 64 := by omega
      simp [hb, h1, h2, h3]
    · have h1 : ¬ 64 - n % 64 + b < 64 := by omega
      simp [hb, h1, h0]

theorem clearMask_testBit (k b : Nat) (hk : k < 64) :
    (2 ^ 64 - 1 - 2 ^ k).testBit b = (decide (b < 64) && !decide (k = b)) := by
  have h : 2 ^ k < 2 ^ 64 := Nat.pow_lt_pow_right (by decide) hk
  have e : 2 ^ 64 - 1 - 2 ^ k = 2 ^ 64 - (2 ^ k + 1) := by omega
  rw [e, Nat.testBit_two_pow_sub_succ h, Nat.testBit_two_pow]

theorem complementWords_length (s : State) (i : Nat) :
    (complementWords s i).length = (s.vertices.length + 63) / 64 := by
  simp [complementWords]

/-- The bits of the complement bitset of the vertex at position `i`: below `VERTICES` the
complement of the bits of the vertex, without bit `i`; nothing from `VERTICES` on. -/
theorem complementWords_bit (s : State) (i j : Nat) (hi : i < s.vertices.length) :
    wordBit (complementWords s i) j =
      (decide (j < s.vertices.length) && !decide (j = i) &&
        !wordBit (deref s.heap (s.vertices.getD i 0)).neighbors j) := by
  have hB : (s.vertices.length + 63) / 64 - 1 = (s.vertices.length - 1) / 64 := by omega
  have hiB : i / 64 < (s.vertices.length + 63) / 64 := by omega
  have hj64 : j % 64 < 64 := Nat.mod_lt _ (by decide)
  have hi64 : i % 64 < 64 := Nat.mod_lt _ (by decide)
  rw [wordBit_iff, wordBit_iff]
  unfold complementWords
  simp only []
  generalize hw : (deref s.heap (s.vertices.getD i 0)).neighbors = nb
  have hget : ∀ q, ((List.range ((s.vertices.length + 63) / 64)).map (fun j =>
      if j < (s.vertices.length + 63) / 64 - 1 then not64 (nb.getD j 0)
      else complementLastWord (nb.getD ((s.vertices.length + 63) / 64 - 1) 0)
        s.vertices.length)).getD q 0 =
      if q < (s.vertices.length + 63) / 64 then
        (if q < (s.vertices.length + 63) / 64 - 1 then not64 (nb.getD q 0)
          else complementLastWord (nb.getD ((s.vertices.length + 63) / 64 - 1) 0)
            s.vertices.length)
      else 0 := by
    intro q
    by_cases hq : q < (s.vertices.length + 63) / 64
    · rw [if_pos hq, List.getD_eq_getElem _ _ (by simpa using hq)]
      simp
    · rw [if_neg hq, List.getD_eq_default _ _ (by simpa using Nat.le_of_not_lt hq)]
  have hbase : ∀ q b, b < 64 → (((List.range ((s.vertices.length + 63) / 64)).map (fun j =>
      if j < (s.vertices.length + 63) / 64 - 1 then not64 (nb.getD j 0)
      else complementLastWord (nb.getD ((s.vertices.length + 63) / 64 - 1) 0)
        s.vertices.length)).getD q 0).testBit b =
      (decide (64 * q + b < s.vertices.length) && !(nb.getD q 0).testBit b) := by
    intro q b hb
    rw [hget]
    by_cases hq : q < (s.vertices.length + 63) / 64
    · rw [if_pos hq]
      by_cases hq1 : q < (s.vertices.length + 63) / 64 - 1
      · rw [if_pos hq1, not64_testBit]
        have : 64 * q + b < s.vertices.length := by omega
        simp [hb, this]
      · rw [if_neg hq1, complementLastWord_testBit]
        have hqe : q = (s.vertices.length + 63) / 64 - 1 := by omega
        rw [← hqe]
        by_cases hm : s.vertices.length % 64 = 0
        · have : 64 * q + b < s.vertices.length := by omega
          simp [hb, hm, this]
        · by_cases hbm : b < s.vertices.length % 64
          · have : 64 * q + b < s.vertices.length := by omega
            simp [hb, hbm, this]
          · have : ¬ 64 * q + b < s.vertices.length := by omega
            simp [hb, hm, hbm, this]
    · rw [if_neg hq]
      have : ¬ 64 * q + b < s.vertices.length := by omega
      simp [this]
  have hjdiv : 64 * (j / 64) + j % 64 = j := Nat.div_add_mod j 64
  have hidiv : 64 * (i / 64) + i % 64 = i := Nat.div_add_mod i 64
  by_cases hq : j / 64 = i / 64
  · rw [hq, List.getD_eq_getElem?_getD, List.getElem?_set_self (by simpa using hiB)]
    simp only [Option.getD_some]
    rw [Nat.testBit_and, hbase _ _ hj64,
      bit64_eq _ (by omega) (by omega)]
    have e : ((i % 64 : Nat) : Int).toNat = i % 64 := by omega
    rw [e, clearMask_testBit _ _ hi64]
    have h1 : 64 * (i / 64) + j % 64 = j := by rw [← hq]; exact hjdiv
    rw [h1]
    by_cases hji : j = i
    · subst hji
      simp
    · have h2 : ¬ i % 64 = j % 64 := by omega
      simp [hj64, h2, hji]
  · rw [List.getD_eq_getElem?_getD, List.getElem?_set_ne (fun c => hq c.symm),
      ← List.getD_eq_getElem?_getD, hbase _ _ hj64, hjdiv]
    have hji : ¬ j = i := fun c => hq (by rw [c])
    simp [hji]

theorem deref_append_left (h extra : List Vertex) (p : Nat) (hp : p < h.length) :
    deref (h ++ extra) p = deref h p := by
  unfold deref
  rw [List.getD_eq_getElem?_getD, List.getD_eq_getElem?_getD, List.getElem?_append_left hp]

theorem deref_append_length (pre l : List Vertex) (x : Vertex) :
    deref (pre ++ x :: l) pre.length = x := by
  unfold deref
  rw [List.getD_eq_getElem?_getD, List.getElem?_append_right (le_refl _)]
  simp

theorem createComplementVertex_eq (s : State) (heap : List Vertex) (i : Nat)
    (h : deref heap (s.vertices.getD i 0) = deref s.heap (s.vertices.getD i 0)) :
    createComplementVertex s heap i =
      if complementDegree s i = 0 then (heap, none)
      else (heap ++ [{ createVertex s.vertices.length (i : Int) with
          neighbors := complementWords s i, degree := complementDegree s i }],
        some heap.length) := by
  unfold createComplementVertex complementWords complementDegree
  simp only [h]

theorem createComplementLoop_eq (s : State) (hw : ∀ p ∈ s.vertices, p < s.heap.length) :
    ∀ (l : List Nat) (extra : List Vertex) (c : List (Option Nat)),
      (∀ i ∈ l, i < s.vertices.length) →
      createComplementLoop s l (s.heap ++ extra) c =
        (s.heap ++ (extra ++ complementRecords s l),
          c ++ complementEntries s l (s.heap.length + extra.length)) := by
  intro l
  induction l with
  | nil =>
    intro extra c _
    simp [createComplementLoop, complementRecords, complementEntries]
  | cons i rest ih =>
    intro extra c hl
    have hi : i < s.vertices.length := hl i (List.mem_cons_self _ _)
    have hp : s.vertices.getD i 0 < s.heap.length := by
      apply hw
      rw [List.getD_eq_getElem _ _ hi]
      exact List.getElem_mem _
    have hd : deref (s.heap ++ extra) (s.vertices.getD i 0) =
        deref s.heap (s.vertices.getD i 0) := deref_append_left _ _ _ hp
    rw [createComplementLoop, createComplementVertex_eq s _ i hd]
    by_cases h0 : complementDegree s i = 0
    · simp only [if_pos h0]
      rw [ih extra _ (fun j hj => hl j (List.mem_cons_of_mem _ hj))]
      simp [complementRecords, complementEntries, h0]
    · simp only [if_neg h0]
      rw [List.append_assoc, ih (extra ++ [_]) _ (fun j hj => hl j (List.mem_cons_of_mem _ hj))]
      simp [complementRecords, complementEntries, h0, Nat.add_assoc]

theorem complementEntries_length (s : State) :
    ∀ (l : List Nat) (a : Nat), (complementEntries s l a).length = l.length := by
  intro l
  induction l with
  | nil => intro a; rfl
  | cons i rest ih =>
    intro a
    unfold complementEntries
    split <;> simp [ih]

/-- The entry for the `k`-th position of `l` is NULL exactly when the degree is 0; otherwise
it is the address, behind the `a` records in front, of the record built for that position. -/
theorem complementEntries_spec (s : State) :
    ∀ (l : List Nat) (pre : List Vertex) (k : Nat), k < l.length →
      (complementDegree s (l.getD k 0) = 0 →
        (complementEntries s l pre.length).getD k none = none) ∧
      (complementDegree s (l.getD k 0) ≠ 0 →
        ∃ b, (complementEntries s l pre.length).getD k none = some b ∧ pre.length ≤ b ∧
          deref (pre ++ complementRecords s l) b =
            { createVertex s.vertices.length ((l.getD k 0 : Nat) : Int) with
              neighbors := complementWords s (l.getD k 0),
              degree := complementDegree s (l.getD k 0) }) := by
  intro l
  induction l with
  | nil => intro pre k hk; simp at hk
  | cons i rest ih =>
    intro pre k hk
    by_cases h0 : complementDegree s i = 0
    · cases k with
      | zero =>
        simp only [List.getD_cons_zero]
        refine ⟨fun _ => ?_, fun c => absurd h0 c⟩
        simp [complementEntries, h0]
      | succ k =>
        have := ih pre k (by simpa using hk)
        simpa [complementEntries, complementRecords, h0] using this
    · cases k with
      | zero =>
        simp only [List.getD_cons_zero]
        refine ⟨fun c => absurd c h0, fun _ => ⟨pre.length, ?_, le_refl _, ?_⟩⟩
        · simp [complementEntries, h0]
        · rw [complementRecords, if_neg h0]
          exact deref_append_length _ _ _
      | succ k =>
        have := ih (pre ++ [{ createVertex s.vertices.length (i : Int) with
          neighbors := complementWords s i, degree := complementDegree s i }]) k
          (by simpa using hk)
        simp only [List.getD_cons_succ]
        refine ⟨fun c => ?_, fun c => ?_⟩
        · have h1 := this.1 c
          simpa [complementEntries, h0] using h1
        · obtain ⟨b, e1, e2, e3⟩ := this.2 c
          refine ⟨b, ?_, ?_, ?_⟩
          · simpa [complementEntries, h0] using e1
          · simp at e2; omega
          · simpa [complementRecords, h0] using e3

/-- Claim C37. For a graph whose array entries are records of the heap and whose neighbor
bitsets agree with the adjacency lists, `createComplement` leaves the records of the graph as
they are and returns one entry per vertex. The entry for position `i` is NULL exactly when
`VERTICES - degree(i) - 1` is 0. Otherwise it is a new record with the number `i` and that
degree, in whose bitset bit `j` is set, for `j < VERTICES`, exactly when `j` is not `i` and the
vertex at position `j` is not adjacent to the vertex at position `i`, and no bit from `VERTICES`
on is set. This holds for every number of vertices; when it is a multiple of 64 the two shifts
of the last word are by 64 and are taken with the count modulo 64. -/
theorem createComplement_spec (s : State) (hw : ∀ p ∈ s.vertices, p < s.heap.length)
    (hb : BitsetsConsistent s) :
    (createComplement s).2.length = s.vertices.length ∧
    (∀ p, p < s.heap.length → deref (createComplement s).1 p = deref s.heap p) ∧
    ∀ i, i < s.vertices.length →
      ((createComplement s).2.getD i none = none ↔
        (s.vertices.length : Int) - (deref s.heap (s.vertices.getD i 0)).degree - 1 = 0) ∧
      ∀ a, (createComplement s).2.getD i none = some a →
        s.heap.length ≤ a ∧
        (deref (createComplement s).1 a).number = (i : Int) ∧
        (deref (createComplement s).1 a).degree =
          (s.vertices.length : Int) - (deref s.heap (s.vertices.getD i 0)).degree - 1 ∧
        (deref (createComplement s).1 a).degree ≠ 0 ∧
        (deref (createComplement s).1 a).neighbors.length = (s.vertices.length + 63) / 64 ∧
        (∀ j, j < s.vertices.length →
          (wordBit (deref (createComplement s).1 a).neighbors j = true ↔
            j ≠ i ∧ ¬ adjacentAt s i j)) ∧
        ∀ j, s.vertices.length ≤ j →
          wordBit (deref (createComplement s).1 a).neighbors j = false := by
  have e : createComplement s =
      (s.heap ++ complementRecords s (List.range s.vertices.length),
        complementEntries s (List.range s.vertices.length) s.heap.length) := by
    unfold createComplement
    have := createComplementLoop_eq s hw (List.range s.vertices.length) [] []
      (fun i hi => List.mem_range.1 hi)
    simpa using this
  rw [e]
  refine ⟨by simp [complementEntries_length], fun p hp => ?_, fun i hi => ?_⟩
  · exact deref_append_left _ _ _ hp
  · obtain ⟨f1, f2⟩ := complementEntries_spec s (List.range s.vertices.length) s.heap i
      (by simpa using hi)
    have hgi : (List.range s.vertices.length).getD i 0 = i := by
      rw [List.getD_eq_getElem _ _ (by simpa using hi)]
      simp
    rw [hgi] at f1 f2
    have hdeg : complementDegree s i =
        (s.vertices.length : Int) - (deref s.heap (s.vertices.getD i 0)).degree - 1 := rfl
    simp only []
    by_cases h0 : complementDegree s i = 0
    · have en := f1 h0
      refine ⟨⟨fun _ => by rw [← hdeg]; exact h0, fun _ => en⟩, fun a ha => ?_⟩
      rw [en] at ha
      cases ha
    · obtain ⟨b, eb, hble, hrec⟩ := f2 h0
      refine ⟨⟨fun c => ?_, fun c => absurd (by rw [hdeg]; exact c) h0⟩, fun a ha => ?_⟩
      · rw [eb] at c
        cases c
      · rw [eb] at ha
        cases ha
        rw [hrec]
        refine ⟨hble, rfl, hdeg, h0, complementWords_length s i, fun j hj => ?_, fun j hj => ?_⟩
        · simp only []
          rw [complementWords_bit s i j hi]
          have hbc := hb i (List.mem_range.2 hi) j (List.mem_range.2 hj)
          constructor
          · intro h
            simp only [Bool.and_eq_true, decide_eq_true_eq, Bool.not_eq_true',
              decide_eq_false_iff_not] at h
            exact ⟨h.1.2, fun c => by rw [hbc.2 c] at h; exact Bool.noConfusion h.2⟩
          · rintro ⟨h1, h2⟩
            have h3 : wordBit (deref s.heap (s.vertices.getD i 0)).neighbors j = false := by
              cases hx : wordBit (deref s.heap (s.vertices.getD i 0)).neighbors j
              · rfl
              · exact absurd (hbc.1 hx) h2
            rw [h3]
            simp [hj, h1]
        · simp only []
          rw [complementWords_bit s i j hi]
          have : ¬ j < s.vertices.length := by omega
          simp [this]

set_option maxRecDepth 1000000 in
set_option maxHeartbeats 4000000 in
/-- The witness is a graph on 64 vertices, so that the last word is shifted by 64: the path
0-1-...-62 and the isolated vertex 63. The record for vertex 63 has all the bits 0..62, the
record for vertex 0 has the bits 2..63. -/
theorem createComplement_spec_witness :
    pathAndIsolatedVertex.vertices.length = 64 ∧
    (∀ p ∈ pathAndIsolatedVertex.vertices, p < pathAndIsolatedVertex.heap.length) ∧
    BitsetsConsistent pathAndIsolatedVertex ∧
    ((createComplement pathAndIsolatedVertex).2.getD 63 none).map
        (fun a => ((deref (createComplement pathAndIsolatedVertex).1 a).neighbors,
          (deref (createComplement pathAndIsolatedVertex).1 a).degree)) =
      some ([2 ^ 63 - 1], 63) ∧
    ((createComplement pathAndIsolatedVertex).2.getD 0 none).map
        (fun a => ((deref (createComplement pathAndIsolatedVertex).1 a).neighbors,
          (deref (createComplement pathAndIsolatedVertex).1 a).degree)) =
      some ([2 ^ 64 - 4], 62) ∧
    ((createComplement pathAndIsolatedVertex).2.length = pathAndIsolatedVertex.vertices.length ∧
    (∀ p, p < pathAndIsolatedVertex.heap.length →
      deref (createComplement pathAndIsolatedVertex).1 p = deref pathAndIsolatedVertex.heap p) ∧
    ∀ i, i < pathAndIsolatedVertex.vertices.length →
      ((createComplement pathAndIsolatedVertex).2.getD i none = none ↔
        (pathAndIsolatedVertex.vertices.length : Int) -
          (deref pathAndIsolatedVertex.heap (pathAndIsolatedVertex.vertices.getD i 0)).degree - 1 =
          0) ∧
      ∀ a, (createComplement pathAndIsolatedVertex).2.getD i none = some a →
        pathAndIsolatedVertex.heap.length ≤ a ∧
        (deref (createComplement pathAndIsolatedVertex).1 a).number = (i : Int) ∧
        (deref (createComplement pathAndIsolatedVertex).1 a).degree =
          (pathAndIsolatedVertex.vertices.length : Int) -
            (deref pathAndIsolatedVertex.heap (pathAndIsolatedVertex.vertices.getD i 0)).degree -
            1 ∧
        (deref (createComplement pathAndIsolatedVertex).1 a).degree ≠ 0 ∧
        (deref (createComplement pathAndIsolatedVertex).1 a).neighbors.length =
          (pathAndIsolatedVertex.vertices.length + 63) / 64 ∧
        (∀ j, j < pathAndIsolatedVertex.vertices.length →
          (wordBit (deref (createComplement pathAndIsolatedVertex).1 a).neighbors j = true ↔
            j ≠ i ∧ ¬ adjacentAt pathAndIsolatedVertex i j)) ∧
        ∀ j, pathAndIsolatedVertex.vertices.length ≤ j →
          wordBit (deref (createComplement pathAndIsolatedVertex).1 a).neighbors j = false) :=
  ⟨by decide!, by decide!, by unfold BitsetsConsistent adjacentAt; decide!, by decide!, by decide!,
    createComplement_spec pathAndIsolatedVertex (by decide!)
      (by unfold BitsetsConsistent adjacentAt; decide!)⟩

/-! ## coloring.c : the frames that find no next vertex -/

/-- The loop with the record of the leaves computes the result and the state of `colorLoop`. -/
theorem colorLoopLeaves_result (self : State → Option (Int × State))
    (selfL : State → Option (Int × State × List State))
    (h : ∀ s, (selfL s).map (fun r => (r.1, r.2.1)) = self s) (fuel : Nat) (old_counter : Int)
    (nextVertex : Nat) (max_used_temp : Int) :
    ∀ (n : Nat) (nextColor : Int) (s : State),
      (colorLoopLeaves selfL fuel old_counter nextVertex max_used_temp n nextColor s).map
          (fun r => (r.1, r.2.1)) =
        colorLoop self fuel old_counter nextVertex max_used_temp n nextColor s := by
  intro n
  induction n with
  | zero => intro nextColor s; rfl
  | succ n ih =>
    intro nextColor s
    have hback : ∀ (c : Int) (t : State) (seen : List State),
        ((colorLoopLeaves selfL fuel old_counter nextVertex max_used_temp n c t).map
            (fun r => (r.1, r.2.1, seen ++ r.2.2))).map (fun r => (r.1, r.2.1)) =
          colorLoop self fuel old_counter nextVertex max_used_temp n c t := by
      intro c t seen
      rw [← ih c t, Option.map_map]
      rfl
    unfold colorLoopLeaves colorLoop
    by_cases h1 : s.SEARCH = search.EXHAUSTIVE ∧ s.MAX_USED ≥ s.CHROMATIC
    · rw [if_pos h1, if_pos h1]
      rfl
    · rw [if_neg h1, if_neg h1]
      cases hg : s.vertices.get? nextVertex with
      | none => rfl
      | some p =>
        simp only []
        by_cases h2 : findColorFF s (nextColor + 1) p = -1
        · rw [if_pos h2, if_pos h2]
          rfl
        · rw [if_neg h2, if_neg h2]
          generalize persistColors fuel _ _ _ = pc
          cases pc with
          | none => rfl
          | some r =>
            obtain ⟨res, s3, log3⟩ := r
            simp only []
            by_cases h3 : res = 1
            · rw [if_pos h3, if_pos h3, ← h s3]
              cases hs : selfL s3 with
              | none => rfl
              | some r1 =>
                obtain ⟨res1, s4, seen⟩ := r1
                simp only [Option.map_some']
                by_cases h4 : s3.SEARCH = search.EXHAUSTIVE
                · rw [if_pos h4, if_pos h4]
                  exact hback _ _ _
                · rw [if_neg h4, if_neg h4]
                  by_cases h5 : res1 = 1
                  · rw [if_pos h5, if_pos h5]
                    rfl
                  · rw [if_neg h5, if_neg h5]
                    exact hback _ _ _
            · rw [if_neg h3, if_neg h3]
              exact hback _ _ _

/-- The search with the record of the leaves computes the result and the state of
`colorGraph`. -/
theorem colorGraphLeaves_result :
    ∀ (fuel : Nat) (s : State),
      (colorGraphLeaves fuel s).map (fun r => (r.1, r.2.1)) = colorGraph fuel s := by
  intro fuel
  induction fuel with
  | zero => intro s; rfl
  | succ fuel ih =>
    intro s
    unfold colorGraphLeaves colorGraph
    simp only []
    generalize selectNextVertex _ = sel
    by_cases h1 : sel.1 = -1
    · rw [if_pos h1, if_pos h1]
      generalize (if ¬ sel.2.CS = true then ({ sel.2 with VERTEX_COUNTER := sel.1 } : State)
        else sel.2) = s3
      by_cases h2 : s3.SEARCH = search.EXHAUSTIVE ∧ s3.MAX_USED < s3.CHROMATIC
      · rw [if_pos h2, if_pos h2]
        rfl
      · rw [if_neg h2, if_neg h2]
        rfl
    · rw [if_neg h1, if_neg h1]
      exact colorLoopLeaves_result _ _ ih _ _ _ _ _ _ _

set_option maxRecDepth 1000000 in
set_option maxHeartbeats 4000000 in
/-- Claim C24, evaluated at a failing input. On `staleLeafGraph` (EXHAUSTIVE mode without CS)
the RLF bound is 6 and `colorGraph` has two frames in which the selection returns -1. In the
first every vertex is colored. In the second, `VERTEX_COUNTER` is 13, `selectNextVertexFF`
returns -1, and vertex 6, at index 1 of the array, is uncolored; the frame takes the partial
coloring for a coloring with 4 colors, and `coloring` returns 4. -/
theorem colorGraph_leaf_with_uncolored_vertex :
    WellFormed staleLeafGraph ∧ Uncolored staleLeafGraph ∧
    staleLeafGraph.SEARCH = search.EXHAUSTIVE ∧ staleLeafGraph.CS = false ∧
    (getUpperBound 16 (initialSorting (initializeCounters staleLeafGraph))).map Prod.fst =
      some 6 ∧
    ((getUpperBound 16 (initialSorting (initializeCounters staleLeafGraph))).bind
        (fun (r : Int × State) =>
          colorGraphLeaves 16 (exhaustiveStart (initializeCounters r.2) r.1))).map
      (fun (x : Int × State × List State) => (x.1, x.2.1.CHROMATIC)) = some (-1, 3) ∧
    ((getUpperBound 16 (initialSorting (initializeCounters staleLeafGraph))).bind
        (fun (r : Int × State) =>
          colorGraphLeaves 16 (exhaustiveStart (initializeCounters r.2) r.1))).map
      (fun (x : Int × State × List State) =>
        x.2.2.map (fun t => (t.VERTEX_COUNTER, selectNextVertexFF t))) =
      some [(13, -1), (13, -1)] ∧
    ((getUpperBound 16 (initialSorting (initializeCounters staleLeafGraph))).bind
        (fun (r : Int × State) =>
          colorGraphLeaves 16 (exhaustiveStart (initializeCounters r.2) r.1))).map
      (fun (x : Int × State × List State) => x.2.2.map (fun t => t.vertices)) =
      some [[1, 9, 3, 0, 2, 4, 7, 8, 12, 5, 10, 11, 13, 6],
        [7, 6, 5, 8, 4, 2, 0, 3, 9, 1, 12, 10, 11, 13]] ∧
    ((getUpperBound 16 (initialSorting (initializeCounters staleLeafGraph))).bind
        (fun (r : Int × State) =>
          colorGraphLeaves 16 (exhaustiveStart (initializeCounters r.2) r.1))).map
      (fun (x : Int × State × List State) => x.2.2.map leftUncolored) = some [[], [6]] ∧
    (coloring 16 staleLeafGraph).map Prod.fst = some 4 := by
  refine ⟨?_, ?_, ?_, ?_, ?_, ?_, ?_, ?_, ?_, ?_⟩
  · unfold WellFormed; decide!
  · unfold Uncolored; decide!
  · decide
  · decide
  · decide!
  · decide!
  · decide!
  · decide!
  · decide!
  · decide!

/-! ## The exhaustive search in a fixed order: basic facts -/

theorem sameSetup_refl (s : State) : SameSetup s s := ⟨s.heap, s.MAX_USED, rfl⟩

theorem sameSetup_trans {s t u : State} (h1 : SameSetup s t) (h2 : SameSetup t u) :
    SameSetup s u := by
  obtain ⟨h, m, e⟩ := h1
  obtain ⟨h', m', e'⟩ := h2
  exact ⟨h', m', by rw [e', e]⟩

theorem sameSetup_modify (s : State) (p : Nat) (f : Vertex → Vertex) :
    SameSetup s (modify s p f) := ⟨_, s.MAX_USED, rfl⟩

theorem sameSetup_used (s : State) (m : Int) : SameSetup s { s with MAX_USED := m } :=
  ⟨s.heap, m, rfl⟩

theorem sameSetup_removeNeighborColors (c : Int) :
    ∀ (rest : List Nat) (s : State) (log : ChangeLog),
      SameSetup s (removeNeighborColors rest c s log).1 := by
  intro rest
  induction rest with
  | nil => intro s log; exact sameSetup_refl s
  | cons q rest ih =>
    intro s log
    unfold removeNeighborColors
    split
    · exact sameSetup_trans (sameSetup_modify s q _) (ih _ _)
    · exact ih s log

theorem sameSetup_persistLoop
    (self : List Nat → State → ChangeLog → Option (Int × State × ChangeLog))
    (hself : ∀ nbrs s log res t log1, self nbrs s log = some (res, t, log1) → SameSetup s t) :
    ∀ nbrs s log res t log1, persistLoop self nbrs s log = some (res, t, log1) →
      SameSetup s t := by
  intro nbrs
  induction nbrs with
  | nil =>
    intro s log res t log1 h
    unfold persistLoop at h
    cases h
    exact sameSetup_refl s
  | cons nb rest ih =>
    intro s log res t log1 h
    unfold persistLoop at h
    split at h
    · simp only [] at h
      split at h
      · cases h
        exact sameSetup_modify s nb _
      · split at h
        · generalize hs2 : (if ctzll (deref s.heap nb).availableColors >
              (modify s nb (fun v => { v with
                color := ctzll (deref s.heap nb).availableColors })).MAX_USED
            then { modify s nb (fun v => { v with
                color := ctzll (deref s.heap nb).availableColors }) with
              MAX_USED := ctzll (deref s.heap nb).availableColors }
            else modify s nb (fun v => { v with
                color := ctzll (deref s.heap nb).availableColors })) = s2 at h
          have h2 : SameSetup s s2 := by
            rw [← hs2]
            split
            · exact sameSetup_trans (sameSetup_modify s nb _) (sameSetup_used _ _)
            · exact sameSetup_modify s nb _
          have h3 := sameSetup_removeNeighborColors (ctzll (deref s.heap nb).availableColors)
            (deref s2.heap nb).adjacentVertices s2
            { log with coloredVertices := log.coloredVertices ++ [nb] }
          generalize removeNeighborColors (deref s2.heap nb).adjacentVertices
            (ctzll (deref s.heap nb).availableColors) s2
            { log with coloredVertices := log.coloredVertices ++ [nb] } = r at h h3
          cases hr : self (deref r.1.heap nb).adjacentVertices r.1 r.2 with
          | none => rw [hr] at h; cases h
          | some x =>
            obtain ⟨res1, s3, log3⟩ := x
            rw [hr] at h
            simp only [] at h
            have h4 := hself _ _ _ _ _ _ hr
            split at h
            · cases h
              exact sameSetup_trans h2 (sameSetup_trans h3 h4)
            · exact sameSetup_trans h2 (sameSetup_trans h3 (sameSetup_trans h4
                (ih _ _ _ _ _ h)))
        · exact ih _ _ _ _ _ h
    · exact ih _ _ _ _ _ h

theorem sameSetup_persistColors (fuel : Nat) :
    ∀ nbrs s log res t log1, persistColors fuel nbrs s log = some (res, t, log1) →
      SameSetup s t := by
  induction fuel with
  | zero => intro nbrs s log res t log1 h; unfold persistColors at h; cases h
  | succ fuel ih =>
    intro nbrs s log res t log1 h
    unfold persistColors at h
    exact sameSetup_persistLoop (persistColors fuel) ih nbrs s log res t log1 h

/-- In a fixed order without CS, `selectNextVertex` is the first-fit scan and leaves the state
alone. -/
theorem selectNextVertex_static (s : State) (ho : StaticOrder s) (hcs : s.CS = false) :
    selectNextVertex s = (selectNextVertexFF s, s) := by
  have key : ∀ t, t = s →
      (if t.CS then selectNextVertexCS t else (selectNextVertexFF t, t)) =
        (selectNextVertexFF s, s) := by
    intro t e
    rw [e, hcs]
    rfl
  unfold selectNextVertex
  simp only []
  apply key
  split
  · next c =>
    rcases ho with h | h | h
    · exact absurd h c.1
    · split <;> first | rfl | (rename_i heq; rw [h] at heq; cases heq)
    · split <;> first | rfl | (rename_i heq; rw [h] at heq; cases heq)
  · rfl

theorem extends_mono {s : State} {m m1 : Int} {f : Nat → Nat} (h : Extends s m f)
    (hm : m ≤ m1) : Extends s m1 f := by
  refine ⟨fun p hp => ⟨?_, (h.1 p hp).2⟩, h.2⟩
  have := (h.1 p hp).1
  omega

theorem extends_congr {s t : State} {m : Int} {f : Nat → Nat} (h : Extends s m f)
    (hv : t.vertices = s.vertices)
    (hadj : ∀ q, (deref t.heap q).adjacentVertices = (deref s.heap q).adjacentVertices)
    (hcol : ∀ q, (deref t.heap q).color = (deref s.heap q).color) : Extends t m f := by
  refine ⟨fun p hp => ?_, fun q hq hc => ?_⟩
  · rw [hv] at hp
    rw [hadj]
    exact h.1 p hp
  · rw [hv] at hq
    rw [hcol] at hc ⊢
    exact h.2 q hq hc

theorem swapColors_ne (c d : Nat) (f : Nat → Nat) (p q : Nat) (h : f p ≠ f q) :
    swapColors c d f p ≠ swapColors c d f q := by
  unfold swapColors
  split_ifs <;> omega

theorem swapColors_lt (c d k : Nat) (f : Nat → Nat) (p : Nat) (hc : c < k) (hd : d < k)
    (h : f p < k) : swapColors c d f p < k := by
  unfold swapColors
  split_ifs <;> omega

theorem swapColors_proper {s : State} {k c d : Nat} {f : Nat → Nat}
    (h : ProperColoring s k f) (hc : c < k) (hd : d < k) :
    ProperColoring s k (swapColors c d f) :=
  fun p hp => ⟨swapColors_lt c d k f p hc hd (h p hp).1,
    fun q hq => swapColors_ne c d f p q ((h p hp).2 q hq)⟩

theorem swapColors_fix (c d : Nat) (f : Nat → Nat) (p : Nat) (hc : f p ≠ c) (hd : f p ≠ d) :
    swapColors c d f p = f p := by
  unfold swapColors
  rw [if_neg hc, if_neg hd]

theorem swapColors_left (c d : Nat) (f : Nat → Nat) (p : Nat) (hc : f p = c) :
    swapColors c d f p = d := by
  unfold swapColors
  rw [if_pos hc]

theorem uncoloredCells_congr {s t : State} (hl : t.heap.length = s.heap.length)
    (hc : ∀ q, (deref t.heap q).color = (deref s.heap q).color) :
    uncoloredCells t = uncoloredCells s := by
  unfold uncoloredCells
  rw [hl]
  congr 1
  funext q
  rw [hc]

theorem exhSame_refl {s : State} (hc : ExhCore s) : ExhSame s s where
  verts := rfl
  len := rfl
  used := rfl
  srch := rfl
  cs := rfl
  sorting := rfl
  rate := rfl
  chrom := ⟨hc.chrom.1, le_refl _⟩
  adj := fun _ => rfl
  col := fun _ => rfl
  av := fun q hq => (Nat.mod_eq_of_lt (hc.dom q hq)).symm
  le := fun _ => le_refl _

theorem exhSame_trans {s t u : State} (h1 : ExhSame s t) (h2 : ExhSame t u) : ExhSame s u where
  verts := h2.verts.trans h1.verts
  len := h2.len.trans h1.len
  used := h2.used.trans h1.used
  srch := h2.srch.trans h1.srch
  cs := h2.cs.trans h1.cs
  sorting := h2.sorting.trans h1.sorting
  rate := h2.rate.trans h1.rate
  chrom := ⟨h2.chrom.1, le_trans h2.chrom.2 h1.chrom.2⟩
  adj := fun q => (h2.adj q).trans (h1.adj q)
  col := fun q => (h2.col q).trans (h1.col q)
  av := by
    intro q hq
    rw [h2.av q (by rw [h1.verts]; exact hq), h1.av q hq]
    apply Nat.mod_mod_of_dvd
    apply Nat.pow_dvd_pow
    have := h2.chrom
    have := h1.chrom
    omega
  le := fun q => le_trans (h2.le q) (h1.le q)

/-- A state that differs from `s` only in counters has the colors, domains and graph of `s`. -/
theorem exhSame_congr {s t : State} (hc : ExhCore s) (hv : t.vertices = s.vertices)
    (hl : t.heap.length = s.heap.length) (hu : t.MAX_USED = s.MAX_USED)
    (hs : t.SEARCH = s.SEARCH) (hcs : t.CS = s.CS) (hso : t.SORTING = s.SORTING)
    (hr : t.SORTING_RATE = s.SORTING_RATE) (hch : t.CHROMATIC = s.CHROMATIC)
    (hadj : ∀ q, (deref t.heap q).adjacentVertices = (deref s.heap q).adjacentVertices)
    (hcol : ∀ q, (deref t.heap q).color = (deref s.heap q).color)
    (hav : ∀ q, (deref t.heap q).availableColors = (deref s.heap q).availableColors) :
    ExhSame s t where
  verts := hv
  len := hl
  used := hu
  srch := hs
  cs := hcs
  sorting := hso
  rate := hr
  chrom := by rw [hch]; exact ⟨hc.chrom.1, le_refl _⟩
  adj := hadj
  col := hcol
  av := fun q hq => by rw [hav, hch]; exact (Nat.mod_eq_of_lt (hc.dom q hq)).symm
  le := fun q => by rw [hav]

theorem exhCore_of_same {s t : State} (hc : ExhCore s) (h : ExhSame s t) : ExhCore t where
  chrom := ⟨h.chrom.1, le_trans h.chrom.2 hc.chrom.2⟩
  col := by
    intro p hp
    rw [h.verts] at hp
    rw [h.col, h.used]
    exact hc.col p hp
  top := by
    rcases hc.top with e | ⟨p, hp, e⟩
    · left
      rw [h.used]
      exact e
    · right
      exact ⟨p, by rw [h.verts]; exact hp, by rw [h.col, h.used]; exact e⟩
  dom := by
    intro p hp
    rw [h.verts] at hp
    rw [h.av p hp]
    exact Nat.mod_lt _ (Nat.two_pow_pos _)
  full := by
    intro p hp hu i hi hb
    rw [h.verts] at hp
    rw [h.col] at hu
    rw [h.av p hp, Nat.testBit_mod_two_pow] at hb
    have hlt : i < t.CHROMATIC.toNat := by
      have := h.chrom
      omega
    simp only [hlt, decide_True, Bool.true_and] at hb
    obtain ⟨u, hu1, hu2⟩ := hc.full p hp hu i (lt_of_lt_of_le hi h.chrom.2) hb
    exact ⟨u, by rw [h.adj]; exact hu1, by rw [h.col]; exact hu2⟩

theorem consistent_of_same {s t : State} (hc : Consistent s) (h : ExhSame s t) :
    Consistent t := by
  have hbits : ∀ q ∈ s.vertices, ∀ i, (deref t.heap q).availableColors.testBit i = true →
      (deref s.heap q).availableColors.testBit i = true := by
    intro q hq i hi
    rw [h.av q hq, Nat.testBit_mod_two_pow] at hi
    simp only [Bool.and_eq_true] at hi
    exact hi.2
  refine ⟨⟨by rw [h.verts]; exact hc.wf.1,
    fun p hp => by rw [h.len]; exact hc.wf.2.1 p (by rw [← h.verts]; exact hp),
    fun p hp q hq => ?_⟩, fun p hp => ?_, fun p hp hu u hu1 hu2 => ?_, fun p hp hu u hu1 => ?_⟩
  · rw [h.verts] at hp ⊢
    rw [h.adj] at hq
    rw [h.adj]
    exact hc.wf.2.2 p hp q hq
  · rw [h.verts] at hp
    rw [h.av p hp]
    exact lt_of_le_of_lt (Nat.mod_le _ _) (hc.dom p hp)
  · rw [h.verts] at hp
    rw [h.col] at hu hu2
    rw [h.adj] at hu1
    rw [h.col]
    by_contra hne
    have hb := hbits p hp _ (by simpa using hne)
    rw [hc.excl p hp hu u hu1 hu2] at hb
    cases hb
  · rw [h.verts] at hp
    rw [h.col] at hu
    rw [h.adj] at hu1
    rw [h.col, h.col]
    exact hc.proper p hp hu u hu1

theorem exhInv_of_same {s t : State} (hi : ExhInv s) (h : ExhSame s t) : ExhInv t where
  cons := consistent_of_same hi.cons h
  core := exhCore_of_same hi.core h
  words := fun q => lt_of_le_of_lt (h.le q) (hi.words q)
  ne := by rw [h.verts]; exact hi.ne
  srch := by rw [h.srch]; exact hi.srch
  cs := by rw [h.cs]; exact hi.cs
  order := by
    unfold StaticOrder
    rw [h.rate, h.sorting]
    exact hi.order

theorem extends_same {s t : State} {m : Int} {f : Nat → Nat} (h : ExhSame s t) :
    Extends t m f ↔ Extends s m f :=
  ⟨fun e => extends_congr e h.verts.symm (fun q => (h.adj q).symm) (fun q => (h.col q).symm),
    fun e => extends_congr e h.verts h.adj h.col⟩

/-! ## The exhaustive search in a fixed order: one attempt of a frame -/

theorem removeNeighborColors_heap_only (c : Int) :
    ∀ (rest : List Nat) (s : State) (log : ChangeLog),
      ∃ h, (removeNeighborColors rest c s log).1 = { s with heap := h } := by
  intro rest
  induction rest with
  | nil => intro s log; exact ⟨s.heap, rfl⟩
  | cons q rest ih =>
    intro s log
    unfold removeNeighborColors
    split
    · obtain ⟨h, e⟩ := ih (modify s q
        (fun v => { v with availableColors := v.availableColors - bit64 c }))
        { log with
          changedVertices := (recordChange q (bit64 c) log.changedVertices log.vertexChanges).1,
          vertexChanges := (recordChange q (bit64 c) log.changedVertices log.vertexChanges).2 }
      exact ⟨h, by rw [e]; rfl⟩
    · exact ih s log

theorem wellFormed_congr {s t : State} (hw : WellFormed s) (hv : t.vertices = s.vertices)
    (hl : t.heap.length = s.heap.length)
    (hadj : ∀ q, (deref t.heap q).adjacentVertices = (deref s.heap q).adjacentVertices) :
    WellFormed t := by
  refine ⟨by rw [hv]; exact hw.1, fun p hp => by rw [hl]; exact hw.2.1 p (by rw [← hv]; exact hp),
    fun p hp q hq => ?_⟩
  rw [hv] at hp ⊢
  rw [hadj] at hq
  rw [hadj]
  exact hw.2.2 p hp q hq

theorem properColoring_congr {s t : State} {k : Nat} {f : Nat → Nat} (h : ProperColoring s k f)
    (hv : t.vertices = s.vertices)
    (hadj : ∀ q, (deref t.heap q).adjacentVertices = (deref s.heap q).adjacentVertices) :
    ProperColoring t k f := by
  intro p hp
  rw [hv] at hp
  rw [hadj]
  exact h p hp

/-- Coloring the uncolored vertex `nb` with a color `c` of its domain that every coloring of `G`
gives it keeps the forward invariant. State `t` is `s` with `nb` colored and `MAX_USED`
raised to `c` if `c` is larger. -/
theorem exhFwd_color {G : (Nat → Nat) → Prop} {s t : State} {nb : Nat} {c : Int}
    (h : ExhFwd G s) (hnb : nb ∈ s.vertices) (hu : (deref s.heap nb).color = -1) (hc0 : 0 ≤ c)
    (hbit : (deref s.heap nb).availableColors.testBit c.toNat = true)
    (hforce : ∀ f, G f → ((f nb : Nat) : Int) = c)
    (hv : t.vertices = s.vertices) (hl : t.heap.length = s.heap.length)
    (hadj : ∀ q, (deref t.heap q).adjacentVertices = (deref s.heap q).adjacentVertices)
    (hav : ∀ q, (deref t.heap q).availableColors = (deref s.heap q).availableColors)
    (hcol : ∀ q, (deref t.heap q).color = if q = nb then c else (deref s.heap q).color)
    (hmu : t.MAX_USED = if c > s.MAX_USED then c else s.MAX_USED)
    (hch : t.CHROMATIC = s.CHROMATIC) : ExhFwd G t := by
  have hclt : c < s.CHROMATIC := by
    by_contra hge
    have h1 : (deref s.heap nb).availableColors < 2 ^ c.toNat :=
      lt_of_lt_of_le (h.core.dom nb hnb)
        (Nat.pow_le_pow_right (by decide) (by have := h.core.chrom; omega))
    rw [Nat.testBit_lt_two_pow h1] at hbit
    cases hbit
  have hmu1 : s.MAX_USED ≤ t.MAX_USED ∧ c ≤ t.MAX_USED ∧ t.MAX_USED < s.CHROMATIC := by
    rw [hmu]
    have := h.below
    split <;> omega
  refine ⟨wellFormed_congr h.wf hv hl hadj, ⟨by rw [hch]; exact h.core.chrom, ?_, ?_, ?_, ?_⟩,
    by rw [hch]; exact hmu1.2.2, fun f hf => ?_, fun f hf q hq hc => ?_⟩
  · intro p hp
    rw [hv] at hp
    rw [hcol]
    split
    · exact ⟨by omega, hmu1.2.1⟩
    · have := h.core.col p hp
      exact ⟨this.1, le_trans this.2 hmu1.1⟩
  · by_cases hgt : c > s.MAX_USED
    · right
      refine ⟨nb, by rw [hv]; exact hnb, ?_⟩
      rw [hcol, if_pos rfl, hmu, if_pos hgt]
    · rw [hmu, if_neg hgt]
      rcases h.core.top with e | ⟨p, hp, e⟩
      · exact Or.inl e
      · right
        refine ⟨p, by rw [hv]; exact hp, ?_⟩
        rw [hcol]
        have hpn : p ≠ nb := by
          intro e1
          rw [e1, hu] at e
          omega
        rw [if_neg hpn]
        exact e
  · intro p hp
    rw [hv] at hp
    rw [hav, hch]
    exact h.core.dom p hp
  · intro p hp hpu i hi hb
    rw [hv] at hp
    rw [hch] at hi
    rw [hav] at hb
    rw [hcol] at hpu
    have hpn : p ≠ nb := by
      intro e1
      rw [if_pos e1] at hpu
      omega
    rw [if_neg hpn] at hpu
    obtain ⟨u, hu1, hu2⟩ := h.core.full p hp hpu i hi hb
    refine ⟨u, by rw [hadj]; exact hu1, ?_⟩
    rw [hcol]
    have hun : u ≠ nb := by
      intro e1
      rw [e1, hu] at hu2
      omega
    rw [if_neg hun]
    exact hu2
  · rw [hch]
    exact properColoring_congr (h.good f hf) hv hadj
  · rw [hv] at hq
    rw [hcol] at hc ⊢
    by_cases e : q = nb
    · rw [if_pos e, e]
      exact hforce f hf
    · rw [if_neg e] at hc ⊢
      exact h.agree f hf q hq hc

/-- Removing the color `c` of the colored vertex `x` from the domains of its neighbors keeps
the forward invariant. -/
theorem exhFwd_remove {G : (Nat → Nat) → Prop} {s t : State} {x : Nat} {c : Int}
    (h : ExhFwd G s) (hx : x ∈ s.vertices) (hxc : (deref s.heap x).color = c) (hc0 : 0 ≤ c)
    (hv : t.vertices = s.vertices) (hl : t.heap.length = s.heap.length)
    (hadj : ∀ q, (deref t.heap q).adjacentVertices = (deref s.heap q).adjacentVertices)
    (hcol : ∀ q, (deref t.heap q).color = (deref s.heap q).color)
    (hav : ∀ q i, (deref t.heap q).availableColors.testBit i =
      ((deref s.heap q).availableColors.testBit i &&
        !(decide (i = c.toNat) && decide (q ∈ (deref s.heap x).adjacentVertices))))
    (hmu : t.MAX_USED = s.MAX_USED) (hch : t.CHROMATIC = s.CHROMATIC) : ExhFwd G t := by
  refine ⟨wellFormed_congr h.wf hv hl hadj, ⟨by rw [hch]; exact h.core.chrom, ?_, ?_, ?_, ?_⟩,
    by rw [hch, hmu]; exact h.below, fun f hf => ?_, fun f hf q hq hc => ?_⟩
  · intro p hp
    rw [hv] at hp
    rw [hcol, hmu]
    exact h.core.col p hp
  · rcases h.core.top with e | ⟨p, hp, e⟩
    · exact Or.inl (by rw [hmu]; exact e)
    · exact Or.inr ⟨p, by rw [hv]; exact hp, by rw [hcol, hmu]; exact e⟩
  · intro p hp
    rw [hv] at hp
    rw [hch]
    apply lt_of_testBit_subset _ _ _ _ (h.core.dom p hp)
    intro i hi
    rw [hav] at hi
    simp only [Bool.and_eq_true] at hi
    exact hi.1
  · intro p hp hpu i hi hb
    rw [hv] at hp
    rw [hch] at hi
    rw [hcol] at hpu
    rw [hav] at hb
    by_cases hs : (deref s.heap p).availableColors.testBit i = false
    · obtain ⟨u, hu1, hu2⟩ := h.core.full p hp hpu i hi hs
      exact ⟨u, by rw [hadj]; exact hu1, by rw [hcol]; exact hu2⟩
    · have hs1 : (deref s.heap p).availableColors.testBit i = true := by simpa using hs
      rw [hs1] at hb
      simp only [Bool.true_and, Bool.not_eq_false', Bool.and_eq_true, decide_eq_true_eq] at hb
      refine ⟨x, ?_, ?_⟩
      · rw [hadj]
        exact (h.wf.2.2 x hx p hb.2).2.2
      · rw [hcol, hxc, hb.1]
        omega
  · rw [hch]
    exact properColoring_congr (h.good f hf) hv hadj
  · rw [hv] at hq
    rw [hcol] at hc ⊢
    exact h.agree f hf q hq hc

/-- An uncolored vertex whose domain is a single color gets that color in every coloring
of `G`. -/
theorem exhFwd_forced {G : (Nat → Nat) → Prop} {s : State} {nb : Nat} (h : ExhFwd G s)
    (hnb : nb ∈ s.vertices) (hu : (deref s.heap nb).color = -1)
    (h0 : (deref s.heap nb).availableColors ≠ 0)
    (h1 : (deref s.heap nb).availableColors &&& ((deref s.heap nb).availableColors - 1) = 0) :
    0 ≤ ctzll (deref s.heap nb).availableColors ∧ ctzll (deref s.heap nb).availableColors ≤ 63 ∧
    (deref s.heap nb).availableColors.testBit
      (ctzll (deref s.heap nb).availableColors).toNat = true ∧
    ∀ f, G f → ((f nb : Nat) : Int) = ctzll (deref s.heap nb).availableColors := by
  have h64 : (deref s.heap nb).availableColors < 2 ^ 64 :=
    lt_of_lt_of_le (h.core.dom nb hnb)
      (Nat.pow_le_pow_right (by decide) (by have := h.core.chrom; omega))
  obtain ⟨j, hj, e, ea⟩ := single_color _ h0 h64 h1
  rw [e]
  refine ⟨by omega, by omega, ?_, fun f hf => ?_⟩
  · rw [Int.toNat_ofNat, ea, Nat.testBit_two_pow_self]
  · by_contra hne
    have hfj : j ≠ f nb := fun e1 => hne (by rw [e1])
    have hlt := (h.good f hf nb hnb).1
    have hb : (deref s.heap nb).availableColors.testBit (f nb) = false := by
      rw [ea, Nat.testBit_two_pow_of_ne hfj]
    obtain ⟨u, hu1, hu2⟩ := h.core.full nb hnb hu (f nb) (by omega) hb
    have huv := (h.wf.2.2 nb hnb u hu1).1
    have := h.agree f hf u huv (by rw [hu2]; omega)
    rw [hu2] at this
    exact (h.good f hf nb hnb).2 u hu1 (by omega)

/-- An uncolored vertex with an empty domain: no coloring of `G` is left. -/
theorem exhFwd_conflict {G : (Nat → Nat) → Prop} {s : State} {q : Nat} (h : ExhFwd G s)
    (hq : q ∈ s.vertices) (hu : (deref s.heap q).color = -1)
    (h0 : (deref s.heap q).availableColors = 0) : ∀ f, ¬ G f := by
  intro f hf
  have hlt := (h.good f hf q hq).1
  obtain ⟨u, hu1, hu2⟩ := h.core.full q hq hu (f q) (by omega)
    (by rw [h0, Nat.zero_testBit])
  have huv := (h.wf.2.2 q hq u hu1).1
  have := h.agree f hf u huv (by rw [hu2]; omega)
  rw [hu2] at this
  exact (h.good f hf q hq).2 u hu1 (by omega)

theorem persistLoop_fwd (G : (Nat → Nat) → Prop)
    (self : List Nat → State → ChangeLog → Option (Int × State × ChangeLog))
    (hself : ∀ nbrs s log res t log1, ExhFwd G s → (∀ q ∈ nbrs, q ∈ s.vertices) →
      self nbrs s log = some (res, t, log1) → ExhFwd G t ∧ t.vertices = s.vertices) :
    ∀ nbrs s log res t log1, ExhFwd G s → (∀ q ∈ nbrs, q ∈ s.vertices) →
      persistLoop self nbrs s log = some (res, t, log1) →
      ExhFwd G t ∧ t.vertices = s.vertices := by
  intro nbrs
  induction nbrs with
  | nil =>
    intro s log res t log1 hs _ h
    unfold persistLoop at h
    cases h
    exact ⟨hs, rfl⟩
  | cons nb rest ih =>
    intro s log res t log1 hs hin h
    have hnb : nb ∈ s.vertices := hin nb (List.mem_cons_self _ _)
    have hrest : ∀ q ∈ rest, q ∈ s.vertices := fun q hq => hin q (List.mem_cons_of_mem _ hq)
    have hnl : nb < s.heap.length := hs.wf.2.1 nb hnb
    unfold persistLoop at h
    by_cases hu : (deref s.heap nb).color = -1
    · rw [if_pos hu] at h
      simp only [] at h
      by_cases h0 : (deref s.heap nb).availableColors = 0
      · rw [if_pos h0] at h
        cases h
        refine ⟨?_, rfl⟩
        have hadj := fun q => deref_modify_field (fun v => v.adjacentVertices) s nb q
          (fun v => { v with nbConflicts := v.nbConflicts + 1 }) (fun _ => rfl)
        have hcol := fun q => deref_modify_field (fun v => v.color) s nb q
          (fun v => { v with nbConflicts := v.nbConflicts + 1 }) (fun _ => rfl)
        have hav := fun q => deref_modify_field (fun v => v.availableColors) s nb q
          (fun v => { v with nbConflicts := v.nbConflicts + 1 }) (fun _ => rfl)
        refine ⟨wellFormed_congr hs.wf rfl (modify_heap_length _ _ _) hadj,
          ⟨hs.core.chrom, ?_, ?_, ?_, ?_⟩, hs.below,
          fun f hf => properColoring_congr (hs.good f hf) rfl hadj, fun f hf q hq hc => ?_⟩
        · intro p hp
          have := hcol p
          simp only [] at this
          rw [this]
          exact hs.core.col p hp
        · rcases hs.core.top with e | ⟨p, hp, e⟩
          · exact Or.inl e
          · refine Or.inr ⟨p, hp, ?_⟩
            have := hcol p
            simp only [] at this
            rw [this]
            exact e
        · intro p hp
          have := hav p
          simp only [] at this
          rw [this]
          exact hs.core.dom p hp
        · intro p hp hpu i hi hb
          have e1 := hcol p
          have e2 := hav p
          have e3 := hadj p
          simp only [] at e1 e2 e3
          rw [e1] at hpu
          rw [e2] at hb
          obtain ⟨u, hu1, hu2⟩ := hs.core.full p hp hpu i hi hb
          refine ⟨u, by rw [e3]; exact hu1, ?_⟩
          have e4 := hcol u
          simp only [] at e4
          rw [e4]
          exact hu2
        · have e1 := hcol q
          simp only [] at e1
          rw [e1] at hc ⊢
          exact hs.agree f hf q hq hc
      · rw [if_neg h0] at h
        by_cases h1 : (deref s.heap nb).availableColors &&&
            ((deref s.heap nb).availableColors - 1) = 0
        · rw [if_pos h1] at h
          obtain ⟨c0, c1, cb, cf⟩ := exhFwd_forced hs hnb hu h0 h1
          generalize hc : ctzll (deref s.heap nb).availableColors = c at h c0 c1 cb cf
          generalize hs2 : (if c > (modify s nb (fun v => { v with color := c })).MAX_USED
              then { modify s nb (fun v => { v with color := c }) with MAX_USED := c }
              else modify s nb (fun v => { v with color := c })) = s2 at h
          have hheap : s2.heap = (modify s nb (fun v => { v with color := c })).heap := by
            rw [← hs2]
            split <;> rfl
          have hv2 : s2.vertices = s.vertices := by
            rw [← hs2]
            split <;> rfl
          have hch2 : s2.CHROMATIC = s.CHROMATIC := by
            rw [← hs2]
            split <;> rfl
          have hmu2 : s2.MAX_USED = if c > s.MAX_USED then c else s.MAX_USED := by
            rw [← hs2]
            split
            · next hgt =>
              have hgt1 : c > s.MAX_USED := hgt
              rw [if_pos hgt1]
            · next hgt =>
              have hgt1 : ¬ c > s.MAX_USED := hgt
              rw [if_neg hgt1]
              rfl
          have hadj2 : ∀ q, (deref s2.heap q).adjacentVertices =
              (deref s.heap q).adjacentVertices := by
            intro q
            rw [hheap]
            exact deref_modify_field (fun v => v.adjacentVertices) s nb q _ (fun _ => rfl)
          have hav2 : ∀ q, (deref s2.heap q).availableColors =
              (deref s.heap q).availableColors := by
            intro q
            rw [hheap]
            exact deref_modify_field (fun v => v.availableColors) s nb q _ (fun _ => rfl)
          have hcol2 : ∀ q, (deref s2.heap q).color =
              if q = nb then c else (deref s.heap q).color := by
            intro q
            rw [hheap, deref_modify]
            by_cases e : q = nb
            · rw [if_pos ⟨e, hnl⟩, if_pos e]
            · rw [if_neg (fun x => e x.1), if_neg e]
          have hl2 : s2.heap.length = s.heap.length := by
            rw [hheap]
            exact modify_heap_length _ _ _
          have f2 : ExhFwd G s2 :=
            exhFwd_color hs hnb hu c0 cb cf hv2 hl2 hadj2 hav2 hcol2 hmu2 hch2
          obtain ⟨r1, r2, _, r4, r5, _, r7⟩ := removeNeighborColors_frame c c0 c1
            (deref s2.heap nb).adjacentVertices s2
            { log with coloredVertices := log.coloredVertices ++ [nb] }
          obtain ⟨hh, r8⟩ := removeNeighborColors_heap_only c
            (deref s2.heap nb).adjacentVertices s2
            { log with coloredVertices := log.coloredVertices ++ [nb] }
          generalize removeNeighborColors (deref s2.heap nb).adjacentVertices c s2
            { log with coloredVertices := log.coloredVertices ++ [nb] } = r
            at h r1 r2 r4 r5 r7 r8
          have f3 : ExhFwd G r.1 :=
            exhFwd_remove f2 (by rw [hv2]; exact hnb) (by rw [hcol2, if_pos rfl]) c0 r1 r2 r4 r5
              r7 (by rw [r8]) (by rw [r8])
          have hin3 : ∀ q ∈ (deref r.1.heap nb).adjacentVertices, q ∈ r.1.vertices := by
            intro q hq
            rw [r4, hadj2] at hq
            rw [r1, hv2]
            exact (hs.wf.2.2 nb hnb q hq).1
          cases hr : self (deref r.1.heap nb).adjacentVertices r.1 r.2 with
          | none => rw [hr] at h; cases h
          | some x =>
            obtain ⟨res1, s3, log3⟩ := x
            rw [hr] at h
            simp only [] at h
            obtain ⟨f4, v4⟩ := hself _ _ _ _ _ _ f3 hin3 hr
            have hv4 : s3.vertices = s.vertices := by rw [v4, r1, hv2]
            by_cases hres : res1 = -1
            · rw [if_pos hres] at h
              cases h
              exact ⟨f4, hv4⟩
            · rw [if_neg hres] at h
              obtain ⟨f5, v5⟩ := ih s3 log3 res t log1 f4
                (fun q hq => by rw [hv4]; exact hrest q hq) h
              exact ⟨f5, by rw [v5, hv4]⟩
        · rw [if_neg h1] at h
          exact ih s log res t log1 hs hrest h
    · rw [if_neg hu] at h
      exact ih s log res t log1 hs hrest h

theorem persistColors_fwd (G : (Nat → Nat) → Prop) (fuel : Nat) :
    ∀ nbrs s log res t log1, ExhFwd G s → (∀ q ∈ nbrs, q ∈ s.vertices) →
      persistColors fuel nbrs s log = some (res, t, log1) →
      ExhFwd G t ∧ t.vertices = s.vertices := by
  induction fuel with
  | zero => intro nbrs s log res t log1 _ _ h; unfold persistColors at h; cases h
  | succ fuel ih =>
    intro nbrs s log res t log1 hs hin h
    unfold persistColors at h
    exact persistLoop_fwd G (persistColors fuel) ih nbrs s log res t log1 hs hin h

/-! ## The exhaustive search in a fixed order: color choice, attempt and rollback -/

/-- The result of `findColorFF` in EXHAUSTIVE mode: with `b` the smallest color of the domain
at or above `m`, it is `b` if `b <= MAX_USED + 1` and `b < CHROMATIC`, and -1 if not or if
there is no such color. -/
theorem findColorFF_exh (s : State) (m : Int) (p : Nat) (hs : s.SEARCH = search.EXHAUSTIVE)
    (hm0 : 0 ≤ m) (hm1 : m ≤ 63) (ha : (deref s.heap p).availableColors < 2 ^ 64) :
    (findColorFF s m p = -1 ∧
      ∀ c : Nat, m.toNat ≤ c → (deref s.heap p).availableColors.testBit c = true →
        ∃ b : Nat, m.toNat ≤ b ∧ b ≤ c ∧
          (∀ i, m.toNat ≤ i → i < b → (deref s.heap p).availableColors.testBit i = false) ∧
          ¬ ((b : Int) ≤ s.MAX_USED + 1 ∧ (b : Int) < s.CHROMATIC)) ∨
    (∃ b : Nat, findColorFF s m p = (b : Int) ∧ m.toNat ≤ b ∧
      (deref s.heap p).availableColors.testBit b = true ∧
      (∀ i, m.toNat ≤ i → i < b → (deref s.heap p).availableColors.testBit i = false) ∧
      (b : Int) ≤ s.MAX_USED + 1 ∧ (b : Int) < s.CHROMATIC) := by
  obtain ⟨f1, f2⟩ := firstColor_spec (deref s.heap p).availableColors m hm0 hm1 ha
  by_cases hex : ∃ c : Nat, m.toNat ≤ c ∧ (deref s.heap p).availableColors.testBit c = true
  · classical
    have hmin := Nat.find_spec hex
    have hlow : ∀ i, m.toNat ≤ i → i < Nat.find hex →
        (deref s.heap p).availableColors.testBit i = false := by
      intro i hi hlt
      have := Nat.find_min hex hlt
      by_contra hc
      exact this ⟨hi, by simpa using hc⟩
    have e := f2 (Nat.find hex) hmin.1 hmin.2 hlow
    by_cases hb : ((Nat.find hex : Nat) : Int) ≤ s.MAX_USED + 1 ∧
        ((Nat.find hex : Nat) : Int) < s.CHROMATIC
    · right
      refine ⟨Nat.find hex, ?_, hmin.1, hmin.2, hlow, hb.1, hb.2⟩
      unfold findColorFF
      simp only []
      rw [e, if_neg (fun x => x.1 hs), if_pos ⟨hs, by omega, hb.1, hb.2⟩]
    · left
      constructor
      · unfold findColorFF
        simp only []
        rw [e, if_neg (fun x => x.1 hs), if_neg (fun x => hb ⟨x.2.2.1, x.2.2.2⟩)]
      · intro c hc ht
        exact ⟨Nat.find hex, hmin.1, Nat.find_min' hex ⟨hc, ht⟩, hlow, hb⟩
  · left
    have hnone : ∀ c : Nat, m.toNat ≤ c → (deref s.heap p).availableColors.testBit c = false := by
      intro c hc
      by_contra ht
      exact hex ⟨c, hc, by simpa using ht⟩
    constructor
    · have := f1 hnone
      unfold findColorFF
      simp only []
      rw [if_neg (fun c => by omega), if_neg (fun c => by omega)]
    · intro c hc ht
      rw [hnone c hc] at ht
      cases ht

/-- One pass through the loop of `colorGraph` when a color is found, in terms of `attempt`. -/
theorem colorLoop_step (self : State → Option (Int × State)) (fuel : Nat) (old_counter : Int)
    (nextVertex : Nat) (max_used_temp : Int) (n : Nat) (nextColor : Int) (s : State) (p : Nat)
    (h1 : ¬ (s.SEARCH = search.EXHAUSTIVE ∧ s.MAX_USED ≥ s.CHROMATIC))
    (h2 : s.vertices.get? nextVertex = some p) (h3 : findColorFF s (nextColor + 1) p ≠ -1) :
    colorLoop self fuel old_counter nextVertex max_used_temp (n + 1) nextColor s =
      match attempt fuel s p (findColorFF s (nextColor + 1) p) with
      | none => none
      | some (res, s3, log3) =>
        if res = 1 then
          match self s3 with
          | none => none
          | some (res1, s4) =>
            if s3.SEARCH = search.EXHAUSTIVE then
              colorLoop self fuel old_counter nextVertex max_used_temp n
                (findColorFF s (nextColor + 1) p)
                (restore { s4 with MAX_USED := max_used_temp } log3).1
            else if res1 = 1 then some (1, s4)
            else colorLoop self fuel old_counter nextVertex max_used_temp n
              (findColorFF s (nextColor + 1) p)
              (restore { s4 with MAX_USED := max_used_temp } log3).1
        else colorLoop self fuel old_counter nextVertex max_used_temp n
          (findColorFF s (nextColor + 1) p)
          (restore { s3 with MAX_USED := max_used_temp } log3).1 := by
  rw [colorLoop, if_neg h1, h2]
  simp only []
  rw [if_neg h3]
  rfl

theorem colorLoop_prune (self : State → Option (Int × State)) (fuel : Nat) (old_counter : Int)
    (nextVertex : Nat) (max_used_temp : Int) (n : Nat) (nextColor : Int) (s : State)
    (h1 : s.SEARCH = search.EXHAUSTIVE ∧ s.MAX_USED ≥ s.CHROMATIC) :
    colorLoop self fuel old_counter nextVertex max_used_temp (n + 1) nextColor s =
      some (1, s) := by
  rw [colorLoop, if_pos h1]

theorem colorLoop_fail (self : State → Option (Int × State)) (fuel : Nat) (old_counter : Int)
    (nextVertex : Nat) (max_used_temp : Int) (n : Nat) (nextColor : Int) (s : State) (p : Nat)
    (h1 : ¬ (s.SEARCH = search.EXHAUSTIVE ∧ s.MAX_USED ≥ s.CHROMATIC))
    (h2 : s.vertices.get? nextVertex = some p) (h3 : findColorFF s (nextColor + 1) p = -1) :
    colorLoop self fuel old_counter nextVertex max_used_temp (n + 1) nextColor s =
      some (-1, { setVertexColor s p (-1) with VERTEX_COUNTER := old_counter }) := by
  rw [colorLoop, if_neg h1, h2]
  simp only []
  rw [if_pos h3, h3]

/-- One attempt of a frame of the exhaustive search: the uncolored vertex `p` gets the color
that `findColorFF` returns, the color is removed from its neighbors and `persistColors` runs.
The attempt has a result; the log is exact, the state is consistent and satisfies the forward
invariant for the colorings that extend the entry state and give `p` that color; one record
less is uncolored; and on a conflict there is no such coloring. -/
theorem attempt_exh (s : State) (p : Nat) (m : Int) (fuel : Nat) (hi : ExhInv s)
    (hb : s.MAX_USED < s.CHROMATIC) (hp : p ∈ s.vertices) (hu : (deref s.heap p).color = -1)
    (hm0 : 0 ≤ m) (hm1 : m ≤ 63) (hne : findColorFF s m p ≠ -1)
    (hf : uncoloredCells s ≤ fuel) :
    ∃ res t log, attempt fuel s p (findColorFF s m p) = some (res, t, log) ∧
      (res = 1 ∨ res = -1) ∧ Logged s t log ∧ Consistent t ∧
      ExhFwd (fun f => Extends s s.CHROMATIC f ∧ ((f p : Nat) : Int) = findColorFF s m p) t ∧
      SameSetup s t ∧ uncoloredCells t < uncoloredCells s ∧
      (res = -1 → ∀ f, ¬ (Extends s s.CHROMATIC f ∧ ((f p : Nat) : Int) = findColorFF s m p)) ∧
      (deref t.heap p).color = findColorFF s m p ∧ s.MAX_USED ≤ t.MAX_USED ∧
      (∀ q, (deref s.heap q).color ≠ -1 → (deref t.heap q).color = (deref s.heap q).color) := by
  obtain ⟨c0, c1, cb⟩ := findColorFF_available s m p hm0 hm1 (hi.cons.dom p hp) hne
  generalize findColorFF s m p = c at hne c0 c1 cb ⊢
  have hpl : p < s.heap.length := hi.cons.wf.2.1 p hp
  have f0 : ExhFwd (fun f => Extends s s.CHROMATIC f ∧ ((f p : Nat) : Int) = c) s :=
    ⟨hi.cons.wf, hi.core, hb, fun f hf => hf.1.1, fun f hf => hf.1.2⟩
  obtain ⟨l0, k0, u0⟩ := logged_color_step (logged_refl s) p hpl hu
    (fun v => { v with color := c, nbRecolorings := v.nbRecolorings + 1 }) c hne
    (fun _ => rfl) (fun _ => rfl) (fun _ => rfl)
  have hsg := sameGraph_setVertexColor s p c
  unfold attempt
  simp only []
  generalize hm : (if c > (setVertexColor s p c).MAX_USED
    then { setVertexColor s p c with MAX_USED := c } else setVertexColor s p c) = s2
  have hheap : s2.heap = (setVertexColor s p c).heap := by
    rw [← hm]
    split <;> rfl
  have hverts : s2.vertices = s.vertices := by
    rw [← hm]
    split <;> rfl
  have hch2 : s2.CHROMATIC = s.CHROMATIC := by
    rw [← hm]
    split <;> rfl
  have hmu2 : s2.MAX_USED = if c > s.MAX_USED then c else s.MAX_USED := by
    rw [← hm]
    split
    · next hgt =>
      have hgt1 : c > s.MAX_USED := hgt
      rw [if_pos hgt1]
    · next hgt =>
      have hgt1 : ¬ c > s.MAX_USED := hgt
      rw [if_neg hgt1]
      rfl
  have hset2 : SameSetup s s2 := by
    rw [← hm]
    split
    · exact sameSetup_trans (sameSetup_modify s p _) (sameSetup_used _ _)
    · exact sameSetup_modify s p _
  have hcol2 : ∀ q, (deref s2.heap q).color = if q = p then c else (deref s.heap q).color := by
    intro q
    rw [hheap]
    exact setVertexColor_color s p q c hpl
  have hl2 : s2.heap.length = s.heap.length := by
    rw [hheap]
    exact hsg.2.1
  have hadj2 : ∀ q, (deref s2.heap q).adjacentVertices = (deref s.heap q).adjacentVertices :=
    fun q => by rw [hheap]; exact (hsg.2.2.2 q).1
  have hav2 : ∀ q, (deref s2.heap q).availableColors = (deref s.heap q).availableColors :=
    fun q => by rw [hheap]; exact (hsg.2.2.2 q).2.2.1
  have u1 : uncoloredCells s2 < uncoloredCells s := by
    unfold uncoloredCells at u0 ⊢
    rw [hheap]
    exact u0
  have l1 : Logged s s2 { emptyLog with coloredVertices := [p] } := by
    rw [← hm]
    split
    · exact logged_maxUsed l0 _
    · exact l0
  have f2 : ExhFwd (fun f => Extends s s.CHROMATIC f ∧ ((f p : Nat) : Int) = c) s2 :=
    exhFwd_color f0 hp hu c0 cb (fun f hf => hf.2) hverts hl2 hadj2 hav2 hcol2 hmu2 hch2
  have hcons := @consistent_after_remove s s2 p c hi.cons hp hu c0 c1 cb hverts hl2 hadj2
    hav2 hcol2 { emptyLog with coloredVertices := [p] }
  obtain ⟨r1, r2, _, r4, r5, _, r7⟩ := removeNeighborColors_frame c c0 c1
    (deref s2.heap p).adjacentVertices s2 { emptyLog with coloredVertices := [p] }
  obtain ⟨hh, r8⟩ := removeNeighborColors_heap_only c
    (deref s2.heap p).adjacentVertices s2 { emptyLog with coloredVertices := [p] }
  have r9 := sameSetup_removeNeighborColors c
    (deref s2.heap p).adjacentVertices s2 { emptyLog with coloredVertices := [p] }
  obtain ⟨lr, _, _, _⟩ := removeNeighborColors_logged s hi.words c c0 c1
    (deref s2.heap p).adjacentVertices s2 { emptyLog with coloredVertices := [p] } l1
  generalize removeNeighborColors (deref s2.heap p).adjacentVertices c s2
    { emptyLog with coloredVertices := [p] } = r at hcons r1 r2 r4 r5 r7 r8 r9 lr
  have f3 : ExhFwd (fun f => Extends s s.CHROMATIC f ∧ ((f p : Nat) : Int) = c) r.1 :=
    exhFwd_remove f2 (by rw [hverts]; exact hp) (by rw [hcol2, if_pos rfl]) c0 r1 r2 r4 r5
      r7 (by rw [r8]) (by rw [r8])
  have kr : Keeps s2 r.1 := ⟨r2, fun q _ => r5 q⟩
  have ur : uncoloredCells r.1 < fuel := by
    have := uncoloredCells_le kr
    omega
  have hin1 : ∀ q ∈ (deref r.1.heap p).adjacentVertices, q ∈ r.1.vertices := by
    intro q hq
    rw [r4, hadj2] at hq
    rw [r1, hverts]
    exact (hi.cons.wf.2.2 p hp q hq).1
  obtain ⟨res, t, log1, new, e, P⟩ :=
    persistColors_post fuel (deref r.1.heap p).adjacentVertices r.1 r.2 hcons hin1 ur
  obtain ⟨res2, t2, log2, e2, _, l3, k3⟩ :=
    persistColors_logged s hi.words fuel (deref r.1.heap p).adjacentVertices r.1 r.2 lr ur
  rw [e] at e2
  simp only [Option.some.injEq, Prod.mk.injEq] at e2
  obtain ⟨e3, e4, e5⟩ := e2
  rw [← e4, ← e5] at l3
  rw [← e4] at k3
  obtain ⟨f4, v4⟩ := persistColors_fwd _ fuel _ _ _ _ _ _ f3 hin1 e
  have hk := persistPost_keeps P
  have hpr : (deref r.1.heap p).color = c := by rw [r5, hcol2, if_pos rfl]
  have hrs : ∀ q, (deref s.heap q).color ≠ -1 →
      (deref r.1.heap q).color = (deref s.heap q).color := by
    intro q hq
    rw [r5, hcol2, if_neg (fun e => hq (by rw [e]; exact hu))]
  have hkeep : ∀ q, (deref s.heap q).color ≠ -1 →
      (deref t.heap q).color = (deref s.heap q).color := by
    intro q hq
    rw [hk.2 q (by rw [hrs q hq]; exact hq), hrs q hq]
  have hpt : p ∈ t.vertices := by rw [v4, r1, hverts]; exact hp
  refine ⟨res, t, log1, e, P.result, l3, P.cons, f4,
    sameSetup_trans hset2 (sameSetup_trans r9 (sameSetup_persistColors fuel _ _ _ _ _ _ e)),
    ?_, fun hr => ?_, by rw [hk.2 p (by rw [hpr]; exact hne), hpr], ?_, hkeep⟩
  · have h1 := uncoloredCells_le kr
    have h2 := uncoloredCells_le k3
    omega
  · obtain ⟨q, hq, _, hqu, hq0, _⟩ := P.conflict hr
    exact exhFwd_conflict f4 (by rw [v4]; exact hq) hqu hq0
  · rcases hi.core.top with e1 | ⟨w, hw, e1⟩
    · rw [e1]
      exact le_trans (f4.core.col p hpt).1 (f4.core.col p hpt).2
    · by_cases hwc : (deref s.heap w).color = -1
      · rw [← e1, hwc]
        exact le_trans (f4.core.col p hpt).1 (f4.core.col p hpt).2
      · rw [← e1, ← hkeep w hwc]
        exact (f4.core.col w (by rw [v4, r1, hverts]; exact hw)).2

/-- The function `restore` after the recursive call of the exhaustive search. State `u` is the
state before the attempt, `s3` the state after it with the exact log, and `s4` the state in
which the recursive call left `s3` (the same colors, `CHROMATIC` possibly lowered, domains cut
down). The restored state is `u` with the domains cut down to the new `CHROMATIC`. -/
theorem restore_trimmed {u s3 s4 : State} {log : ChangeLog} (hl : Logged u s3 log)
    (hsu : SameSetup u s3) (hs : ExhSame s3 s4) (hi : ExhInv u) :
    (restore { s4 with MAX_USED := u.MAX_USED } log).2 = emptyLog ∧
    ExhSame u (restore { s4 with MAX_USED := u.MAX_USED } log).1 ∧
    (restore { s4 with MAX_USED := u.MAX_USED } log).1.CHROMATIC = s4.CHROMATIC ∧
    (restore { s4 with MAX_USED := u.MAX_USED } log).1.VERTEX_COUNTER = s4.VERTEX_COUNTER := by
  obtain ⟨h1, e1, l1, a1, v1, c1⟩ :=
    foldl_uncolor log.coloredVertices { s4 with MAX_USED := u.MAX_USED }
  obtain ⟨h2, e2, l2, a2, c2, v2⟩ := foldl_readd_modes log.changedVertices log.vertexChanges
    { { s4 with MAX_USED := u.MAX_USED } with heap := h1 } hl.lens hl.nodup
  have hr : (restore { s4 with MAX_USED := u.MAX_USED } log).1 =
      { { { s4 with MAX_USED := u.MAX_USED } with heap := h1 } with heap := h2 } := by
    unfold restore
    simp only []
    rw [e1, e2]
  rw [hr]
  obtain ⟨hh, mm, esu⟩ := hsu
  have hl1 : h1.length = s4.heap.length := l1
  have hl2 : h2.length = h1.length := l2
  have hsrch : s4.SEARCH = search.EXHAUSTIVE := by rw [hs.srch, hl.srch]; exact hi.srch
  have hc4 : 0 ≤ s4.CHROMATIC ∧ s4.CHROMATIC ≤ 63 := by
    have a := hs.chrom
    have b := hi.core.chrom
    have c := hl.chrom
    omega
  have hav : ∀ q, (deref h2 q).availableColors ≤ (deref u.heap q).availableColors ∧
      (q ∈ u.vertices → (deref h2 q).availableColors =
        (deref u.heap q).availableColors % 2 ^ s4.CHROMATIC.toNat) := by
    intro q
    have hle4 := hs.le q
    have hsum := hl.av q
    by_cases hq : q < u.heap.length
    · have hq4 : q < s4.heap.length := by rw [hs.len, hl.len]; exact hq
      have hno : (deref h1 q).availableColors +
          logSum q log.changedVertices log.vertexChanges < 2 ^ 64 := by
        have := v1 q
        simp only [] at this
        rw [this]
        have := hi.words q
        omega
      have hv := v2 q (by show q < h1.length; rw [hl1]; exact hq4) hno
      simp only [] at hv
      rw [hv, if_pos hsrch, keepMask_eq s4.CHROMATIC hc4.1 hc4.2,
        Nat.and_pow_two_sub_one_eq_mod]
      have hv1 : (deref h1 q).availableColors = (deref s4.heap q).availableColors := v1 q
      rw [hv1]
      by_cases hin : q ∈ log.changedVertices
      · rw [if_pos hin]
        constructor
        · exact le_trans (Nat.mod_le _ _) (by omega)
        · intro hqv
          rw [hs.av q (by rw [hl.verts]; exact hqv), Nat.add_mod, Nat.mod_mod, ← Nat.add_mod,
            hsum]
      · rw [if_neg hin]
        have h0 := logSum_not_mem q _ log.vertexChanges hin
        constructor
        · omega
        · intro hqv
          rw [hs.av q (by rw [hl.verts]; exact hqv)]
          congr 1
          omega
    · have e0 : deref h2 q = nullVertex :=
        deref_out h2 q (by rw [hl2, hl1, hs.len, hl.len]; omega)
      have e3 : deref u.heap q = nullVertex := deref_out u.heap q (by omega)
      rw [e0, e3]
      exact ⟨le_refl _, fun _ => by simp [nullVertex]⟩
  have hcol : ∀ q, (deref h2 q).color = (deref u.heap q).color := by
    intro q
    have hc2 : (deref h2 q).color = (deref h1 q).color := c2 q
    rw [hc2]
    by_cases hin : q ∈ log.coloredVertices
    · obtain ⟨hq, hqu⟩ := hl.colIn q hin
      rw [hqu]
      exact (c1 q).1 hin (by show q < s4.heap.length; rw [hs.len, hl.len]; exact hq)
    · have := (c1 q).2 hin
      simp only [] at this
      rw [this, hs.col, hl.colOut q hin]
  refine ⟨by unfold restore; rfl, ⟨?_, ?_, rfl, ?_, ?_, ?_, ?_, ?_, ?_, hcol, fun q hq => (hav q).2 hq,
    fun q => (hav q).1⟩, rfl, rfl⟩
  · show s4.vertices = u.vertices
    rw [hs.verts, hl.verts]
  · show h2.length = u.heap.length
    rw [hl2, hl1, hs.len, hl.len]
  · show s4.SEARCH = u.SEARCH
    rw [hs.srch, hl.srch]
  · show s4.CS = u.CS
    rw [hs.cs, esu]
  · show s4.SORTING = u.SORTING
    rw [hs.sorting, esu]
  · show s4.SORTING_RATE = u.SORTING_RATE
    rw [hs.rate, esu]
  · show 0 ≤ s4.CHROMATIC ∧ s4.CHROMATIC ≤ u.CHROMATIC
    have := hs.chrom
    rw [hl.chrom] at this
    exact this
  · intro q
    have ha2 : (deref h2 q).adjacentVertices = (deref h1 q).adjacentVertices := a2 q
    have ha1 : (deref h1 q).adjacentVertices = (deref s4.heap q).adjacentVertices := a1 q
    rw [ha2, ha1, hs.adj, hl.adj]

/-! ## The exhaustive search in a fixed order: the frames of `colorGraph` -/

/-- A color that is missing from the domain of the uncolored vertex `p` is not the color of `p`
in a coloring that extends the state. -/
theorem extends_not_clear {u : State} {p c : Nat} {m : Int} {f : Nat → Nat} (hi : ExhInv u)
    (hp : p ∈ u.vertices) (hu : (deref u.heap p).color = -1) (hm : m ≤ u.CHROMATIC)
    (hb : (deref u.heap p).availableColors.testBit c = false) (he : Extends u m f) :
    f p ≠ c := by
  intro e
  have hlt := (he.1 p hp).1
  obtain ⟨w, hw1, hw2⟩ := hi.core.full p hp hu c (by omega) hb
  have hwv := (hi.cons.wf.2.2 p hp w hw1).1
  have := he.2 w hwv (by rw [hw2]; omega)
  rw [hw2] at this
  exact (he.1 p hp).2 w hw1 (by omega)

/-- When `findColorFF` finds no further color for `p` and no coloring that extends the state
gives `p` one of the colors up to `c0`, no coloring extends the state: a coloring that gives `p`
a color above `MAX_USED + 1` becomes one that gives it `MAX_USED + 1` when the two colors are
exchanged. -/
theorem no_extension_of_fail {u : State} {p : Nat} {c0 : Int} (hi : ExhInv u)
    (hp : p ∈ u.vertices) (hu : (deref u.heap p).color = -1) (hc0 : -1 ≤ c0) (hc1 : c0 ≤ 62)
    (hfail : findColorFF u (c0 + 1) p = -1)
    (htried : ∀ c : Nat, (c : Int) ≤ c0 → ∀ f, ¬ (Extends u u.CHROMATIC f ∧ f p = c)) :
    ∀ f, ¬ Extends u u.CHROMATIC f := by
  intro f he
  have hmu : -1 ≤ u.MAX_USED := by
    rcases hi.core.top with e | ⟨w, hw, e⟩
    · omega
    · rw [← e]
      exact (hi.core.col w hw).1
  by_cases hc : ((f p : Nat) : Int) ≤ c0
  · exact htried (f p) hc f ⟨he, rfl⟩
  · have hbit : (deref u.heap p).availableColors.testBit (f p) = true := by
      by_contra hcl
      exact extends_not_clear hi hp hu (le_refl _) (by simpa using hcl) he rfl
    have hlt := (he.1 p hp).1
    rcases findColorFF_exh u (c0 + 1) p hi.srch (by omega) (by omega) (hi.words p) with
      ⟨_, hall⟩ | ⟨b, hb, _⟩
    · obtain ⟨b, hb1, hb2, hlow, hnot⟩ := hall (f p) (by omega) hbit
      have hgt : u.MAX_USED + 1 < (b : Int) := by
        by_contra hle
        exact hnot ⟨by omega, by omega⟩
      have hdbit : (deref u.heap p).availableColors.testBit (u.MAX_USED + 1).toNat = true := by
        by_contra hcl
        obtain ⟨w, hw1, hw2⟩ := hi.core.full p hp hu (u.MAX_USED + 1).toNat (by omega)
          (by simpa using hcl)
        have := (hi.core.col w (hi.cons.wf.2.2 p hp w hw1).1).2
        omega
      have hdlt : ((u.MAX_USED + 1).toNat : Int) ≤ c0 := by
        by_contra hge
        have := hlow (u.MAX_USED + 1).toNat (by omega) (by omega)
        rw [this] at hdbit
        cases hdbit
      apply htried (u.MAX_USED + 1).toNat hdlt (swapColors (f p) (u.MAX_USED + 1).toNat f)
      refine ⟨⟨swapColors_proper he.1 hlt (by omega), fun q hq hqc => ?_⟩,
        swapColors_left _ _ f p rfl⟩
      have hfq := he.2 q hq hqc
      have hle := (hi.core.col q hq).2
      rw [swapColors_fix _ _ f q (by omega) (by omega)]
      exact hfq
    · rw [hfail] at hb
      omega

theorem colorable_congr {s t : State} {k : Nat} (h : Colorable s k)
    (hv : t.vertices = s.vertices)
    (hadj : ∀ q, (deref t.heap q).adjacentVertices = (deref s.heap q).adjacentVertices) :
    Colorable t k := by
  obtain ⟨f, hf⟩ := h
  exact ⟨f, properColoring_congr hf hv hadj⟩

theorem done_succ {s : State} {i p : Nat} (hd : Done i s) (hg : s.vertices.get? i = some p)
    (hp : (deref s.heap p).color ≠ -1) : Done (i + 1) s := by
  intro q hq
  have hg1 : s.vertices[i]? = some p := by rw [← List.get?_eq_getElem?]; exact hg
  rw [List.take_succ, hg1] at hq
  rcases List.mem_append.1 hq with e | e
  · exact hd q e
  · simp only [Option.toList, List.mem_singleton] at e
    rw [e]
    exact hp

/-- The loop of a frame of the exhaustive search. State `s0` is the state of the frame after
the selection of the uncolored vertex `p` at index `i`; `u` is the state at the head of the
loop, when the colors up to `c0` have been tried. -/
theorem colorLoop_exh (self : State → Option (Int × State)) (pf : Nat) (old : Int) (i p : Nat)
    (s0 : State) (hi0 : ExhInv s0) (hget : s0.vertices.get? i = some p)
    (hpu : (deref s0.heap p).color = -1) (hdone : Done i s0) (hcells : uncoloredCells s0 ≤ pf)
    (hself : ∀ s, ExhInv s → s.MAX_USED < s.CHROMATIC → Done (s.VERTEX_COUNTER + 1).toNat s →
      uncoloredCells s < uncoloredCells s0 → ∃ r, self s = some r ∧ ExhPost s r) :
    ∀ (n : Nat) (c0 : Int) (u : State), ExhSame s0 u →
      (u.VERTEX_COUNTER = (i : Int) ∨ u.VERTEX_COUNTER = -1) →
      (u.CHROMATIC ≤ s0.MAX_USED → u.VERTEX_COUNTER = -1) →
      -1 ≤ c0 → c0 ≤ 62 → 64 ≤ c0 + (n : Int) →
      (∀ c : Nat, (c : Int) ≤ c0 → ∀ f, ¬ (Extends s0 u.CHROMATIC f ∧ f p = c)) →
      (u.CHROMATIC = s0.CHROMATIC ∨ Colorable s0 (u.CHROMATIC + 1).toNat) →
      ∃ r, colorLoop self pf old i s0.MAX_USED n c0 u = some r ∧ ExhSame s0 r.2 ∧
        ((r.1 = 1 ∧ r.2.VERTEX_COUNTER = -1 ∧ r.2.CHROMATIC ≤ s0.MAX_USED) ∨
          (r.1 = -1 ∧ r.2.VERTEX_COUNTER = old ∧ s0.MAX_USED < r.2.CHROMATIC)) ∧
        (∀ f, ¬ Extends s0 r.2.CHROMATIC f) ∧
        (r.2.CHROMATIC = s0.CHROMATIC ∨ Colorable s0 (r.2.CHROMATIC + 1).toNat) := by
  have hpv : p ∈ s0.vertices := List.get?_mem hget
  intro n
  induction n with
  | zero => intro c0 u _ _ _ _ h1 h2; omega
  | succ n ih =>
    intro c0 u hsame hvc hprune hc0 hc1 hn htried hsound
    have hiu : ExhInv u := exhInv_of_same hi0 hsame
    have hpu1 : (deref u.heap p).color = -1 := by rw [hsame.col]; exact hpu
    have hpv1 : p ∈ u.vertices := by rw [hsame.verts]; exact hpv
    by_cases hpr : u.SEARCH = search.EXHAUSTIVE ∧ u.MAX_USED ≥ u.CHROMATIC
    · rw [colorLoop_prune _ _ _ _ _ _ _ _ hpr]
      have hge : u.CHROMATIC ≤ s0.MAX_USED := by rw [← hsame.used]; exact hpr.2
      refine ⟨(1, u), rfl, hsame, Or.inl ⟨rfl, hprune hge, hge⟩, fun f he0 => ?_, hsound⟩
      have he : Extends s0 u.CHROMATIC f := he0
      rcases hi0.core.top with e | ⟨w, hw, e⟩
      · have := hsame.chrom.1
        omega
      · have h1 := (he.1 w hw).1
        have h2 := he.2 w hw (by rw [e]; have := hsame.chrom.1; omega)
        rw [e] at h2
        have := hsame.chrom.1
        omega
    · have hug : u.vertices.get? i = some p := by rw [hsame.verts]; exact hget
      have hnb : u.MAX_USED < u.CHROMATIC := by
        by_contra hge
        exact hpr ⟨hiu.srch, by omega⟩
      by_cases hfail : findColorFF u (c0 + 1) p = -1
      · rw [colorLoop_fail _ _ _ _ _ _ _ _ _ hpr hug hfail]
        have hsg := sameGraph_setVertexColor u p (-1)
        have hcol : ∀ q, (deref (setVertexColor u p (-1)).heap q).color =
            (deref u.heap q).color := by
          intro q
          rw [setVertexColor_color u p q (-1) (hiu.cons.wf.2.1 p hpv1)]
          split
          · next e => rw [e, hpu1]
          · rfl
        have hs2 : ExhSame u { setVertexColor u p (-1) with VERTEX_COUNTER := old } :=
          exhSame_congr hiu.core rfl hsg.2.1 rfl rfl rfl rfl rfl rfl
            (fun q => (hsg.2.2.2 q).1) hcol (fun q => (hsg.2.2.2 q).2.2.1)
        refine ⟨_, rfl, exhSame_trans hsame hs2,
          Or.inr ⟨rfl, rfl, by show s0.MAX_USED < u.CHROMATIC; rw [← hsame.used]; exact hnb⟩,
          fun f he => ?_, hsound⟩
        have he1 : Extends s0 u.CHROMATIC f := he
        exact no_extension_of_fail hiu hpv1 hpu1 hc0 hc1 hfail
          (fun c hc g hg => htried c hc g ⟨(extends_same hsame).1 hg.1, hg.2⟩) f
          ((extends_same hsame).2 he1)
      · rw [colorLoop_step _ _ _ _ _ _ _ _ _ hpr hug hfail]
        obtain ⟨res, s3, log3, ea, hres, hlog, hcons3, hfwd, hset, hcells3, hconf, hpc, hmu3,
          hkeep⟩ := attempt_exh u p (c0 + 1) pf hiu hnb hpv1 hpu1 (by omega) (by omega) hfail
            (by rw [uncoloredCells_congr hsame.len hsame.col]; exact hcells)
        rw [ea]
        simp only []
        obtain ⟨b, hb, hb1, hb2, hlow, hb3, hb4⟩ :
            ∃ b : Nat, findColorFF u (c0 + 1) p = (b : Int) ∧ (c0 + 1).toNat ≤ b ∧
              (deref u.heap p).availableColors.testBit b = true ∧
              (∀ i, (c0 + 1).toNat ≤ i → i < b →
                (deref u.heap p).availableColors.testBit i = false) ∧
              (b : Int) ≤ u.MAX_USED + 1 ∧ (b : Int) < u.CHROMATIC := by
          rcases findColorFF_exh u (c0 + 1) p hiu.srch (by omega) (by omega) (hiu.words p) with
            ⟨h, _⟩ | h
          · exact absurd h hfail
          · exact h
        generalize findColorFF u (c0 + 1) p = c1 at hfail ea hfwd hconf hpc hb ⊢
        have hch3 : s3.CHROMATIC = u.CHROMATIC := hlog.chrom
        have hvc3 : s3.VERTEX_COUNTER = u.VERTEX_COUNTER := by
          obtain ⟨hh, mm, e⟩ := hset
          rw [e]
        have hcu := hiu.core.chrom
        have cont : ∀ s4, ExhSame s3 s4 →
            (s4.VERTEX_COUNTER = (i : Int) ∨ s4.VERTEX_COUNTER = -1) →
            (s4.CHROMATIC ≤ s0.MAX_USED → s4.VERTEX_COUNTER = -1) →
            (∀ f, ¬ (Extends s0 s4.CHROMATIC f ∧ ((f p : Nat) : Int) = c1)) →
            (s4.CHROMATIC = s3.CHROMATIC ∨ Colorable s0 (s4.CHROMATIC + 1).toNat) →
            ∃ r, colorLoop self pf old i s0.MAX_USED n c1
                (restore { s4 with MAX_USED := s0.MAX_USED } log3).1 = some r ∧
              ExhSame s0 r.2 ∧
              ((r.1 = 1 ∧ r.2.VERTEX_COUNTER = -1 ∧ r.2.CHROMATIC ≤ s0.MAX_USED) ∨
                (r.1 = -1 ∧ r.2.VERTEX_COUNTER = old ∧ s0.MAX_USED < r.2.CHROMATIC)) ∧
              (∀ f, ¬ Extends s0 r.2.CHROMATIC f) ∧
              (r.2.CHROMATIC = s0.CHROMATIC ∨ Colorable s0 (r.2.CHROMATIC + 1).toNat) := by
          intro s4 hs34 hvc4 hpr4 hno4 hso4
          have key := restore_trimmed hlog hset hs34 hiu
          rw [hsame.used] at key
          obtain ⟨_, k1, k2, k3⟩ := key
          have hc4 := hs34.chrom
          apply ih c1 _ (exhSame_trans hsame k1) (by rw [k3]; exact hvc4)
            (by rw [k2, k3]; exact hpr4) (by omega) (by omega) (by omega)
          · intro c hc f hf
            rw [k2] at hf
            by_cases hle : (c : Int) ≤ c0
            · exact htried c hle f ⟨extends_mono hf.1 (by omega), hf.2⟩
            · by_cases hlt : c < b
              · have hcl := hlow c (by omega) hlt
                exact extends_not_clear hiu hpv1 hpu1 (by omega) hcl
                  ((extends_same hsame).2 hf.1) hf.2
              · have hcb : c = b := by omega
                exact hno4 f ⟨hf.1, by rw [hf.2, hcb, hb]⟩
          · rw [k2]
            rcases hso4 with e | e
            · rw [e, hch3]
              exact hsound
            · exact Or.inr e
        by_cases hr1 : res = 1
        · rw [if_pos hr1]
          have hi3 : ExhInv s3 := by
            obtain ⟨hh, mm, e⟩ := hset
            refine ⟨hcons3, hfwd.core, fun q => ?_, by rw [hlog.verts]; exact hiu.ne,
              by rw [hlog.srch]; exact hiu.srch, by rw [e]; exact hiu.cs, ?_⟩
            · have := hlog.av q
              have := hiu.words q
              omega
            · have := hiu.order
              unfold StaticOrder at this ⊢
              rw [e]
              exact this
          have hd3 : Done (s3.VERTEX_COUNTER + 1).toNat s3 := by
            have hdi : Done (i + 1) s3 := by
              apply done_succ
              · intro q hq
                rw [hlog.verts, hsame.verts] at hq
                have hq0 := hdone q hq
                rw [← hsame.col] at hq0
                rw [hkeep q hq0]
                exact hq0
              · rw [hlog.verts]
                exact hug
              · rw [hpc, hb]
                omega
            rw [hvc3]
            rcases hvc with e | e
            · rw [e]
              have : ((i : Int) + 1).toNat = i + 1 := by omega
              rw [this]
              exact hdi
            · rw [e]
              intro q hq
              simp at hq
          obtain ⟨r, er, hpost⟩ := hself s3 hi3 hfwd.below hd3
            (by rw [← uncoloredCells_congr hsame.len hsame.col]; exact hcells3)
          obtain ⟨res1, s4⟩ := r
          rw [er]
          simp only []
          rw [if_pos hi3.srch]
          obtain ⟨p1, p2, p3, p4⟩ := hpost
          simp only [] at p1 p2 p3 p4
          apply cont s4 p1
          · rcases p2 with ⟨_, e, _⟩ | ⟨_, e, _⟩
            · exact Or.inr e
            · rw [e, hvc3]
              exact hvc
          · intro hle
            rcases p2 with ⟨_, e, _⟩ | ⟨_, _, e⟩
            · exact e
            · have := hsame.used
              omega
          · intro f hf
            apply p3 f
            have hG : Extends u u.CHROMATIC f ∧ ((f p : Nat) : Int) = c1 :=
              ⟨extends_mono ((extends_same hsame).2 hf.1) (by have := p1.chrom; omega), hf.2⟩
            refine ⟨properColoring_congr hf.1.1 (by rw [hlog.verts, hsame.verts])
              (fun q => by rw [hlog.adj, hsame.adj]), fun q hq hqc => hfwd.agree f hG q hq hqc⟩
          · rcases p4 with e | e
            · exact Or.inl e
            · exact Or.inr (colorable_congr e
                (by rw [hlog.verts, hsame.verts] : s0.vertices = s3.vertices)
                (fun q => by rw [hlog.adj, hsame.adj]))
        · rw [if_neg hr1]
          have hrm : res = -1 := by
            rcases hres with e | e
            · exact absurd e hr1
            · exact e
          apply cont s3 (exhSame_refl hfwd.core) (by rw [hvc3]; exact hvc)
            (by rw [hvc3, hch3]; exact hprune)
          · intro f hf
            rw [hch3] at hf
            exact hconf hrm f ⟨(extends_same hsame).2 hf.1, hf.2⟩
          · exact Or.inl rfl

theorem decayCounters_fields (s : State) :
    ∃ h, decayCounters s = { s with heap := h } ∧ h.length = s.heap.length ∧
      (∀ q, (deref h q).adjacentVertices = (deref s.heap q).adjacentVertices) ∧
      (∀ q, (deref h q).color = (deref s.heap q).color) ∧
      (∀ q, (deref h q).availableColors = (deref s.heap q).availableColors) := by
  have key : ∀ (g : State → Vertex → Vertex),
      (∀ t v, (g t v).adjacentVertices = v.adjacentVertices ∧ (g t v).color = v.color ∧
        (g t v).availableColors = v.availableColors) →
      ∀ (l : List Nat) (s : State),
        ∃ h, l.foldl (fun t p => modify t p (g t)) s = { s with heap := h } ∧
          h.length = s.heap.length ∧
          (∀ q, (deref h q).adjacentVertices = (deref s.heap q).adjacentVertices) ∧
          (∀ q, (deref h q).color = (deref s.heap q).color) ∧
          (∀ q, (deref h q).availableColors = (deref s.heap q).availableColors) := by
    intro g hg l
    induction l with
    | nil => intro s; exact ⟨s.heap, rfl, rfl, fun _ => rfl, fun _ => rfl, fun _ => rfl⟩
    | cons x xs ih =>
      intro s
      obtain ⟨h, e, hl, ha, hc, hv⟩ := ih (modify s x (g s))
      refine ⟨h, by rw [List.foldl_cons, e]; rfl, by rw [hl]; exact modify_heap_length _ _ _,
        fun q => ?_, fun q => ?_, fun q => ?_⟩
      · rw [ha]
        exact deref_modify_field (fun v => v.adjacentVertices) s x q _ (fun v => (hg s v).1)
      · rw [hc]
        exact deref_modify_field (fun v => v.color) s x q _ (fun v => (hg s v).2.1)
      · rw [hv]
        exact deref_modify_field (fun v => v.availableColors) s x q _ (fun v => (hg s v).2.2)
  unfold decayCounters
  split
  · exact key (fun t v => { v with nbRecolorings := v.nbRecolorings * t.DECAY_FACTOR })
      (fun _ _ => ⟨rfl, rfl, rfl⟩) s.vertices s
  · exact key (fun t v => { v with nbConflicts := v.nbConflicts * t.DECAY_FACTOR })
      (fun _ _ => ⟨rfl, rfl, rfl⟩) s.vertices s
  · exact ⟨s.heap, rfl, rfl, fun _ => rfl, fun _ => rfl, fun _ => rfl⟩

theorem updateAvailability_heap_only (k : Int) (l : List Nat) (s : State) :
    ∃ h, l.foldl (fun t p => updateVertexAvailability t p k) s = { s with heap := h } := by
  induction l generalizing s with
  | nil => exact ⟨s.heap, rfl⟩
  | cons x xs ih =>
    obtain ⟨h, e⟩ := ih (updateVertexAvailability s x k)
    exact ⟨h, by rw [List.foldl_cons, e]; rfl⟩

theorem selectNextVertexFF_get (s : State) (h : selectNextVertexFF s ≠ -1) :
    ∃ vi p : Nat, selectNextVertexFF s = (vi : Int) ∧ s.vertices.get? vi = some p ∧
      (deref s.heap p).color = -1 := by
  obtain ⟨_, h2⟩ := scanDrop_spec (fun p => decide ((deref s.heap p).color = -1)) s.vertices
    (s.VERTEX_COUNTER + 1).toNat
  unfold selectNextVertexFF at h ⊢
  simp only [] at h ⊢
  obtain ⟨vi, e, _, hl, ht, _⟩ := h2 h
  refine ⟨vi, s.vertices.getD vi 0, e, ?_, by simpa using ht⟩
  rw [List.get?_eq_getElem?, List.getD_eq_getElem?_getD, List.getElem?_eq_getElem hl]
  rfl

/-- A frame of the exhaustive search with CS off and a fixed order, entered with the invariant,
`MAX_USED` below `CHROMATIC`, the entries up to `VERTEX_COUNTER` colored and more fuel than
uncolored records: it returns, and `ExhPost` holds. -/
theorem colorGraph_exh (fuel : Nat) :
    ∀ s, ExhInv s → s.MAX_USED < s.CHROMATIC → Done (s.VERTEX_COUNTER + 1).toNat s →
      uncoloredCells s < fuel → ∃ r, colorGraph fuel s = some r ∧ ExhPost s r := by
  induction fuel with
  | zero => intro s _ _ _ h; omega
  | succ fuel ih =>
    intro s hi hb hd hf
    obtain ⟨h, e, hl, ha, hc, hv⟩ := decayCounters_fields s
    unfold colorGraph
    simp only []
    rw [e]
    generalize hs2 : ({ ({ s with heap := h } : State) with
      SORTING_COUNTER := ({ s with heap := h } : State).SORTING_COUNTER + 1 } : State) = s2
    have hsame2 : ExhSame s s2 := by
      rw [← hs2]
      exact exhSame_congr hi.core rfl hl rfl rfl rfl rfl rfl rfl ha hc hv
    have hi2 : ExhInv s2 := exhInv_of_same hi hsame2
    have hvc2 : s2.VERTEX_COUNTER = s.VERTEX_COUNTER := by rw [← hs2]
    have hch2 : s2.CHROMATIC = s.CHROMATIC := by rw [← hs2]
    have hd2 : Done (s2.VERTEX_COUNTER + 1).toNat s2 := by
      intro q hq
      rw [hvc2, hsame2.verts] at hq
      rw [hsame2.col]
      exact hd q hq
    rw [selectNextVertex_static s2 hi2.order hi2.cs]
    simp only []
    have e3 : (if ¬ s2.CS = true then
        ({ s2 with VERTEX_COUNTER := selectNextVertexFF s2 } : State) else s2) =
        { s2 with VERTEX_COUNTER := selectNextVertexFF s2 } :=
      if_pos (by rw [hi2.cs]; decide)
    rw [e3]
    obtain ⟨g1, g2⟩ := selectNextVertexFF_spec s2 hd2
    have hsame3 : ExhSame s2 { s2 with VERTEX_COUNTER := selectNextVertexFF s2 } :=
      exhSame_congr hi2.core rfl rfl rfl rfl rfl rfl rfl rfl (fun _ => rfl) (fun _ => rfl)
        (fun _ => rfl)
    by_cases hsel : selectNextVertexFF s2 = -1
    · rw [if_pos hsel]
      have hall := g1 hsel
      have hb3 : ({ s2 with VERTEX_COUNTER := selectNextVertexFF s2 } : State).SEARCH =
          search.EXHAUSTIVE ∧
          ({ s2 with VERTEX_COUNTER := selectNextVertexFF s2 } : State).MAX_USED <
            ({ s2 with VERTEX_COUNTER := selectNextVertexFF s2 } : State).CHROMATIC :=
        ⟨hi2.srch, by show s2.MAX_USED < s2.CHROMATIC; rw [hsame2.used, hch2]; exact hb⟩
      rw [if_pos hb3]
      have hmu0 : 0 ≤ s.MAX_USED := by
        cases hvs : s.vertices with
        | nil => exact absurd hvs hi.ne
        | cons a l =>
          have ha1 : a ∈ s.vertices := by rw [hvs]; exact List.mem_cons_self _ _
          have h1 := hall a (by rw [hsame2.verts]; exact ha1)
          rw [hsame2.col] at h1
          have := hi.core.col a ha1
          omega
      have hmu2 : s2.MAX_USED = s.MAX_USED := hsame2.used
      have hcs := hi.core.chrom
      unfold updateAvailability
      obtain ⟨hh, eh⟩ := updateAvailability_heap_only s2.MAX_USED s2.vertices
        { { s2 with VERTEX_COUNTER := selectNextVertexFF s2 } with CHROMATIC := s2.MAX_USED }
      have hder := fun q => updateAvailability_deref s2.MAX_USED s2.vertices
        { { s2 with VERTEX_COUNTER := selectNextVertexFF s2 } with CHROMATIC := s2.MAX_USED } q
      have eh1 : List.foldl (fun t p => updateVertexAvailability t p s2.MAX_USED)
          { { s2 with VERTEX_COUNTER := selectNextVertexFF s2 } with CHROMATIC := s2.MAX_USED }
          s2.vertices = { { { s2 with VERTEX_COUNTER := selectNextVertexFF s2 } with
            CHROMATIC := s2.MAX_USED } with heap := hh } := eh
      have hheap : ∀ q, deref hh q = if q ∈ s2.vertices ∧ q < s2.heap.length then
          { deref s2.heap q with
            availableColors := (deref s2.heap q).availableColors &&& keepMask s2.MAX_USED }
          else deref s2.heap q := by
        intro q
        have := (hder q).2
        rw [eh1] at this
        exact this
      have hlen : hh.length = s2.heap.length := by
        have := (hder 0).1
        rw [eh1] at this
        exact this
      have hfield : ∀ q, (deref hh q).adjacentVertices = (deref s2.heap q).adjacentVertices ∧
          (deref hh q).color = (deref s2.heap q).color ∧
          (deref hh q).availableColors ≤ (deref s2.heap q).availableColors := by
        intro q
        rw [hheap q]
        split
        · exact ⟨rfl, rfl, Nat.and_le_left⟩
        · exact ⟨rfl, rfl, le_refl _⟩
      have hsame4 : ExhSame s2 { { { s2 with VERTEX_COUNTER := selectNextVertexFF s2 } with
          CHROMATIC := s2.MAX_USED } with heap := hh } := by
        refine ⟨rfl, hlen, rfl, rfl, rfl, rfl, rfl,
          ⟨by show 0 ≤ s2.MAX_USED; omega, by show s2.MAX_USED ≤ s2.CHROMATIC; omega⟩,
          fun q => (hfield q).1, fun q => (hfield q).2.1, fun q hq => ?_, fun q => (hfield q).2.2⟩
        rw [hheap q, if_pos ⟨hq, hi2.cons.wf.2.1 q hq⟩]
        show (deref s2.heap q).availableColors &&& keepMask s2.MAX_USED =
          (deref s2.heap q).availableColors % 2 ^ s2.MAX_USED.toNat
        rw [keepMask_eq s2.MAX_USED (by omega) (by omega), Nat.and_pow_two_sub_one_eq_mod]
      refine ⟨_, by rw [eh1], exhSame_trans hsame2 hsame4, Or.inl ⟨rfl, hsel, ?_⟩,
        fun f he => ?_, Or.inr ?_⟩
      · show s2.MAX_USED ≤ s.MAX_USED
        omega
      · have he1 : Extends s s2.MAX_USED f := he
        rcases hi.core.top with e1 | ⟨w, hw, e1⟩
        · omega
        · have h1 := (he1.1 w hw).1
          have h2 := he1.2 w hw (by rw [e1]; omega)
          rw [e1] at h2
          omega
      · show Colorable s (s2.MAX_USED + 1).toNat
        apply colorable_of_properlyColored hi.cons.wf (fun p hp => hp) (fun _ => rfl)
        intro p hp
        have hpc := hall p (by rw [hsame2.verts]; exact hp)
        rw [hsame2.col] at hpc
        have := hi.core.col p hp
        exact ⟨by omega, by omega, fun q hq => (hi.cons.proper p hp hpc q hq).symm⟩
    · rw [if_neg hsel]
      obtain ⟨vi, p, ev, hg, hpu⟩ := selectNextVertexFF_get s2 hsel
      have hi3 : ExhInv { s2 with VERTEX_COUNTER := selectNextVertexFF s2 } :=
        exhInv_of_same hi2 hsame3
      have hdn := (g2 hsel).2.2
      rw [ev] at hdn
      have hvi : ((vi : Nat) : Int).toNat = vi := by omega
      rw [hvi] at hdn
      have hcells : uncoloredCells ({ s2 with VERTEX_COUNTER := selectNextVertexFF s2 } : State) =
          uncoloredCells s :=
        uncoloredCells_congr hsame2.len hsame2.col
      have hloop := colorLoop_exh (colorGraph fuel) (fuel + 1) s.VERTEX_COUNTER vi p
        { s2 with VERTEX_COUNTER := selectNextVertexFF s2 } hi3 hg hpu hdn
        (by rw [hcells]; omega)
        (fun t ht1 ht2 ht3 ht4 => ih t ht1 ht2 ht3 (by rw [hcells] at ht4; omega))
        65 (-1) { s2 with VERTEX_COUNTER := selectNextVertexFF s2 } (exhSame_refl hi3.core)
        (Or.inl ev)
        (fun hle => by
          have h1 : s2.CHROMATIC ≤ s2.MAX_USED := hle
          rw [hsame2.used, hch2] at h1
          omega)
        (by omega) (by omega) (by omega) (fun c hc => by omega) (Or.inl rfl)
      have hnv : (selectNextVertexFF s2).toNat = vi := by rw [ev]; exact hvi
      rw [hnv]
      obtain ⟨r, er, q1, q2, q3, q4⟩ := hloop
      refine ⟨r, er, exhSame_trans hsame2 (exhSame_trans hsame3 q1), ?_, fun f he => ?_, ?_⟩
      · rcases q2 with ⟨a, b, c⟩ | ⟨a, b, c⟩
        · exact Or.inl ⟨a, b, by rw [← hsame2.used]; exact c⟩
        · exact Or.inr ⟨a, b, by rw [← hsame2.used]; exact c⟩
      · exact q3 f ((extends_same (exhSame_trans hsame2 hsame3)).2 he)
      · rcases q4 with e1 | e1
        · exact Or.inl (by rw [e1]; exact hch2)
        · exact Or.inr (colorable_congr e1 hsame2.verts.symm (fun q => (hsame2.adj q).symm))

/-! ## The exhaustive search in a fixed order: the entry point `coloring` -/

theorem greedy_facts (s s2 : State) (r : Int) (hw : WellFormed s)
    (hsg : SameGraph (sortFrom s 0 compareByDegree) s2) (hpc : ProperlyColored s2 r)
    (hcu : ClassesUsed s2 r) :
    r ≤ (s.vertices.length : Int) ∧ (s.vertices ≠ [] → 1 ≤ r) ∧ Colorable s r.toNat ∧
    (∀ p ∈ (clearColoring s2).vertices, (deref (clearColoring s2).heap p).color = -1) ∧
    (∀ p, (deref (clearColoring s2).heap p).availableColors = (deref s.heap p).availableColors ∧
      (deref (clearColoring s2).heap p).adjacentVertices = (deref s.heap p).adjacentVertices) ∧
    (clearColoring s2).vertices.Perm s.vertices ∧
    (clearColoring s2).heap.length = s.heap.length := by
  have hp := sortFrom_perm s 0 compareByDegree
  have hp2 : s2.vertices.Perm s.vertices := by rw [hsg.1]; exact hp
  have hadj : ∀ p, (deref s2.heap p).adjacentVertices = (deref s.heap p).adjacentVertices :=
    fun p => (hsg.2.2.2 p).1
  obtain ⟨b1, b2, b3⟩ := bounds_frame_aux s s2 hp2 hsg.2.2.2
  refine ⟨?_, fun hne => ?_, colorable_of_properlyColored hw
    (fun p hpm => hp2.mem_iff.2 hpm) hadj hpc, fun p hpm => (b1 p hpm).1,
    fun p => ⟨(b2 p).2.1, (b2 p).2.2⟩, b3, ?_⟩
  · have := classesUsed_le s2 r hcu
    rw [hp2.length_eq] at this
    exact this
  · cases hvs : s.vertices with
    | nil => exact absurd hvs hne
    | cons a l =>
      have ha : a ∈ s2.vertices := hp2.mem_iff.2 (by rw [hvs]; exact List.mem_cons_self _ _)
      have := hpc a ha
      omega
  · unfold clearColoring
    rw [(foldl_modify_vertices _ _ _).2.1, hsg.2.1]
    rfl

set_option maxRecDepth 100000 in
/-- The estimators RLF and WP, called as `coloring` calls them: the result is the number of
classes of a proper coloring, at most the number of vertices and at least 1 on a graph with a
vertex; the vertices are uncolored again, and domains and adjacency lists are untouched. -/
theorem getUpperBound_greedy (s : State) (fuel : Nat) (hw : WellFormed s) (hu : Uncolored s)
    (hvc : s.VERTEX_COUNTER = -1) (hf : s.vertices.length < fuel)
    (hb : s.BOUNDS = bounds.RLF ∨ s.BOUNDS = bounds.WP) :
    ∃ r s1, getUpperBound fuel s = some (r, s1) ∧ r ≤ (s.vertices.length : Int) ∧
      (s.vertices ≠ [] → 1 ≤ r) ∧ Colorable s r.toNat ∧
      (∀ p ∈ s1.vertices, (deref s1.heap p).color = -1) ∧
      (∀ p, (deref s1.heap p).availableColors = (deref s.heap p).availableColors ∧
        (deref s1.heap p).adjacentVertices = (deref s.heap p).adjacentVertices) ∧
      s1.vertices.Perm s.vertices ∧ s1.heap.length = s.heap.length := by
  have hp := sortFrom_perm s 0 compareByDegree
  have hw1 := wellFormed_sortFrom s compareByDegree hw
  have hlen : (sortFrom s 0 compareByDegree).vertices.length = s.vertices.length := hp.length_eq
  rcases hb with hb | hb
  · obtain ⟨r, s2, e, hsg, hpc, hcu, hr⟩ := rlfOuter_spec (sortFrom s 0 compareByDegree) hw1 fuel
      (by rw [hlen]; exact hf) hvc fuel (sortFrom s 0 compareByDegree) 0 (le_refl 0)
      (sameGraph_refl _)
      ⟨fun p hpm => Or.inl (hu p (hp.mem_iff.1 hpm)),
        fun p hpm q _ hc => absurd (hu p (hp.mem_iff.1 hpm)) hc⟩
      (fun d h0 h1 => by omega) (by rw [hlen]; omega)
    obtain ⟨g1, g2, g3, g4, g5, g6, g7⟩ := greedy_facts s s2 r hw hsg hpc hcu
    refine ⟨r, clearColoring s2, ?_, g1, g2, g3, g4, g5, g6, g7⟩
    unfold getUpperBound
    rw [hb]
    simp only []
    unfold upperBoundRLF
    simp only [e]
  · obtain ⟨r, s2, e, hsg, hpc, hcu, hr⟩ := wpOuter_spec (sortFrom s 0 compareByDegree) hw1 fuel
      (by rw [hlen]; exact hf) hvc fuel (sortFrom s 0 compareByDegree) 0 (le_refl 0)
      (sameGraph_refl _)
      ⟨fun p hpm => Or.inl (hu p (hp.mem_iff.1 hpm)),
        fun p hpm q _ hc => absurd (hu p (hp.mem_iff.1 hpm)) hc⟩
      (fun d h0 h1 => by omega) (by rw [hlen]; omega)
    obtain ⟨g1, g2, g3, g4, g5, g6, g7⟩ := greedy_facts s s2 r hw hsg hpc hcu
    refine ⟨r, clearColoring s2, ?_, g1, g2, g3, g4, g5, g6, g7⟩
    unfold getUpperBound
    rw [hb]
    simp only []
    unfold upperBoundWP
    simp only [e]

theorem wellFormed_perm {s t : State} (hw : WellFormed s) (hp : t.vertices.Perm s.vertices)
    (hl : t.heap.length = s.heap.length)
    (hadj : ∀ q, (deref t.heap q).adjacentVertices = (deref s.heap q).adjacentVertices) :
    WellFormed t := by
  refine ⟨hp.nodup_iff.2 hw.1, fun p hpm => by rw [hl]; exact hw.2.1 p (hp.mem_iff.1 hpm),
    fun p hpm q hq => ?_⟩
  rw [hadj] at hq
  obtain ⟨a, b, c⟩ := hw.2.2 p (hp.mem_iff.1 hpm) q hq
  exact ⟨hp.mem_iff.2 a, b, by rw [hadj]; exact c⟩

theorem colorable_perm {s t : State} {k : Nat} (h : Colorable s k)
    (hv : ∀ p, p ∈ t.vertices → p ∈ s.vertices)
    (hadj : ∀ q, (deref t.heap q).adjacentVertices = (deref s.heap q).adjacentVertices) :
    Colorable t k := by
  obtain ⟨f, hf⟩ := h
  refine ⟨f, fun p hp => ?_⟩
  rw [hadj]
  exact hf p (hv p hp)

theorem foldl_avail_cases (A : Nat) (l : List Nat) (s : State) (q : Nat) :
    (deref (l.foldl (fun t p => modify t p (fun v => { v with availableColors := A })) s).heap
      q).availableColors = (deref s.heap q).availableColors ∨
    (deref (l.foldl (fun t p => modify t p (fun v => { v with availableColors := A })) s).heap
      q).availableColors = A := by
  induction l generalizing s with
  | nil => exact Or.inl rfl
  | cons x xs ih =>
    rw [List.foldl_cons]
    rcases ih (modify s x (fun v => { v with availableColors := A })) with e | e
    · rw [e, deref_modify]
      split
      · exact Or.inr rfl
      · exact Or.inl rfl
    · exact Or.inr e

theorem uncoloredCells_le_length (s : State) : uncoloredCells s ≤ s.heap.length := by
  unfold uncoloredCells
  have := List.countP_le_length (fun q => decide ((deref s.heap q).color = -1))
    (l := List.range s.heap.length)
  simpa using this

/-- The state in which `coloring` starts the exhaustive search after a bound `k + 1` with
`0 <= k <= 63`: every vertex uncolored, the domains `[0, k)`, `CHROMATIC = k`. -/
theorem exhInv_start (s : State) (k : Int) (hw : WellFormed s) (hne : s.vertices ≠ [])
    (hu : Uncolored s) (hwords : ∀ q, (deref s.heap q).availableColors < 2 ^ 64)
    (hk0 : 0 ≤ k) (hk1 : k ≤ 63) (hs : s.SEARCH = search.EXHAUSTIVE) (hcs : s.CS = false)
    (ho : StaticOrder s) (hmu : s.MAX_USED = -1) :
    ExhInv (setAvailableColors { s with CHROMATIC := k } k) ∧
    (setAvailableColors { s with CHROMATIC := k } k).MAX_USED = -1 ∧
    (setAvailableColors { s with CHROMATIC := k } k).CHROMATIC = k ∧
    (setAvailableColors { s with CHROMATIC := k } k).VERTEX_COUNTER = s.VERTEX_COUNTER ∧
    (setAvailableColors { s with CHROMATIC := k } k).vertices = s.vertices ∧
    (setAvailableColors { s with CHROMATIC := k } k).heap.length = s.heap.length ∧
    (∀ q, (deref (setAvailableColors { s with CHROMATIC := k } k).heap q).adjacentVertices =
      (deref s.heap q).adjacentVertices) ∧
    (∀ q, (deref (setAvailableColors { s with CHROMATIC := k } k).heap q).color =
      (deref s.heap q).color) := by
  obtain ⟨a1, a2, a3, a4⟩ := setAvailableColors_fields { s with CHROMATIC := k } k hk0
    (by omega) hw.2.1
  obtain ⟨_, b2, _, b4⟩ := setAvailableColors_scalars { s with CHROMATIC := k } k
  obtain ⟨h, e⟩ := foldl_modify_heap
    (fun v => { v with availableColors :=
      if k - 1 = 63 then 2 ^ 64 - 1 else (bit64 (k - 1 + 1) + 2 ^ 64 - 1) % 2 ^ 64 })
    s.vertices { { s with CHROMATIC := k } with MAX_COLOR := k - 1 }
  have hcases := fun q => foldl_avail_cases
    (if k - 1 = 63 then 2 ^ 64 - 1 else (bit64 (k - 1 + 1) + 2 ^ 64 - 1) % 2 ^ 64)
    s.vertices { { s with CHROMATIC := k } with MAX_COLOR := k - 1 } q
  have hsc : setAvailableColors { s with CHROMATIC := k } k =
      { { { s with CHROMATIC := k } with MAX_COLOR := k - 1 } with heap := h } := by
    unfold setAvailableColors
    simp only []
    exact e
  have hav64 : ∀ q, (deref (setAvailableColors { s with CHROMATIC := k } k).heap
      q).availableColors < 2 ^ 64 := by
    intro q
    have hc : (deref (setAvailableColors { s with CHROMATIC := k } k).heap
        q).availableColors = (deref s.heap q).availableColors ∨
        (deref (setAvailableColors { s with CHROMATIC := k } k).heap q).availableColors =
          (if k - 1 = 63 then 2 ^ 64 - 1
            else (bit64 (k - 1 + 1) + 2 ^ 64 - 1) % 2 ^ 64) := hcases q
    rcases hc with e1 | e1
    · rw [e1]
      exact hwords q
    · rw [e1, availability_eq k hk0 (by omega)]
      have : 2 ^ k.toNat ≤ 2 ^ 64 := Nat.pow_le_pow_right (by decide) (by omega)
      have := Nat.two_pow_pos k.toNat
      omega
  have hadj : ∀ q, (deref (setAvailableColors { s with CHROMATIC := k } k).heap
      q).adjacentVertices = (deref s.heap q).adjacentVertices := by
    intro q
    rw [a4 q]
  have hcol : ∀ q, (deref (setAvailableColors { s with CHROMATIC := k } k).heap q).color =
      (deref s.heap q).color := by
    intro q
    rw [a4 q]
  have hv : (setAvailableColors { s with CHROMATIC := k } k).vertices = s.vertices := a2
  have hl : (setAvailableColors { s with CHROMATIC := k } k).heap.length = s.heap.length := b4
  have hmu1 : (setAvailableColors { s with CHROMATIC := k } k).MAX_USED = -1 := by
    rw [hsc]
    exact hmu
  have hch1 : (setAvailableColors { s with CHROMATIC := k } k).CHROMATIC = k := by
    rw [hsc]
  have hunc : ∀ p ∈ s.vertices,
      (deref (setAvailableColors { s with CHROMATIC := k } k).heap p).color = -1 :=
    fun p hp => by rw [hcol]; exact hu p hp
  have hw1 : WellFormed (setAvailableColors { s with CHROMATIC := k } k) :=
    wellFormed_congr hw hv hl hadj
  refine ⟨⟨⟨hw1, fun p _ => hav64 p, fun p hp _ u hu1 hu2 => ?_, fun p hp hpc => ?_⟩,
    ⟨by rw [hch1]; exact ⟨hk0, hk1⟩, fun p hp => ?_, Or.inl hmu1, fun p hp => ?_,
      fun p hp _ i hi hb => ?_⟩, hav64, by rw [hv]; exact hne, by rw [hsc]; exact hs,
    by rw [hsc]; exact hcs, ?_⟩, hmu1, hch1, by rw [hsc], hv, hl, hadj, hcol⟩
  · exact absurd (hunc u (by rw [← hv]; exact (hw1.2.2 p hp u hu1).1)) hu2
  · rw [hv] at hp
    exact absurd (hunc p hp) hpc
  · rw [hv] at hp
    rw [hunc p hp, hmu1]
    exact ⟨le_refl _, le_refl _⟩
  · rw [hv] at hp
    rw [(a3 p hp).1, hch1]
    have := Nat.two_pow_pos k.toNat
    omega
  · rw [hv] at hp
    rw [hch1] at hi
    rw [(a3 p hp).2 i] at hb
    have : i < k.toNat := by omega
    simp [this] at hb
  · have := ho
    unfold StaticOrder at this ⊢
    rw [hsc]
    exact this

/-- The exhaustive `coloring` with CS off, a fixed order and the bound RLF or WP returns the
chromatic number, for every simple graph with at least one and at most 63 vertices that is
uncolored at the start, given more fuel than records and vertices. -/
theorem coloring_exh (s : State) (fuel : Nat) (hw : WellFormed s) (hne : s.vertices ≠ [])
    (hu : Uncolored s) (hwords : ∀ q, (deref s.heap q).availableColors < 2 ^ 64)
    (hV : s.vertices.length ≤ 63) (hs : s.SEARCH = search.EXHAUSTIVE) (hcs : s.CS = false)
    (ho : StaticOrder s) (hb : s.BOUNDS = bounds.RLF ∨ s.BOUNDS = bounds.WP)
    (hf : s.heap.length < fuel) (hfv : s.vertices.length < fuel) :
    ∃ n : Nat, (coloring fuel s).map Prod.fst = some (n : Int) ∧ IsChromaticNumber s n := by
  obtain ⟨l, e, hperm⟩ := initialSorting_eq (initializeCounters s)
  have hw1 : WellFormed (initialSorting (initializeCounters s)) := by
    rw [e]
    exact wellFormed_perm hw hperm rfl (fun _ => rfl)
  have hu1 : Uncolored (initialSorting (initializeCounters s)) := by
    rw [e]
    intro p hp
    exact hu p (hperm.mem_iff.1 hp)
  have hlen1 : (initialSorting (initializeCounters s)).vertices.length = s.vertices.length := by
    rw [e]
    exact hperm.length_eq
  have hne1 : (initialSorting (initializeCounters s)).vertices ≠ [] := by
    intro h0
    rw [h0] at hlen1
    have : s.vertices.length = 0 := hlen1.symm
    exact hne (List.length_eq_zero.1 this)
  obtain ⟨r, s2, eub, r1, r2, r3, r4, r5, r6, r7⟩ :=
    getUpperBound_greedy (initialSorting (initializeCounters s)) fuel hw1 hu1
      (by rw [e]; rfl) (by rw [hlen1]; exact hfv) (by rw [e]; exact hb)
  have hr1 := r2 hne1
  rw [hlen1] at r1
  obtain ⟨hh, ll, esc⟩ := sameScalars_getUpperBound fuel _ r s2 eub
  have hheap1 : (initialSorting (initializeCounters s)).heap = s.heap := by rw [e]; rfl
  have hadj2 : ∀ q, (deref s2.heap q).adjacentVertices = (deref s.heap q).adjacentVertices :=
    fun q => by rw [(r5 q).2, hheap1]
  have hperm2 : s2.vertices.Perm s.vertices := by
    have := r6
    rw [e] at this
    exact this.trans hperm
  have hl2 : s2.heap.length = s.heap.length := by rw [r7, hheap1]
  have hsc2 : s2.SEARCH = s.SEARCH ∧ s2.CS = s.CS ∧ s2.SORTING = s.SORTING ∧
      s2.SORTING_RATE = s.SORTING_RATE ∧ s2.BOUNDS = s.BOUNDS := by
    rw [esc, e]
    exact ⟨rfl, rfl, rfl, rfl, rfl⟩
  have hw3 : WellFormed (initializeCounters s2) :=
    wellFormed_perm hw hperm2 hl2 hadj2
  have hstart := exhInv_start (initializeCounters s2) (r - 1) hw3
    (by
      intro h0
      have h00 : s2.vertices = [] := h0
      have := hperm2.length_eq
      rw [h00] at this
      exact hne (List.length_eq_zero.1 this.symm))
    r4 (fun q => by
      show (deref s2.heap q).availableColors < 2 ^ 64
      rw [(r5 q).1, hheap1]
      exact hwords q)
    (by omega) (by omega) (by show s2.SEARCH = _; rw [hsc2.1]; exact hs)
    (by show s2.CS = _; rw [hsc2.2.1]; exact hcs)
    (by
      unfold StaticOrder
      show s2.SORTING_RATE = 0 ∨ s2.SORTING = _ ∨ s2.SORTING = _
      rw [hsc2.2.2.2.1, hsc2.2.2.1]
      exact ho)
    rfl
  obtain ⟨i4, m4, c4, v4, vs4, l4, a4, k4⟩ := hstart
  unfold coloring
  simp only []
  rw [if_pos (show (initializeCounters s).SEARCH = search.EXHAUSTIVE from hs), eub]
  simp only []
  rw [if_neg (fun c => by
    have h1 : s2.BOUNDS = bounds.BROOKS := c.1
    rw [hsc2.2.2.2.2] at h1
    rcases hb with h2 | h2 <;> rw [h2] at h1 <;> cases h1)]
  rw [if_pos (show r < 64 by omega)]
  obtain ⟨res, er, p1, p2, p3, p4⟩ := colorGraph_exh fuel _ i4 (by rw [m4, c4]; omega)
    (by
      rw [v4]
      intro q hq
      simp [initializeCounters] at hq)
    (lt_of_le_of_lt (le_trans (uncoloredCells_le_length _) (le_of_eq (l4.trans hl2))) hf)
  rw [er]
  simp only [Option.map_some']
  have hc0 := p1.chrom
  rw [c4] at hc0
  have hmem : ∀ p, p ∈ (setAvailableColors { initializeCounters s2 with CHROMATIC := r - 1 }
      (r - 1)).vertices ↔ p ∈ s.vertices := by
    intro p
    rw [vs4]
    exact hperm2.mem_iff
  have hadj4 : ∀ q, (deref (setAvailableColors { initializeCounters s2 with
      CHROMATIC := r - 1 } (r - 1)).heap q).adjacentVertices =
      (deref s.heap q).adjacentVertices := fun q => by rw [a4 q]; exact hadj2 q
  refine ⟨(res.2.CHROMATIC + 1).toNat, by congr 1; omega, ?_, fun k hk hcol => ?_⟩
  · rcases p4 with e1 | e1
    · rw [e1, c4]
      have : r - 1 + 1 = r := by omega
      rw [this]
      rw [e] at r3
      exact colorable_perm r3 (fun p hp => hperm.mem_iff.2 hp) (fun _ => rfl)
    · exact colorable_perm e1 (fun p hp => (hmem p).2 hp) (fun q => (hadj4 q).symm)
  · obtain ⟨f, hf⟩ := colorable_perm hcol (fun p hp => (hmem p).1 hp) hadj4
    apply p3 f
    refine ⟨fun p hp => ⟨?_, (hf p hp).2⟩, fun q hq hqc => ?_⟩
    · have := (hf p hp).1
      omega
    · rw [vs4] at hq
      rw [k4] at hqc
      exact absurd (r4 q hq) hqc

/-! ## The removal of isolated vertices, for arrays of at most 63 entries -/

theorem take_set_ge {α : Type} (l : List α) (m n : Nat) (a : α) (h : m ≤ n) :
    (l.set n a).take m = l.take m := by
  apply List.ext_getElem?
  intro j
  by_cases hj : j < m
  · rw [List.getElem?_take_of_lt hj, List.getElem?_take_of_lt hj,
      List.getElem?_set_ne (by omega)]
  · rw [List.getElem?_take_eq_none (by omega), List.getElem?_take_eq_none (by omega)]

theorem take_succ_of_getD (L : List (Option Nat)) (c p : Nat) (hg : L.getD c none = some p) :
    L.take (c + 1) = L.take c ++ [some p] := by
  have hc : c < L.length := by
    by_contra hge
    rw [List.getD_eq_getElem?_getD, List.getElem?_eq_none (by omega)] at hg
    cases hg
  rw [List.take_succ]
  rw [List.getD_eq_getElem?_getD, List.getElem?_eq_getElem hc] at hg
  rw [List.getElem?_eq_getElem hc]
  simp only [Option.getD_some] at hg
  rw [hg]
  rfl

theorem filterMap_id_map_some (l : List Nat) : (l.map some).filterMap id = l := by
  induction l with
  | nil => rfl
  | cons a l ih => simp [List.filterMap_cons, ih]

theorem getD_set_ne (L : List (Option Nat)) (i j : Nat) (a : Option Nat) (h : j ≠ i) :
    (L.set i a).getD j none = L.getD j none := by
  rw [List.getD_eq_getElem?_getD, List.getD_eq_getElem?_getD, List.getElem?_set_ne (Ne.symm h)]

theorem getD_set_self (L : List (Option Nat)) (i : Nat) (a : Option Nat) (h : i < L.length) :
    (L.set i a).getD i none = a := by
  rw [List.getD_eq_getElem?_getD, List.getElem?_set_self h]
  rfl

theorem take_succ_filter_neg (V : List Nat) (i : Nat) (hi : i < V.length) (t : Nat → Bool)
    (ht : t (V.getD i 0) = false) : (V.take (i + 1)).filter t = (V.take i).filter t := by
  rw [List.getD_eq_getElem _ _ hi] at ht
  rw [List.take_succ, List.filter_append, List.getElem?_eq_getElem hi]
  simp [ht]

theorem take_succ_filter_pos (V : List Nat) (i : Nat) (hi : i < V.length) (t : Nat → Bool)
    (ht : t (V.getD i 0) = true) :
    (V.take (i + 1)).filter t = (V.take i).filter t ++ [V.getD i 0] := by
  rw [List.getD_eq_getElem _ _ hi] at ht ⊢
  rw [List.take_succ, List.filter_append, List.getElem?_eq_getElem hi]
  simp [ht]

/-- The function `removeIsolatedNeighbor` for a vertex number that is not 63 modulo 64: it has a
result, and it changes nothing but the bitsets `neighbors`. -/
theorem removeIsolatedNeighbor_fields ( B v : Nat) (hv : v % 64 ≠ 63) (l : List (Option Nat)) :
    ∀ heap : List Vertex, ∃ h1, removeIsolatedNeighbor B v l heap = some h1 ∧
      h1.length = heap.length ∧
      ∀ q, (deref h1 q).degree = (deref heap q).degree ∧
        (deref h1 q).adjacentVertices = (deref heap q).adjacentVertices ∧
        (deref h1 q).color = (deref heap q).color ∧
        (deref h1 q).availableColors = (deref heap q).availableColors := by
  induction l with
  | nil => intro heap; exact ⟨heap, rfl, rfl, fun _ => ⟨rfl, rfl, rfl, rfl⟩⟩
  | cons a l ih =>
    intro heap
    cases a with
    | none =>
      unfold removeIsolatedNeighbor
      exact ih heap
    | some p =>
      obtain ⟨ws, e⟩ := removeIsolatedWords_some B v hv
        (List.range' (v / 64) (B - v / 64)) (deref heap p).neighbors
      unfold removeIsolatedNeighbor
      rw [e]
      obtain ⟨h1, e1, hl, hd⟩ := ih (heap.set p { deref heap p with neighbors := ws })
      refine ⟨h1, e1, by rw [hl, List.length_set], fun q => ?_⟩
      rw [(hd q).1, (hd q).2.1, (hd q).2.2.1, (hd q).2.2.2, deref_set]
      split
      · next h => rw [h.1]; exact ⟨rfl, rfl, rfl, rfl⟩
      · exact ⟨rfl, rfl, rfl, rfl⟩

/-- The loop of `removeIsolatedVertices` on an array of at most 63 entries: the first `counter`
entries of the result are the vertices of non-zero degree in their order, and the records keep
their degree, adjacency list, color and domain. -/
theorem removeIsolatedLoop_spec ( B : Nat) (V : List Nat) (h0 : List Vertex)
    (hN : V.length ≤ 63) :
    ∀ (n i c : Nat) (heap : List Vertex) (L : List (Option Nat)),
      i + n = V.length → c ≤ i → L.length = V.length →
      L.take c = ((V.take i).filter (fun p => decide ((deref h0 p).degree ≠ 0))).map some →
      (∀ j, i ≤ j → j < V.length → L.getD j none = some (V.getD j 0)) →
      heap.length = h0.length →
      (∀ q, (deref heap q).degree = (deref h0 q).degree ∧
        (deref heap q).adjacentVertices = (deref h0 q).adjacentVertices ∧
        (deref heap q).color = (deref h0 q).color ∧
        (deref heap q).availableColors = (deref h0 q).availableColors) →
      ∃ r, removeIsolatedLoop B n i c heap L = some r ∧
        (r.2.1.take r.2.2).filterMap id =
          V.filter (fun p => decide ((deref h0 p).degree ≠ 0)) ∧
        r.1.length = h0.length ∧
        ∀ q, (deref r.1 q).degree = (deref h0 q).degree ∧
          (deref r.1 q).adjacentVertices = (deref h0 q).adjacentVertices ∧
          (deref r.1 q).color = (deref h0 q).color ∧
          (deref r.1 q).availableColors = (deref h0 q).availableColors := by
  intro n
  induction n with
  | zero =>
    intro i c heap L hin _ _ htake _ hl hf
    refine ⟨(heap, L, c), rfl, ?_, hl, hf⟩
    show (L.take c).filterMap id = _
    have hi : i = V.length := by omega
    rw [htake, filterMap_id_map_some, hi, List.take_length]
  | succ n ih =>
    intro i c heap L hin hci hlen htake hrest hl hf
    have hi : i < V.length := by omega
    have hgi := hrest i (le_refl _) hi
    unfold removeIsolatedLoop
    rw [hgi]
    simp only []
    by_cases hd : (deref heap (V.getD i 0)).degree = 0
    · rw [if_pos hd]
      obtain ⟨h1, e1, hl1, hf1⟩ := removeIsolatedNeighbor_fields B c (by omega) L heap
      rw [e1]
      simp only []
      have hd0 : (deref h0 (V.getD i 0)).degree = 0 := by rw [← (hf _).1]; exact hd
      apply ih (i + 1) c h1 (L.set i none) (by omega) (by omega)
        (by rw [List.length_set]; exact hlen)
      · rw [take_set_ge L c i none hci, htake, take_succ_filter_neg V i hi _
          (decide_eq_false (fun h => h hd0))]
      · intro j hj1 hj2
        rw [getD_set_ne L i j none (by omega)]
        exact hrest j (by omega) hj2
      · rw [hl1]
        exact hl
      · intro q
        rw [(hf1 q).1, (hf1 q).2.1, (hf1 q).2.2.1, (hf1 q).2.2.2]
        exact hf q
    · rw [if_neg hd]
      have hd0 : (deref h0 (V.getD i 0)).degree ≠ 0 := by rw [← (hf _).1]; exact hd
      have hL1 : ∀ j, (if i > c then (L.set c (some (V.getD i 0))).set i none else L).getD j
          none = if j = c then some (V.getD i 0)
            else if j = i then none else L.getD j none := by
        intro j
        by_cases hic : i > c
        · rw [if_pos hic]
          by_cases hjc : j = c
          · rw [if_pos hjc, hjc, getD_set_ne _ i c none (by omega),
              getD_set_self L c _ (by omega)]
          · rw [if_neg hjc]
            by_cases hji : j = i
            · rw [if_pos hji, hji, getD_set_self _ i none (by rw [List.length_set]; omega)]
            · rw [if_neg hji, getD_set_ne _ i j none hji, getD_set_ne L c j _ hjc]
        · rw [if_neg hic]
          have hic1 : i = c := by omega
          by_cases hjc : j = c
          · rw [if_pos hjc, hjc, ← hic1]
            exact hgi
          · rw [if_neg hjc, if_neg (by omega)]
      have hq : ((if i > c then (L.set c (some (V.getD i 0))).set i none else L).getD c
          none).getD (V.getD i 0) = V.getD i 0 := by
        rw [hL1 c, if_pos rfl]
        rfl
      rw [hq]
      have hlen1 : (if i > c then (L.set c (some (V.getD i 0))).set i none else L).length =
          V.length := by
        split
        · rw [List.length_set, List.length_set]
          exact hlen
        · exact hlen
      apply ih (i + 1) (c + 1) _ _ (by omega) (by omega) hlen1
      · rw [take_succ_of_getD _ c (V.getD i 0) (by rw [hL1 c, if_pos rfl])]
        have ht : (if i > c then (L.set c (some (V.getD i 0))).set i none else L).take c =
            L.take c := by
          split
          · rw [take_set_ge _ c i none hci, take_set_ge L c c _ (le_refl _)]
          · rfl
        rw [ht, htake, take_succ_filter_pos V i hi _ (decide_eq_true hd0), List.map_append]
        rfl
      · intro j hj1 hj2
        rw [hL1 j, if_neg (by omega), if_neg (by omega)]
        exact hrest j (by omega) hj2
      · rw [List.length_set]
        exact hl
      · intro q
        rw [deref_set]
        split
        · next h => rw [h.1]; exact hf _
        · exact hf q

/-- On an array of at most 63 entries `removeIsolatedVertices` has a result: the array holds the
vertices of non-zero degree, in their order, and the records keep their degree, adjacency list,
color and domain. -/
theorem removeIsolatedVertices_spec (s : State) (hN : s.vertices.length ≤ 63) :
    ∃ h, removeIsolatedVertices s =
        some { s with heap := h, vertices := s.vertices.filter (fun p =>
          decide ((deref s.heap p).degree ≠ 0)) } ∧
      h.length = s.heap.length ∧
      ∀ q, (deref h q).degree = (deref s.heap q).degree ∧
        (deref h q).adjacentVertices = (deref s.heap q).adjacentVertices ∧
        (deref h q).color = (deref s.heap q).color ∧
        (deref h q).availableColors = (deref s.heap q).availableColors := by
  obtain ⟨r, e, h1, h2, h3⟩ := removeIsolatedLoop_spec ((s.vertices.length + 63) / 64)
    s.vertices s.heap hN s.vertices.length 0 0 s.heap (s.vertices.map some) (by omega)
    (le_refl _) (by rw [List.length_map]) (by simp)
    (by
      intro j _ hj
      rw [List.getD_eq_getElem?_getD, List.getD_eq_getElem?_getD, List.getElem?_map,
        List.getElem?_eq_getElem hj]
      rfl)
    rfl (fun _ => ⟨rfl, rfl, rfl, rfl⟩)
  refine ⟨r.1, ?_, h2, h3⟩
  unfold removeIsolatedVertices
  rw [e]
  simp only []
  rw [h1]

/-! ## The subset program and the exhaustive main program -/

theorem isChromaticNumber_unique {s : State} {a b : Nat} (ha : IsChromaticNumber s a)
    (hb : IsChromaticNumber s b) : a = b := by
  rcases Nat.lt_trichotomy a b with h | h | h
  · exact absurd ha.1 (hb.2 a h)
  · exact h
  · exact absurd hb.1 (ha.2 b h)

/-- A graph in which every degree is the length of the adjacency list and no vertex has a
neighbor is a graph without edges. -/
theorem edgeless_of_not_hasEdge (s : State) (hd : DegreesMatch s) (h : ¬ HasEdge s) :
    Edgeless s := by
  intro p hp
  have ha : (deref s.heap p).adjacentVertices = [] := by
    by_contra hc
    exact h ⟨p, hp, hc⟩
  refine ⟨?_, ha⟩
  rw [hd p hp, ha]
  rfl

/-- The removal of the isolated vertices keeps the chromatic number of a graph with an edge. -/
theorem isChromaticNumber_removed (s t : State) (n : Nat) (hw : WellFormed s)
    (hd : DegreesMatch s)
    (hv : t.vertices = s.vertices.filter (fun p => decide ((deref s.heap p).degree ≠ 0)))
    (hadj : ∀ q, (deref t.heap q).adjacentVertices = (deref s.heap q).adjacentVertices)
    (hne : t.vertices ≠ []) (h : IsChromaticNumber t n) : IsChromaticNumber s n := by
  have hmem : ∀ p, p ∈ t.vertices ↔ p ∈ s.vertices ∧ (deref s.heap p).degree ≠ 0 := by
    intro p
    rw [hv, List.mem_filter, decide_eq_true_iff]
  have hpos : 0 < n := by
    rcases Nat.eq_zero_or_pos n with h0 | h0
    · obtain ⟨f, hf⟩ := h.1
      cases ht : t.vertices with
      | nil => exact absurd ht hne
      | cons a l =>
        have := (hf a (by rw [ht]; exact List.mem_cons_self _ _)).1
        omega
    · exact h0
  have hback : ∀ k, Colorable s k → Colorable t k := fun k hk =>
    colorable_perm hk (fun p hp => ((hmem p).1 hp).1) hadj
  refine ⟨?_, fun k hk hc => h.2 k hk (hback k hc)⟩
  obtain ⟨f, hf⟩ := h.1
  refine ⟨fun p => if (deref s.heap p).degree = 0 then 0 else f p, fun p hp => ?_⟩
  by_cases h0 : (deref s.heap p).degree = 0
  · have ha : (deref s.heap p).adjacentVertices = [] := by
      have := hd p hp
      rw [h0] at this
      exact List.length_eq_zero.1 (by omega)
    simp only [if_pos h0]
    refine ⟨hpos, fun q hq => ?_⟩
    rw [ha] at hq
    cases hq
  · have hpt : p ∈ t.vertices := (hmem p).2 ⟨hp, h0⟩
    simp only [if_neg h0]
    refine ⟨(hf p hpt).1, fun q hq => ?_⟩
    obtain ⟨hqs, _, hpq⟩ := hw.2.2 p hp q hq
    have hq0 : (deref s.heap q).degree ≠ 0 := by
      rw [hd q hqs]
      intro hz
      have : (deref s.heap q).adjacentVertices = [] := List.length_eq_zero.1 (by omega)
      rw [this] at hpq
      cases hpq
    rw [if_neg hq0]
    exact (hf p hpt).2 q (by rw [hadj]; exact hq)

/-- On a simple uncolored graph with an edge and at most 20 vertices, the exhaustive main program
with a fixed order, without the connected-sequential filter and seeded by the RLF or the WP bound
returns what `dynamic` returns on the graph as read. -/
theorem mainExhaustive_eq_dynamic (s : State) (junk : Int) (fuel : Nat) (hw : WellFormed s)
    (hu : Uncolored s)
    (hwords : ∀ q, q < s.heap.length → (deref s.heap q).availableColors < 2 ^ 64)
    (hd : DegreesMatch s) (hV : s.vertices.length ≤ 20) (hs : s.SEARCH = search.EXHAUSTIVE)
    (hf : s.heap.length < fuel) (hfv : s.vertices.length < fuel) (he : HasEdge s)
    (hcs : s.CS = false) (ho : StaticOrder s)
    (hb : s.BOUNDS = bounds.RLF ∨ s.BOUNDS = bounds.WP) :
    (mainExhaustive fuel s).map Prod.fst = some (dynamic s junk) := by
  obtain ⟨h, e, hl, hfld⟩ := removeIsolatedVertices_spec s (by omega)
  obtain ⟨hdyn0, hdyn⟩ := dynamic_isChromatic s junk hw hV
  obtain ⟨W, hW⟩ : ∃ W, W = s.vertices.filter (fun p => decide ((deref s.heap p).degree ≠ 0)) :=
    ⟨_, rfl⟩
  rw [← hW] at e
  have hmem : ∀ p, p ∈ W ↔ p ∈ s.vertices ∧ (deref s.heap p).degree ≠ 0 := by
    intro p
    rw [hW, List.mem_filter, decide_eq_true_iff]
  have hdeg : ∀ q ∈ s.vertices, (deref s.heap q).adjacentVertices ≠ [] →
      (deref s.heap q).degree ≠ 0 := by
    intro q hq hne
    rw [hd q hq]
    intro hz
    exact hne (List.length_eq_zero.1 (by omega))
  have hlen : W.length ≤ s.vertices.length := by
    rw [hW]
    exact List.length_filter_le _ _
  have hne : W ≠ [] := by
    obtain ⟨p, hp, hpa⟩ := he
    exact List.ne_nil_of_mem ((hmem p).2 ⟨hp, hdeg p hp hpa⟩)
  have hwt : WellFormed { s with heap := h, vertices := W } := by
    refine ⟨by rw [hW]; exact hw.1.filter _, fun p hp => ?_, fun p hp q hq => ?_⟩
    · show p < h.length
      rw [hl]
      exact hw.2.1 p ((hmem p).1 hp).1
    · have hq1 : q ∈ (deref s.heap p).adjacentVertices := by
        rw [← (hfld p).2.1]
        exact hq
      obtain ⟨a, b, c⟩ := hw.2.2 p ((hmem p).1 hp).1 q hq1
      refine ⟨(hmem q).2 ⟨a, hdeg q a (List.ne_nil_of_mem c)⟩, b, ?_⟩
      show p ∈ (deref h q).adjacentVertices
      rw [(hfld q).2.1]
      exact c
  obtain ⟨n, en, hn⟩ := coloring_exh { s with heap := h, vertices := W } fuel hwt hne
    (fun p hp => by
      show (deref h p).color = -1
      rw [(hfld p).2.2.1]
      exact hu p ((hmem p).1 hp).1)
    (fun q => by
      show (deref h q).availableColors < 2 ^ 64
      rw [(hfld q).2.2.2]
      by_cases hq : q < s.heap.length
      · exact hwords q hq
      · rw [deref_out _ _ (by omega)]
        exact Nat.pos_pow_of_pos 64 (by decide))
    (le_trans hlen (by omega)) hs hcs ho hb (by show h.length < fuel; rw [hl]; exact hf)
    (lt_of_le_of_lt hlen hfv)
  have hns := isChromaticNumber_removed s _ n hw hd hW (fun q => (hfld q).2.1) hne hn
  have hnd : n = (dynamic s junk).toNat := isChromaticNumber_unique hns hdyn
  unfold mainExhaustive
  rw [e]
  simp only []
  rw [en, hnd, Int.toNat_of_nonneg hdyn0]

/-- Claim C5, amended. Let G be a simple uncolored graph as read, with at least 1 and at most
20 vertices, whose domains are 64-bit words and whose field `degree` is the length of the
adjacency list, and let the fuel exceed the number of records. Then `dynamic` on the graph as
read returns the chromatic number of G. If G has an edge, the exhaustive main program
(`removeIsolatedVertices`, then `coloring`) returns with the same value, whenever CS is off, the
order is fixed (SORTING_RATE = 0, or SORTING is VERTEX or DEGREE) and BOUNDS is RLF or WP. If G
has no edge, `dynamic` returns 1 and the exhaustive main program returns 0, and `MAX_DEGREE + 1`
when BOUNDS is BROOKS; unless BOUNDS is BROOKS, that run on the empty array evaluates the shift
`1 << -1`, which C leaves undefined, for a value that it stores nowhere. -/
theorem dynamic_eq_exhaustive (s : State) (junk : Int) (fuel : Nat) (hw : WellFormed s)
    (hu : Uncolored s)
    (hwords : ∀ q, q < s.heap.length → (deref s.heap q).availableColors < 2 ^ 64)
    (hd : DegreesMatch s) (hn : s.vertices ≠ []) (hV : s.vertices.length ≤ 20)
    (hs : s.SEARCH = search.EXHAUSTIVE) (hf : s.heap.length < fuel)
    (hfv : s.vertices.length < fuel) :
    0 ≤ dynamic s junk ∧ IsChromaticNumber s (dynamic s junk).toNat ∧
    (HasEdge s → s.CS = false → StaticOrder s →
      (s.BOUNDS = bounds.RLF ∨ s.BOUNDS = bounds.WP) →
      (mainExhaustive fuel s).map Prod.fst = some (dynamic s junk)) ∧
    (¬ HasEdge s → dynamic s junk = 1 ∧
      (mainExhaustive fuel s).map Prod.fst =
        some (if s.BOUNDS = bounds.BROOKS then s.MAX_DEGREE + 1 else 0)) := by
  refine ⟨(dynamic_isChromatic s junk hw hV).1, (dynamic_isChromatic s junk hw hV).2,
    fun he hcs ho hb => mainExhaustive_eq_dynamic s junk fuel hw hu hwords hd hV hs hf hfv he hcs
      ho hb, fun he => ?_⟩
  have hel := edgeless_of_not_hasEdge s hd he
  refine ⟨(dynamic_edgeless s junk hw hn hV hel).1, ?_⟩
  obtain ⟨k, hk⟩ : ∃ k, fuel = k + 1 := ⟨fuel - 1, by omega⟩
  rw [hk]
  exact mainExhaustive_edgeless s k hel hs

theorem dynamic_eq_exhaustive_witness :
    WellFormed pathWithIsolated ∧ Uncolored pathWithIsolated ∧
    (∀ q, q < pathWithIsolated.heap.length →
      (deref pathWithIsolated.heap q).availableColors < 2 ^ 64) ∧
    DegreesMatch pathWithIsolated ∧ pathWithIsolated.vertices ≠ [] ∧
    pathWithIsolated.vertices.length ≤ 20 ∧ pathWithIsolated.SEARCH = search.EXHAUSTIVE ∧
    pathWithIsolated.heap.length < 6 ∧ pathWithIsolated.vertices.length < 6 ∧
    HasEdge pathWithIsolated ∧ pathWithIsolated.CS = false ∧ StaticOrder pathWithIsolated ∧
    (pathWithIsolated.BOUNDS = bounds.RLF ∨ pathWithIsolated.BOUNDS = bounds.WP) ∧
    dynamic pathWithIsolated 7 = 2 ∧
    (mainExhaustive 6 pathWithIsolated).map Prod.fst = some (dynamic pathWithIsolated 7) ∧
    WellFormed singleVertex ∧ Uncolored singleVertex ∧ DegreesMatch singleVertex ∧
    singleVertex.vertices ≠ [] ∧ singleVertex.SEARCH = search.EXHAUSTIVE ∧
    ¬ HasEdge singleVertex ∧ dynamic singleVertex 7 = 1 ∧
    (mainExhaustive 3 singleVertex).map Prod.fst =
      some (if singleVertex.BOUNDS = bounds.BROOKS then singleVertex.MAX_DEGREE + 1 else 0) :=
  ⟨by unfold WellFormed; decide, by unfold Uncolored; decide, by decide,
    by unfold DegreesMatch; decide, by decide, by decide, by decide, by decide, by decide,
    by unfold HasEdge; decide, by decide, by unfold StaticOrder; decide, by decide, by decide!,
    (dynamic_eq_exhaustive pathWithIsolated 7 6 (by unfold WellFormed; decide)
      (by unfold Uncolored; decide) (by decide) (by unfold DegreesMatch; decide) (by decide)
      (by decide) (by decide) (by decide) (by decide)).2.2.1 (by unfold HasEdge; decide)
      (by decide) (by unfold StaticOrder; decide) (by decide),
    by unfold WellFormed; decide, by unfold Uncolored; decide, by unfold DegreesMatch; decide,
    by decide, by decide, by unfold HasEdge; decide,
    (dynamic_eq_exhaustive singleVertex 7 3 (by unfold WellFormed; decide)
      (by unfold Uncolored; decide) (by decide) (by unfold DegreesMatch; decide) (by decide)
      (by decide) (by decide) (by decide) (by decide)).2.2.2 (by unfold HasEdge; decide)⟩

theorem dynamic_eq_of_chromatic (s : State) (junk : Int) (n : Nat) (hw : WellFormed s)
    (hV : s.vertices.length ≤ 20) (h : IsChromaticNumber s n) : dynamic s junk = (n : Int) := by
  obtain ⟨h0, hd⟩ := dynamic_isChromatic s junk hw hV
  have := isChromaticNumber_unique hd h
  omega

theorem not_colorable_of_triangle (s : State) (a b c : Nat) (ha : a ∈ s.vertices)
    (hb : b ∈ s.vertices) (hc : c ∈ s.vertices)
    (hab : b ∈ (deref s.heap a).adjacentVertices)
    (hac : c ∈ (deref s.heap a).adjacentVertices)
    (hbc : c ∈ (deref s.heap b).adjacentVertices) (k : Nat) (hk : k < 3) : ¬ Colorable s k := by
  rintro ⟨f, hf⟩
  have a1 := (hf a ha).1
  have a2 := (hf a ha).2 b hab
  have a3 := (hf a ha).2 c hac
  have b1 := (hf b hb).1
  have b2 := (hf b hb).2 c hbc
  have c1 := (hf c hc).1
  omega

theorem not_colorable_of_clique5 (s : State) (a b c d e : Nat) (ha : a ∈ s.vertices)
    (hb : b ∈ s.vertices) (hc : c ∈ s.vertices) (hd : d ∈ s.vertices) (he : e ∈ s.vertices)
    (hab : b ∈ (deref s.heap a).adjacentVertices) (hac : c ∈ (deref s.heap a).adjacentVertices)
    (had : d ∈ (deref s.heap a).adjacentVertices) (hae : e ∈ (deref s.heap a).adjacentVertices)
    (hbc : c ∈ (deref s.heap b).adjacentVertices) (hbd : d ∈ (deref s.heap b).adjacentVertices)
    (hbe : e ∈ (deref s.heap b).adjacentVertices) (hcd : d ∈ (deref s.heap c).adjacentVertices)
    (hce : e ∈ (deref s.heap c).adjacentVertices) (hde : e ∈ (deref s.heap d).adjacentVertices)
    (k : Nat) (hk : k < 5) : ¬ Colorable s k := by
  rintro ⟨f, hf⟩
  have a1 := (hf a ha).1
  have a2 := (hf a ha).2 b hab
  have a3 := (hf a ha).2 c hac
  have a4 := (hf a ha).2 d had
  have a5 := (hf a ha).2 e hae
  have b1 := (hf b hb).1
  have b2 := (hf b hb).2 c hbc
  have b3 := (hf b hb).2 d hbd
  have b4 := (hf b hb).2 e hbe
  have c1 := (hf c hc).1
  have c2 := (hf c hc).2 d hcd
  have c3 := (hf c hc).2 e hce
  have d1 := (hf d hd).1
  have d2 := (hf d hd).2 e hde
  have e1 := (hf e he).1
  omega

theorem twelveVertices_chromatic : IsChromaticNumber twelveVertices 5 :=
  ⟨⟨twelveColors, by unfold ProperColoring; decide⟩,
    not_colorable_of_clique5 twelveVertices 0 1 2 5 9 (by decide) (by decide) (by decide)
      (by decide) (by decide) (by decide) (by decide) (by decide) (by decide) (by decide) (by decide)
      (by decide) (by decide) (by decide) (by decide)⟩

theorem elevenVertices_chromatic : IsChromaticNumber elevenVertices 3 :=
  ⟨⟨elevenColors, by unfold ProperColoring; decide⟩,
    not_colorable_of_triangle elevenVertices 3 5 9 (by decide) (by decide) (by decide)
      (by decide) (by decide) (by decide)⟩

set_option maxRecDepth 100000 in
/-- Claim C5, counterexample. By design: on the graph with one vertex and no edge, in the
configuration that the decision tree of the main program selects, `dynamic` on the graph as read
returns 1 and the exhaustive main program (`removeIsolatedVertices`, then `coloring`) returns 0;
on the empty array that run evaluates the initial domain with the shift `1 << -1`, which C leaves
undefined, and stores it nowhere. By the stale index after a re-sort: on `twelveVertices`, a
graph without isolated vertices in the configuration that the decision tree selects (RLF,
RECOLOR re-sorted at every third call, CS on), `dynamic` returns the chromatic number 5 and the
exhaustive main program returns 6; on `elevenVertices`, with CS off, no bound and a re-sort at
every call, `dynamic` returns the chromatic number 3 and the exhaustive main program 4. -/
theorem dynamic_exhaustive_differ :
    (WellFormed singleVertexAsMain ∧ singleVertexAsMain.vertices.length ≤ 20 ∧
      singleVertexAsMain.SEARCH = search.EXHAUSTIVE ∧
      (∀ junk, dynamic singleVertexAsMain junk = 1) ∧
      (mainExhaustive 3 singleVertexAsMain).map Prod.fst = some 0) ∧
    (WellFormed twelveVertices ∧ twelveVertices.vertices.length ≤ 20 ∧
      twelveVertices.SEARCH = search.EXHAUSTIVE ∧
      (∀ p ∈ twelveVertices.vertices, (deref twelveVertices.heap p).degree ≠ 0) ∧
      IsChromaticNumber twelveVertices 5 ∧ (∀ junk, dynamic twelveVertices junk = 5) ∧
      (mainExhaustive 14 twelveVertices).map Prod.fst = some 6) ∧
    (WellFormed elevenVertices ∧ elevenVertices.vertices.length ≤ 20 ∧
      elevenVertices.SEARCH = search.EXHAUSTIVE ∧ elevenVertices.CS = false ∧
      (∀ p ∈ elevenVertices.vertices, (deref elevenVertices.heap p).degree ≠ 0) ∧
      IsChromaticNumber elevenVertices 3 ∧ (∀ junk, dynamic elevenVertices junk = 3) ∧
      (mainExhaustive 14 elevenVertices).map Prod.fst = some 4) := by
  have hw1 : WellFormed singleVertexAsMain := by unfold WellFormed; decide
  have he1 : Edgeless singleVertexAsMain := by unfold Edgeless; decide
  have hw2 : WellFormed twelveVertices := by unfold WellFormed; decide
  have hw3 : WellFormed elevenVertices := by unfold WellFormed; decide
  refine ⟨⟨hw1, by decide, by decide,
    fun junk => (dynamic_edgeless singleVertexAsMain junk hw1 (by decide) (by decide) he1).1,
    mainExhaustive_edgeless singleVertexAsMain 2 he1 (by decide)⟩,
    ⟨hw2, by decide, by decide, by decide, twelveVertices_chromatic,
      fun junk => dynamic_eq_of_chromatic twelveVertices junk 5 hw2 (by decide)
        twelveVertices_chromatic, by decide!⟩,
    ⟨hw3, by decide, by decide, by decide, by decide, elevenVertices_chromatic,
      fun junk => dynamic_eq_of_chromatic elevenVertices junk 3 hw3 (by decide)
        elevenVertices_chromatic, by decide!⟩⟩
end GraphColoring
